import Mathlib

/-!
# Strided views: the view builder `fill_args` and element access

A shallow embedding of `detail::strided_view_args::fill_args` and of the element access of
`xstrided_view_base` (`xstrided_view_base.hpp`), and of `xview` (`xview.hpp`): its index
translation, the static classification of its slices (`is_strided_view`,
`is_contiguous_view`), its constructors, and its strides, backstrides and data offset.

Conventions of the embedding.

* Sequences (`shape`, `strides`, slice lists, multi-indices) are `List`s.
* `std::size_t` values that hold the size of a container or a position in one (`dimension`,
  `idx`, `i`, `i_ax`, `n_newaxis`, `n_add_all`) are natural numbers: a container has far fewer
  than `2 ^ 64` entries.  The running `dimension` and `dimension_check` are integers, since the
  source decrements them before it checks anything.
* `std::ptrdiff_t` values (strides, slice values) are integers; a product of two of them is the
  exact product (signed overflow is undefined in the source).
* `new_offset` is a `std::size_t` that the source updates with
  `new_offset += static_cast<std::size_t>(...)`, where the addend is negative for a negative
  stride: both the cast and the addition are taken modulo `2 ^ 64`.
* An access `v[i]` with `i` past the end of `v` is undefined in the source; the embedding
  reports it as the error `out_of_bounds` in `fill_args`, and as the absence of a value
  (`none`) in the methods of `xview`.
* The underlying expression of an `xview` is a record of the values that the view reads from
  it; the template parameters that the traits inspect are fields of that record.
-/

namespace xt

/-! ## Machine integers -/

/-- The cast `static_cast<std::size_t>(z)` of a signed value. -/
def to_size_t (z : Int) : Nat := (z % (2 ^ 64 : Int)).toNat

/-- The cast `static_cast<std::ptrdiff_t>(n)` of a `std::size_t` value. -/
def to_ptrdiff_t (n : Nat) : Int := if n < 2 ^ 63 then (n : Int) else (n : Int) - 2 ^ 64

/-- The addition `a += b` of two `std::size_t` values. -/
def size_t_add (a b : Nat) : Nat := (a + b) % 2 ^ 64

/-! ## Slices of a strided view -/

/-- The tags of `layout_type` that the view builder distinguishes. -/
inductive layout_type
  | row_major
  | column_major
  | dynamic
  deriving DecidableEq, Repr

/-- Modelled from the spec: `xrange_adaptor` is declared in `xslice.hpp`. The adaptor is
represented by its method `get(size)`, which resolves the range against the size of a base axis;
the triple is the one `slice_getter_impl` builds from the resolved slice `sl`:
`{ sl(0), sl.size(), sl.step_size() }`, that is (start, count, step). -/
structure xrange_adaptor where
  get : Nat → Int × Int × Int

/-- The alternatives of the slice variant that `fill_args` tells apart: with `get_if`, an integer
(`std::ptrdiff_t`), `xnewaxis_tag`, `xellipsis_tag` and `xall_tag`; every other alternative goes
to `slice_getter_impl`, which resolves a range adaptor with `get` and answers `{0, 0, 0}` for
anything else, as the adaptor does whose `get` is constantly `(0, 0, 0)`. -/
inductive xstrided_slice
  | integer (v : Int)
  | range (r : xrange_adaptor)
  | all
  | ellipsis
  | newaxis

/-- The ways `fill_args` can fail: its two `std::runtime_error`s, and an access past the end of a
sequence. -/
inductive fill_args_error
  /-- The error "Ellipsis can only appear once." -/
  | ellipsis_can_only_appear_once
  /-- The error "Too many slices for view." -/
  | too_many_slices_for_view
  /-- An access `v[i]` with `i >= v.size()`. -/
  | out_of_bounds
  deriving DecidableEq, Repr

/-- The read `v[i]`. -/
def read_at {α : Type} (v : List α) (i : Nat) : Except fill_args_error α :=
  match v.get? i with
  | some x => .ok x
  | none => .error .out_of_bounds

/-- The write `v[i] = x`. -/
def write_at {α : Type} (v : List α) (i : Nat) (x : α) : Except fill_args_error (List α) :=
  if i < v.length then .ok (v.set i x) else .error .out_of_bounds

/-- The locals of the first loop of `fill_args` ("Compute dimension"). -/
structure dimension_count where
  dimension : Int
  n_newaxis : Nat
  dimension_check : Int
  has_ellipsis : Bool
  deriving DecidableEq, Repr

/-- The body of the first loop of `fill_args`, for the slice `el`. -/
def count_slice (c : dimension_count) (el : xstrided_slice) :
    Except fill_args_error dimension_count :=
  match el with
  | .newaxis => .ok { c with dimension := c.dimension + 1, n_newaxis := c.n_newaxis + 1 }
  | .integer _ =>
      .ok { c with dimension := c.dimension - 1, dimension_check := c.dimension_check - 1 }
  | .ellipsis =>
      if c.has_ellipsis = true then .error .ellipsis_can_only_appear_once
      else .ok { c with has_ellipsis := true }
  | .range _ => .ok { c with dimension_check := c.dimension_check - 1 }
  | .all => .ok { c with dimension_check := c.dimension_check - 1 }

/-- The first loop of `fill_args`: `for (const auto& el : slices)`. -/
def count_slices (c : dimension_count) : List xstrided_slice → Except fill_args_error dimension_count
  | [] => .ok c
  | el :: rest =>
      match count_slice c el with
      | .ok c1 => count_slices c1 rest
      | .error e => .error e

/-- The members and locals that the second loop of `fill_args` ("Compute strided view")
updates. The field `assigned` is a history variable, not a variable of the source: it lists, in
order, the positions `idx` of the assignments `new_shape[idx] = ...` made so far. -/
structure walk_state where
  new_offset : Nat
  new_shape : List Nat
  new_strides : List Int
  axis_skip : Int
  idx : Nat
  assigned : List Nat
  deriving DecidableEq, Repr

/-- The loop `new_shape[idx] = old_shape[i_ax]; new_strides[idx] = old_strides[i_ax]; ++idx,
++i_ax`, run `n` times from the base axis `i_ax`. It is the inner loop of the ellipsis branch
(`n = n_add_all`) and the loop over the trailing base axes. -/
def copy_axes (old_shape : List Nat) (old_strides : List Int) :
    Nat → Nat → walk_state → Except fill_args_error walk_state
  | 0, _, st => .ok st
  | n + 1, i_ax, st => do
      let sh ← read_at old_shape i_ax
      let new_shape ← write_at st.new_shape st.idx sh
      let sd ← read_at old_strides i_ax
      let new_strides ← write_at st.new_strides st.idx sd
      copy_axes old_shape old_strides n (i_ax + 1)
        { st with new_shape := new_shape, new_strides := new_strides, idx := st.idx + 1,
                  assigned := st.assigned ++ [st.idx] }

/-- The body of the second loop of `fill_args`, for the slice `slices[i]`. The branch of the
strides policy (`base_type::fill_args`) takes none of the five alternatives here: it serves the
index-subset slices of dynamic views. -/
def walk_slice (old_shape : List Nat) (old_strides : List Int) (n_add_all : Nat) (i : Nat)
    (sl : xstrided_slice) (st : walk_state) : Except fill_args_error walk_state :=
  let i_ax : Nat := ((i : Int) - st.axis_skip).toNat
  match sl with
  | .integer v => do
      let sd ← read_at old_strides i_ax
      pure { st with new_offset := size_t_add st.new_offset (to_size_t (v * sd)) }
  | .newaxis => do
      let new_shape ← write_at st.new_shape st.idx 1
      pure { st with new_shape := new_shape, axis_skip := st.axis_skip + 1, idx := st.idx + 1,
                     assigned := st.assigned ++ [st.idx] }
  | .ellipsis => do
      let st1 ← copy_axes old_shape old_strides n_add_all i_ax st
      pure { st1 with axis_skip := st1.axis_skip - (n_add_all : Int) + 1 }
  | .all => do
      let sh ← read_at old_shape i_ax
      let new_shape ← write_at st.new_shape st.idx sh
      let sd ← read_at old_strides i_ax
      let new_strides ← write_at st.new_strides st.idx sd
      pure { st with new_shape := new_shape, new_strides := new_strides, idx := st.idx + 1,
                     assigned := st.assigned ++ [st.idx] }
  | .range r => do
      let sh ← read_at old_shape i_ax
      let sd ← read_at old_strides i_ax
      let info := r.get sh
      let new_shape ← write_at st.new_shape st.idx (to_size_t info.2.1)
      let new_strides ← write_at st.new_strides st.idx (info.2.2 * sd)
      pure { st with
        new_offset := size_t_add st.new_offset (to_size_t (info.1 * sd)),
        new_shape := new_shape, new_strides := new_strides, idx := st.idx + 1,
        assigned := st.assigned ++ [st.idx] }

/-- The second loop of `fill_args`: `for (; i < slices.size(); ++i)`, on the slices from
position `i` on. -/
def walk_slices (old_shape : List Nat) (old_strides : List Int) (n_add_all : Nat) :
    Nat → List xstrided_slice → walk_state → Except fill_args_error walk_state
  | _, [], st => .ok st
  | i, sl :: rest, st =>
      match walk_slice old_shape old_strides n_add_all i sl st with
      | .ok st1 => walk_slices old_shape old_strides n_add_all (i + 1) rest st1
      | .error e => .error e

/-- The body of `fill_args` up to the end of its last loop (the loop over the trailing base
axes): the state of its members and locals at that point. The value of `n_add_all` is the one
the source computes, `shape.size() - (slices.size() - 1 - n_newaxis)`, when an ellipsis was
seen, and its initial value `0` otherwise. -/
def fill_args_walk (shape : List Nat) (old_strides : List Int) (base_offset : Nat)
    (slices : List xstrided_slice) : Except fill_args_error walk_state := do
  let c ← count_slices
    { dimension := shape.length, n_newaxis := 0, dimension_check := shape.length,
      has_ellipsis := false } slices
  if c.dimension_check < 0 then
    throw .too_many_slices_for_view
  let n_add_all : Nat :=
    if c.has_ellipsis = true then shape.length - (slices.length - 1 - c.n_newaxis) else 0
  let dimension : Nat := c.dimension.toNat
  let st0 : walk_state :=
    { new_offset := base_offset, new_shape := List.replicate dimension 0,
      new_strides := List.replicate dimension 0, axis_skip := 0, idx := 0, assigned := [] }
  let st1 ← walk_slices shape old_strides n_add_all 0 slices st0
  let i_ax : Nat := ((slices.length : Int) - st1.axis_skip).toNat
  copy_axes shape old_strides (shape.length - i_ax) i_ax st1

/-- The members `new_shape`, `new_strides`, `new_offset` and `new_layout` that `fill_args`
leaves in `strided_view_args`. -/
structure strided_view_args where
  new_shape : List Nat
  new_strides : List Int
  new_offset : Nat
  new_layout : layout_type
  deriving DecidableEq, Repr

/-- The function `detail::strided_view_args::fill_args(shape, old_strides, base_offset, layout,
slices)`. The function `do_strides_match` of `xstrides.hpp` is a parameter. -/
def fill_args (do_strides_match : List Nat → List Int → layout_type → Bool)
    (shape : List Nat) (old_strides : List Int) (base_offset : Nat) (layout : layout_type)
    (slices : List xstrided_slice) : Except fill_args_error strided_view_args := do
  let st ← fill_args_walk shape old_strides base_offset slices
  let new_layout : layout_type :=
    if do_strides_match st.new_shape st.new_strides layout = true then layout else .dynamic
  pure { new_shape := st.new_shape, new_strides := st.new_strides,
         new_offset := st.new_offset, new_layout := new_layout }

/-! ## Element access of `xstrided_view_base` -/

/-- Modelled from the spec: the stride adaptation `adapt_strides(shape, strides, backstrides)` of
`xstrides.hpp`, on the strides: the stride of an axis of size 1 is forced to 0. -/
def adapt_strides : List Nat → List Int → List Int
  | s :: shape, d :: strides => (if s = 1 then 0 else d) :: adapt_strides shape strides
  | _, strides => strides

/-- Modelled from the spec: the backstrides that `adapt_strides` fills in from the shape and the
adapted strides, `backstrides[i] = strides[i] * (shape[i] - 1)`. -/
def adapt_backstrides : List Nat → List Int → List Int
  | s :: shape, d :: strides => d * ((s : Int) - 1) :: adapt_backstrides shape strides
  | _, _ => []

/-- The data members of `xstrided_view_base` that describe the geometry of the view. -/
structure xstrided_view_base where
  m_shape : List Nat
  m_strides : List Int
  m_backstrides : List Int
  m_offset : Nat
  m_layout : layout_type
  deriving DecidableEq, Repr

/-- The constructor `xstrided_view_base(e, shape, strides, offset, layout)`: it stores its
arguments and adapts the strides. -/
def xstrided_view_base.construct (shape : List Nat) (strides : List Int) (offset : Nat)
    (layout : layout_type) : xstrided_view_base :=
  { m_shape := shape,
    m_strides := adapt_strides shape strides,
    m_backstrides := adapt_backstrides shape (adapt_strides shape strides),
    m_offset := offset,
    m_layout := layout }

/-- Modelled from the spec: `xt::data_offset<offset_type>(strides, args...)` of `xstrides.hpp`,
called with as many indices as there are strides: the sum of `args[k] * strides[k]`. -/
def data_offset : List Int → List Int → Int
  | d :: strides, a :: args => a * d + data_offset strides args
  | _, _ => 0

/-- The method `xstrided_view_base::compute_index(args...)`:
`static_cast<offset_type>(m_offset) + xt::data_offset<offset_type>(strides(), args...)`. -/
def xstrided_view_base.compute_index (v : xstrided_view_base) (args : List Int) : Int :=
  to_ptrdiff_t v.m_offset + data_offset v.m_strides args

/-! ## Index translation of `xview` -/

/-- Modelled from the spec: the slice types of `xslice.hpp` that an `xview` holds in `m_slices`,
once `get_slice_implementation` has resolved them against the base: an integer (the axis is
squeezed), `xrange` (start, size), `xstepped_range` (start, size, step), `xall` (size),
`xnewaxis`, `xkeep_slice` (the kept indices) and `xdrop_slice` (the indices that remain after
the drop). -/
inductive xview_slice
  | integral (v : Int)
  | xrange (start size : Int)
  | xstepped_range (start size step : Int)
  | xall (size : Nat)
  | xnewaxis
  | xkeep_slice (indices : List Int)
  | xdrop_slice (remaining : List Int)
  deriving DecidableEq, Repr

/-- The trait `std::is_integral` on a slice type. -/
def xview_slice.is_integral : xview_slice → Bool
  | .integral _ => true
  | _ => false

/-- The trait that tells a new-axis slice from the others. -/
def xview_slice.is_newaxis : xview_slice → Bool
  | .xnewaxis => true
  | _ => false

/-- Modelled from the spec: the call operator `slice(i)` of a slice of `xslice.hpp`, its
`value_at`: the base index that the slice selects at position `i`. -/
def xview_slice.value : xview_slice → Nat → Int
  | .integral v, _ => v
  | .xrange start _, i => start + i
  | .xstepped_range start _ step, i => start + i * step
  | .xall _, i => i
  | .xnewaxis, _ => 0
  | .xkeep_slice indices, i => indices.getD i 0
  | .xdrop_slice remaining, i => remaining.getD i 0

/-- Modelled from the spec: `get_size(slice)` of `xslice.hpp`, the number of positions that a
slice selects along its axis. -/
def get_size : xview_slice → Nat
  | .integral _ => 1
  | .xrange _ size => size.toNat
  | .xstepped_range _ size _ => size.toNat
  | .xall size => size
  | .xnewaxis => 1
  | .xkeep_slice indices => indices.length
  | .xdrop_slice remaining => remaining.length

/-- Modelled from the spec: `integral_count_before<S...>(i)` of `xslice.hpp`, the number of
integer slices among the first `i` slices. -/
def integral_count_before (slices : List xview_slice) (i : Nat) : Nat :=
  ((slices.take i).filter xview_slice.is_integral).length

/-- Modelled from the spec: `integral_count<S...>()` of `xslice.hpp`, the number of integer
slices. -/
def integral_count (slices : List xview_slice) : Nat :=
  integral_count_before slices slices.length

/-- Modelled from the spec: `newaxis_count_before<S...>(i)` of `xslice.hpp`, the number of
new-axis slices among the first `i` slices. -/
def newaxis_count_before (slices : List xview_slice) (i : Nat) : Nat :=
  ((slices.take i).filter xview_slice.is_newaxis).length

/-- Modelled from the spec: `newaxis_count<S...>()` of `xslice.hpp`, the number of new-axis
slices. -/
def newaxis_count (slices : List xview_slice) : Nat :=
  newaxis_count_before slices slices.length

/-- Modelled from the spec: `integral_skip<S...>(i)` of `xslice.hpp`, the position in the slice
list of the slice that makes view axis `i`: integer slices are skipped, and past the end of the
list the positions go on counting. -/
def integral_skip : List xview_slice → Nat → Nat
  | [], i => i
  | s :: rest, 0 => if s.is_integral then 1 + integral_skip rest 0 else 0
  | s :: rest, i + 1 =>
      1 + (if s.is_integral then integral_skip rest (i + 1) else integral_skip rest i)

/-- Modelled from the spec: `argument<I>(args...)` of `xutils.hpp`, the argument at position
`I`; there is none when `I` is not below the number of arguments (a `static_assert` rejects the
program). -/
def argument (I : Nat) (args : List Nat) : Option Nat := args.get? I

/-- The member `xview::lesser_condition<I>::value`. -/
def lesser_condition (slices : List xview_slice) (I : Nat) : Bool :=
  decide (I + newaxis_count_before slices (I + 1) < slices.length)

/-- The three overloads of `xview::sliced_access<I>`: on an integer slice, the value of the
integer; on a slice called without any index, `slice(0)`; on a slice called with indices,
`slice(argument<I>(args...))`. The result is cast to `size_type`. -/
def sliced_access (I : Nat) (slice : xview_slice) (args : List Nat) : Option Nat :=
  match slice with
  | .integral v => some (to_size_t v)
  | _ =>
    match args with
    | [] => some (to_size_t (slice.value 0))
    | _ => (argument I args).map (fun x => to_size_t (slice.value x))

/-- The two overloads of `xview::index<I>(args...)`: the index on base axis `I`. -/
def index (slices : List xview_slice) (I : Nat) (args : List Nat) : Option Nat :=
  if lesser_condition slices I = true then
    match slices.get? (I + newaxis_count_before slices (I + 1)) with
    | some slice =>
        sliced_access (I - integral_count_before slices I + newaxis_count_before slices (I + 1))
          slice args
    | none => none
  else
    let k : Int := (I : Int) - (integral_count slices : Int) + (newaxis_count slices : Int)
    if 0 ≤ k then argument k.toNat args else none

/-- The values of a sequence of computations that may each have no value: there is a result
only when each of them has one. -/
def all_some {α : Type} : List (Option α) → Option (List α)
  | [] => some []
  | none :: _ => none
  | some x :: rest => (all_some rest).map (fun xs => x :: xs)

/-- The length of the index sequence of `xview::make_index_sequence(args...)`. -/
def make_index_sequence (slices : List xview_slice) (nargs : Nat) : Nat :=
  if nargs + integral_count slices > newaxis_count slices then
    nargs + integral_count slices - newaxis_count slices
  else 0

/-- The method `xview::access_impl(std::index_sequence<I...>, args...)`: the multi-index
`(index<I>(args...)...)` at which the base expression `m_e` is read, for `I` below `n`. -/
def access_impl (slices : List xview_slice) (n : Nat) (args : List Nat) : Option (List Nat) :=
  all_some ((List.range n).map (fun I => index slices I args))

/-- The overloads of `xview::access`: the multi-index at which the base expression is read;
`dimension` is the value of `dimension()`. -/
def access (slices : List xview_slice) (dimension : Nat) : List Nat → Option (List Nat)
  | [] => access_impl slices (make_index_sequence slices 0) []
  | arg :: args =>
      if args.length ≥ dimension then access slices dimension args
      else access_impl slices (make_index_sequence slices (args.length + 1)) (arg :: args)

/-- The method `xview::compute_shape(std::false_type)`, on a base of shape `base_shape`. The
value `dim` is `m_e.dimension() - integral_count<S...>() + newaxis_count<S...>()`. -/
def compute_shape (base_shape : List Nat) (slices : List xview_slice) : Option (List Nat) :=
  let dim : Nat := base_shape.length - integral_count slices + newaxis_count slices
  all_some ((List.range dim).map (fun i =>
    let index := integral_skip slices i
    if index < slices.length then (slices.get? index).map get_size
    else base_shape.get? (index - newaxis_count_before slices index)))

/-- Modelled from the spec: `sequence_view<T, start, stop>` of `xstorage.hpp`, the entries of a
sequence from position `start` up to position `stop`. -/
def sequence_view {α : Type} (v : List α) (start stop : Nat) : List α :=
  (v.take stop).drop start

/-- The method `xview::compute_shape(std::true_type)`: `inner_shape_type(m_e.shape())`, where
`inner_shape_type` is the type `unwrap_offset_container<static_layout, inner_shape_type,
integral_count<S...>()>::type`: for a row-major base the base shape past its first
`integral_count` entries, for a column-major base the base shape without its last
`integral_count` entries. For any other layout the type is `void` and there is no view. -/
def compute_shape_sequence_view (static_layout : layout_type) (base_shape : List Nat)
    (slices : List xview_slice) : Option (List Nat) :=
  match static_layout with
  | .row_major => some (sequence_view base_shape (integral_count slices) base_shape.length)
  | .column_major =>
      some (sequence_view base_shape 0 (base_shape.length - integral_count slices))
  | .dynamic => none

/-- The slices of the kinds integer, range (with or without a step) and all. -/
def xview_slice.is_integer_range_or_all : xview_slice → Bool
  | .integral _ => true
  | .xrange _ _ => true
  | .xstepped_range _ _ _ => true
  | .xall _ => true
  | _ => false
/-! ## The static classification of an `xview` -/

/-- The underlying expression `m_e` of an `xview`, as far as the view reads it. The classes of
the expressions are not part of xview.hpp, so the values that the view reads are the fields:
the traits `has_data_interface<E>`, `E::static_layout` and
`static_dimension<typename E::shape_type>::value` (`-1` when the number of axes is not known
statically), and the results of `m_e.shape()`, `m_e.strides()`, `m_e.backstrides()`,
`m_e.data_offset()` and `m_e.layout()`. -/
structure xexpression where
  has_data_interface : Bool
  static_layout : layout_type
  static_dimension : Int
  shape : List Nat
  strides : List Int
  backstrides : List Int
  data_offset : Nat
  layout : layout_type
  deriving DecidableEq, Repr

/-- The trait `detail::is_xrange<S>`: true for `xrange<T>` only. -/
def xview_slice.is_xrange : xview_slice → Bool
  | .xrange _ _ => true
  | _ => false

/-- The trait `detail::is_xall_slice<S>`: true for `xall<T>` only. -/
def xview_slice.is_xall_slice : xview_slice → Bool
  | .xall _ => true
  | _ => false

/-- The trait `detail::is_strided_slice_impl<S>`: false for `xkeep_slice<T>` and
`xdrop_slice<T>`, true for every other slice type. -/
def is_strided_slice_impl : xview_slice → Bool
  | .xkeep_slice _ => false
  | .xdrop_slice _ => false
  | _ => true

/-- The trait `detail::is_strided_view<E, S...>`: the conjunction of `has_data_interface<E>` and
of `is_strided_slice_impl<S>` for every slice. -/
def is_strided_view (E : xexpression) (S : List xview_slice) : Bool :=
  E.has_data_interface && S.all is_strided_slice_impl

/-- The trait `detail::is_contiguous_view_impl<L, valid, seen, range_seen, V>`: the
specialisation for `row_major` (where `seen` is `all_seen`), the specialisation for
`column_major` (where `seen` is `int_seen`), each with its case for the empty vector, and the
primary template, whose value is `false`. -/
def is_contiguous_view_impl : layout_type → Bool → Bool → Bool → List xview_slice → Bool
  | .row_major, valid, _, _, [] => valid
  | .row_major, valid, all_seen, range_seen, slice :: V =>
      let is_range_slice := slice.is_xrange
      let is_int_slice := slice.is_integral
      let is_all_slice := slice.is_xall_slice
      let have_all_seen := all_seen || is_all_slice
      let is_valid :=
        valid && (if have_all_seen then is_all_slice
                  else (!range_seen && (is_int_slice || is_range_slice)))
      is_contiguous_view_impl .row_major is_valid have_all_seen (range_seen || is_range_slice) V
  | .column_major, valid, _, _, [] => valid
  | .column_major, valid, int_seen, range_seen, slice :: V =>
      let is_range_slice := slice.is_xrange
      let is_int_slice := slice.is_integral
      let is_all_slice := slice.is_xall_slice
      let have_int_seen := int_seen || is_int_slice
      let is_valid :=
        valid && (if have_int_seen then is_int_slice
                  else (!range_seen && (is_all_slice || is_range_slice)))
      is_contiguous_view_impl .column_major is_valid have_int_seen
        (is_range_slice || range_seen) V
  | .dynamic, _, _, _, _ => false

/-- The trait `detail::is_contiguous_view<E, S...>`. The comparison
`static_dimension<...>::value != sizeof...(S)` is one of a `std::ptrdiff_t` with a
`std::size_t`, made in `std::size_t`. -/
def is_contiguous_view (E : xexpression) (S : List xview_slice) : Bool :=
  E.has_data_interface
    && !(decide (E.static_layout = .column_major)
          && decide (to_size_t E.static_dimension ≠ S.length))
    && is_contiguous_view_impl E.static_layout true false false S

/-! ## The geometry of an `xview`: shape, strides, backstrides and data offset -/

/-- The data members of `xview`: the underlying expression, the slices, the shape, and the
strides, backstrides and data offset with the flag that tells whether they have been
computed. -/
structure xview where
  m_e : xexpression
  m_slices : List xview_slice
  m_shape : List Nat
  m_strides : List Int
  m_backstrides : List Int
  m_data_offset : Nat
  m_strides_computed : Bool
  deriving DecidableEq, Repr

/-- Modelled from the spec: `xt::step_size(slice, 1)` of `xslice.hpp`, on the slices of a
strided view: the distance, in positions of the base axis, between two consecutive positions of
the slice. An integer and a new axis have step `0`. The index-subset slices (keep, drop) have no
single step, and the strides of a view that holds one are not available. -/
def step_size : xview_slice → Option Int
  | .integral _ => some 0
  | .xrange _ _ => some 1
  | .xstepped_range _ _ step => some step
  | .xall _ => some 1
  | .xnewaxis => some 0
  | .xkeep_slice _ => none
  | .xdrop_slice _ => none

/-- The local `result` of `xview::data_offset_impl`: the sum over the slices, `I` their
position, of `static_cast<ptrdiff_t>(xt::value(std::get<I>(m_slices), 0))
* m_e.strides()[I - newaxis_count_before<S...>(I)]`. There is no value when a read of
`m_e.strides()` is out of bounds. -/
def data_offset_result (e : xexpression) (slices : List xview_slice) : Option Int :=
  (all_some ((List.range slices.length).map (fun I =>
    match slices.get? I, e.strides.get? (I - newaxis_count_before slices I) with
    | some s, some d => some (s.value 0 * d)
    | _, _ => none))).map List.sum

/-- The method `xview::data_offset_impl(std::index_sequence<I...>)`:
`static_cast<std::size_t>(result) + m_e.data_offset()`. -/
def data_offset_impl (e : xexpression) (slices : List xview_slice) : Option Nat :=
  (data_offset_result e slices).map (fun result => size_t_add (to_size_t result) e.data_offset)

/-- The method `xview::compute_strides_impl(std::index_sequence<I...>)`, for `I` below `n`: the
array of `step_size(std::get<integral_skip<S...>(I)>(m_slices), 1)
* m_e.strides()[integral_skip<S...>(I) - newaxis_count_before<S...>(integral_skip<S...>(I))]`. -/
def compute_strides_impl (e : xexpression) (slices : List xview_slice) (n : Nat) :
    Option (List Int) :=
  all_some ((List.range n).map (fun I =>
    let k := integral_skip slices I
    match slices.get? k, e.strides.get? (k - newaxis_count_before slices k) with
    | some s, some d => (step_size s).map (fun st => st * d)
    | _, _ => none))

/-- Modelled from the spec: `detail::adapt_strides(shape, strides, backstrides, i)` of
`xstrides.hpp`: `if (shape[i] == 1) strides[i] = 0;` and
`(*backstrides)[i] = strides[i] * std::ptrdiff_t(shape[i] - 1)`. The result is the pair of the
strides and the backstrides; there is none when `i` is out of bounds. -/
def adapt_strides_at (shape : List Nat) (strides backstrides : List Int) (i : Nat) :
    Option (List Int × List Int) :=
  match shape.get? i, strides.get? i with
  | some s, some d =>
      if i < backstrides.length then
        let d1 : Int := if s = 1 then 0 else d
        some (strides.set i d1, backstrides.set i (d1 * ((s : Int) - 1)))
      else none
  | _, _ => none

/-- The two loops of `xview::compute_strides(std::false_type)`:
`m_strides[i] = source(i); detail::adapt_strides(shape(), m_strides, &m_backstrides, i);`,
run `n` times from position `i`. The state is the pair of `m_strides` and `m_backstrides`. -/
def assign_strides (shape : List Nat) (source : Nat → Option Int) :
    Nat → Nat → List Int × List Int → Option (List Int × List Int)
  | 0, _, st => some st
  | n + 1, i, st =>
      match source i with
      | some x =>
          if i < st.1.length then
            match adapt_strides_at shape (st.1.set i x) st.2 i with
            | some st1 => assign_strides shape source n (i + 1) st1
            | none => none
          else none
      | none => none

/-- The method `xview::compute_strides(std::false_type)`. The index
`i + integral_count<S...>() - newaxis_count<S...>()` of the second loop is a `std::size_t`. -/
def xview.compute_strides (v : xview) : Option xview :=
  let dimension := v.m_shape.length
  let m_strides : List Int := List.replicate dimension 0
  let m_backstrides : List Int := List.replicate dimension 0
  let n_strides := v.m_slices.length - integral_count v.m_slices
  match compute_strides_impl v.m_e v.m_slices n_strides with
  | none => none
  | some slice_strides =>
    match assign_strides v.m_shape (fun i => slice_strides.get? i) n_strides 0
        (m_strides, m_backstrides) with
    | none => none
    | some st1 =>
      match assign_strides v.m_shape
          (fun i => v.m_e.strides.get?
            (to_size_t ((i : Int) + (integral_count v.m_slices : Int)
              - (newaxis_count v.m_slices : Int))))
          (dimension - n_strides) n_strides st1 with
      | none => none
      | some st2 =>
        match data_offset_impl v.m_e v.m_slices with
        | none => none
        | some off =>
            some { v with m_strides := st2.1, m_backstrides := st2.2, m_data_offset := off }

/-- The type `detail::unwrap_offset_container<L, T, offset>::type` applied to a sequence of the
base, as the contiguous constructor does for the strides and the backstrides: for a row-major
base the sequence past its first `offset` entries (`sequence_view<T, offset,
static_dimension<T>::value>`), for a column-major base the sequence without its last `offset`
entries (`sequence_view<T, 0, static_dimension<T>::value - offset>`). For any other layout the
type is `void` and there is no view. -/
def unwrap_offset_container {α : Type} (L : layout_type) (v : List α) (offset : Nat) :
    Option (List α) :=
  match L with
  | .row_major => some (sequence_view v offset v.length)
  | .column_major => some (sequence_view v 0 (v.length - offset))
  | .dynamic => none

/-- The constructors of `xview`: the public constructor delegates to the contiguous initializer
when `is_contiguous_view` holds, and to the general one otherwise. The contiguous initializer
computes the shape with `compute_shape(detail::is_sequence_view<inner_shape_type>)` (the shape
type is a `sequence_view` exactly when no slice is an `xrange`), copies `m_e.strides()` and
`m_e.backstrides()` into their `sequence_view` types, and computes the data offset. The general
initializer computes the shape and leaves the strides to `compute_strides`. -/
def xview.construct (e : xexpression) (slices : List xview_slice) : Option xview :=
  if is_contiguous_view e slices = true then
    match (if slices.any xview_slice.is_xrange = true then compute_shape e.shape slices
           else compute_shape_sequence_view e.static_layout e.shape slices),
      unwrap_offset_container e.static_layout e.strides (integral_count slices),
      unwrap_offset_container e.static_layout e.backstrides (integral_count slices),
      data_offset_impl e slices with
    | some m_shape, some m_strides, some m_backstrides, some m_data_offset =>
        some { m_e := e, m_slices := slices, m_shape := m_shape, m_strides := m_strides,
               m_backstrides := m_backstrides, m_data_offset := m_data_offset,
               m_strides_computed := true }
    | _, _, _, _ => none
  else
    match compute_shape e.shape slices with
    | some m_shape =>
        some { m_e := e, m_slices := slices, m_shape := m_shape, m_strides := [],
               m_backstrides := [], m_data_offset := 0, m_strides_computed := false }
    | none => none

/-- The method `xview::dimension()`: `m_shape.size()`. -/
def xview.dimension (v : xview) : Nat := v.m_shape.length

/-- The method `xstrided_view_base::dimension()`: `m_shape.size()`. -/
def xstrided_view_base.dimension (v : xstrided_view_base) : Nat := v.m_shape.length

/-- The member `xview::static_layout`: the static layout of the base when
`detail::is_contiguous_view` holds, `dynamic` otherwise. -/
def xview.static_layout (v : xview) : layout_type :=
  if is_contiguous_view v.m_e v.m_slices = true then v.m_e.static_layout else .dynamic

/-- The member `xview::is_contiguous_view`, which is `contiguous_layout`:
`static_layout != layout_type::dynamic`. -/
def xview.is_contiguous_view (v : xview) : Bool := decide (v.static_layout ≠ .dynamic)

/-- The block that opens `xview::strides()`, `xview::backstrides()` and
`xview::data_offset()`: `if (!m_strides_computed) compute_strides(is_contiguous_view)`, where
`compute_strides(std::true_type)` does nothing. The result is the view with its strides
computed. -/
def xview.with_strides (v : xview) : Option xview :=
  if v.m_strides_computed = true then some v
  else if v.is_contiguous_view = true then some { v with m_strides_computed := true }
  else v.compute_strides.map (fun w => { w with m_strides_computed := true })

/-- The method `xview::strides()`; it exists for a strided view only. -/
def xview.strides (v : xview) : Option (List Int) :=
  if is_strided_view v.m_e v.m_slices = true then v.with_strides.map (fun w => w.m_strides)
  else none

/-- The method `xview::backstrides()`; it exists for a strided view only. -/
def xview.backstrides (v : xview) : Option (List Int) :=
  if is_strided_view v.m_e v.m_slices = true then v.with_strides.map (fun w => w.m_backstrides)
  else none

/-- The method `xview::data_offset()`; it exists for a strided view only. -/
def xview.data_offset (v : xview) : Option Nat :=
  if is_strided_view v.m_e v.m_slices = true then v.with_strides.map (fun w => w.m_data_offset)
  else none

/-- The method `xview::layout()`. The function `do_strides_match` of `xstrides.hpp` is a
parameter. -/
def xview.layout (do_strides_match : List Nat → List Int → layout_type → Bool) (v : xview) :
    Option layout_type :=
  if is_strided_view v.m_e v.m_slices = true then
    if v.static_layout ≠ .dynamic then some v.static_layout
    else
      v.strides.map (fun strides =>
        let strides_match := do_strides_match v.m_shape strides v.m_e.layout
        if strides_match = true then v.m_e.layout else .dynamic)
  else some .dynamic

/-- The convention on the backstrides, for the axes that the three sequences share: on every
axis `backstrides[i] = (shape[i] - 1) * strides[i]`, and an axis of size `1` has stride `0` and
backstride `0`. -/
def backstrides_consistent : List Nat → List Int → List Int → Bool
  | s :: shape, d :: strides, b :: backstrides =>
      decide (b = ((s : Int) - 1) * d) && decide (s = 1 → d = 0 ∧ b = 0)
        && backstrides_consistent shape strides backstrides
  | _, _, _ => true

/-! ## Contiguity: canonical strides, ranks and the translated multi-index

The definitions of this section are not functions of xview.hpp. They state what a contiguous
view is: the strides of a base in a given layout, the rank of a multi-index in the element order
of a layout, and recursive forms of the shape of a view and of the base multi-index that the
view reads. -/

/-- Modelled from the spec: the strides of a row-major container of the given shape, before the
strides of the axes of size `1` are set to `0`: `strides[k]` is the product of the sizes of the
axes after `k`. -/
def row_major_strides : List Nat → List Int
  | [] => []
  | _ :: shape => (shape.prod : Int) :: row_major_strides shape

/-- The strides of a column-major container whose first stride is `acc`. -/
def column_major_strides_from (acc : Int) : List Nat → List Int
  | [] => []
  | s :: shape => acc :: column_major_strides_from (acc * (s : Int)) shape

/-- Modelled from the spec: the strides of a column-major container of the given shape, before
the strides of the axes of size `1` are set to `0`: `strides[k]` is the product of the sizes of
the axes before `k`. -/
def column_major_strides (shape : List Nat) : List Int := column_major_strides_from 1 shape

/-- The canonical strides of a shape in a static layout. -/
def canonical_strides (L : layout_type) (shape : List Nat) : List Int :=
  match L with
  | .row_major => row_major_strides shape
  | .column_major => column_major_strides shape
  | .dynamic => []

/-- The rank of the multi-index `I` among the multi-indices of `shape` in row-major order (the
last index varies fastest). -/
def row_major_rank : List Nat → List Nat → Nat
  | i :: I, _ :: shape => i * shape.prod + row_major_rank I shape
  | _, _ => 0

/-- The rank of the multi-index `I` among the multi-indices of `shape` in column-major order (the
first index varies fastest). -/
def column_major_rank : List Nat → List Nat → Nat
  | i :: I, s :: shape => i + s * column_major_rank I shape
  | _, _ => 0

/-- The rank of a multi-index in the element order of a layout. -/
def layout_rank (L : layout_type) (I shape : List Nat) : Nat :=
  match L with
  | .row_major => row_major_rank I shape
  | .column_major => column_major_rank I shape
  | .dynamic => 0

/-- The values of the slices lie inside their base axes; `sh` holds the sizes of the base axes
still to be taken. An integer lies in `[0, size)`, every position of a range does, an all-slice
has the size of its axis, and the indices of a keep or drop slice lie in `[0, size)`. -/
def xview_slices_in_range : List Nat → List xview_slice → Prop
  | _, [] => True
  | sh, .integral v :: rest =>
      (0 ≤ v ∧ v < (sh.headD 0 : Int)) ∧ xview_slices_in_range sh.tail rest
  | sh, .xrange start size :: rest =>
      (0 ≤ start ∧ 0 ≤ size ∧ start + size ≤ (sh.headD 0 : Int))
        ∧ xview_slices_in_range sh.tail rest
  | sh, .xstepped_range start size step :: rest =>
      (0 ≤ size ∧ ∀ p : Nat, (p : Int) < size →
          0 ≤ start + p * step ∧ start + p * step < (sh.headD 0 : Int))
        ∧ xview_slices_in_range sh.tail rest
  | sh, .xall n :: rest => n = sh.headD 0 ∧ xview_slices_in_range sh.tail rest
  | sh, .xnewaxis :: rest => xview_slices_in_range sh rest
  | sh, .xkeep_slice indices :: rest =>
      (∀ i ∈ indices, 0 ≤ i ∧ i < (sh.headD 0 : Int)) ∧ xview_slices_in_range sh.tail rest
  | sh, .xdrop_slice remaining :: rest =>
      (∀ i ∈ remaining, 0 ≤ i ∧ i < (sh.headD 0 : Int)) ∧ xview_slices_in_range sh.tail rest

/-- The base multi-index that a view without new-axis slices reads at the view multi-index `I`,
slice by slice: the value of an integer, the slice applied to the next entry of `I`, and the
remaining entries of `I` on the base axes past the slice list. -/
def xview_translate : List xview_slice → List Nat → List Nat
  | [], I => I
  | .integral v :: rest, I => to_size_t v :: xview_translate rest I
  | s :: rest, I => to_size_t (s.value (I.headD 0)) :: xview_translate rest I.tail

/-- The shape of a view without new-axis slices, slice by slice: an integer removes its axis,
any other slice gives an axis of its size, and the base axes past the slice list follow. -/
def xview_shape : List Nat → List xview_slice → List Nat
  | sh, [] => sh
  | sh, .integral _ :: rest => xview_shape sh.tail rest
  | sh, s :: rest => get_size s :: xview_shape sh.tail rest

/-- The base strides of the axes that the view keeps, slice by slice. -/
def kept_strides : List Int → List xview_slice → List Int
  | st, [] => st
  | st, .integral _ :: rest => kept_strides st.tail rest
  | st, _ :: rest => st.headD 0 :: kept_strides st.tail rest


/-! ## The geometry of a strided view as a function of the slice list

The definitions of this section are not functions of the source. They describe, slice by slice,
what the loops of `fill_args` compute, and the theorems below prove that `fill_args` computes
exactly this. -/

/-- The number of base axes that one slice takes in the second loop of `fill_args`, when the
ellipsis stands for `n` axes. -/
def axes_taken (n : Nat) : xstrided_slice → Nat
  | .integer _ => 1
  | .range _ => 1
  | .all => 1
  | .ellipsis => n
  | .newaxis => 0

/-- The number of base axes that a slice list takes. -/
def taken (n : Nat) : List xstrided_slice → Nat
  | [] => 0
  | sl :: rest => axes_taken n sl + taken n rest

/-- The sizes of the result axes that a slice list makes from the base axes `sh` still to be
taken (the trailing base axes that no slice takes are not included). -/
def out_shape (n : Nat) : List Nat → List xstrided_slice → List Nat
  | _, [] => []
  | sh, .integer _ :: rest => out_shape n sh.tail rest
  | sh, .newaxis :: rest => 1 :: out_shape n sh rest
  | sh, .all :: rest => sh.headD 0 :: out_shape n sh.tail rest
  | sh, .ellipsis :: rest => sh.take n ++ out_shape n (sh.drop n) rest
  | sh, .range r :: rest => to_size_t (r.get (sh.headD 0)).2.1 :: out_shape n sh.tail rest

/-- The strides of the result axes that a slice list makes from the base axes still to be taken,
whose sizes are `sh` and whose strides are `sd`. -/
def out_strides (n : Nat) : List Nat → List Int → List xstrided_slice → List Int
  | _, _, [] => []
  | sh, sd, .integer _ :: rest => out_strides n sh.tail sd.tail rest
  | sh, sd, .newaxis :: rest => 0 :: out_strides n sh sd rest
  | sh, sd, .all :: rest => sd.headD 0 :: out_strides n sh.tail sd.tail rest
  | sh, sd, .ellipsis :: rest => sd.take n ++ out_strides n (sh.drop n) (sd.drop n) rest
  | sh, sd, .range r :: rest =>
      (r.get (sh.headD 0)).2.2 * sd.headD 0 :: out_strides n sh.tail sd.tail rest

/-- The signed amounts that a slice list adds to `new_offset`, in the order of the slices. -/
def out_addends (n : Nat) : List Nat → List Int → List xstrided_slice → List Int
  | _, _, [] => []
  | sh, sd, .integer v :: rest => v * sd.headD 0 :: out_addends n sh.tail sd.tail rest
  | sh, sd, .newaxis :: rest => out_addends n sh sd rest
  | sh, sd, .all :: rest => out_addends n sh.tail sd.tail rest
  | sh, sd, .ellipsis :: rest => out_addends n (sh.drop n) (sd.drop n) rest
  | sh, sd, .range r :: rest =>
      (r.get (sh.headD 0)).1 * sd.headD 0 :: out_addends n sh.tail sd.tail rest

/-- The value of `new_offset` after the amounts `xs` have been added to `off`, each with
`new_offset += static_cast<std::size_t>(x)`. -/
def offset_after (off : Nat) : List Int → Nat
  | [] => off
  | x :: xs => offset_after (size_t_add off (to_size_t x)) xs

/-- The number of integer slices of a slice list (`nInt`). -/
def n_integer : List xstrided_slice → Nat
  | [] => 0
  | .integer _ :: rest => n_integer rest + 1
  | _ :: rest => n_integer rest

/-- The number of new-axis slices of a slice list (`nNew`). -/
def n_newaxis : List xstrided_slice → Nat
  | [] => 0
  | .newaxis :: rest => n_newaxis rest + 1
  | _ :: rest => n_newaxis rest

/-- The number of ellipsis slices of a slice list. -/
def n_ellipsis : List xstrided_slice → Nat
  | [] => 0
  | .ellipsis :: rest => n_ellipsis rest + 1
  | _ :: rest => n_ellipsis rest

/-- The number of slices that take a base axis each: the slices that are neither a new axis nor
an ellipsis (integer, range and all slices). -/
def n_consuming : List xstrided_slice → Nat
  | [] => 0
  | .newaxis :: rest => n_consuming rest
  | .ellipsis :: rest => n_consuming rest
  | _ :: rest => n_consuming rest + 1

/-- The value of `n_add_all` in `fill_args` for a base of `N` axes: the number of base axes that
the ellipsis stands for, `shape.size() - (slices.size() - 1 - n_newaxis)`, when an ellipsis is
present, and `0` otherwise. -/
def n_add_all (N : Nat) (ss : List xstrided_slice) : Nat :=
  if 1 ≤ n_ellipsis ss then N - (ss.length - 1 - n_newaxis ss) else 0

/-- The state in which `fill_args` leaves its last loop when it accepts the slice list, written
as a function of the slice list: the result axes of the slices followed by the trailing base
axes. -/
def walk_result (shape : List Nat) (old_strides : List Int) (base_offset : Nat)
    (slices : List xstrided_slice) : walk_state :=
  let n := n_add_all shape.length slices
  let new_shape := out_shape n shape slices ++ shape.drop (taken n slices)
  { new_offset := offset_after base_offset (out_addends n shape old_strides slices),
    new_shape := new_shape,
    new_strides := out_strides n shape old_strides slices ++ old_strides.drop (taken n slices),
    axis_skip := (slices.length : Int) - (taken n slices : Int),
    idx := new_shape.length,
    assigned := List.range new_shape.length }

/-- The geometry that `fill_args` returns when it accepts the slice list, written as a function
of the slice list. -/
def view_geometry (do_strides_match : List Nat → List Int → layout_type → Bool)
    (shape : List Nat) (old_strides : List Int) (base_offset : Nat) (layout : layout_type)
    (slices : List xstrided_slice) : strided_view_args :=
  let st := walk_result shape old_strides base_offset slices
  { new_shape := st.new_shape,
    new_strides := st.new_strides,
    new_offset := st.new_offset,
    new_layout :=
      if do_strides_match st.new_shape st.new_strides layout = true then layout else .dynamic }

/-- The base axis that the slice following the slices `pre` meets in the slice list `ss` of a
view of a base of `N` axes: the number of base axes that `pre` takes. -/
def base_axis_after (N : Nat) (ss pre : List xstrided_slice) : Nat :=
  taken (n_add_all N ss) pre

/-- The result axis that the slice following the slices `pre` makes in the slice list `ss`: each
slice of `pre` but the integers makes a result axis for each base axis it takes, and each new
axis makes one more. -/
def result_axis_after (N : Nat) (ss pre : List xstrided_slice) : Nat :=
  taken (n_add_all N ss) pre + n_newaxis pre - n_integer pre

/-- Modelled from the spec: the resolution `get(size)` of `range(start, stop, step)` against a
base axis of `size` elements, Python-slice-style (negative bounds count from the end, bounds are
clamped to the axis); the result is (start, count, step). It is used in examples only: the
theorems hold for every adaptor. -/
def resolve_range (start stop step : Int) (size : Nat) : Int × Int × Int :=
  let n : Int := size
  let lower : Int := if 0 < step then 0 else -1
  let upper : Int := if 0 < step then n else n - 1
  let first : Int := if start < 0 then max (start + n) lower else min start upper
  let last : Int := if stop < 0 then max (stop + n) lower else min stop upper
  let count : Int :=
    if 0 < step then (if first < last then (last - first - 1) / step + 1 else 0)
    else (if last < first then (first - last - 1) / (-step) + 1 else 0)
  (first, count, step)

/-- The adaptor `range(start, stop, step)`. -/
def range_adaptor (start stop step : Int) : xrange_adaptor :=
  { get := resolve_range start stop step }

/-- The base multi-index `J = translate(I)` of the view multi-index `I`, for the slice list and
the sizes `sh` of the base axes still to be taken: the value of the integer on an integer axis,
`start + step * I[j]` on a range axis, `I[j]` on an axis of an all-slice (explicit, made by the
ellipsis, or implicit trailing); the entries of `I` at the new-axis positions are dropped. -/
def translate (n : Nat) : List Nat → List xstrided_slice → List Nat → List Int
  | _, [], I => I.map Int.ofNat
  | sh, .integer v :: rest, I => v :: translate n sh.tail rest I
  | sh, .newaxis :: rest, I => translate n sh rest I.tail
  | sh, .all :: rest, I => (I.headD 0 : Int) :: translate n sh.tail rest I.tail
  | sh, .ellipsis :: rest, I =>
      (I.take n).map Int.ofNat ++ translate n (sh.drop n) rest (I.drop n)
  | sh, .range r :: rest, I =>
      ((r.get (sh.headD 0)).1 + (r.get (sh.headD 0)).2.2 * (I.headD 0 : Int))
        :: translate n sh.tail rest I.tail

/-- Every integer of the slice list and every position that a range of the slice list resolves
to lies inside its base axis; `sh` holds the sizes of the base axes still to be taken. -/
def slices_in_range (n : Nat) : List Nat → List xstrided_slice → Prop
  | _, [] => True
  | sh, .integer v :: rest => (0 ≤ v ∧ v < (sh.headD 0 : Int)) ∧ slices_in_range n sh.tail rest
  | sh, .newaxis :: rest => slices_in_range n sh rest
  | sh, .all :: rest => slices_in_range n sh.tail rest
  | sh, .ellipsis :: rest => slices_in_range n (sh.drop n) rest
  | sh, .range r :: rest =>
      (∀ p : Nat, p < to_size_t (r.get (sh.headD 0)).2.1 →
          0 ≤ (r.get (sh.headD 0)).1 + (r.get (sh.headD 0)).2.2 * (p : Int)
          ∧ (r.get (sh.headD 0)).1 + (r.get (sh.headD 0)).2.2 * (p : Int) < (sh.headD 0 : Int))
        ∧ slices_in_range n sh.tail rest

/-- The multi-index `I` has as many entries as `shape` and `I[j] < shape[j]` on every axis. -/
def index_in_shape (I : List Nat) (shape : List Nat) : Prop :=
  List.Forall₂ (fun (i : Nat) (s : Nat) => i < s) I shape

/-- The signed multi-index `J` has as many entries as `shape` and `0 <= J[a] < shape[a]` on
every axis. -/
def in_bounds (J : List Int) (shape : List Nat) : Prop :=
  List.Forall₂ (fun (j : Int) (s : Nat) => 0 ≤ j ∧ j < (s : Int)) J shape

/-! ## Checked access, access through a sequence of indices, trivial broadcasting -/

/-- The two failures of a checked access, as the spec names them: `DimensionMismatch` (the count
of indices does not match `dimension()`) and `OutOfRange` (an index is outside its axis). -/
inductive access_error
  | dimension_mismatch
  | out_of_range
  deriving DecidableEq, Repr

/-- Modelled from the spec: `check_access(shape, args...)` of `xexception.hpp`, the validation
that `at` makes: the count of indices matches the dimensionality, else it fails with
`DimensionMismatch`; and `0 ≤ index[k] < shape[k]` for all `k`, else it fails with
`OutOfRange`. The indices have been cast to `size_type`. -/
def check_access (shape : List Nat) (args : List Nat) : Except access_error Unit :=
  if args.length ≠ shape.length then Except.error access_error.dimension_mismatch
  else if (List.zip args shape).all (fun p => decide (p.1 < p.2)) = true then Except.ok ()
  else Except.error access_error.out_of_range

/-- The method `xstrided_view_base::operator()`: the position in `m_storage` of the element,
`static_cast<size_type>(compute_index(args...))`. The macros `XTENSOR_TRY` and
`XTENSOR_CHECK_DIMENSION` of `xexception.hpp` are not in src: `assertions` is the check that
they make of the indices in the build at hand (none in a build without assertions). -/
def xstrided_view_base.operator_call (v : xstrided_view_base)
    (assertions : List Nat → Except access_error Unit) (args : List Int) :
    Except access_error Nat :=
  match assertions (args.map to_size_t) with
  | Except.error e => Except.error e
  | Except.ok _ => Except.ok (to_size_t (v.compute_index args))

/-- The method `xstrided_view_base::at`: `check_access(shape(), static_cast<size_type>(args)...)`
and then `this->operator()(args...)`. -/
def xstrided_view_base.at_ (v : xstrided_view_base)
    (assertions : List Nat → Except access_error Unit) (args : List Int) :
    Except access_error Nat :=
  match check_access v.m_shape (args.map to_size_t) with
  | Except.error e => Except.error e
  | Except.ok _ => v.operator_call assertions args

/-- The method `xview::operator()`: `access(static_cast<size_type>(args)...)`, the multi-index at
which the base expression is read (there is none when the access reads out of bounds). The
macros are the parameter `assertions`, as for `xstrided_view_base::operator()`. -/
def xview.operator_call (v : xview) (assertions : List Nat → Except access_error Unit)
    (args : List Int) : Except access_error (Option (List Nat)) :=
  match assertions (args.map to_size_t) with
  | Except.error e => Except.error e
  | Except.ok _ => Except.ok (access v.m_slices v.dimension (args.map to_size_t))

/-- The method `xview::at`: `check_access(shape(), static_cast<size_type>(args)...)` and then
`this->operator()(args...)`. -/
def xview.at_ (v : xview) (assertions : List Nat → Except access_error Unit)
    (args : List Int) : Except access_error (Option (List Nat)) :=
  match check_access v.m_shape (args.map to_size_t) with
  | Except.error e => Except.error e
  | Except.ok _ => v.operator_call assertions args

/-- Modelled from the spec: `xt::element_offset<offset_type>(strides, first, last)` of
`xstrides.hpp`, on an index sequence: the sum of `index[k] * strides[k]`, where only the leading
entries of the sequence, one for each stride, are consumed. -/
def element_offset (strides : List Int) (index : List Nat) : Int :=
  data_offset strides ((index.take strides.length).map (fun x => (x : Int)))

/-- The method `xstrided_view_base::compute_element_index(first, last)`. -/
def xstrided_view_base.compute_element_index (v : xstrided_view_base) (index : List Nat) : Int :=
  to_ptrdiff_t v.m_offset + element_offset v.m_strides index

/-- The method `xstrided_view_base::element(first, last)`: the position in `m_storage` of the
element, `static_cast<size_type>(compute_element_index(first, last))`. The macro `XTENSOR_TRY`
is the parameter `assertions`. -/
def xstrided_view_base.element (v : xstrided_view_base)
    (assertions : List Nat → Except access_error Unit) (index : List Nat) :
    Except access_error Nat :=
  match assertions index with
  | Except.error e => Except.error e
  | Except.ok _ => Except.ok (to_size_t (v.compute_element_index index))

/-- Modelled from the spec: `newaxis_skip<S...>(i)` of `xslice.hpp`, the position in the slice
list of the slice that selects on base axis `i`: new-axis slices are skipped, and past the end
of the list the positions go on counting. -/
def newaxis_skip : List xview_slice → Nat → Nat
  | [], i => i
  | s :: rest, 0 => if s.is_newaxis then 1 + newaxis_skip rest 0 else 0
  | s :: rest, i + 1 =>
      1 + (if s.is_newaxis then newaxis_skip rest (i + 1) else newaxis_skip rest i)

/-- Modelled from the spec: `get_slice_value(s, it)` of `xslice.hpp`: on an integer the value of
the integer; on a slice its `value_at` the index `*it`. The iterator is passed by reference, and
xview.hpp does not show whether the function moves it: with `consumes` it moves past the index
that it read, without it the iterator stays. The iterator is the position `first` in the
sequence `index`; the result is the value and the iterator, and there is none when the read is
past the end of the sequence. -/
def get_slice_value (consumes : Bool) (s : xview_slice) (index : List Nat) (first : Nat) :
    Option (Nat × Nat) :=
  match s with
  | .integral v => some (to_size_t v, first)
  | _ =>
    (index.get? first).map (fun x =>
      (to_size_t (s.value x), if consumes = true then first + 1 else first))

/-- The loop of `xview::make_index(first, last)`, run for `n` base axes from base axis `i` with
the iterator at position `first` of the sequence `index`:
`k = newaxis_skip<S...>(i); std::advance(first, k - i);` then, when `first != last`,
`k < sizeof...(S) ? get_slice_value(slice k, first) : *first++`, and otherwise
`k < sizeof...(S) ? xt::value(slice k, 0) : 0`. The result is the entries `index[i]` onwards. -/
def make_index_loop (consumes : Bool) (slices : List xview_slice) (index : List Nat) :
    Nat → Nat → Nat → Option (List Nat)
  | 0, _, _ => some []
  | n + 1, i, first =>
      let k := newaxis_skip slices i
      let first1 := first + (k - i)
      if first1 ≠ index.length then
        if k < slices.length then
          match slices.get? k with
          | some s =>
              match get_slice_value consumes s index first1 with
              | some (x, first2) =>
                  (make_index_loop consumes slices index n (i + 1) first2).map (fun r => x :: r)
              | none => none
          | none => none
        else
          match index.get? first1 with
          | some x =>
              (make_index_loop consumes slices index n (i + 1) (first1 + 1)).map
                (fun r => x :: r)
          | none => none
      else
        if k < slices.length then
          match slices.get? k with
          | some s =>
              (make_index_loop consumes slices index n (i + 1) first1).map
                (fun r => to_size_t (s.value 0) :: r)
          | none => none
        else
          (make_index_loop consumes slices index n (i + 1) first1).map (fun r => 0 :: r)

/-- The method `xview::make_index(first, last)`: the multi-index of the base, of
`m_e.dimension()` entries. -/
def xview.make_index (v : xview) (consumes : Bool) (index : List Nat) : Option (List Nat) :=
  make_index_loop consumes v.m_slices index v.m_e.shape.length 0 0

/-- The method `xview::element(first, last)`: `m_e.element` at the multi-index
`make_index(first, last)`; the result is the multi-index at which the base expression is read.
The macro `XTENSOR_TRY` is the parameter `assertions`. -/
def xview.element (v : xview) (assertions : List Nat → Except access_error Unit)
    (consumes : Bool) (index : List Nat) : Except access_error (Option (List Nat)) :=
  match assertions index with
  | Except.error e => Except.error e
  | Except.ok _ => Except.ok (v.make_index consumes index)

/-- The algorithm `std::equal(first1, last1, first2)` of the standard library: the entries of the
first range equal those of the second, position by position. A second range that ends before the
first is read past its end, and the comparison has no meaning there (`false` here). -/
def std_equal : List Int → List Int → Bool
  | [], _ => true
  | a :: as, b :: bs => decide (a = b) && std_equal as bs
  | _ :: _, [] => false

/-- The method `xstrided_view_base::is_trivial_broadcast(str)`:
`str.size() == strides().size() && std::equal(str.cbegin(), str.cend(), strides().begin())`. -/
def xstrided_view_base.is_trivial_broadcast (v : xstrided_view_base) (str : List Int) : Bool :=
  decide (str.length = v.m_strides.length) && std_equal str v.m_strides

/-- The method `xview::is_trivial_broadcast(str)`: for a strided view the comparison of `str`
with `strides()` (there is no value when the strides cannot be computed), and `false` for a view
that is not strided. -/
def xview.is_trivial_broadcast (v : xview) (str : List Int) : Option Bool :=
  if is_strided_view v.m_e v.m_slices = true then
    v.strides.map (fun strides =>
      decide (str.length = strides.length) && std_equal str strides)
  else some false

/-! ## The stepper of an `xview` that is not strided -/

/-- The subtraction `a -= b` of two `std::size_t` values. -/
def size_t_sub (a b : Nat) : Nat := (a + (2 ^ 64 - b % 2 ^ 64)) % 2 ^ 64

/-- Modelled from the spec: `step_size(slice, position, delta)` of `xslice.hpp`, the number of
positions of the base axis between the logical positions `position` and `position + delta` of
the slice, `value_at(position + delta) - value_at(position)`: `delta` for a range and for all,
`delta` times the step for a range with a step, the gap between the two indices for the
index-subset slices (keep, drop), `0` for an integer and a new axis. Where `position + delta` is
past the last index of an index subset, the target is the position one past the last index. -/
def xview_slice.step_size (s : xview_slice) (position delta : Nat) : Int :=
  match s with
  | .xkeep_slice indices =>
      if position + delta < indices.length then
        indices.getD (position + delta) 0 - indices.getD position 0
      else indices.getLastD 0 + 1 - indices.getD position 0
  | .xdrop_slice remaining =>
      if position + delta < remaining.length then
        remaining.getD (position + delta) 0 - remaining.getD position 0
      else remaining.getLastD 0 + 1 - remaining.getD position 0
  | _ => s.value (position + delta) - s.value position

/-- Modelled from the spec: the method `step(dim, n)` of the stepper of the underlying
expression (`substepper_type`, whose class is not in src). The state of that stepper is its
position on each axis of the base, in `std::size_t` arithmetic; `step(dim, n)` advances the
position on axis `dim` by `n`. There is no result when the base has no axis `dim`. -/
def substepper_step (it : List Nat) (dim n : Nat) : Option (List Nat) :=
  if dim < it.length then some (it.set dim (size_t_add (it.getD dim 0) n)) else none

/-- Modelled from the spec: the method `step_back(dim, n)` of the stepper of the underlying
expression: the position on axis `dim` goes back by `n`. -/
def substepper_step_back (it : List Nat) (dim n : Nat) : Option (List Nat) :=
  if dim < it.length then some (it.set dim (size_t_sub (it.getD dim 0) n)) else none

/-- Modelled from the spec: `m_e.stepper_begin(m_e.shape())` and the method `to_begin()` of the
stepper of the underlying expression: position `0` on every axis. -/
def substepper_begin (shape : List Nat) : List Nat := List.replicate shape.length 0

/-- Modelled from the spec: `m_e.stepper_end(m_e.shape(), l)` and the method `to_end(l)` of the
stepper of the underlying expression, the one-past-end sentinel: every axis at its last valid
index, and one step more on the last axis for row-major, on the first axis for column-major.
Another order is refused. -/
def substepper_end (shape : List Nat) (l : layout_type) : Option (List Nat) :=
  let last := shape.map (fun s => size_t_sub s 1)
  match l with
  | .row_major =>
      some (last.set (shape.length - 1) (size_t_add (last.getD (shape.length - 1) 0) 1))
  | .column_major => some (last.set 0 (size_t_add (last.getD 0 0) 1))
  | .dynamic => none

/-- The data members of `xview_stepper`: the view, the stepper `m_it` of the underlying
expression (its position on each base axis), the offset, and the counters `m_index_keeper`, one
for each slice. -/
structure xview_stepper where
  p_view : xview
  m_it : List Nat
  m_offset : Nat
  m_index_keeper : List Nat
  deriving DecidableEq, Repr

/-- The method `xview_stepper::is_newaxis_slice(index)`:
`newaxis_count_before<S...>(index + 1) != newaxis_count_before<S...>(index)`. -/
def is_newaxis_slice (slices : List xview_slice) (index : Nat) : Bool :=
  decide (newaxis_count_before slices (index + 1) ≠ newaxis_count_before slices index)

/-- The loop of the constructor of `xview_stepper` for a stepper that is not at the end, run for
`n` slices from slice `i`: for a slice that is not a new axis,
`m_it.step(i - newaxis_count_before<S...>(i), xt::value(slice, 0))`. -/
def begin_loop (slices : List xview_slice) : Nat → Nat → List Nat → Option (List Nat)
  | 0, _, it => some it
  | n + 1, i, it =>
      if is_newaxis_slice slices i = true then begin_loop slices n (i + 1) it
      else
        match slices.get? i with
        | some s =>
            match substepper_step it (i - newaxis_count_before slices i)
                (to_size_t (s.value 0)) with
            | some it1 => begin_loop slices n (i + 1) it1
            | none => none
        | none => none

/-- The first loop of `xview_stepper::to_end_impl`, run for `n` slices from slice `i`, on the
pair of `m_it` and `m_index_keeper`: for a slice that is not a new axis,
`s = xt::value(slice, get_size(slice) - 1); ix = get_size(slice); m_index_keeper[i] = ix;
index = i - newaxis_count_before<S...>(i); s = p_view->underlying_size(index) - 1 - s;
m_it.step_back(index, s);`. -/
def to_end_loop (slices : List xview_slice) (base_shape : List Nat) :
    Nat → Nat → List Nat × List Nat → Option (List Nat × List Nat)
  | 0, _, st => some st
  | n + 1, i, st =>
      if is_newaxis_slice slices i = true then to_end_loop slices base_shape n (i + 1) st
      else
        let index := i - newaxis_count_before slices i
        match slices.get? i, base_shape.get? index with
        | some slice, some underlying_size =>
            let s := to_size_t (slice.value (size_t_sub (get_size slice) 1))
            let ix := get_size slice
            if i < st.2.length then
              match substepper_step_back st.1 index
                  (size_t_sub (size_t_sub underlying_size 1) s) with
              | some it1 => to_end_loop slices base_shape n (i + 1) (it1, st.2.set i ix)
              | none => none
            else none
        | _, _ => none

/-- The loop of `xview_stepper::to_end_impl` for row-major, from `i` down to `1`:
`if (!is_newaxis_slice(i - 1)) { m_index_keeper[i - 1]++; break; }`. -/
def increment_last (slices : List xview_slice) : Nat → List Nat → List Nat
  | 0, keeper => keeper
  | i + 1, keeper =>
      if is_newaxis_slice slices i = true then increment_last slices i keeper
      else keeper.set i (size_t_add (keeper.getD i 0) 1)

/-- The loop of `xview_stepper::to_end_impl` for column-major, run for `n` slices from slice
`i`: `if (!is_newaxis_slice(i)) { m_index_keeper[i]++; break; }`. -/
def increment_first (slices : List xview_slice) : Nat → Nat → List Nat → List Nat
  | 0, _, keeper => keeper
  | n + 1, i, keeper =>
      if is_newaxis_slice slices i = true then increment_first slices n (i + 1) keeper
      else keeper.set i (size_t_add (keeper.getD i 0) 1)

/-- The method `xview_stepper::to_end_impl(l)`. There is no result when an access is out of
bounds, or when the exception `"Iteration only allowed in row or column major."` is thrown. -/
def xview_stepper.to_end_impl (st : xview_stepper) (l : layout_type) : Option xview_stepper :=
  let slices := st.p_view.m_slices
  match to_end_loop slices st.p_view.m_e.shape slices.length 0 (st.m_it, st.m_index_keeper) with
  | none => none
  | some (it, keeper) =>
      match l with
      | .row_major =>
          some { st with m_it := it, m_index_keeper := increment_last slices slices.length keeper }
      | .column_major =>
          some { st with m_it := it,
                         m_index_keeper := increment_first slices slices.length 0 keeper }
      | .dynamic => none

/-- The constructor `xview_stepper(view, it, offset, end, l)`. The array `m_index_keeper` has
`sizeof...(S)` entries, which are not initialised when `end` is set: `keeper` is their value
then. -/
def xview_stepper.construct (view : xview) (it : List Nat) (offset : Nat) (at_end : Bool)
    (l : layout_type) (keeper : List Nat) : Option xview_stepper :=
  if at_end = false then
    (begin_loop view.m_slices view.m_slices.length 0 it).map (fun it1 =>
      { p_view := view, m_it := it1, m_offset := offset,
        m_index_keeper := List.replicate view.m_slices.length 0 })
  else
    xview_stepper.to_end_impl
      { p_view := view, m_it := it, m_offset := offset, m_index_keeper := keeper } l

/-- The method `xview::stepper_begin(shape)` of a view that is not strided:
`stepper(this, m_e.stepper_begin(m_e.shape()), shape.size() - dimension())`. -/
def xview.stepper_begin (v : xview) (shape : List Nat) : Option xview_stepper :=
  xview_stepper.construct v (substepper_begin v.m_e.shape)
    (size_t_sub shape.length v.dimension) false .row_major []

/-- The method `xview::stepper_end(shape, l)` of a view that is not strided:
`stepper(this, m_e.stepper_end(m_e.shape(), l), shape.size() - dimension(), true, l)`. -/
def xview.stepper_end (v : xview) (shape : List Nat) (l : layout_type) (keeper : List Nat) :
    Option xview_stepper :=
  match substepper_end v.m_e.shape l with
  | some it => xview_stepper.construct v it (size_t_sub shape.length v.dimension) true l keeper
  | none => none

/-- The method `xview_stepper::operator*`: `*m_it`, the element of the base at the position of
the stepper of the underlying expression. -/
def xview_stepper.deref (st : xview_stepper) : List Nat := st.m_it

/-- The method `xview_stepper::common_step_forward(dim, n, f)`: the counter of `dim` is advanced
by `n` first, and `step_size(slice, m_index_keeper[dim], n)` is called with the counter so
advanced. -/
def xview_stepper.common_step_forward_n (st : xview_stepper) (dim n : Nat)
    (f : List Nat → Nat → Nat → Option (List Nat)) : Option xview_stepper :=
  let slices := st.p_view.m_slices
  if dim ≥ st.m_offset then
    let index := integral_skip slices dim
    if is_newaxis_slice slices index = false then
      if index < slices.length then
        match slices.get? index, st.m_index_keeper.get? dim with
        | some s, some c =>
            let c1 := size_t_add c n
            (f st.m_it (index - newaxis_count_before slices index)
                (to_size_t (s.step_size c1 n))).map
              (fun it => { st with m_it := it, m_index_keeper := st.m_index_keeper.set dim c1 })
        | _, _ => none
      else
        (f st.m_it (index - newaxis_count_before slices index) n).map
          (fun it => { st with m_it := it })
    else some st
  else some st

/-- The method `xview_stepper::common_step_forward(dim, f)`: `m_index_keeper[dim]++` first, and
then `step_size(slice, m_index_keeper[dim], 1)`. -/
def xview_stepper.common_step_forward (st : xview_stepper) (dim : Nat)
    (f : List Nat → Nat → Nat → Option (List Nat)) : Option xview_stepper :=
  let slices := st.p_view.m_slices
  if dim ≥ st.m_offset then
    let index := integral_skip slices dim
    if is_newaxis_slice slices index = false then
      if index < slices.length then
        match slices.get? index, st.m_index_keeper.get? dim with
        | some s, some c =>
            let c1 := size_t_add c 1
            (f st.m_it (index - newaxis_count_before slices index)
                (to_size_t (s.step_size c1 1))).map
              (fun it => { st with m_it := it, m_index_keeper := st.m_index_keeper.set dim c1 })
        | _, _ => none
      else
        (f st.m_it (index - newaxis_count_before slices index) 1).map
          (fun it => { st with m_it := it })
    else some st
  else some st

/-- The method `xview_stepper::common_step_backward(dim, n, f)`: the counter of `dim` goes back
by `n` first, and then `step_size(slice, m_index_keeper[dim], n)`. -/
def xview_stepper.common_step_backward_n (st : xview_stepper) (dim n : Nat)
    (f : List Nat → Nat → Nat → Option (List Nat)) : Option xview_stepper :=
  let slices := st.p_view.m_slices
  if dim ≥ st.m_offset then
    let index := integral_skip slices dim
    if is_newaxis_slice slices index = false then
      if index < slices.length then
        match slices.get? index, st.m_index_keeper.get? dim with
        | some s, some c =>
            let c1 := size_t_sub c n
            (f st.m_it (index - newaxis_count_before slices index)
                (to_size_t (s.step_size c1 n))).map
              (fun it => { st with m_it := it, m_index_keeper := st.m_index_keeper.set dim c1 })
        | _, _ => none
      else
        (f st.m_it (index - newaxis_count_before slices index) n).map
          (fun it => { st with m_it := it })
    else some st
  else some st

/-- The method `xview_stepper::common_step_backward(dim, f)`: `m_index_keeper[dim]--` first, and
then `step_size(slice, m_index_keeper[dim], 1)`. -/
def xview_stepper.common_step_backward (st : xview_stepper) (dim : Nat)
    (f : List Nat → Nat → Nat → Option (List Nat)) : Option xview_stepper :=
  let slices := st.p_view.m_slices
  if dim ≥ st.m_offset then
    let index := integral_skip slices dim
    if is_newaxis_slice slices index = false then
      if index < slices.length then
        match slices.get? index, st.m_index_keeper.get? dim with
        | some s, some c =>
            let c1 := size_t_sub c 1
            (f st.m_it (index - newaxis_count_before slices index)
                (to_size_t (s.step_size c1 1))).map
              (fun it => { st with m_it := it, m_index_keeper := st.m_index_keeper.set dim c1 })
        | _, _ => none
      else
        (f st.m_it (index - newaxis_count_before slices index) 1).map
          (fun it => { st with m_it := it })
    else some st
  else some st

/-- The method `xview_stepper::common_reset(dim, f, backwards)`. -/
def xview_stepper.common_reset (st : xview_stepper) (dim : Nat)
    (f : List Nat → Nat → Nat → Option (List Nat)) (backwards : Bool) : Option xview_stepper :=
  let slices := st.p_view.m_slices
  let index := integral_skip slices dim
  if is_newaxis_slice slices index = false then
    match (if index < slices.length then (slices.get? index).map get_size
           else st.p_view.m_shape.get? dim) with
    | none => none
    | some sz =>
        let size := if sz ≠ 0 then sz - 1 else sz
        let keeper :=
          if dim < st.m_index_keeper.length then
            st.m_index_keeper.set dim (if backwards = true then sz else 0)
          else st.m_index_keeper
        match (if index < slices.length then
                 (slices.get? index).map (fun s =>
                   to_size_t (s.value (size_t_sub (get_size s) 1) - s.value 0))
               else some size) with
        | none => none
        | some reset_n =>
            (f st.m_it (index - newaxis_count_before slices index) reset_n).map
              (fun it => { st with m_it := it, m_index_keeper := keeper })
  else some st

/-- The method `xview_stepper::step(dim)`. -/
def xview_stepper.step (st : xview_stepper) (dim : Nat) : Option xview_stepper :=
  st.common_step_forward dim substepper_step

/-- The method `xview_stepper::step_back(dim)`. -/
def xview_stepper.step_back (st : xview_stepper) (dim : Nat) : Option xview_stepper :=
  st.common_step_backward dim substepper_step_back

/-- The method `xview_stepper::step(dim, n)`. -/
def xview_stepper.step_n (st : xview_stepper) (dim n : Nat) : Option xview_stepper :=
  st.common_step_forward_n dim n substepper_step

/-- The method `xview_stepper::step_back(dim, n)`. -/
def xview_stepper.step_back_n (st : xview_stepper) (dim n : Nat) : Option xview_stepper :=
  st.common_step_backward_n dim n substepper_step_back

/-- The method `xview_stepper::reset(dim)`. -/
def xview_stepper.reset (st : xview_stepper) (dim : Nat) : Option xview_stepper :=
  st.common_reset dim substepper_step_back false

/-- The method `xview_stepper::reset_back(dim)`. -/
def xview_stepper.reset_back (st : xview_stepper) (dim : Nat) : Option xview_stepper :=
  st.common_reset dim substepper_step true

/-- The method `xview_stepper::to_begin()`. -/
def xview_stepper.to_begin (st : xview_stepper) : xview_stepper :=
  { st with m_index_keeper := List.replicate st.m_index_keeper.length 0,
            m_it := substepper_begin st.p_view.m_e.shape }

/-- The method `xview_stepper::to_end(l)`: `m_it.to_end(l); to_end_impl(l);`. -/
def xview_stepper.to_end (st : xview_stepper) (l : layout_type) : Option xview_stepper :=
  match substepper_end st.p_view.m_e.shape l with
  | some it => xview_stepper.to_end_impl { st with m_it := it } l
  | none => none

/-- Modelled from the spec: the row-major odometer that drives a stepper
(`stepper_tools<layout_type::row_major>::increment_stepper` of `xiterator.hpp`), from axis
`i - 1` inwards to axis `0`: step on the innermost axis that has not reached its last index,
after a reset on the inner axes that have; when every axis has reached its last index, the
stepper goes to the end. The state is the multi-index `index` and the stepper. -/
def increment_stepper (shape : List Nat) :
    Nat → List Nat → xview_stepper → Option (List Nat × xview_stepper)
  | 0, _, st => (st.to_end .row_major).map (fun st1 => (shape, st1))
  | i + 1, index, st =>
      if index.getD i 0 ≠ size_t_sub (shape.getD i 0) 1 then
        (st.step i).map (fun st1 => (index.set i (index.getD i 0 + 1), st1))
      else if i ≠ 0 then
        match st.reset i with
        | some st1 => increment_stepper shape i (index.set i 0) st1
        | none => none
      else increment_stepper shape i (index.set i 0) st

/-- The values that a traversal dereferences: `n` times, the position of the stepper and then
one move of the odometer (none after the last). -/
def stepper_values (shape : List Nat) : Nat → List Nat → xview_stepper → Option (List (List Nat))
  | 0, _, _ => some []
  | n + 1, index, st =>
      if n = 0 then some [st.deref]
      else
        match increment_stepper shape shape.length index st with
        | some (index1, st1) => (stepper_values shape n index1 st1).map (fun r => st.deref :: r)
        | none => none

/-- The multi-indices of a shape, enumerated in row-major order. -/
def row_major_indices : List Nat → List (List Nat)
  | [] => [[]]
  | s :: shape => (List.range s).flatMap (fun i => (row_major_indices shape).map (fun I => i :: I))

/-! ## Index translation of a view with new-axis slices, as the spec states it -/

/-- The base multi-index that the spec gives for the view multi-index `I`, slice by slice: the
value of an integer; the entry of `I` at a new axis is ignored; any other slice is applied to the
next entry of `I`; the remaining entries of `I` go to the base axes past the slice list. -/
def spec_translate : List xview_slice → List Nat → List Nat
  | [], I => I
  | .integral v :: rest, I => to_size_t v :: spec_translate rest I
  | .xnewaxis :: rest, I => spec_translate rest I.tail
  | s :: rest, I => to_size_t (s.value (I.headD 0)) :: spec_translate rest I.tail

/-- The base axis on which view axis `dim` moves: the position of its slice in the slice list
(`integral_skip<S...>(dim)`) less the new-axis slices before it, the value of `index` that
`xview_stepper` passes to the stepper of the underlying expression. -/
def base_axis (slices : List xview_slice) (dim : Nat) : Nat :=
  integral_skip slices dim - newaxis_count_before slices (integral_skip slices dim)

/-! ## The flat adaptor of an expression without storage, and the general path of `xview` -/

/-- Modelled from the spec: `compute_size(shape)` of `xstrides.hpp`, and the method `size()` of an
expression: the number of elements, the product of the sizes of the axes. -/
def compute_size (shape : List Nat) : Nat := shape.prod

/-- Modelled from the spec: `default_assignable_layout(l)` of `xlayout.hpp`: `l` when it is
row-major or column-major, and the fallback `XTENSOR_DEFAULT_LAYOUT` otherwise, as the comment
in the constructor of `flat_expression_adaptor` says. The macro is the parameter
`default_layout`. -/
def default_assignable_layout (default_layout : layout_type) (l : layout_type) : layout_type :=
  match l with
  | .row_major => .row_major
  | .column_major => .column_major
  | .dynamic => default_layout

/-- The strides of a row-major container as `std::size_t` values: the stride of an axis is the
product of the sizes of the axes after it, and `0` on an axis of size `1`. -/
def row_major_strides_size_t : List Nat → List Nat
  | [] => []
  | s :: shape => (if s = 1 then 0 else shape.prod) :: row_major_strides_size_t shape

/-- The strides of a column-major container whose first stride is `acc`, as `std::size_t`
values, with `0` on an axis of size `1`. -/
def column_major_strides_size_t (acc : Nat) : List Nat → List Nat
  | [] => []
  | s :: shape => (if s = 1 then 0 else acc) :: column_major_strides_size_t (acc * s) shape

/-- Modelled from the spec: `compute_strides(shape, l, strides)` of `xstrides.hpp`: the strides
of a container of the given shape in the layout `l`, the product of the sizes of the inner axes
(the axes after for row-major, the axes before for column-major), with the stride of an axis of
size `1` set to `0`, which xview.hpp calls the convention of the rest of the library. For
another layout the strides stay `0`. -/
def compute_strides (shape : List Nat) (l : layout_type) : List Nat :=
  match l with
  | .row_major => row_major_strides_size_t shape
  | .column_major => column_major_strides_size_t 1 shape
  | .dynamic => List.replicate shape.length 0

/-- The divide and modulo chain of `unravel` from the first axis to the last: the index on an
axis is the quotient of the position by the stride of the axis, and the position goes on as
the remainder; an axis whose stride is `0` has the index `0`. -/
def unravel_row_major (idx : Nat) : List Nat → List Nat
  | [] => []
  | str :: strides =>
      (if str ≠ 0 then idx / str else 0)
        :: unravel_row_major (if str ≠ 0 then idx % str else idx) strides

/-- The divide and modulo chain of `unravel` from the last axis to the first: the result is the
position that remains after the chain and the indices of the axes. -/
def unravel_column_major (idx : Nat) : List Nat → Nat × List Nat
  | [] => (idx, [])
  | str :: strides =>
      let r := unravel_column_major idx strides
      (if str ≠ 0 then r.1 % str else r.1, (if str ≠ 0 then r.1 / str else 0) :: r.2)

/-- Modelled from the spec: `detail::unravel_noexcept(idx, strides, l)` of `xstrides.hpp`, the
`unravel` of the spec: the multi-index of the flat position `idx` by a divide and modulo chain
over the strides, from the first axis for row-major and from the last axis otherwise. -/
def unravel_noexcept (idx : Nat) (strides : List Nat) (l : layout_type) : List Nat :=
  match l with
  | .row_major => unravel_row_major idx strides
  | _ => (unravel_column_major idx strides).2

/-- The data members of `detail::flat_expression_adaptor`: the expression, the strides, the size
and the layout (the member `m_index` is a buffer for the result of `unravel`). -/
structure flat_expression_adaptor where
  m_e : xexpression
  m_strides : List Nat
  m_size : Nat
  m_layout : layout_type
  deriving DecidableEq, Repr

/-- The constructor `flat_expression_adaptor(CT* e)`: the size is `compute_size(m_e->shape())`,
the layout is `default_assignable_layout(m_e->layout())` and the strides are those of
`compute_strides(m_e->shape(), m_layout, m_strides)`. -/
def flat_expression_adaptor.construct (default_layout : layout_type) (e : xexpression) :
    flat_expression_adaptor :=
  let m_layout := default_assignable_layout default_layout e.layout
  { m_e := e, m_strides := compute_strides e.shape m_layout, m_size := compute_size e.shape,
    m_layout := m_layout }

/-- The constructor `flat_expression_adaptor(CT* e, FST&& strides, layout_type layout)`: the
strides and the layout are the arguments and the size is `m_e->size()`. -/
def flat_expression_adaptor.construct_strides (e : xexpression) (strides : List Nat)
    (layout : layout_type) : flat_expression_adaptor :=
  { m_e := e, m_strides := strides, m_size := compute_size e.shape, m_layout := layout }

/-- The method `flat_expression_adaptor::size()`. -/
def flat_expression_adaptor.size (a : flat_expression_adaptor) : Nat := a.m_size

/-- The method `flat_expression_adaptor::operator[](idx)`:
`m_index = detail::unravel_noexcept(idx, m_strides, m_layout)` and then
`m_e->element(m_index.cbegin(), m_index.cend())`; the result is the multi-index at which the
element of the expression is read. -/
def flat_expression_adaptor.at_flat (a : flat_expression_adaptor) (idx : Nat) : List Nat :=
  unravel_noexcept idx a.m_strides a.m_layout

/-- The general initializer of `xview` followed by `compute_strides(std::false_type)`: the shape
of `compute_shape(std::false_type)`, and the strides, the backstrides and the data offset of
`compute_strides(std::false_type)`, which calls `data_offset_impl`. -/
def xview.general_path (e : xexpression) (slices : List xview_slice) : Option xview :=
  match compute_shape e.shape slices with
  | some m_shape =>
      xview.compute_strides
        { m_e := e, m_slices := slices, m_shape := m_shape, m_strides := [],
          m_backstrides := [], m_data_offset := 0, m_strides_computed := false }
  | none => none

/-- The slice list of an `xview` and the slice list of a strided view say the same, on base
axes of the sizes `sh`: integer for integer with the same value, new axis for new axis, all for
all (the all-slice of the view has the size of its axis), and a range of the view for a range
adaptor that resolves, on its axis, to the start, the size and the step of the range of the
view (step `1` for a range without a step); the size of a range is a `std::size_t` value. -/
def slices_correspond : List Nat → List xview_slice → List xstrided_slice → Prop
  | _, [], [] => True
  | sh, .integral v :: vs, .integer w :: ss => v = w ∧ slices_correspond sh.tail vs ss
  | sh, .xnewaxis :: vs, .newaxis :: ss => slices_correspond sh vs ss
  | sh, .xall n :: vs, .all :: ss => n = sh.headD 0 ∧ slices_correspond sh.tail vs ss
  | sh, .xrange start size :: vs, .range r :: ss =>
      (r.get (sh.headD 0) = (start, size, 1) ∧ 0 ≤ size ∧ size < 2 ^ 64)
        ∧ slices_correspond sh.tail vs ss
  | sh, .xstepped_range start size step :: vs, .range r :: ss =>
      (r.get (sh.headD 0) = (start, size, step) ∧ 0 ≤ size ∧ size < 2 ^ 64)
        ∧ slices_correspond sh.tail vs ss
  | _, _, _ => False

/-- The flat position of a multi-index under strides, the sum of `I[k] * strides[k]` over the
axes `k`, in the words of the round trip of the flat adaptor. -/
def flat_position : List Nat → List Nat → Nat
  | i :: I, s :: strides => i * s + flat_position I strides
  | _, _ => 0

/-! ## Lemmas: counting the slices -/

theorem length_eq_counts (ss : List xstrided_slice) :
    ss.length = n_consuming ss + n_newaxis ss + n_ellipsis ss := by
  induction ss with
  | nil => rfl
  | cons sl rest ih => cases sl <;> simp [n_consuming, n_newaxis, n_ellipsis, ih] <;> omega

theorem n_integer_le_consuming (ss : List xstrided_slice) : n_integer ss ≤ n_consuming ss := by
  induction ss with
  | nil => simp [n_integer, n_consuming]
  | cons sl rest ih => cases sl <;> simp [n_consuming, n_integer] <;> omega

theorem count_slices_eq (ss : List xstrided_slice) (c : dimension_count) :
    count_slices c ss =
      if (c.has_ellipsis = true ∧ 1 ≤ n_ellipsis ss) ∨ 2 ≤ n_ellipsis ss then
        .error .ellipsis_can_only_appear_once
      else
        .ok { dimension := c.dimension + n_newaxis ss - n_integer ss,
              n_newaxis := c.n_newaxis + n_newaxis ss,
              dimension_check := c.dimension_check - n_consuming ss,
              has_ellipsis := c.has_ellipsis || decide (1 ≤ n_ellipsis ss) } := by
  induction ss generalizing c with
  | nil => simp [count_slices, n_ellipsis, n_newaxis, n_integer, n_consuming]
  | cons sl rest ih =>
    cases sl with
    | integer v =>
      simp only [count_slices, count_slice, ih, n_ellipsis, n_newaxis, n_integer, n_consuming]
      split_ifs <;> simp <;> omega
    | range r =>
      simp only [count_slices, count_slice, ih, n_ellipsis, n_newaxis, n_integer, n_consuming]
      split_ifs <;> simp <;> omega
    | all =>
      simp only [count_slices, count_slice, ih, n_ellipsis, n_newaxis, n_integer, n_consuming]
      split_ifs <;> simp <;> omega
    | newaxis =>
      simp only [count_slices, count_slice, ih, n_ellipsis, n_newaxis, n_integer, n_consuming]
      split_ifs <;> simp <;> omega
    | ellipsis =>
      simp only [count_slices, count_slice, n_ellipsis, n_newaxis, n_integer, n_consuming]
      by_cases h : c.has_ellipsis = true
      · simp [h]
      · simp only [h, if_false, ih]
        simp
        split_ifs <;> simp_all


theorem read_at_drop {α : Type} (v : List α) (i : Nat) (d : α) (h : i < v.length) :
    read_at v i = .ok ((v.drop i).headD d) := by
  unfold read_at
  have h1 : v.get? i = some (v.get ⟨i, h⟩) := List.get?_eq_get h
  rw [h1]
  have h2 : v.drop i = v.get ⟨i, h⟩ :: v.drop (i + 1) := by
    simp
  rw [h2]
  rfl

theorem write_at_fill {α : Type} (P : List α) (k : Nat) (z x : α) (v : List α) (i : Nat)
    (hv : v = P ++ List.replicate (k + 1) z) (hi : P.length = i) :
    write_at v i x = .ok ((P ++ [x]) ++ List.replicate k z) := by
  subst hv; subst hi
  unfold write_at
  have : P.length < (P ++ List.replicate (k + 1) z).length := by simp
  rw [if_pos this]
  simp [List.replicate_succ]

theorem tail_drop {α : Type} (v : List α) (i : Nat) : (v.drop i).tail = v.drop (i + 1) := by
  simp [List.tail_drop]

theorem drop_cons_headD {α : Type} (v : List α) (i : Nat) (d : α) (h : i < v.length) :
    v.drop i = (v.drop i).headD d :: v.drop (i + 1) := by
  have e := List.drop_eq_getElem_cons h
  rw [e]
  rfl

theorem copy_axes_spec (shape : List Nat) (strides : List Int) (n : Nat) :
    ∀ (i_ax : Nat) (st : walk_state) (P : List Nat) (Q : List Int) (k : Nat),
      st.new_shape = P ++ List.replicate (n + k) 0 →
      st.new_strides = Q ++ List.replicate (n + k) 0 →
      P.length = st.idx → Q.length = st.idx →
      i_ax + n ≤ shape.length → i_ax + n ≤ strides.length →
      copy_axes shape strides n i_ax st = .ok
        { st with
          new_shape := P ++ (shape.drop i_ax).take n ++ List.replicate k 0,
          new_strides := Q ++ (strides.drop i_ax).take n ++ List.replicate k 0,
          idx := st.idx + n,
          assigned := st.assigned ++ List.range' st.idx n } := by
  induction n with
  | zero =>
    intro i_ax st P Q k h1 h2 _ _ _ _
    cases st
    simp_all [copy_axes]
  | succ m ih =>
    intro i_ax st P Q k h1 h2 hP hQ hs hd
    have hs1 : i_ax < shape.length := by omega
    have hd1 : i_ax < strides.length := by omega
    have e1 : m + 1 + k = (m + k) + 1 := by omega
    rw [e1] at h1 h2
    unfold copy_axes
    simp only [read_at_drop shape i_ax 0 hs1, read_at_drop strides i_ax 0 hd1,
      write_at_fill P (m + k) 0 _ st.new_shape st.idx h1 hP,
      write_at_fill Q (m + k) 0 _ st.new_strides st.idx h2 hQ, bind, Except.bind]
    rw [ih (i_ax + 1) _ (P ++ [(shape.drop i_ax).headD 0]) (Q ++ [(strides.drop i_ax).headD 0]) k
      rfl rfl (by simp [hP]) (by simp [hQ]) (by omega) (by omega)]
    have a1 := drop_cons_headD shape i_ax 0 hs1
    have a2 := drop_cons_headD strides i_ax 0 hd1
    generalize (shape.drop i_ax).headD 0 = x at a1 ⊢
    generalize (strides.drop i_ax).headD 0 = y at a2 ⊢
    rw [a1, a2]
    simp [Nat.add_assoc, List.range'_succ]
    omega


theorem out_shape_length (n : Nat) (ss : List xstrided_slice) :
    ∀ (sh : List Nat), taken n ss ≤ sh.length →
      (out_shape n sh ss).length = taken n ss + n_newaxis ss - n_integer ss
        ∧ n_integer ss ≤ taken n ss := by
  induction ss with
  | nil => intro sh _; simp [out_shape, taken, n_newaxis, n_integer]
  | cons sl rest ih =>
    intro sh h
    cases sl with
    | integer v =>
      simp only [taken, axes_taken] at h
      have := ih sh.tail (by simp; omega)
      simp only [out_shape, taken, axes_taken, n_newaxis, n_integer]
      omega
    | range r =>
      simp only [taken, axes_taken] at h
      have := ih sh.tail (by simp; omega)
      simp only [out_shape, taken, axes_taken, n_newaxis, n_integer, List.length_cons]
      omega
    | all =>
      simp only [taken, axes_taken] at h
      have := ih sh.tail (by simp; omega)
      simp only [out_shape, taken, axes_taken, n_newaxis, n_integer, List.length_cons]
      omega
    | newaxis =>
      simp only [taken, axes_taken] at h
      have := ih sh (by omega)
      simp only [out_shape, taken, axes_taken, n_newaxis, n_integer, List.length_cons]
      omega
    | ellipsis =>
      simp only [taken, axes_taken] at h
      have := ih (sh.drop n) (by simp; omega)
      simp only [out_shape, taken, axes_taken, n_newaxis, n_integer, List.length_append,
        List.length_take]
      omega

theorem out_strides_length (n : Nat) (ss : List xstrided_slice) :
    ∀ (sh : List Nat) (sd : List Int), taken n ss ≤ sh.length → taken n ss ≤ sd.length →
      (out_strides n sh sd ss).length = (out_shape n sh ss).length := by
  induction ss with
  | nil => intro sh sd _ _; simp [out_shape, out_strides]
  | cons sl rest ih =>
    intro sh sd h1 h2
    cases sl with
    | integer v =>
      simp only [taken, axes_taken] at h1 h2
      simpa [out_shape, out_strides] using ih sh.tail sd.tail (by simp; omega) (by simp; omega)
    | range r =>
      simp only [taken, axes_taken] at h1 h2
      simpa [out_shape, out_strides] using ih sh.tail sd.tail (by simp; omega) (by simp; omega)
    | all =>
      simp only [taken, axes_taken] at h1 h2
      simpa [out_shape, out_strides] using ih sh.tail sd.tail (by simp; omega) (by simp; omega)
    | newaxis =>
      simp only [taken, axes_taken] at h1 h2
      simpa [out_shape, out_strides] using ih sh sd (by omega) (by omega)
    | ellipsis =>
      simp only [taken, axes_taken] at h1 h2
      have := ih (sh.drop n) (sd.drop n) (by simp; omega) (by simp; omega)
      simp only [out_shape, out_strides, List.length_append, List.length_take, this]
      omega

theorem take_drop_all {α : Type} (v : List α) (t m : Nat) (h : v.length ≤ m + t) :
    (v.drop t).take m = v.drop t := by
  apply List.take_of_length_le
  simp
  omega

theorem walk_slices_spec (shape : List Nat) (strides : List Int) (n : Nat)
    (ss : List xstrided_slice) :
    ∀ (i : Nat) (st : walk_state) (P : List Nat) (Q : List Int) (k a : Nat),
      st.new_shape = P ++ List.replicate ((out_shape n (shape.drop a) ss).length + k) 0 →
      st.new_strides = Q ++ List.replicate ((out_shape n (shape.drop a) ss).length + k) 0 →
      P.length = st.idx → Q.length = st.idx →
      (i : Int) - st.axis_skip = (a : Int) →
      a + taken n ss ≤ shape.length → a + taken n ss ≤ strides.length →
      walk_slices shape strides n i ss st = .ok
        { new_offset :=
            offset_after st.new_offset (out_addends n (shape.drop a) (strides.drop a) ss),
          new_shape := P ++ out_shape n (shape.drop a) ss ++ List.replicate k 0,
          new_strides :=
            Q ++ out_strides n (shape.drop a) (strides.drop a) ss ++ List.replicate k 0,
          axis_skip := ((i + ss.length : Nat) : Int) - ((a + taken n ss : Nat) : Int),
          idx := st.idx + (out_shape n (shape.drop a) ss).length,
          assigned := st.assigned ++ List.range' st.idx (out_shape n (shape.drop a) ss).length } := by
  induction ss with
  | nil =>
    intro i st P Q k a h1 h2 _ _ hi _ _
    obtain ⟨off, ns, nst, sk, idx, asg⟩ := st
    simp only [out_shape, List.length_nil, Nat.zero_add] at h1 h2
    simp only at hi
    simp only [walk_slices, out_shape, out_strides, out_addends, offset_after, taken,
      List.append_nil, List.length_nil, Nat.add_zero, h1, h2, List.range'_zero]
    congr 2
    omega
  | cons sl rest ih =>
    intro i st P Q k a h1 h2 hP hQ hi hs hd
    obtain ⟨off, ns, nst, sk, idx, asg⟩ := st
    simp only at h1 h2 hP hQ hi
    have hiax : ((i : Int) - sk).toNat = a := by omega
    cases sl with
    | integer v =>
      simp only [taken, axes_taken] at hs hd
      have hd1 : a < strides.length := by omega
      simp only [out_shape, tail_drop] at h1 h2
      simp only [walk_slices, walk_slice, hiax, read_at_drop strides a 0 hd1, bind, Except.bind,
        pure, Except.pure]
      rw [ih (i + 1) _ P Q k (a + 1) h1 h2 hP hQ (by simp only; push_cast; omega)
        (by omega) (by omega)]
      simp only [out_shape, out_strides, out_addends, offset_after, taken, axes_taken, tail_drop,
        List.length_cons]
      congr 2
      push_cast
      omega
    | newaxis =>
      simp only [taken, axes_taken] at hs hd
      simp only [out_shape, List.length_cons] at h1 h2
      have e1 : (out_shape n (shape.drop a) rest).length + 1 + k
          = ((out_shape n (shape.drop a) rest).length + k) + 1 := by omega
      rw [e1] at h1 h2
      simp only [walk_slices, walk_slice, write_at_fill P _ 0 1 ns idx h1 hP, bind, Except.bind,
        pure, Except.pure]
      have h2a : nst = (Q ++ [0]) ++ List.replicate ((out_shape n (shape.drop a) rest).length + k) 0 := by
        rw [h2]; simp [List.replicate_succ]
      rw [ih (i + 1) _ (P ++ [1]) (Q ++ [0]) k a rfl h2a (by simp [hP]) (by simp [hQ])
        (by simp only; push_cast; omega) (by omega) (by omega)]
      simp only [out_shape, out_strides, out_addends, offset_after, taken, axes_taken,
        List.length_cons, List.append_assoc, List.singleton_append]
      congr 2
      · push_cast; omega
      · omega
    | all =>
      simp only [taken, axes_taken] at hs hd
      have hs1 : a < shape.length := by omega
      have hd1 : a < strides.length := by omega
      simp only [out_shape, List.length_cons, tail_drop] at h1 h2
      have e1 : (out_shape n (shape.drop (a + 1)) rest).length + 1 + k
          = ((out_shape n (shape.drop (a + 1)) rest).length + k) + 1 := by omega
      rw [e1] at h1 h2
      simp only [walk_slices, walk_slice, hiax, read_at_drop strides a 0 hd1,
        read_at_drop shape a 0 hs1, write_at_fill P _ 0 _ ns idx h1 hP,
        write_at_fill Q _ 0 _ nst idx h2 hQ, bind, Except.bind, pure, Except.pure]
      rw [ih (i + 1) _ (P ++ [(shape.drop a).headD 0]) (Q ++ [(strides.drop a).headD 0]) k (a + 1)
        rfl rfl (by simp [hP]) (by simp [hQ])
        (by simp only; push_cast; omega) (by omega) (by omega)]
      simp only [out_shape, out_strides, out_addends, offset_after, taken, axes_taken, tail_drop,
        List.length_cons, List.append_assoc, List.singleton_append]
      congr 2
      · push_cast; omega
      · omega
    | range r =>
      simp only [taken, axes_taken] at hs hd
      have hs1 : a < shape.length := by omega
      have hd1 : a < strides.length := by omega
      simp only [out_shape, List.length_cons, tail_drop] at h1 h2
      have e1 : (out_shape n (shape.drop (a + 1)) rest).length + 1 + k
          = ((out_shape n (shape.drop (a + 1)) rest).length + k) + 1 := by omega
      rw [e1] at h1 h2
      simp only [walk_slices, walk_slice, hiax, read_at_drop strides a 0 hd1,
        read_at_drop shape a 0 hs1, write_at_fill P _ 0 _ ns idx h1 hP,
        write_at_fill Q _ 0 _ nst idx h2 hQ, bind, Except.bind, pure, Except.pure]
      rw [ih (i + 1) _ (P ++ [to_size_t (r.get ((shape.drop a).headD 0)).2.1])
        (Q ++ [(r.get ((shape.drop a).headD 0)).2.2 * (strides.drop a).headD 0]) k (a + 1)
        rfl rfl (by simp [hP]) (by simp [hQ])
        (by simp only; push_cast; omega) (by omega) (by omega)]
      simp only [out_shape, out_strides, out_addends, offset_after, taken, axes_taken, tail_drop,
        List.length_cons, List.append_assoc, List.singleton_append]
      congr 2
      · push_cast; omega
      · omega
    | ellipsis =>
      simp only [taken, axes_taken] at hs hd
      have hlen : ((shape.drop a).take n).length = n := by simp; omega
      simp only [out_shape, List.length_append, hlen, List.drop_drop] at h1 h2
      have e1 : n + (out_shape n (shape.drop (a + n)) rest).length + k
          = n + ((out_shape n (shape.drop (a + n)) rest).length + k) := by omega
      rw [e1] at h1 h2
      simp only [walk_slices, walk_slice, hiax, bind, Except.bind, pure, Except.pure]
      rw [copy_axes_spec shape strides n a _ P Q _ h1 h2 hP hQ (by omega) (by omega)]
      simp only
      have hQlen : ((strides.drop a).take n).length = n := by simp; omega
      rw [ih (i + 1) _ (P ++ (shape.drop a).take n) (Q ++ (strides.drop a).take n) k (a + n)
        rfl rfl (by simp [hP, hlen]) (by simp [hQ, hQlen])
        (by simp only; push_cast; omega) (by omega) (by omega)]
      simp only [out_shape, out_strides, out_addends, offset_after, taken, axes_taken,
        List.length_cons, List.append_assoc, List.length_append, hlen, List.drop_drop]
      congr 2
      · push_cast; omega
      · omega
      · rw [List.range'_append_1, Nat.add_comm]


theorem taken_eq (n : Nat) (ss : List xstrided_slice) :
    taken n ss = n_consuming ss + n * n_ellipsis ss := by
  induction ss with
  | nil => simp [taken, n_consuming, n_ellipsis]
  | cons sl rest ih =>
    cases sl <;> simp only [taken, axes_taken, n_consuming, n_ellipsis, ih] <;> ring

theorem taken_le_of_accepted (N : Nat) (ss : List xstrided_slice)
    (h1 : n_ellipsis ss ≤ 1) (h2 : n_consuming ss ≤ N) :
    taken (n_add_all N ss) ss ≤ N
      ∧ (1 ≤ n_ellipsis ss → taken (n_add_all N ss) ss = N)
      ∧ (n_ellipsis ss = 0 → taken (n_add_all N ss) ss = n_consuming ss) := by
  have hl := length_eq_counts ss
  rw [taken_eq]
  unfold n_add_all
  by_cases h : 1 ≤ n_ellipsis ss
  · have h3 : n_ellipsis ss = 1 := by omega
    rw [if_pos h, h3]
    have : ss.length - 1 - n_newaxis ss = n_consuming ss := by omega
    rw [this]
    refine ⟨by omega, fun _ => by omega, fun h0 => by omega⟩
  · have h3 : n_ellipsis ss = 0 := by omega
    rw [if_neg h, h3]
    refine ⟨by omega, fun h0 => by omega, fun _ => by omega⟩


theorem fill_args_walk_eq (shape : List Nat) (strides : List Int) (off : Nat)
    (ss : List xstrided_slice) (hlen : strides.length = shape.length) :
    fill_args_walk shape strides off ss =
      if 2 ≤ n_ellipsis ss then .error .ellipsis_can_only_appear_once
      else if shape.length < n_consuming ss then .error .too_many_slices_for_view
      else .ok (walk_result shape strides off ss) := by
  unfold fill_args_walk
  rw [count_slices_eq]
  by_cases hE : 2 ≤ n_ellipsis ss
  · simp [hE, bind, Except.bind]
  · have hE1 : n_ellipsis ss ≤ 1 := by omega
    simp only [hE, or_false, Bool.false_eq_true, false_and, if_false, bind, Except.bind,
      Bool.false_or]
    by_cases hC : shape.length < n_consuming ss
    · have : ((shape.length : Int) - (n_consuming ss : Int) < 0) := by omega
      simp [this, hC, throw, throwThe, MonadExceptOf.throw]
    · have hC1 : n_consuming ss ≤ shape.length := by omega
      have hneg : ¬ ((shape.length : Int) - (n_consuming ss : Int) < 0) := by omega
      have hint := n_integer_le_consuming ss
      obtain ⟨ht, _, _⟩ := taken_le_of_accepted shape.length ss hE1 hC1
      have hna : (if decide (1 ≤ n_ellipsis ss) = true then
          shape.length - (ss.length - 1 - (0 + n_newaxis ss)) else 0)
            = n_add_all shape.length ss := by
        unfold n_add_all; simp
      simp only [hneg, hC, if_false, pure, Except.pure, hna]
      obtain ⟨hol, hin⟩ := out_shape_length (n_add_all shape.length ss) ss shape ht
      have hdim : ((shape.length : Int) + (n_newaxis ss : Int) - (n_integer ss : Int)).toNat
          = (out_shape (n_add_all shape.length ss) (shape.drop 0) ss).length
            + (shape.length - taken (n_add_all shape.length ss) ss) := by
        rw [List.drop_zero, hol]; omega
      rw [hdim]
      rw [walk_slices_spec shape strides (n_add_all shape.length ss) ss 0 _ [] []
        (shape.length - taken (n_add_all shape.length ss) ss) 0
        (by simp) (by simp) rfl rfl (by simp) (by omega) (by omega)]
      simp only [List.drop_zero, List.nil_append, Nat.zero_add]
      have hax : (((ss.length : Int))
          - (((ss.length : Nat) : Int) - ((taken (n_add_all shape.length ss) ss : Nat) : Int))).toNat
          = taken (n_add_all shape.length ss) ss := by omega
      rw [hax]
      rw [copy_axes_spec shape strides (shape.length - taken (n_add_all shape.length ss) ss)
        (taken (n_add_all shape.length ss) ss) _
        (out_shape (n_add_all shape.length ss) shape ss)
        (out_strides (n_add_all shape.length ss) shape strides ss) 0
        (by simp) (by simp) (by simp)
        (by simpa using out_strides_length _ ss shape strides ht (by omega))
        (by omega) (by omega)]
      rw [take_drop_all shape _ _ (by omega), take_drop_all strides _ _ (by omega)]
      simp only [walk_result, List.append_nil, List.replicate_zero, List.length_append,
        List.length_drop, List.range_eq_range']
      congr 2
      have hr := List.range'_append_1 0
        (out_shape (n_add_all shape.length ss) shape ss).length
        (shape.length - taken (n_add_all shape.length ss) ss)
      simp only [Nat.zero_add] at hr
      rw [hr, Nat.add_comm]

theorem fill_args_eq (dsm : List Nat → List Int → layout_type → Bool)
    (shape : List Nat) (strides : List Int) (off : Nat) (layout : layout_type)
    (ss : List xstrided_slice) (hlen : strides.length = shape.length) :
    fill_args dsm shape strides off layout ss =
      if 2 ≤ n_ellipsis ss then .error .ellipsis_can_only_appear_once
      else if shape.length < n_consuming ss then .error .too_many_slices_for_view
      else .ok (view_geometry dsm shape strides off layout ss) := by
  unfold fill_args
  rw [fill_args_walk_eq shape strides off ss hlen]
  split_ifs <;> simp [bind, Except.bind, pure, Except.pure, view_geometry]

/-! ## Lemmas: slice lists put together -/

theorem n_integer_append (xs ys : List xstrided_slice) :
    n_integer (xs ++ ys) = n_integer xs + n_integer ys := by
  induction xs with
  | nil => simp [n_integer]
  | cons sl rest ih => cases sl <;> simp [n_integer, ih] <;> omega

theorem n_newaxis_append (xs ys : List xstrided_slice) :
    n_newaxis (xs ++ ys) = n_newaxis xs + n_newaxis ys := by
  induction xs with
  | nil => simp [n_newaxis]
  | cons sl rest ih => cases sl <;> simp [n_newaxis, ih] <;> omega

theorem n_ellipsis_append (xs ys : List xstrided_slice) :
    n_ellipsis (xs ++ ys) = n_ellipsis xs + n_ellipsis ys := by
  induction xs with
  | nil => simp [n_ellipsis]
  | cons sl rest ih => cases sl <;> simp [n_ellipsis, ih] <;> omega

theorem n_consuming_append (xs ys : List xstrided_slice) :
    n_consuming (xs ++ ys) = n_consuming xs + n_consuming ys := by
  induction xs with
  | nil => simp [n_consuming]
  | cons sl rest ih => cases sl <;> simp [n_consuming, ih] <;> omega

theorem taken_append (n : Nat) (xs ys : List xstrided_slice) :
    taken n (xs ++ ys) = taken n xs + taken n ys := by
  induction xs with
  | nil => simp [taken]
  | cons sl rest ih => simp [taken, ih, Nat.add_assoc]

theorem drop_of_tail {α : Type} (v : List α) (t : Nat) : v.tail.drop t = v.drop (1 + t) := by
  cases v with
  | nil => simp
  | cons x xs => simp [Nat.add_comm 1 t]

theorem drop_of_drop {α : Type} (v : List α) (n t : Nat) :
    (v.drop n).drop t = v.drop (n + t) := by
  rw [List.drop_drop, Nat.add_comm]

theorem out_shape_append (n : Nat) (xs ys : List xstrided_slice) :
    ∀ sh : List Nat,
      out_shape n sh (xs ++ ys) = out_shape n sh xs ++ out_shape n (sh.drop (taken n xs)) ys := by
  induction xs with
  | nil => intro sh; simp [out_shape, taken]
  | cons sl rest ih =>
    intro sh
    cases sl <;>
      simp only [List.cons_append, out_shape, taken, axes_taken, ih, drop_of_tail, drop_of_drop,
        List.append_assoc, Nat.zero_add, List.append_eq]

theorem out_strides_append (n : Nat) (xs ys : List xstrided_slice) :
    ∀ (sh : List Nat) (sd : List Int),
      out_strides n sh sd (xs ++ ys) =
        out_strides n sh sd xs
          ++ out_strides n (sh.drop (taken n xs)) (sd.drop (taken n xs)) ys := by
  induction xs with
  | nil => intro sh sd; simp [out_strides, taken]
  | cons sl rest ih =>
    intro sh sd
    cases sl <;>
      simp only [List.cons_append, out_strides, taken, axes_taken, ih, drop_of_tail, drop_of_drop,
        List.append_assoc, Nat.zero_add, List.append_eq]

theorem out_addends_append (n : Nat) (xs ys : List xstrided_slice) :
    ∀ (sh : List Nat) (sd : List Int),
      out_addends n sh sd (xs ++ ys) =
        out_addends n sh sd xs
          ++ out_addends n (sh.drop (taken n xs)) (sd.drop (taken n xs)) ys := by
  induction xs with
  | nil => intro sh sd; simp [out_addends, taken]
  | cons sl rest ih =>
    intro sh sd
    cases sl <;>
      simp only [List.cons_append, out_addends, taken, axes_taken, ih, drop_of_tail, drop_of_drop,
        List.append_assoc, Nat.zero_add, List.append_eq]

theorem offset_after_append (off : Nat) (xs ys : List Int) :
    offset_after off (xs ++ ys) = offset_after (offset_after off xs) ys := by
  induction xs generalizing off with
  | nil => simp [offset_after]
  | cons x rest ih => simp [offset_after, ih]

/-! ### Lists without an ellipsis do not depend on `n_add_all` -/

theorem taken_no_ellipsis (n : Nat) (ss : List xstrided_slice) (h : n_ellipsis ss = 0) :
    taken n ss = n_consuming ss := by
  rw [taken_eq, h]; simp

theorem out_shape_no_ellipsis (n m : Nat) (ss : List xstrided_slice) (h : n_ellipsis ss = 0) :
    ∀ sh : List Nat, out_shape n sh ss = out_shape m sh ss := by
  induction ss with
  | nil => intro sh; simp [out_shape]
  | cons sl rest ih =>
    intro sh
    cases sl <;> simp_all [out_shape, n_ellipsis]

theorem out_strides_no_ellipsis (n m : Nat) (ss : List xstrided_slice) (h : n_ellipsis ss = 0) :
    ∀ (sh : List Nat) (sd : List Int), out_strides n sh sd ss = out_strides m sh sd ss := by
  induction ss with
  | nil => intro sh sd; simp [out_strides]
  | cons sl rest ih =>
    intro sh sd
    cases sl <;> simp_all [out_strides, n_ellipsis]

theorem out_addends_no_ellipsis (n m : Nat) (ss : List xstrided_slice) (h : n_ellipsis ss = 0) :
    ∀ (sh : List Nat) (sd : List Int), out_addends n sh sd ss = out_addends m sh sd ss := by
  induction ss with
  | nil => intro sh sd; simp [out_addends]
  | cons sl rest ih =>
    intro sh sd
    cases sl <;> simp_all [out_addends, n_ellipsis]

/-! ### Runs of `all` slices -/

theorem n_integer_replicate_all (k : Nat) : n_integer (List.replicate k .all) = 0 := by
  induction k with
  | zero => rfl
  | succ k ih => simpa [List.replicate_succ, n_integer] using ih

theorem n_newaxis_replicate_all (k : Nat) : n_newaxis (List.replicate k .all) = 0 := by
  induction k with
  | zero => rfl
  | succ k ih => simpa [List.replicate_succ, n_newaxis] using ih

theorem n_ellipsis_replicate_all (k : Nat) : n_ellipsis (List.replicate k .all) = 0 := by
  induction k with
  | zero => rfl
  | succ k ih => simpa [List.replicate_succ, n_ellipsis] using ih

theorem n_consuming_replicate_all (k : Nat) : n_consuming (List.replicate k .all) = k := by
  induction k with
  | zero => rfl
  | succ k ih => simpa [List.replicate_succ, n_consuming] using ih

theorem taken_replicate_all (n k : Nat) : taken n (List.replicate k .all) = k := by
  rw [taken_no_ellipsis n _ (n_ellipsis_replicate_all k), n_consuming_replicate_all]

theorem headD_cons_tail_take {α : Type} (v : List α) (d : α) (k : Nat) (h : k + 1 ≤ v.length) :
    v.headD d :: v.tail.take k = v.take (k + 1) := by
  cases v with
  | nil => simp at h
  | cons x xs => simp

theorem out_shape_replicate_all (n k : Nat) :
    ∀ sh : List Nat, k ≤ sh.length → out_shape n sh (List.replicate k .all) = sh.take k := by
  induction k with
  | zero => intro sh _; simp [out_shape]
  | succ k ih =>
    intro sh h
    have h1 : k ≤ sh.tail.length := by simp; omega
    rw [List.replicate_succ, out_shape, ih sh.tail h1, headD_cons_tail_take sh 0 k h]

theorem out_strides_replicate_all (n k : Nat) :
    ∀ (sh : List Nat) (sd : List Int), k ≤ sd.length →
      out_strides n sh sd (List.replicate k .all) = sd.take k := by
  induction k with
  | zero => intro sh sd _; simp [out_strides]
  | succ k ih =>
    intro sh sd h
    have h1 : k ≤ sd.tail.length := by simp; omega
    rw [List.replicate_succ, out_strides, ih sh.tail sd.tail h1, headD_cons_tail_take sd 0 k h]

theorem out_addends_replicate_all (n k : Nat) :
    ∀ (sh : List Nat) (sd : List Int), out_addends n sh sd (List.replicate k .all) = [] := by
  induction k with
  | zero => intro sh sd; simp [out_addends]
  | succ k ih => intro sh sd; rw [List.replicate_succ, out_addends, ih]

/-! ## Lemmas: arithmetic of `std::size_t` -/

theorem to_size_t_lt (z : Int) : to_size_t z < 2 ^ 64 := by
  unfold to_size_t
  norm_num
  omega

theorem to_size_t_of_nonneg (z : Int) (h0 : 0 ≤ z) (h1 : z < 2 ^ 64) :
    ((to_size_t z : Nat) : Int) = z := by
  unfold to_size_t
  norm_num
  omega

theorem size_t_add_cast (off : Nat) (x : Int) :
    ((size_t_add off (to_size_t x) : Nat) : Int) = ((off : Int) + x) % 2 ^ 64 := by
  unfold size_t_add to_size_t
  norm_num
  omega

theorem size_t_add_exact (off : Nat) (x : Int) (h0 : 0 ≤ (off : Int) + x)
    (h1 : (off : Int) + x < 2 ^ 64) :
    ((size_t_add off (to_size_t x) : Nat) : Int) = off + x := by
  unfold size_t_add to_size_t
  norm_num
  omega

theorem offset_after_cast (xs : List Int) :
    ∀ off : Nat, ((offset_after off xs : Nat) : Int) % 2 ^ 64 = ((off : Int) + xs.sum) % 2 ^ 64 := by
  induction xs with
  | nil => intro off; simp [offset_after]
  | cons x rest ih =>
    intro off
    rw [offset_after, ih, size_t_add_cast, List.sum_cons]
    have e : (off : Int) + (x + rest.sum) = ((off : Int) + x) + rest.sum := by ring
    rw [e, Int.emod_add_emod]

theorem offset_after_lt (xs : List Int) :
    ∀ off : Nat, off < 2 ^ 64 → offset_after off xs < 2 ^ 64 := by
  induction xs with
  | nil => intro off h; simpa [offset_after] using h
  | cons x rest ih =>
    intro off _
    rw [offset_after]
    apply ih
    unfold size_t_add
    exact Nat.mod_lt _ (by norm_num)

theorem offset_after_exact (xs : List Int) (off : Nat)
    (h0 : 0 ≤ (off : Int) + xs.sum) (h1 : (off : Int) + xs.sum < 2 ^ 64) :
    ((offset_after off xs : Nat) : Int) = (off : Int) + xs.sum := by
  have hoff : offset_after off xs < 2 ^ 64 := by
    cases xs with
    | nil =>
      simp only [List.sum_nil, add_zero] at h1
      simp only [offset_after]
      exact_mod_cast h1
    | cons x rest =>
      rw [offset_after]
      apply offset_after_lt
      unfold size_t_add
      exact Nat.mod_lt _ (by norm_num)
  have h := offset_after_cast xs off
  have hl2 : ((offset_after off xs : Nat) : Int) < 2 ^ 64 := by exact_mod_cast hoff
  rw [Int.emod_eq_of_lt (by omega) hl2, Int.emod_eq_of_lt h0 h1] at h
  exact h

theorem to_ptrdiff_t_emod (n : Nat) :
    to_ptrdiff_t n % 2 ^ 64 = (n : Int) % 2 ^ 64 := by
  unfold to_ptrdiff_t
  split_ifs <;> omega

theorem to_size_t_congr (a b : Int) (h : a % 2 ^ 64 = b % 2 ^ 64) : to_size_t a = to_size_t b := by
  unfold to_size_t
  rw [h]

theorem emod_add_congr (a b d : Int) (h : a % 2 ^ 64 = b % 2 ^ 64) :
    (a + d) % 2 ^ 64 = (b + d) % 2 ^ 64 := by
  omega

/-! ## Lemmas: the ellipsis and the trailing axes -/

theorem fill_args_ok_iff (dsm : List Nat → List Int → layout_type → Bool)
    (shape : List Nat) (strides : List Int) (off : Nat) (layout : layout_type)
    (ss : List xstrided_slice) (hlen : strides.length = shape.length) (g : strided_view_args) :
    fill_args dsm shape strides off layout ss = .ok g ↔
      n_ellipsis ss ≤ 1 ∧ n_consuming ss ≤ shape.length
        ∧ g = view_geometry dsm shape strides off layout ss := by
  rw [fill_args_eq dsm shape strides off layout ss hlen]
  by_cases hE : 2 ≤ n_ellipsis ss
  · simp [hE]
    omega
  · by_cases hC : shape.length < n_consuming ss
    · simp [hE, hC]
    · simp only [hE, hC, if_false, Except.ok.injEq]
      constructor
      · intro h; exact ⟨by omega, by omega, h.symm⟩
      · intro h; exact h.2.2.symm

theorem ellipsis_as_alls (m : Nat) (pre post : List xstrided_slice)
    (hpre : n_ellipsis pre = 0) (hpost : n_ellipsis post = 0) (sh : List Nat) (sd : List Int)
    (hsh : n_consuming pre + m ≤ sh.length) (hsd : n_consuming pre + m ≤ sd.length) :
    out_shape m sh (pre ++ [.ellipsis] ++ post)
        = out_shape 0 sh (pre ++ List.replicate m .all ++ post)
      ∧ out_strides m sh sd (pre ++ [.ellipsis] ++ post)
        = out_strides 0 sh sd (pre ++ List.replicate m .all ++ post)
      ∧ out_addends m sh sd (pre ++ [.ellipsis] ++ post)
        = out_addends 0 sh sd (pre ++ List.replicate m .all ++ post)
      ∧ taken m (pre ++ [.ellipsis] ++ post)
        = taken 0 (pre ++ List.replicate m .all ++ post) := by
  have tp : ∀ n, taken n pre = n_consuming pre := fun n => taken_no_ellipsis n pre hpre
  have tq : ∀ n, taken n post = n_consuming post := fun n => taken_no_ellipsis n post hpost
  have l1 : m ≤ (sh.drop (n_consuming pre)).length := by simp; omega
  have l2 : m ≤ (sd.drop (n_consuming pre)).length := by simp; omega
  refine ⟨?_, ?_, ?_, ?_⟩
  · simp only [List.append_assoc, out_shape_append, tp, taken_replicate_all, List.singleton_append,
      out_shape, out_shape_replicate_all 0 m _ l1]
    rw [out_shape_no_ellipsis m 0 pre hpre, out_shape_no_ellipsis m 0 post hpost]
  · simp only [List.append_assoc, out_strides_append, tp, taken_replicate_all,
      List.singleton_append, out_strides, out_strides_replicate_all 0 m _ _ l2]
    rw [out_strides_no_ellipsis m 0 pre hpre, out_strides_no_ellipsis m 0 post hpost]
  · simp only [List.append_assoc, out_addends_append, tp, taken_replicate_all,
      List.singleton_append, out_addends, out_addends_replicate_all, List.nil_append]
    rw [out_addends_no_ellipsis m 0 pre hpre, out_addends_no_ellipsis m 0 post hpost]
  · simp only [List.append_assoc, taken_append, tp, tq, taken_replicate_all, taken, axes_taken,
      Nat.add_zero, List.append_eq, List.nil_append]

/-! ## Lemmas: a range slice among the slices -/

theorem headD_drop {α : Type} (v : List α) (a : Nat) (d : α) :
    (v.drop a).headD d = v.getD a d := by
  rw [List.headD_eq_head?_getD, List.head?_drop, List.getD_eq_getElem?_getD]

theorem size_t_add_right_comm (o x y : Nat) :
    size_t_add (size_t_add o x) y = size_t_add (size_t_add o y) x := by
  unfold size_t_add
  omega

theorem offset_after_size_t_add (xs : List Int) :
    ∀ (o x : Nat), offset_after (size_t_add o x) xs = size_t_add (offset_after o xs) x := by
  induction xs with
  | nil => intro o x; rfl
  | cons b rest ih =>
    intro o x
    rw [offset_after, offset_after, size_t_add_right_comm, ih]

theorem offset_after_insert (off : Nat) (A B : List Int) (x : Int) :
    offset_after off (A ++ x :: B) = size_t_add (offset_after off (A ++ B)) (to_size_t x) := by
  rw [offset_after_append, offset_after_append, offset_after, offset_after_size_t_add]

theorem set_at_length {α : Type} (P R : List α) (x y : α) :
    (P ++ x :: R).set P.length y = P ++ y :: R := by
  induction P with
  | nil => rfl
  | cons p P ih => simp [ih]

theorem get?_at_length {α : Type} (P R : List α) (x : α) :
    (P ++ x :: R).get? P.length = some x := by
  induction P with
  | nil => rfl
  | cons p P ih => simpa using ih

theorem n_add_all_congr (N : Nat) (xs ys : List xstrided_slice)
    (h1 : n_ellipsis xs = n_ellipsis ys) (h2 : xs.length = ys.length)
    (h3 : n_newaxis xs = n_newaxis ys) : n_add_all N xs = n_add_all N ys := by
  unfold n_add_all
  rw [h1, h2, h3]

theorem out_shape_mid (n : Nat) (sh : List Nat) (pre post : List xstrided_slice)
    (s : xstrided_slice) :
    out_shape n sh (pre ++ [s] ++ post)
      = out_shape n sh pre ++ out_shape n (sh.drop (taken n pre)) (s :: post) := by
  rw [List.append_assoc, out_shape_append]; rfl

theorem out_strides_mid (n : Nat) (sh : List Nat) (sd : List Int)
    (pre post : List xstrided_slice) (s : xstrided_slice) :
    out_strides n sh sd (pre ++ [s] ++ post)
      = out_strides n sh sd pre
        ++ out_strides n (sh.drop (taken n pre)) (sd.drop (taken n pre)) (s :: post) := by
  rw [List.append_assoc, out_strides_append]; rfl

theorem out_addends_mid (n : Nat) (sh : List Nat) (sd : List Int)
    (pre post : List xstrided_slice) (s : xstrided_slice) :
    out_addends n sh sd (pre ++ [s] ++ post)
      = out_addends n sh sd pre
        ++ out_addends n (sh.drop (taken n pre)) (sd.drop (taken n pre)) (s :: post) := by
  rw [List.append_assoc, out_addends_append]; rfl

theorem view_geometry_new_shape (dsm : List Nat → List Int → layout_type → Bool)
    (shape : List Nat) (strides : List Int) (off : Nat) (layout : layout_type)
    (ss : List xstrided_slice) :
    (view_geometry dsm shape strides off layout ss).new_shape
      = out_shape (n_add_all shape.length ss) shape ss
        ++ shape.drop (taken (n_add_all shape.length ss) ss) := rfl

theorem view_geometry_new_strides (dsm : List Nat → List Int → layout_type → Bool)
    (shape : List Nat) (strides : List Int) (off : Nat) (layout : layout_type)
    (ss : List xstrided_slice) :
    (view_geometry dsm shape strides off layout ss).new_strides
      = out_strides (n_add_all shape.length ss) shape strides ss
        ++ strides.drop (taken (n_add_all shape.length ss) ss) := rfl

theorem view_geometry_new_offset (dsm : List Nat → List Int → layout_type → Bool)
    (shape : List Nat) (strides : List Int) (off : Nat) (layout : layout_type)
    (ss : List xstrided_slice) :
    (view_geometry dsm shape strides off layout ss).new_offset
      = offset_after off (out_addends (n_add_all shape.length ss) shape strides ss) := rfl

/-! ## Lemmas: the index translation of `xview` -/

theorem all_some_map {α β : Type} (f : α → Option β) (g : α → β) (l : List α)
    (h : ∀ x ∈ l, f x = some (g x)) : all_some (l.map f) = some (l.map g) := by
  induction l with
  | nil => rfl
  | cons a l ih =>
    have h1 := h a (by simp)
    have h2 := ih (fun x hx => h x (by simp [hx]))
    simp [all_some, h1, h2]

theorem all_some_length {α : Type} (l : List (Option α)) (r : List α)
    (h : all_some l = some r) : r.length = l.length := by
  induction l generalizing r with
  | nil => simp [all_some] at h; subst h; rfl
  | cons a l ih =>
    cases a with
    | none => simp [all_some] at h
    | some x =>
      simp only [all_some, Option.map_eq_some'] at h
      obtain ⟨xs, hxs, rfl⟩ := h
      simp [ih xs hxs]

theorem integral_count_before_le (slices : List xview_slice) (i : Nat) :
    integral_count_before slices i ≤ i := by
  unfold integral_count_before
  calc ((slices.take i).filter xview_slice.is_integral).length
      ≤ (slices.take i).length := List.length_filter_le _ _
    _ ≤ i := by simp

theorem integral_count_le_length (slices : List xview_slice) :
    integral_count slices ≤ slices.length :=
  integral_count_before_le slices slices.length

theorem integral_count_eq (slices : List xview_slice) :
    integral_count slices = (slices.filter xview_slice.is_integral).length := by
  simp [integral_count, integral_count_before]

theorem newaxis_count_eq (slices : List xview_slice) :
    newaxis_count slices = (slices.filter xview_slice.is_newaxis).length := by
  simp [newaxis_count, newaxis_count_before]

theorem newaxis_count_before_of_length_le (slices : List xview_slice) (i : Nat)
    (h : slices.length ≤ i) : newaxis_count_before slices i = newaxis_count slices := by
  simp [newaxis_count, newaxis_count_before, List.take_of_length_le h]

theorem integral_count_split (slices : List xview_slice) (a : Nat) :
    integral_count slices
      = integral_count_before slices a
        + ((slices.drop a).filter xview_slice.is_integral).length := by
  rw [integral_count_eq]
  unfold integral_count_before
  conv_lhs => rw [← List.take_append_drop a slices]
  rw [List.filter_append, List.length_append]

theorem non_integral_position (slices : List xview_slice) (a : Nat) (s : xview_slice)
    (hs : slices.get? a = some s) (hn : s.is_integral = false) :
    a - integral_count_before slices a + 1 + integral_count slices ≤ slices.length := by
  have ha : a < slices.length := by
    rw [List.get?_eq_getElem?] at hs
    exact (List.getElem?_eq_some_iff.mp hs).1
  have hd : slices.drop a = s :: slices.drop (a + 1) := by
    rw [List.get?_eq_getElem?] at hs
    obtain ⟨h1, h2⟩ := List.getElem?_eq_some_iff.mp hs
    rw [List.drop_eq_getElem_cons h1, h2]
  have h1 := integral_count_split slices a
  have h2 : ((slices.drop a).filter xview_slice.is_integral).length
      ≤ slices.length - (a + 1) := by
    rw [hd, List.filter_cons_of_neg (by simp [hn])]
    calc ((slices.drop (a + 1)).filter xview_slice.is_integral).length
        ≤ (slices.drop (a + 1)).length := List.length_filter_le _ _
      _ = slices.length - (a + 1) := by simp
  have h3 := integral_count_before_le slices a
  omega

theorem newaxis_count_before_zero (slices : List xview_slice)
    (hk : ∀ s ∈ slices, s.is_integer_range_or_all = true) (i : Nat) :
    newaxis_count_before slices i = 0 := by
  unfold newaxis_count_before
  rw [List.length_eq_zero, List.filter_eq_nil_iff]
  intro s hs
  have h1 := hk s (List.mem_of_mem_take hs)
  cases s <;> simp_all [xview_slice.is_integer_range_or_all, xview_slice.is_newaxis]

theorem index_translate (slices : List xview_slice) (N : Nat) (I : List Nat)
    (hk : ∀ s ∈ slices, s.is_integer_range_or_all = true) (hlen : slices.length ≤ N)
    (hI : I.length = N - integral_count slices) (a : Nat) (ha : a < N) :
    index slices a I = some
      (match slices.get? a with
        | some (.integral v) => to_size_t v
        | some s => to_size_t (s.value (I.getD (a - integral_count_before slices a) 0))
        | none => I.getD (a - integral_count slices) 0) := by
  have hz := newaxis_count_before_zero slices hk
  have hz2 : newaxis_count slices = 0 := hz slices.length
  have hint := integral_count_le_length slices
  unfold index lesser_condition
  simp only [hz, hz2, Nat.add_zero, decide_eq_true_eq]
  by_cases hal : a < slices.length
  · rw [if_pos hal]
    have hget : slices.get? a = some (slices.get ⟨a, hal⟩) := List.get?_eq_get hal
    rw [hget]
    generalize hs : slices.get ⟨a, hal⟩ = s at hget
    have hpos : s.is_integral = false →
        a - integral_count_before slices a < I.length := by
      intro hn
      have := non_integral_position slices a s hget hn
      omega
    have harg : s.is_integral = false →
        argument (a - integral_count_before slices a) I
          = some (I.getD (a - integral_count_before slices a) 0) := by
      intro hn
      have h1 := hpos hn
      unfold argument
      rw [List.get?_eq_getElem?, List.getD_eq_getElem?_getD, List.getElem?_eq_getElem h1]
      rfl
    have hne : s.is_integral = false → I ≠ [] := by
      intro hn h0
      have h1 := hpos hn
      rw [h0] at h1
      simp at h1
    cases s with
    | integral v => simp [sliced_access]
    | xrange st sz =>
      have h1 := harg rfl
      have h2 := hne rfl
      cases I with
      | nil => exact absurd rfl h2
      | cons x xs => simp only [sliced_access, h1, Option.map_some']
    | xstepped_range st sz sp =>
      have h1 := harg rfl
      have h2 := hne rfl
      cases I with
      | nil => exact absurd rfl h2
      | cons x xs => simp only [sliced_access, h1, Option.map_some']
    | xall sz =>
      have h1 := harg rfl
      have h2 := hne rfl
      cases I with
      | nil => exact absurd rfl h2
      | cons x xs => simp only [sliced_access, h1, Option.map_some']
    | xnewaxis =>
      have := hk _ (List.get?_mem hget)
      simp [xview_slice.is_integer_range_or_all] at this
    | xkeep_slice ix =>
      have := hk _ (List.get?_mem hget)
      simp [xview_slice.is_integer_range_or_all] at this
    | xdrop_slice ix =>
      have := hk _ (List.get?_mem hget)
      simp [xview_slice.is_integer_range_or_all] at this
  · rw [if_neg hal]
    have hnone : slices.get? a = none := by
      rw [List.get?_eq_getElem?]
      exact List.getElem?_eq_none (by omega)
    rw [hnone]
    have hk0 : (0 : Int) ≤ (a : Int) - (integral_count slices : Int) + ((0 : Nat) : Int) := by
      omega
    simp only [hk0, if_true]
    have hn : ((a : Int) - (integral_count slices : Int) + ((0 : Nat) : Int)).toNat
        = a - integral_count slices := by omega
    rw [hn]
    unfold argument
    have hlt : a - integral_count slices < I.length := by omega
    rw [List.get?_eq_getElem?, List.getD_eq_getElem?_getD, List.getElem?_eq_getElem hlt]
    rfl

theorem access_eq_access_impl (slices : List xview_slice) (N : Nat) (I : List Nat)
    (hk : ∀ s ∈ slices, s.is_integer_range_or_all = true) (hlen : slices.length ≤ N)
    (hI : I.length = N - integral_count slices) :
    access slices (N - integral_count slices) I = access_impl slices N I := by
  have hz2 : newaxis_count slices = 0 := newaxis_count_before_zero slices hk slices.length
  have hint := integral_count_le_length slices
  cases I with
  | nil =>
    simp only [List.length_nil] at hI
    simp only [access, make_index_sequence, hz2, Nat.zero_add, Nat.sub_zero]
    have : integral_count slices = N := by omega
    rw [this]
    by_cases h0 : N > 0
    · rw [if_pos h0]
    · rw [if_neg h0]
      have : N = 0 := by omega
      rw [this]
  | cons x xs =>
    simp only [List.length_cons] at hI
    have h1 : ¬ (xs.length ≥ N - integral_count slices) := by omega
    simp only [access, h1, if_false, make_index_sequence, hz2, Nat.sub_zero]
    have h2 : xs.length + 1 + integral_count slices > 0 := by omega
    rw [if_pos h2]
    have : xs.length + 1 + integral_count slices = N := by omega
    rw [this]

theorem integral_skip_cases (slices : List xview_slice) :
    ∀ i, integral_skip slices i < slices.length
      ∨ integral_skip slices i = i + integral_count slices := by
  induction slices with
  | nil => intro i; right; simp [integral_skip, integral_count_eq]
  | cons s rest ih =>
    intro i
    have hc : integral_count (s :: rest)
        = (if s.is_integral = true then 1 else 0) + integral_count rest := by
      rw [integral_count_eq, integral_count_eq, List.filter_cons]
      by_cases hs : s.is_integral = true <;> simp [hs] <;> omega
    cases i with
    | zero =>
      cases hb : s.is_integral
      · simp only [integral_skip, hb, Bool.false_eq_true, if_false, List.length_cons]
        left; omega
      · simp only [integral_skip, hb, if_true, List.length_cons, hc]
        rcases ih 0 with h | h <;> omega
    | succ j =>
      cases hb : s.is_integral
      · simp only [integral_skip, hb, Bool.false_eq_true, if_false, List.length_cons, hc]
        rcases ih j with h | h <;> omega
      · simp only [integral_skip, hb, if_true, List.length_cons, hc]
        rcases ih (j + 1) with h | h <;> omega

theorem integral_newaxis_count_le (slices : List xview_slice) :
    integral_count slices + newaxis_count slices ≤ slices.length := by
  rw [integral_count_eq, newaxis_count_eq]
  induction slices with
  | nil => simp
  | cons s rest ih =>
    cases s <;> simp [List.filter_cons, xview_slice.is_integral, xview_slice.is_newaxis] <;> omega

theorem compute_shape_length (base_shape : List Nat) (slices : List xview_slice) :
    ∃ s, compute_shape base_shape slices = some s
      ∧ s.length = base_shape.length - integral_count slices + newaxis_count slices := by
  have hall : ∀ i ∈ List.range
        (base_shape.length - integral_count slices + newaxis_count slices),
      (if integral_skip slices i < slices.length
        then (slices.get? (integral_skip slices i)).map get_size
        else base_shape.get?
          (integral_skip slices i - newaxis_count_before slices (integral_skip slices i)))
      = some (if integral_skip slices i < slices.length
        then get_size ((slices.get? (integral_skip slices i)).getD .xnewaxis)
        else base_shape.getD
          (integral_skip slices i - newaxis_count_before slices (integral_skip slices i)) 0) := by
    intro i hi
    rw [List.mem_range] at hi
    by_cases h : integral_skip slices i < slices.length
    · rw [if_pos h, if_pos h, List.get?_eq_get h]
      rfl
    · rw [if_neg h, if_neg h]
      have h1 : integral_skip slices i = i + integral_count slices := by
        rcases integral_skip_cases slices i with h2 | h2
        · exact absurd h2 h
        · exact h2
      have h3 := integral_newaxis_count_le slices
      rw [newaxis_count_before_of_length_le slices _ (by omega)]
      have h4 : integral_skip slices i - newaxis_count slices < base_shape.length := by omega
      rw [List.get?_eq_getElem?, List.getD_eq_getElem?_getD, List.getElem?_eq_getElem h4]
      rfl
  refine ⟨_, all_some_map _ _ _ hall, ?_⟩
  simp

theorem compute_shape_sequence_view_length (L : layout_type) (base_shape : List Nat)
    (slices : List xview_slice) (hL : L ≠ .dynamic) :
    ∃ s, compute_shape_sequence_view L base_shape slices = some s
      ∧ s.length = base_shape.length - integral_count slices := by
  cases L with
  | row_major =>
    refine ⟨_, rfl, ?_⟩
    simp [sequence_view]
  | column_major =>
    refine ⟨_, rfl, ?_⟩
    simp [sequence_view]
  | dynamic => exact absurd rfl hL

theorem walk_result_lengths (shape : List Nat) (strides : List Int) (off : Nat)
    (ss : List xstrided_slice) (hlen : strides.length = shape.length)
    (hE : n_ellipsis ss ≤ 1) (hC : n_consuming ss ≤ shape.length) :
    n_integer ss ≤ shape.length
      ∧ (walk_result shape strides off ss).new_shape.length
          = shape.length - n_integer ss + n_newaxis ss
      ∧ (walk_result shape strides off ss).new_strides.length
          = shape.length - n_integer ss + n_newaxis ss := by
  obtain ⟨ht, _, _⟩ := taken_le_of_accepted shape.length ss hE hC
  obtain ⟨hol, hin⟩ := out_shape_length (n_add_all shape.length ss) ss shape ht
  have hsl := out_strides_length (n_add_all shape.length ss) ss shape strides ht (by omega)
  have hint := n_integer_le_consuming ss
  refine ⟨by omega, ?_, ?_⟩
  · simp only [walk_result, List.length_append, List.length_drop, hol]
    omega
  · simp only [walk_result, List.length_append, List.length_drop, hsl, hol]
    omega

/-! ## Lemmas: the flat offset of a translated multi-index -/

theorem data_offset_append (s1 s2 a1 a2 : List Int) (h : s1.length = a1.length) :
    data_offset (s1 ++ s2) (a1 ++ a2) = data_offset s1 a1 + data_offset s2 a2 := by
  induction s1 generalizing a1 with
  | nil =>
    cases a1 with
    | nil => simp [data_offset]
    | cons a a1 => simp at h
  | cons d s1 ih =>
    cases a1 with
    | nil => simp at h
    | cons a a1 =>
      simp only [List.length_cons, Nat.add_right_cancel_iff] at h
      simp only [List.cons_append, data_offset, List.append_eq, ih a1 h]
      ring

theorem data_offset_zeros (sd : List Int) (k : Nat) :
    data_offset sd ((List.replicate k 0).map Int.ofNat) = 0 := by
  induction sd generalizing k with
  | nil => cases k <;> simp [data_offset, List.replicate_succ]
  | cons d sd ih =>
    cases k with
    | zero => simp [data_offset]
    | succ k =>
      simp only [List.replicate_succ, List.map_cons, data_offset]
      rw [ih k]
      simp

theorem adapt_strides_data_offset (I : List Nat) (shape : List Nat)
    (h : index_in_shape I shape) :
    ∀ sd : List Int,
      data_offset (adapt_strides shape sd) (I.map Int.ofNat) = data_offset sd (I.map Int.ofNat) := by
  unfold index_in_shape at h
  induction h with
  | nil => intro sd; cases sd <;> simp [adapt_strides, data_offset]
  | @cons i s I shape his _ ih =>
    intro sd
    cases sd with
    | nil => simp [adapt_strides, data_offset]
    | cons d sd =>
      simp only [adapt_strides, List.map_cons, data_offset, ih sd]
      by_cases hs : s = 1
      · have : i = 0 := by omega
        simp [hs, this]
      · simp [hs]

theorem index_in_shape_zeros (I : List Nat) (shape : List Nat) (h : index_in_shape I shape) :
    index_in_shape (List.replicate shape.length 0) shape := by
  unfold index_in_shape at h ⊢
  induction h with
  | nil => exact List.Forall₂.nil
  | @cons i s I shape his _ ih =>
    simp only [List.length_cons, List.replicate_succ]
    exact List.Forall₂.cons (by omega) ih

theorem forall₂_split {α β : Type} (R : α → β → Prop) (l : List α) (a b : List β)
    (h : List.Forall₂ R l (a ++ b)) :
    List.Forall₂ R (l.take a.length) a ∧ List.Forall₂ R (l.drop a.length) b := by
  induction a generalizing l with
  | nil => simpa using h
  | cons x a ih =>
    cases l with
    | nil => cases h
    | cons y l =>
      rw [List.cons_append, List.forall₂_cons] at h
      obtain ⟨h1, h2⟩ := ih l h.2
      exact ⟨by simpa using List.Forall₂.cons h.1 h1, by simpa using h2⟩

theorem forall₂_join {α β : Type} (R : α → β → Prop) (l1 l2 : List α) (a b : List β)
    (h1 : List.Forall₂ R l1 a) (h2 : List.Forall₂ R l2 b) :
    List.Forall₂ R (l1 ++ l2) (a ++ b) := by
  induction h1 with
  | nil => simpa using h2
  | cons h _ ih => exact List.Forall₂.cons h ih

theorem in_bounds_of_index (I : List Nat) (shape : List Nat) (h : index_in_shape I shape) :
    in_bounds (I.map Int.ofNat) shape := by
  unfold index_in_shape at h
  unfold in_bounds
  induction h with
  | nil => exact List.Forall₂.nil
  | @cons i s I shape his _ ih =>
    exact List.Forall₂.cons ⟨by simp, by simpa using his⟩ ih

theorem translate_data_offset (n : Nat) (ss : List xstrided_slice) :
    ∀ (sh : List Nat) (sd : List Int) (I : List Nat),
      taken n ss ≤ sh.length → taken n ss ≤ sd.length →
      I.length = (out_shape n sh ss).length + (sh.length - taken n ss) →
      data_offset (out_strides n sh sd ss ++ sd.drop (taken n ss)) (I.map Int.ofNat)
          + (out_addends n sh sd ss).sum
        = data_offset sd (translate n sh ss I) := by
  induction ss with
  | nil =>
    intro sh sd I _ _ _
    simp [out_strides, out_addends, taken, translate]
  | cons sl rest ih =>
    intro sh sd I hs hd hI
    cases sl with
    | integer v =>
      simp only [taken, axes_taken] at hs hd
      simp only [out_shape, taken, axes_taken] at hI
      cases sd with
      | nil => simp at hd
      | cons d sd' =>
        have h1 := ih sh.tail sd' I (by simp; omega) (by simp at hd; omega)
          (by rw [hI]; simp; omega)
        simp only [out_strides, out_addends, taken, axes_taken, translate, List.tail_cons,
          List.headD_cons, List.sum_cons, data_offset] at h1 ⊢
        have e : (d :: sd').drop (1 + taken n rest) = sd'.drop (taken n rest) := by
          rw [Nat.add_comm]; rfl
        rw [e]
        linarith
    | newaxis =>
      simp only [taken, axes_taken, Nat.zero_add] at hs hd
      simp only [out_shape, taken, axes_taken, List.length_cons, Nat.zero_add] at hI
      cases I with
      | nil => simp at hI; omega
      | cons x I' =>
        have h1 := ih sh sd I' hs hd (by simp at hI; omega)
        simp only [out_strides, out_addends, taken, axes_taken, translate, List.tail_cons,
          List.map_cons, List.cons_append, data_offset, Nat.zero_add, List.append_eq,
          mul_zero, zero_add] at h1 ⊢
        linarith
    | all =>
      simp only [taken, axes_taken] at hs hd
      simp only [out_shape, taken, axes_taken, List.length_cons, Nat.zero_add] at hI
      cases sd with
      | nil => simp at hd
      | cons d sd' =>
        cases I with
        | nil => simp at hI; omega
        | cons x I' =>
          have h1 := ih sh.tail sd' I' (by simp; omega) (by simp at hd; omega)
            (by simp at hI ⊢; omega)
          simp only [out_strides, out_addends, taken, axes_taken, translate, List.tail_cons,
            List.headD_cons, List.map_cons, List.cons_append, data_offset, List.append_eq] at h1 ⊢
          have e : (d :: sd').drop (1 + taken n rest) = sd'.drop (taken n rest) := by
            rw [Nat.add_comm]; rfl
          rw [e]
          have e2 : Int.ofNat x = (x : Int) := rfl
          rw [e2]
          linarith
    | range r =>
      simp only [taken, axes_taken] at hs hd
      simp only [out_shape, taken, axes_taken, List.length_cons, Nat.zero_add] at hI
      cases sd with
      | nil => simp at hd
      | cons d sd' =>
        cases I with
        | nil => simp at hI; omega
        | cons x I' =>
          have h1 := ih sh.tail sd' I' (by simp; omega) (by simp at hd; omega)
            (by simp at hI ⊢; omega)
          simp only [out_strides, out_addends, taken, axes_taken, translate, List.tail_cons,
            List.headD_cons, List.map_cons, List.cons_append, List.sum_cons,
            data_offset, List.append_eq] at h1 ⊢
          have e : (d :: sd').drop (1 + taken n rest) = sd'.drop (taken n rest) := by
            rw [Nat.add_comm]; rfl
          rw [e]
          have e2 : Int.ofNat x = (x : Int) := rfl
          rw [e2]
          linear_combination h1
    | ellipsis =>
      simp only [taken, axes_taken] at hs hd
      have hlt : (sh.take n).length = n := by simp; omega
      have hld : (sd.take n).length = n := by simp; omega
      simp only [out_shape, taken, axes_taken, List.length_append, hlt] at hI
      have hIn : n ≤ I.length := by omega
      have h1 := ih (sh.drop n) (sd.drop n) (I.drop n) (by simp; omega) (by simp; omega)
        (by simp; omega)
      simp only [out_strides, out_addends, taken, axes_taken, translate, List.append_assoc]
      rw [← drop_of_drop]
      have eI : I.map Int.ofNat = (I.take n).map Int.ofNat ++ (I.drop n).map Int.ofNat := by
        rw [← List.map_append, List.take_append_drop]
      rw [eI, data_offset_append _ _ _ _ (by simp [hld, hIn])]
      have eS : data_offset sd
          ((I.take n).map Int.ofNat ++ translate n (sh.drop n) rest (I.drop n))
          = data_offset (sd.take n) ((I.take n).map Int.ofNat)
            + data_offset (sd.drop n) (translate n (sh.drop n) rest (I.drop n)) := by
        conv_lhs => rw [← List.take_append_drop n sd]
        rw [data_offset_append _ _ _ _ (by simp [hld, hIn])]
      rw [eS]
      linarith

theorem translate_in_bounds (n : Nat) (ss : List xstrided_slice) :
    ∀ (sh : List Nat) (I : List Nat),
      taken n ss ≤ sh.length → slices_in_range n sh ss →
      index_in_shape I (out_shape n sh ss ++ sh.drop (taken n ss)) →
      in_bounds (translate n sh ss I) sh := by
  induction ss with
  | nil =>
    intro sh I _ _ hI
    simp only [out_shape, taken, List.drop_zero, List.nil_append] at hI
    exact in_bounds_of_index I sh hI
  | cons sl rest ih =>
    intro sh I hs hin hI
    cases sl with
    | integer v =>
      simp only [taken, axes_taken] at hs
      cases sh with
      | nil => simp at hs
      | cons s sh' =>
        simp only [slices_in_range, List.headD_cons, List.tail_cons] at hin
        simp only [out_shape, taken, axes_taken, List.tail_cons] at hI
        have e : (s :: sh').drop (1 + taken n rest) = sh'.drop (taken n rest) := by
          rw [Nat.add_comm]; rfl
        rw [e] at hI
        have h1 := ih sh' I (by simp at hs; omega) hin.2 hI
        simp only [translate, List.tail_cons]
        exact List.Forall₂.cons hin.1 h1
    | newaxis =>
      simp only [taken, axes_taken, Nat.zero_add] at hs
      simp only [slices_in_range] at hin
      simp only [out_shape, taken, axes_taken, Nat.zero_add, List.cons_append] at hI
      cases hI with
      | @cons x _ I' _ hx hI' =>
        simp only [translate, List.tail_cons]
        exact ih sh I' hs hin hI'
    | all =>
      simp only [taken, axes_taken] at hs
      cases sh with
      | nil => simp at hs
      | cons s sh' =>
        simp only [slices_in_range, List.tail_cons] at hin
        simp only [out_shape, taken, axes_taken, List.tail_cons, List.headD_cons,
          List.cons_append] at hI
        have e : (s :: sh').drop (1 + taken n rest) = sh'.drop (taken n rest) := by
          rw [Nat.add_comm]; rfl
        rw [e] at hI
        cases hI with
        | @cons x _ I' _ hx hI' =>
          have h1 := ih sh' I' (by simp at hs; omega) hin hI'
          simp only [translate, List.tail_cons, List.headD_cons]
          exact List.Forall₂.cons ⟨by simp, by exact_mod_cast hx⟩ h1
    | range r =>
      simp only [taken, axes_taken] at hs
      cases sh with
      | nil => simp at hs
      | cons s sh' =>
        simp only [slices_in_range, List.tail_cons, List.headD_cons] at hin
        simp only [out_shape, taken, axes_taken, List.tail_cons, List.headD_cons,
          List.cons_append] at hI
        have e : (s :: sh').drop (1 + taken n rest) = sh'.drop (taken n rest) := by
          rw [Nat.add_comm]; rfl
        rw [e] at hI
        cases hI with
        | @cons x _ I' _ hx hI' =>
          have h1 := ih sh' I' (by simp at hs; omega) hin.2 hI'
          simp only [translate, List.tail_cons, List.headD_cons]
          exact List.Forall₂.cons (hin.1 x hx) h1
    | ellipsis =>
      simp only [taken, axes_taken] at hs
      simp only [slices_in_range] at hin
      simp only [out_shape, taken, axes_taken, List.append_assoc] at hI
      rw [← drop_of_drop] at hI
      have hlt : (sh.take n).length = n := by simp; omega
      obtain ⟨h1, h2⟩ := forall₂_split _ I _ _ hI
      rw [hlt] at h1 h2
      have h3 := ih (sh.drop n) (I.drop n) (by simp; omega) hin h2
      have h4 := in_bounds_of_index _ _ h1
      simp only [translate]
      have := forall₂_join (fun (j : Int) (s : Nat) => 0 ≤ j ∧ j < (s : Int)) _ _
        (sh.take n) (sh.drop n) h4 h3
      rw [List.take_append_drop] at this
      exact this
/-! ## Lemmas: the errors of the walk -/

theorem read_at_error {α : Type} (v : List α) (i : Nat) (e : fill_args_error)
    (h : read_at v i = .error e) : e = .out_of_bounds := by
  unfold read_at at h
  split at h
  · cases h
  · cases h; rfl

theorem write_at_error {α : Type} (v : List α) (i : Nat) (x : α) (e : fill_args_error)
    (h : write_at v i x = .error e) : e = .out_of_bounds := by
  unfold write_at at h
  split at h
  · cases h
  · cases h; rfl

theorem bind_error {α β : Type} (x : Except fill_args_error α)
    (f : α → Except fill_args_error β)
    (hx : ∀ e, x = .error e → e = .out_of_bounds)
    (hf : ∀ a e, f a = .error e → e = .out_of_bounds) :
    ∀ e, (x >>= f) = .error e → e = .out_of_bounds := by
  intro e h
  cases x with
  | error e1 =>
    simp only [bind, Except.bind] at h
    cases h
    exact hx _ rfl
  | ok a =>
    simp only [bind, Except.bind] at h
    exact hf a e h

theorem copy_axes_error (shape : List Nat) (strides : List Int) (n : Nat) :
    ∀ (i_ax : Nat) (st : walk_state) (e : fill_args_error),
      copy_axes shape strides n i_ax st = .error e → e = .out_of_bounds := by
  induction n with
  | zero =>
    intro i_ax st e h
    simp [copy_axes] at h
  | succ m ih =>
    intro i_ax st
    unfold copy_axes
    refine bind_error _ _ (read_at_error _ _) (fun sh => ?_)
    refine bind_error _ _ (write_at_error _ _ _) (fun ns => ?_)
    refine bind_error _ _ (read_at_error _ _) (fun sd => ?_)
    refine bind_error _ _ (write_at_error _ _ _) (fun nd => ?_)
    exact ih _ _

theorem pure_error {α : Type} (a : α) (e : fill_args_error)
    (h : (pure a : Except fill_args_error α) = .error e) : e = .out_of_bounds := by
  simp [pure, Except.pure] at h

theorem walk_slice_error (shape : List Nat) (strides : List Int) (n i : Nat)
    (sl : xstrided_slice) (st : walk_state) :
    ∀ e, walk_slice shape strides n i sl st = .error e → e = .out_of_bounds := by
  cases sl with
  | integer v =>
    unfold walk_slice
    exact bind_error _ _ (read_at_error _ _) (fun sd => pure_error _)
  | newaxis =>
    unfold walk_slice
    exact bind_error _ _ (write_at_error _ _ _) (fun ns => pure_error _)
  | ellipsis =>
    unfold walk_slice
    exact bind_error _ _ (copy_axes_error _ _ _ _ _) (fun st1 => pure_error _)
  | all =>
    unfold walk_slice
    refine bind_error _ _ (read_at_error _ _) (fun sh => ?_)
    refine bind_error _ _ (write_at_error _ _ _) (fun ns => ?_)
    refine bind_error _ _ (read_at_error _ _) (fun sd => ?_)
    exact bind_error _ _ (write_at_error _ _ _) (fun nd => pure_error _)
  | range r =>
    unfold walk_slice
    refine bind_error _ _ (read_at_error _ _) (fun sh => ?_)
    refine bind_error _ _ (read_at_error _ _) (fun sd => ?_)
    refine bind_error _ _ (write_at_error _ _ _) (fun ns => ?_)
    exact bind_error _ _ (write_at_error _ _ _) (fun nd => pure_error _)

theorem walk_slices_error (shape : List Nat) (strides : List Int) (n : Nat)
    (ss : List xstrided_slice) :
    ∀ (i : Nat) (st : walk_state) (e : fill_args_error),
      walk_slices shape strides n i ss st = .error e → e = .out_of_bounds := by
  induction ss with
  | nil =>
    intro i st e h
    simp [walk_slices] at h
  | cons sl rest ih =>
    intro i st e h
    unfold walk_slices at h
    cases hw : walk_slice shape strides n i sl st with
    | error e1 =>
      rw [hw] at h
      cases h
      exact walk_slice_error shape strides n i sl st _ hw
    | ok st1 =>
      rw [hw] at h
      exact ih _ _ _ h

/-- The errors of `fill_args_walk`, without any assumption on the base. -/
theorem fill_args_walk_error_iff (shape : List Nat) (strides : List Int) (off : Nat)
    (ss : List xstrided_slice) :
    (fill_args_walk shape strides off ss = .error .ellipsis_can_only_appear_once
        ↔ 2 ≤ n_ellipsis ss)
      ∧ (fill_args_walk shape strides off ss = .error .too_many_slices_for_view
        ↔ n_ellipsis ss ≤ 1 ∧ shape.length < n_consuming ss) := by
  unfold fill_args_walk
  rw [count_slices_eq]
  by_cases hE : 2 ≤ n_ellipsis ss
  · simp [hE, bind, Except.bind]
    omega
  · have hE1 : n_ellipsis ss ≤ 1 := by omega
    simp only [hE, or_false, Bool.false_eq_true, false_and, if_false, bind, Except.bind,
      Bool.false_or]
    by_cases hC : shape.length < n_consuming ss
    · have : ((shape.length : Int) - (n_consuming ss : Int) < 0) := by omega
      simp [this, hC, hE1, throw, throwThe, MonadExceptOf.throw]
    · have hneg : ¬ ((shape.length : Int) - (n_consuming ss : Int) < 0) := by omega
      simp only [hneg, hC, if_false, pure, Except.pure, and_false, iff_false]
      constructor
      · intro h
        split at h
        · rename_i err hw
          have := walk_slices_error _ _ _ _ _ _ _ hw
          cases h
          cases this
        · have := copy_axes_error _ _ _ _ _ _ h
          cases this
      · intro h
        split at h
        · rename_i err hw
          have := walk_slices_error _ _ _ _ _ _ _ hw
          cases h
          cases this
        · have := copy_axes_error _ _ _ _ _ _ h
          cases this

theorem fill_args_error_iff_walk (dsm : List Nat → List Int → layout_type → Bool)
    (shape : List Nat) (strides : List Int) (off : Nat) (layout : layout_type)
    (ss : List xstrided_slice) (e : fill_args_error) :
    fill_args dsm shape strides off layout ss = .error e
      ↔ fill_args_walk shape strides off ss = .error e := by
  unfold fill_args
  cases fill_args_walk shape strides off ss with
  | error e1 => simp [bind, Except.bind]
  | ok st => simp [bind, Except.bind, pure, Except.pure]

theorem integer_mid_counts (pre post : List xstrided_slice) (c : Int) :
    n_ellipsis (pre ++ [.integer c] ++ post) = n_ellipsis pre + n_ellipsis post
      ∧ n_consuming (pre ++ [.integer c] ++ post) = n_consuming pre + 1 + n_consuming post
      ∧ n_newaxis (pre ++ [.integer c] ++ post) = n_newaxis pre + n_newaxis post
      ∧ ∀ n, taken n (pre ++ [.integer c] ++ post) = taken n pre + 1 + taken n post := by
  refine ⟨?_, ?_, ?_, ?_⟩
  · rw [n_ellipsis_append, n_ellipsis_append]; rfl
  · rw [n_consuming_append, n_consuming_append]; rfl
  · rw [n_newaxis_append, n_newaxis_append]; rfl
  · intro n; rw [taken_append, taken_append]; rfl

theorem view_geometry_integer_mid (dsm : List Nat → List Int → layout_type → Bool)
    (shape : List Nat) (strides : List Int) (off : Nat) (layout : layout_type)
    (pre post : List xstrided_slice) (c : Int) :
    view_geometry dsm shape strides off layout (pre ++ [.integer c] ++ post)
      = { view_geometry dsm shape strides off layout (pre ++ [.integer 0] ++ post) with
          new_offset :=
            size_t_add
              (view_geometry dsm shape strides off layout
                (pre ++ [.integer 0] ++ post)).new_offset
              (to_size_t (c * strides.getD
                (base_axis_after shape.length (pre ++ [.integer c] ++ post) pre) 0)) } := by
  obtain ⟨hE, _, hN, hT⟩ := integer_mid_counts pre post c
  obtain ⟨hE0, _, hN0, hT0⟩ := integer_mid_counts pre post 0
  have hn : n_add_all shape.length (pre ++ [.integer c] ++ post)
      = n_add_all shape.length (pre ++ [.integer 0] ++ post) :=
    n_add_all_congr _ _ _ (by rw [hE, hE0]) (by simp) (by rw [hN, hN0])
  have hsh : ∀ n sh, out_shape n sh (pre ++ [.integer c] ++ post)
      = out_shape n sh (pre ++ [.integer 0] ++ post) := by
    intro n sh; rw [out_shape_mid, out_shape_mid]; rfl
  have hsd : ∀ n sh sd, out_strides n sh sd (pre ++ [.integer c] ++ post)
      = out_strides n sh sd (pre ++ [.integer 0] ++ post) := by
    intro n sh sd; rw [out_strides_mid, out_strides_mid]; rfl
  have hoff : ∀ n, offset_after off (out_addends n shape strides (pre ++ [.integer c] ++ post))
      = size_t_add
          (offset_after off (out_addends n shape strides (pre ++ [.integer 0] ++ post)))
          (to_size_t (c * strides.getD (taken n pre) 0)) := by
    intro n
    rw [out_addends_mid, out_addends_mid]
    simp only [out_addends]
    rw [offset_after_insert, offset_after_insert, headD_drop]
    simp only [zero_mul]
    unfold size_t_add to_size_t
    simp
  unfold view_geometry walk_result base_axis_after
  simp only [hsh, hsd, hoff, hT, hT0, hn]

/-! ## Lemmas: the classification of the slice sequence -/

theorem impl_row_invalid (V : List xview_slice) :
    ∀ a r : Bool, is_contiguous_view_impl .row_major false a r V = false := by
  induction V with
  | nil => intro a r; rfl
  | cons s V ih => intro a r; simp [is_contiguous_view_impl, ih]

theorem impl_column_invalid (V : List xview_slice) :
    ∀ a r : Bool, is_contiguous_view_impl .column_major false a r V = false := by
  induction V with
  | nil => intro a r; rfl
  | cons s V ih => intro a r; simp [is_contiguous_view_impl, ih]

theorem impl_row_all_seen (V : List xview_slice) :
    ∀ r : Bool, is_contiguous_view_impl .row_major true true r V = true
      ↔ ∀ s ∈ V, ∃ n, s = xview_slice.xall n := by
  induction V with
  | nil => intro r; simp [is_contiguous_view_impl]
  | cons s V ih =>
    intro r
    cases s <;>
      simp [is_contiguous_view_impl, xview_slice.is_xall_slice, xview_slice.is_xrange,
        xview_slice.is_integral, impl_row_invalid, ih]

theorem impl_row_range_seen (V : List xview_slice) :
    is_contiguous_view_impl .row_major true false true V = true
      ↔ ∀ s ∈ V, ∃ n, s = xview_slice.xall n := by
  cases V with
  | nil => simp [is_contiguous_view_impl]
  | cons s V =>
    cases s <;>
      simp [is_contiguous_view_impl, xview_slice.is_xall_slice, xview_slice.is_xrange,
        xview_slice.is_integral, impl_row_invalid, impl_row_all_seen]

theorem impl_row_start (V : List xview_slice) :
    is_contiguous_view_impl .row_major true false false V = true
      ↔ ∃ ints r alls, V = ints ++ r ++ alls
          ∧ (∀ s ∈ ints, ∃ v, s = xview_slice.integral v)
          ∧ r.length ≤ 1 ∧ (∀ s ∈ r, ∃ a b, s = xview_slice.xrange a b)
          ∧ (∀ s ∈ alls, ∃ n, s = xview_slice.xall n) := by
  induction V with
  | nil =>
    simp only [is_contiguous_view_impl, true_iff]
    exact ⟨[], [], [], rfl, by simp, by simp, by simp, by simp⟩
  | cons s V ih =>
    constructor
    · intro h
      cases s with
      | integral v =>
        have h1 : is_contiguous_view_impl .row_major true false false V = true := by
          simpa [is_contiguous_view_impl, xview_slice.is_xall_slice, xview_slice.is_xrange,
            xview_slice.is_integral] using h
        obtain ⟨ints, r, alls, hV, hi, hr, hr2, ha⟩ := ih.mp h1
        refine ⟨.integral v :: ints, r, alls, by simp [hV], ?_, hr, hr2, ha⟩
        intro s hs
        rcases List.mem_cons.mp hs with h0 | h0
        · exact ⟨v, h0⟩
        · exact hi s h0
      | xrange a b =>
        have h1 : is_contiguous_view_impl .row_major true false true V = true := by
          simpa [is_contiguous_view_impl, xview_slice.is_xall_slice, xview_slice.is_xrange,
            xview_slice.is_integral] using h
        refine ⟨[], [.xrange a b], V, by simp, by simp, by simp, ?_,
          (impl_row_range_seen V).mp h1⟩
        intro s hs
        exact ⟨a, b, List.mem_singleton.mp hs⟩
      | xall n =>
        have h1 : is_contiguous_view_impl .row_major true true false V = true := by
          simpa [is_contiguous_view_impl, xview_slice.is_xall_slice, xview_slice.is_xrange,
            xview_slice.is_integral] using h
        refine ⟨[], [], .xall n :: V, by simp, by simp, by simp, by simp, ?_⟩
        intro s hs
        rcases List.mem_cons.mp hs with h0 | h0
        · exact ⟨n, h0⟩
        · exact (impl_row_all_seen V false).mp h1 s h0
      | xstepped_range a b c =>
        simp [is_contiguous_view_impl, xview_slice.is_xall_slice, xview_slice.is_xrange,
          xview_slice.is_integral, impl_row_invalid] at h
      | xnewaxis =>
        simp [is_contiguous_view_impl, xview_slice.is_xall_slice, xview_slice.is_xrange,
          xview_slice.is_integral, impl_row_invalid] at h
      | xkeep_slice idx =>
        simp [is_contiguous_view_impl, xview_slice.is_xall_slice, xview_slice.is_xrange,
          xview_slice.is_integral, impl_row_invalid] at h
      | xdrop_slice idx =>
        simp [is_contiguous_view_impl, xview_slice.is_xall_slice, xview_slice.is_xrange,
          xview_slice.is_integral, impl_row_invalid] at h
    · rintro ⟨ints, r, alls, hV, hi, hr, hr2, ha⟩
      cases ints with
      | cons i ints =>
        simp only [List.cons_append, List.cons.injEq] at hV
        obtain ⟨v, hv⟩ := hi i (List.mem_cons_self _ _)
        rw [hV.1, hv]
        have h1 : is_contiguous_view_impl .row_major true false false V = true :=
          ih.mpr ⟨ints, r, alls, hV.2, fun s hs => hi s (List.mem_cons_of_mem _ hs), hr, hr2, ha⟩
        simpa [is_contiguous_view_impl, xview_slice.is_xall_slice, xview_slice.is_xrange,
          xview_slice.is_integral] using h1
      | nil =>
        cases r with
        | cons x r =>
          have hr0 : r = [] := by
            cases r with
            | nil => rfl
            | cons y r => simp at hr
          subst hr0
          simp only [List.nil_append, List.singleton_append, List.cons.injEq] at hV
          obtain ⟨a, b, hx⟩ := hr2 x (List.mem_cons_self _ _)
          rw [hV.1, hx]
          have h1 : is_contiguous_view_impl .row_major true false true V = true := by
            rw [impl_row_range_seen, hV.2]; exact ha
          simpa [is_contiguous_view_impl, xview_slice.is_xall_slice, xview_slice.is_xrange,
            xview_slice.is_integral] using h1
        | nil =>
          simp only [List.nil_append] at hV
          cases alls with
          | nil => cases hV
          | cons x alls =>
            simp only [List.cons.injEq] at hV
            obtain ⟨n, hx⟩ := ha x (List.mem_cons_self _ _)
            rw [hV.1, hx]
            have h1 : is_contiguous_view_impl .row_major true true false V = true := by
              rw [impl_row_all_seen, hV.2]
              exact fun s hs => ha s (List.mem_cons_of_mem _ hs)
            simpa [is_contiguous_view_impl, xview_slice.is_xall_slice, xview_slice.is_xrange,
              xview_slice.is_integral] using h1

theorem impl_column_int_seen (V : List xview_slice) :
    ∀ r : Bool, is_contiguous_view_impl .column_major true true r V = true
      ↔ ∀ s ∈ V, ∃ v, s = xview_slice.integral v := by
  induction V with
  | nil => intro r; simp [is_contiguous_view_impl]
  | cons s V ih =>
    intro r
    cases s <;>
      simp [is_contiguous_view_impl, xview_slice.is_xall_slice, xview_slice.is_xrange,
        xview_slice.is_integral, impl_column_invalid, ih]

theorem impl_column_range_seen (V : List xview_slice) :
    is_contiguous_view_impl .column_major true false true V = true
      ↔ ∀ s ∈ V, ∃ v, s = xview_slice.integral v := by
  cases V with
  | nil => simp [is_contiguous_view_impl]
  | cons s V =>
    cases s <;>
      simp [is_contiguous_view_impl, xview_slice.is_xall_slice, xview_slice.is_xrange,
        xview_slice.is_integral, impl_column_invalid, impl_column_int_seen]

theorem impl_column_start (V : List xview_slice) :
    is_contiguous_view_impl .column_major true false false V = true
      ↔ ∃ alls r ints, V = alls ++ r ++ ints
          ∧ (∀ s ∈ alls, ∃ n, s = xview_slice.xall n)
          ∧ r.length ≤ 1 ∧ (∀ s ∈ r, ∃ a b, s = xview_slice.xrange a b)
          ∧ (∀ s ∈ ints, ∃ v, s = xview_slice.integral v) := by
  induction V with
  | nil =>
    simp only [is_contiguous_view_impl, true_iff]
    exact ⟨[], [], [], rfl, by simp, by simp, by simp, by simp⟩
  | cons s V ih =>
    constructor
    · intro h
      cases s with
      | xall n =>
        have h1 : is_contiguous_view_impl .column_major true false false V = true := by
          simpa [is_contiguous_view_impl, xview_slice.is_xall_slice, xview_slice.is_xrange,
            xview_slice.is_integral] using h
        obtain ⟨alls, r, ints, hV, ha, hr, hr2, hi⟩ := ih.mp h1
        refine ⟨.xall n :: alls, r, ints, by simp [hV], ?_, hr, hr2, hi⟩
        intro s hs
        rcases List.mem_cons.mp hs with h0 | h0
        · exact ⟨n, h0⟩
        · exact ha s h0
      | xrange a b =>
        have h1 : is_contiguous_view_impl .column_major true false true V = true := by
          simpa [is_contiguous_view_impl, xview_slice.is_xall_slice, xview_slice.is_xrange,
            xview_slice.is_integral] using h
        refine ⟨[], [.xrange a b], V, by simp, by simp, by simp, ?_,
          (impl_column_range_seen V).mp h1⟩
        intro s hs
        exact ⟨a, b, List.mem_singleton.mp hs⟩
      | integral v =>
        have h1 : is_contiguous_view_impl .column_major true true false V = true := by
          simpa [is_contiguous_view_impl, xview_slice.is_xall_slice, xview_slice.is_xrange,
            xview_slice.is_integral] using h
        refine ⟨[], [], .integral v :: V, by simp, by simp, by simp, by simp, ?_⟩
        intro s hs
        rcases List.mem_cons.mp hs with h0 | h0
        · exact ⟨v, h0⟩
        · exact (impl_column_int_seen V false).mp h1 s h0
      | xstepped_range a b c =>
        simp [is_contiguous_view_impl, xview_slice.is_xall_slice, xview_slice.is_xrange,
          xview_slice.is_integral, impl_column_invalid] at h
      | xnewaxis =>
        simp [is_contiguous_view_impl, xview_slice.is_xall_slice, xview_slice.is_xrange,
          xview_slice.is_integral, impl_column_invalid] at h
      | xkeep_slice idx =>
        simp [is_contiguous_view_impl, xview_slice.is_xall_slice, xview_slice.is_xrange,
          xview_slice.is_integral, impl_column_invalid] at h
      | xdrop_slice idx =>
        simp [is_contiguous_view_impl, xview_slice.is_xall_slice, xview_slice.is_xrange,
          xview_slice.is_integral, impl_column_invalid] at h
    · rintro ⟨alls, r, ints, hV, ha, hr, hr2, hi⟩
      cases alls with
      | cons x alls =>
        simp only [List.cons_append, List.cons.injEq] at hV
        obtain ⟨n, hx⟩ := ha x (List.mem_cons_self _ _)
        rw [hV.1, hx]
        have h1 : is_contiguous_view_impl .column_major true false false V = true :=
          ih.mpr ⟨alls, r, ints, hV.2, fun s hs => ha s (List.mem_cons_of_mem _ hs), hr, hr2, hi⟩
        simpa [is_contiguous_view_impl, xview_slice.is_xall_slice, xview_slice.is_xrange,
          xview_slice.is_integral] using h1
      | nil =>
        cases r with
        | cons x r =>
          have hr0 : r = [] := by
            cases r with
            | nil => rfl
            | cons y r => simp at hr
          subst hr0
          simp only [List.nil_append, List.singleton_append, List.cons.injEq] at hV
          obtain ⟨a, b, hx⟩ := hr2 x (List.mem_cons_self _ _)
          rw [hV.1, hx]
          have h1 : is_contiguous_view_impl .column_major true false true V = true := by
            rw [impl_column_range_seen, hV.2]; exact hi
          simpa [is_contiguous_view_impl, xview_slice.is_xall_slice, xview_slice.is_xrange,
            xview_slice.is_integral] using h1
        | nil =>
          simp only [List.nil_append] at hV
          cases ints with
          | nil => cases hV
          | cons x ints =>
            simp only [List.cons.injEq] at hV
            obtain ⟨v, hx⟩ := hi x (List.mem_cons_self _ _)
            rw [hV.1, hx]
            have h1 : is_contiguous_view_impl .column_major true true false V = true := by
              rw [impl_column_int_seen, hV.2]
              exact fun s hs => hi s (List.mem_cons_of_mem _ hs)
            simpa [is_contiguous_view_impl, xview_slice.is_xall_slice, xview_slice.is_xrange,
              xview_slice.is_integral] using h1

/-- A slice sequence that `is_contiguous_view_impl` accepts from its initial state holds
integer, `xrange` and `xall` slices only. -/
theorem impl_accepts_kinds (L : layout_type) (V : List xview_slice)
    (h : is_contiguous_view_impl L true false false V = true) :
    ∀ s ∈ V, (∃ v, s = xview_slice.integral v) ∨ (∃ a b, s = xview_slice.xrange a b)
      ∨ (∃ n, s = xview_slice.xall n) := by
  intro s hs
  cases L with
  | row_major =>
    obtain ⟨ints, r, alls, hV, hi, _, hr, ha⟩ := (impl_row_start V).mp h
    rw [hV] at hs
    simp only [List.mem_append] at hs
    rcases hs with (h1 | h1) | h1
    · exact Or.inl (hi s h1)
    · exact Or.inr (Or.inl (hr s h1))
    · exact Or.inr (Or.inr (ha s h1))
  | column_major =>
    obtain ⟨alls, r, ints, hV, ha, _, hr, hi⟩ := (impl_column_start V).mp h
    rw [hV] at hs
    simp only [List.mem_append] at hs
    rcases hs with (h1 | h1) | h1
    · exact Or.inr (Or.inr (ha s h1))
    · exact Or.inr (Or.inl (hr s h1))
    · exact Or.inl (hi s h1)
  | dynamic =>
    cases V <;> simp [is_contiguous_view_impl] at h


/-! ## The view builder `fill_args` -/

/-- C4: for every base, `fill_args` with a slice list made only of `k` all-slices, for any
`k` from 0 to the number `N` of base axes (the remaining axes being implicit), returns
`new_shape` equal to the base shape, `new_strides` equal to the base strides and `new_offset`
equal to the base offset. -/
theorem fill_args_all_identity (dsm : List Nat → List Int → layout_type → Bool)
    (shape : List Nat) (strides : List Int) (off : Nat) (layout : layout_type) (k : Nat)
    (hlen : strides.length = shape.length) (hk : k ≤ shape.length) :
    ∃ g, fill_args dsm shape strides off layout (List.replicate k .all) = .ok g
      ∧ g.new_shape = shape ∧ g.new_strides = strides ∧ g.new_offset = off := by
  refine ⟨view_geometry dsm shape strides off layout (List.replicate k .all), ?_, ?_, ?_, ?_⟩
  · rw [fill_args_eq dsm shape strides off layout _ hlen, n_ellipsis_replicate_all,
      n_consuming_replicate_all]
    simp
    omega
  · simp only [view_geometry, walk_result, taken_replicate_all]
    rw [out_shape_replicate_all _ k shape hk, List.take_append_drop]
  · simp only [view_geometry, walk_result, taken_replicate_all]
    rw [out_strides_replicate_all _ k shape strides (by omega), List.take_append_drop]
  · simp only [view_geometry, walk_result, out_addends_replicate_all, offset_after]

/-- Witness of C4: the identity view of a base of shape `(4, 5)` with one explicit all-slice. -/
theorem fill_args_all_identity_witness :
    ([5, 1] : List Int).length = ([4, 5] : List Nat).length ∧ 1 ≤ ([4, 5] : List Nat).length
      ∧ ∃ g, fill_args (fun _ _ _ => true) [4, 5] [5, 1] 3 .row_major (List.replicate 1 .all)
          = .ok g ∧ g.new_shape = [4, 5] ∧ g.new_strides = [5, 1] ∧ g.new_offset = 3 :=
  ⟨by decide, by decide,
    fill_args_all_identity (fun _ _ _ => true) [4, 5] [5, 1] 3 .row_major 1
      (by decide) (by decide)⟩

/-- C5: for every base of `N` axes, every axis `k < N` and every integer `c` (in particular
every `c` with `0 <= c < base_shape[k]`), `fill_args` with `k` all-slices followed by
`Integer(c)` returns the base shape and the base strides with entry `k` removed (the other
entries in their order), and `new_offset` is `base_offset + c * base_strides[k]` computed in
`std::size_t`; it is exactly that number whenever that number is a `std::size_t` value, as it is
for the flat position of an element of the base buffer. -/
theorem fill_args_integer_reduction (dsm : List Nat → List Int → layout_type → Bool)
    (shape : List Nat) (strides : List Int) (off : Nat) (layout : layout_type) (k : Nat) (c : Int)
    (hlen : strides.length = shape.length) (hk : k < shape.length) :
    ∃ g, fill_args dsm shape strides off layout (List.replicate k .all ++ [.integer c]) = .ok g
      ∧ g.new_shape = shape.eraseIdx k ∧ g.new_strides = strides.eraseIdx k
      ∧ g.new_offset = size_t_add off (to_size_t (c * strides.getD k 0))
      ∧ (0 ≤ (off : Int) + c * strides.getD k 0 → (off : Int) + c * strides.getD k 0 < 2 ^ 64 →
          (g.new_offset : Int) = (off : Int) + c * strides.getD k 0) := by
  have hE : n_ellipsis (List.replicate k xstrided_slice.all ++ [xstrided_slice.integer c]) = 0 := by
    rw [n_ellipsis_append, n_ellipsis_replicate_all]; rfl
  have hC : n_consuming (List.replicate k xstrided_slice.all ++ [xstrided_slice.integer c])
      = k + 1 := by
    rw [n_consuming_append, n_consuming_replicate_all]; rfl
  have hT : ∀ n, taken n (List.replicate k xstrided_slice.all ++ [xstrided_slice.integer c])
      = k + 1 := by
    intro n; rw [taken_no_ellipsis n _ hE, hC]
  have hoff : (view_geometry dsm shape strides off layout
      (List.replicate k .all ++ [.integer c])).new_offset
        = size_t_add off (to_size_t (c * strides.getD k 0)) := by
    simp only [view_geometry, walk_result, out_addends_append, out_addends_replicate_all,
      taken_replicate_all, List.nil_append, out_addends, offset_after]
    congr 3
    rw [List.headD_eq_head?_getD, List.head?_drop, List.getD_eq_getElem?_getD]
  refine ⟨view_geometry dsm shape strides off layout (List.replicate k .all ++ [.integer c]),
    ?_, ?_, ?_, hoff, ?_⟩
  · rw [fill_args_eq dsm shape strides off layout _ hlen, hE, hC]
    simp
    omega
  · simp only [view_geometry, walk_result, hT, out_shape_append, taken_replicate_all, out_shape,
      List.append_nil]
    rw [out_shape_replicate_all _ k shape (by omega), List.eraseIdx_eq_take_drop_succ]
  · simp only [view_geometry, walk_result, hT, out_strides_append, taken_replicate_all,
      out_strides, List.append_nil]
    rw [out_strides_replicate_all _ k shape strides (by omega), List.eraseIdx_eq_take_drop_succ]
  · intro h0 h1
    rw [hoff]
    exact size_t_add_exact off _ h0 h1

/-- Witness of C5: the scenario of the specification, base shape `(4, 5)` with strides `(5, 1)`
sliced with `(All, Integer(2))`, yields shape `(4)`, strides `(5)` and offset `2`. -/
theorem fill_args_integer_reduction_witness :
    ([5, 1] : List Int).length = ([4, 5] : List Nat).length ∧ 1 < ([4, 5] : List Nat).length
      ∧ ∃ g, fill_args (fun _ _ _ => false) [4, 5] [5, 1] 0 .row_major
          (List.replicate 1 .all ++ [.integer 2]) = .ok g
        ∧ g.new_shape = List.eraseIdx [4, 5] 1 ∧ g.new_strides = List.eraseIdx [5, 1] 1
        ∧ g.new_offset = size_t_add 0 (to_size_t (2 * List.getD [5, 1] 1 0))
        ∧ (0 ≤ ((0 : Nat) : Int) + 2 * List.getD [5, 1] 1 0 →
            ((0 : Nat) : Int) + 2 * List.getD [5, 1] 1 0 < 2 ^ 64 →
            (g.new_offset : Int) = ((0 : Nat) : Int) + 2 * List.getD [5, 1] 1 0) :=
  ⟨by decide, by decide,
    fill_args_integer_reduction (fun _ _ _ => false) [4, 5] [5, 1] 0 .row_major 1 2
      (by decide) (by decide)⟩

/-- C7: for every base of `N` axes and every position `p <= N`, `fill_args` with `p` all-slices
followed by a new-axis slice returns a shape of `N + 1` axes with `new_shape[p] = 1` and the base
sizes, in their order, on the other axes; `new_offset` equals the base offset and the strides of
the other axes are the base strides (the stride of the new axis is the `0` that `resize` left
there). -/
theorem fill_args_newaxis_insertion (dsm : List Nat → List Int → layout_type → Bool)
    (shape : List Nat) (strides : List Int) (off : Nat) (layout : layout_type) (p : Nat)
    (hlen : strides.length = shape.length) (hp : p ≤ shape.length) :
    ∃ g, fill_args dsm shape strides off layout (List.replicate p .all ++ [.newaxis]) = .ok g
      ∧ g.new_shape = shape.take p ++ 1 :: shape.drop p
      ∧ g.new_shape.length = shape.length + 1
      ∧ g.new_shape.get? p = some 1
      ∧ g.new_shape.eraseIdx p = shape
      ∧ g.new_strides = strides.take p ++ 0 :: strides.drop p
      ∧ g.new_strides.eraseIdx p = strides
      ∧ g.new_offset = off := by
  have hE : n_ellipsis (List.replicate p xstrided_slice.all ++ [xstrided_slice.newaxis]) = 0 := by
    rw [n_ellipsis_append, n_ellipsis_replicate_all]; rfl
  have hC : n_consuming (List.replicate p xstrided_slice.all ++ [xstrided_slice.newaxis])
      = p := by
    rw [n_consuming_append, n_consuming_replicate_all]; rfl
  have hT : ∀ n, taken n (List.replicate p xstrided_slice.all ++ [xstrided_slice.newaxis])
      = p := by
    intro n; rw [taken_no_ellipsis n _ hE, hC]
  have hsh : (view_geometry dsm shape strides off layout
      (List.replicate p .all ++ [.newaxis])).new_shape = shape.take p ++ 1 :: shape.drop p := by
    simp only [view_geometry, walk_result, hT, out_shape_append, taken_replicate_all, out_shape]
    rw [out_shape_replicate_all _ p shape hp]
    simp
  have hsd : (view_geometry dsm shape strides off layout
      (List.replicate p .all ++ [.newaxis])).new_strides
        = strides.take p ++ 0 :: strides.drop p := by
    simp only [view_geometry, walk_result, hT, out_strides_append, taken_replicate_all,
      out_strides]
    rw [out_strides_replicate_all _ p shape strides (by omega)]
    simp
  have hlp : (shape.take p).length = p := by simp; omega
  have hlq : (strides.take p).length = p := by simp; omega
  refine ⟨view_geometry dsm shape strides off layout (List.replicate p .all ++ [.newaxis]),
    ?_, hsh, ?_, ?_, ?_, hsd, ?_, ?_⟩
  · rw [fill_args_eq dsm shape strides off layout _ hlen, hE, hC]
    simp
    omega
  · rw [hsh]; simp; omega
  · rw [hsh, List.get?_eq_getElem?, List.getElem?_append_right (by omega), hlp]
    simp
  · rw [hsh, List.eraseIdx_append_of_length_le (by omega), hlp]
    simp
  · rw [hsd, List.eraseIdx_append_of_length_le (by omega), hlq]
    simp
  · simp only [view_geometry, walk_result, out_addends_append, out_addends_replicate_all,
      List.nil_append, out_addends, offset_after]

/-- Witness of C7: a new axis inserted at position 1 of a base of shape `(4, 5)`. -/
theorem fill_args_newaxis_insertion_witness :
    ([5, 1] : List Int).length = ([4, 5] : List Nat).length ∧ 1 ≤ ([4, 5] : List Nat).length
      ∧ ∃ g, fill_args (fun _ _ _ => false) [4, 5] [5, 1] 7 .row_major
          (List.replicate 1 .all ++ [.newaxis]) = .ok g
        ∧ g.new_shape = List.take 1 [4, 5] ++ 1 :: List.drop 1 [4, 5]
        ∧ g.new_shape.length = ([4, 5] : List Nat).length + 1
        ∧ g.new_shape.get? 1 = some 1
        ∧ g.new_shape.eraseIdx 1 = [4, 5]
        ∧ g.new_strides = List.take 1 [5, 1] ++ 0 :: List.drop 1 [5, 1]
        ∧ g.new_strides.eraseIdx 1 = [5, 1]
        ∧ g.new_offset = 7 :=
  ⟨by decide, by decide,
    fill_args_newaxis_insertion (fun _ _ _ => false) [4, 5] [5, 1] 7 .row_major 1
      (by decide) (by decide)⟩

/-- C8: for every base of `N` axes and every accepted slice list `pre ++ [Ellipsis] ++ post` of
`M` slices with `nNew` new-axis slices, `fill_args` returns the same `new_shape`, `new_strides`,
`new_offset` and `new_layout` as it does for `pre ++ [All repeated N - (M - 1 - nNew) times] ++
post`. -/
theorem fill_args_ellipsis_expansion (dsm : List Nat → List Int → layout_type → Bool)
    (shape : List Nat) (strides : List Int) (off : Nat) (layout : layout_type)
    (pre post : List xstrided_slice) (g : strided_view_args)
    (hlen : strides.length = shape.length)
    (hacc : fill_args dsm shape strides off layout (pre ++ [.ellipsis] ++ post) = .ok g) :
    fill_args dsm shape strides off layout
      (pre ++ List.replicate
          (shape.length - ((pre ++ [xstrided_slice.ellipsis] ++ post).length - 1
            - n_newaxis (pre ++ [xstrided_slice.ellipsis] ++ post))) .all ++ post) = .ok g := by
  rw [fill_args_ok_iff dsm shape strides off layout _ hlen] at hacc
  obtain ⟨hE, hC, hg⟩ := hacc
  have hE1 : n_ellipsis (pre ++ [xstrided_slice.ellipsis] ++ post)
      = n_ellipsis pre + 1 + n_ellipsis post := by
    simp only [n_ellipsis_append, n_ellipsis]
  have hC1 : n_consuming (pre ++ [xstrided_slice.ellipsis] ++ post)
      = n_consuming pre + n_consuming post := by
    simp only [n_consuming_append, n_consuming]; omega
  have hpre : n_ellipsis pre = 0 := by omega
  have hpost : n_ellipsis post = 0 := by omega
  have hM := length_eq_counts (pre ++ [xstrided_slice.ellipsis] ++ post)
  have hm : shape.length - ((pre ++ [xstrided_slice.ellipsis] ++ post).length - 1
      - n_newaxis (pre ++ [xstrided_slice.ellipsis] ++ post))
        = shape.length - (n_consuming pre + n_consuming post) := by
    omega
  have hn : n_add_all shape.length (pre ++ [xstrided_slice.ellipsis] ++ post)
      = shape.length - (n_consuming pre + n_consuming post) := by
    unfold n_add_all
    rw [if_pos (by omega), hm]
  rw [hm]
  generalize hmdef : shape.length - (n_consuming pre + n_consuming post) = m at hn
  have hE2 : n_ellipsis (pre ++ List.replicate m xstrided_slice.all ++ post) = 0 := by
    simp only [n_ellipsis_append, n_ellipsis_replicate_all]; omega
  have hC2 : n_consuming (pre ++ List.replicate m xstrided_slice.all ++ post)
      = n_consuming pre + m + n_consuming post := by
    simp only [n_consuming_append, n_consuming_replicate_all]
  have hn2 : n_add_all shape.length (pre ++ List.replicate m xstrided_slice.all ++ post) = 0 := by
    unfold n_add_all
    rw [if_neg (by omega)]
  rw [fill_args_ok_iff dsm shape strides off layout _ hlen]
  refine ⟨by omega, by omega, ?_⟩
  obtain ⟨e1, e2, e3, e4⟩ := ellipsis_as_alls m pre post hpre hpost shape strides
    (by omega) (by omega)
  rw [hg]
  simp only [view_geometry, walk_result, hn, hn2, e1, e2, e3, e4]


/-- Witness of C8: `(Ellipsis, 2)` on a base of 3 axes gives the same geometry as
`(All, All, 2)`. -/
theorem fill_args_ellipsis_expansion_witness :
    ([30, 6, 1] : List Int).length = ([4, 5, 6] : List Nat).length
      ∧ fill_args (fun _ _ _ => false) [4, 5, 6] [30, 6, 1] 0 .row_major
          ([] ++ [.ellipsis] ++ [.integer 2])
          = .ok { new_shape := [4, 5], new_strides := [30, 6], new_offset := 2,
                  new_layout := .dynamic }
      ∧ fill_args (fun _ _ _ => false) [4, 5, 6] [30, 6, 1] 0 .row_major
          ([] ++ List.replicate
            (([4, 5, 6] : List Nat).length
              - (([] ++ [xstrided_slice.ellipsis] ++ [xstrided_slice.integer 2]).length - 1
                - n_newaxis ([] ++ [xstrided_slice.ellipsis] ++ [xstrided_slice.integer 2])))
            .all ++ [.integer 2])
          = .ok { new_shape := [4, 5], new_strides := [30, 6], new_offset := 2,
                  new_layout := .dynamic } :=
  ⟨by decide, by rfl,
    fill_args_ellipsis_expansion (fun _ _ _ => false) [4, 5, 6] [30, 6, 1] 0 .row_major
      [] [.integer 2] _ (by decide) (by rfl)⟩

/-- C9: for every base of `N` axes and every accepted slice list without an ellipsis, which
takes `r <= N` base axes, `fill_args` returns the same `new_shape`, `new_strides`, `new_offset`
and `new_layout` as it does for that list extended with `N - r` explicit all-slices. -/
theorem fill_args_trailing_all (dsm : List Nat → List Int → layout_type → Bool)
    (shape : List Nat) (strides : List Int) (off : Nat) (layout : layout_type)
    (ss : List xstrided_slice) (g : strided_view_args)
    (hlen : strides.length = shape.length) (hE : n_ellipsis ss = 0)
    (hacc : fill_args dsm shape strides off layout ss = .ok g) :
    n_consuming ss ≤ shape.length
      ∧ fill_args dsm shape strides off layout
          (ss ++ List.replicate (shape.length - n_consuming ss) .all) = .ok g := by
  rw [fill_args_ok_iff dsm shape strides off layout _ hlen] at hacc
  obtain ⟨_, hC, hg⟩ := hacc
  refine ⟨hC, ?_⟩
  have hE2 : n_ellipsis (ss ++ List.replicate (shape.length - n_consuming ss) xstrided_slice.all)
      = 0 := by
    rw [n_ellipsis_append, n_ellipsis_replicate_all, hE]
  have hC2 : n_consuming (ss ++ List.replicate (shape.length - n_consuming ss) xstrided_slice.all)
      = shape.length := by
    rw [n_consuming_append, n_consuming_replicate_all]; omega
  have hn : n_add_all shape.length ss = 0 := by
    unfold n_add_all; rw [if_neg (by omega)]
  have hn2 : n_add_all shape.length
      (ss ++ List.replicate (shape.length - n_consuming ss) xstrided_slice.all) = 0 := by
    unfold n_add_all; rw [if_neg (by omega)]
  have ht : taken 0 ss = n_consuming ss := taken_no_ellipsis 0 ss hE
  have l1 : shape.length - n_consuming ss ≤ (shape.drop (n_consuming ss)).length := by simp
  have l2 : shape.length - n_consuming ss ≤ (strides.drop (n_consuming ss)).length := by
    simp; omega
  rw [fill_args_ok_iff dsm shape strides off layout _ hlen]
  refine ⟨by omega, by omega, ?_⟩
  rw [hg]
  simp only [view_geometry, walk_result, hn, hn2, out_shape_append, out_strides_append,
    out_addends_append, taken_append, ht, taken_replicate_all, out_addends_replicate_all,
    List.append_nil, out_shape_replicate_all 0 _ _ l1, out_strides_replicate_all 0 _ _ _ l2]
  have d1 : shape.drop (n_consuming ss + (shape.length - n_consuming ss)) = [] := by
    apply List.drop_eq_nil_of_le; omega
  have d2 : strides.drop (n_consuming ss + (shape.length - n_consuming ss)) = [] := by
    apply List.drop_eq_nil_of_le; omega
  have t1 : (shape.drop (n_consuming ss)).take (shape.length - n_consuming ss)
      = shape.drop (n_consuming ss) := take_drop_all shape _ _ (by omega)
  have t2 : (strides.drop (n_consuming ss)).take (shape.length - n_consuming ss)
      = strides.drop (n_consuming ss) := take_drop_all strides _ _ (by omega)
  rw [d1, d2, t1, t2]
  simp

/-- Witness of C9: `(1)` on a base of shape `(4, 5, 6)` gives the same geometry as
`(1, All, All)`. -/
theorem fill_args_trailing_all_witness :
    ([30, 6, 1] : List Int).length = ([4, 5, 6] : List Nat).length
      ∧ n_ellipsis [.integer 1] = 0
      ∧ fill_args (fun _ _ _ => true) [4, 5, 6] [30, 6, 1] 0 .row_major [.integer 1]
          = .ok { new_shape := [5, 6], new_strides := [6, 1], new_offset := 30,
                  new_layout := .row_major }
      ∧ n_consuming [.integer 1] ≤ ([4, 5, 6] : List Nat).length
      ∧ fill_args (fun _ _ _ => true) [4, 5, 6] [30, 6, 1] 0 .row_major
          ([.integer 1] ++ List.replicate
            (([4, 5, 6] : List Nat).length - n_consuming [.integer 1]) .all)
          = .ok { new_shape := [5, 6], new_strides := [6, 1], new_offset := 30,
                  new_layout := .row_major } :=
  ⟨by decide, by decide, by rfl,
    fill_args_trailing_all (fun _ _ _ => true) [4, 5, 6] [30, 6, 1] 0 .row_major
      [.integer 1] _ (by decide) (by decide) (by rfl)⟩

/-- C10: `fill_args` fails (raises, producing no geometry) exactly when the slice list contains
more than one ellipsis or the number of slices that take a base axis (every slice that is
neither a new axis nor an ellipsis: integer, range, all) exceeds the number `N` of base axes; the
failure is one of its two exceptions; for every other slice list it returns a geometry. -/
theorem fill_args_fails_iff (dsm : List Nat → List Int → layout_type → Bool)
    (shape : List Nat) (strides : List Int) (off : Nat) (layout : layout_type)
    (ss : List xstrided_slice) (hlen : strides.length = shape.length) :
    ((∃ e, fill_args dsm shape strides off layout ss = .error e)
        ↔ (2 ≤ n_ellipsis ss ∨ shape.length < n_consuming ss))
      ∧ ((∃ g, fill_args dsm shape strides off layout ss = .ok g)
        ↔ ¬ (2 ≤ n_ellipsis ss ∨ shape.length < n_consuming ss))
      ∧ (∀ e, fill_args dsm shape strides off layout ss = .error e →
          e = .ellipsis_can_only_appear_once ∨ e = .too_many_slices_for_view) := by
  rw [fill_args_eq dsm shape strides off layout ss hlen]
  by_cases hE : 2 ≤ n_ellipsis ss
  · simp [hE]
  · by_cases hC : shape.length < n_consuming ss
    · simp [hE, hC]
    · simp [hE, hC]

/-- Witness of C10: three all-slices on a base of two axes are too many slices. -/
theorem fill_args_fails_iff_witness :
    ([5, 1] : List Int).length = ([4, 5] : List Nat).length
      ∧ ((∃ e, fill_args (fun _ _ _ => true) [4, 5] [5, 1] 0 .row_major [.all, .all, .all]
            = .error e)
          ↔ (2 ≤ n_ellipsis [.all, .all, .all]
              ∨ ([4, 5] : List Nat).length < n_consuming [.all, .all, .all]))
      ∧ ((∃ g, fill_args (fun _ _ _ => true) [4, 5] [5, 1] 0 .row_major [.all, .all, .all]
            = .ok g)
          ↔ ¬ (2 ≤ n_ellipsis [.all, .all, .all]
              ∨ ([4, 5] : List Nat).length < n_consuming [.all, .all, .all]))
      ∧ (∀ e, fill_args (fun _ _ _ => true) [4, 5] [5, 1] 0 .row_major [.all, .all, .all]
            = .error e →
          e = .ellipsis_can_only_appear_once ∨ e = .too_many_slices_for_view) :=
  ⟨by decide,
    fill_args_fails_iff (fun _ _ _ => true) [4, 5] [5, 1] 0 .row_major [.all, .all, .all]
      (by decide)⟩

/-- C3: for every base of `N` axes and every slice list that `fill_args` accepts, `new_shape`
and `new_strides` both have length `N - nInt + nNew` (`nInt` integer slices, `nNew` new-axis
slices); the walk over the slices and the loop over the trailing axes assign each of those
result axes exactly once, in order (the positions assigned are `0, ..., N - nInt + nNew - 1` and
the cursor `idx` ends at `N - nInt + nNew`); and `xview::compute_shape`, for slices with as many
integer and new-axis slices, produces a shape of the same length, on its general path and, for
a view without new-axis slices, on the path that reuses the base shape. -/
theorem fill_args_result_dimension (dsm : List Nat → List Int → layout_type → Bool)
    (shape : List Nat) (strides : List Int) (off : Nat) (layout : layout_type)
    (ss : List xstrided_slice) (g : strided_view_args)
    (hlen : strides.length = shape.length)
    (hacc : fill_args dsm shape strides off layout ss = .ok g) :
    n_integer ss ≤ shape.length
      ∧ g.new_shape.length = shape.length - n_integer ss + n_newaxis ss
      ∧ g.new_strides.length = shape.length - n_integer ss + n_newaxis ss
      ∧ (∃ st, fill_args_walk shape strides off ss = .ok st
          ∧ st.new_shape = g.new_shape
          ∧ st.idx = shape.length - n_integer ss + n_newaxis ss
          ∧ st.assigned = List.range (shape.length - n_integer ss + n_newaxis ss))
      ∧ (∀ vs : List xview_slice, integral_count vs = n_integer ss →
          newaxis_count vs = n_newaxis ss →
          ∃ s, compute_shape shape vs = some s ∧ s.length = g.new_shape.length)
      ∧ (∀ (L : layout_type) (vs : List xview_slice), L ≠ .dynamic →
          integral_count vs = n_integer ss → newaxis_count vs = n_newaxis ss →
          newaxis_count vs = 0 →
          ∃ s, compute_shape_sequence_view L shape vs = some s
            ∧ s.length = g.new_shape.length) := by
  rw [fill_args_ok_iff dsm shape strides off layout _ hlen] at hacc
  obtain ⟨hE, hC, hg⟩ := hacc
  obtain ⟨h1, h2, h3⟩ := walk_result_lengths shape strides off ss hlen hE hC
  have hgs : g.new_shape = (walk_result shape strides off ss).new_shape := by rw [hg]; rfl
  have hgd : g.new_strides = (walk_result shape strides off ss).new_strides := by rw [hg]; rfl
  refine ⟨h1, by rw [hgs, h2], by rw [hgd, h3], ?_, ?_, ?_⟩
  · refine ⟨walk_result shape strides off ss, ?_, hgs.symm, ?_, ?_⟩
    · rw [fill_args_walk_eq shape strides off ss hlen, if_neg (by omega), if_neg (by omega)]
    · rw [← h2]; rfl
    · rw [← h2]; rfl
  · intro vs hi hn
    obtain ⟨s, hs, hl⟩ := compute_shape_length shape vs
    exact ⟨s, hs, by rw [hl, hgs, h2, hi, hn]⟩
  · intro L vs hL hi hn h0
    obtain ⟨s, hs, hl⟩ := compute_shape_sequence_view_length L shape vs hL
    refine ⟨s, hs, ?_⟩
    rw [hl, hgs, h2, hi]
    omega

/-- Witness of C3: `(NewAxis, 2, Ellipsis)` on a base of shape `(4, 5, 6)` has
`3 - 1 + 1 = 3` result axes. -/
theorem fill_args_result_dimension_witness :
    ([30, 6, 1] : List Int).length = ([4, 5, 6] : List Nat).length
      ∧ fill_args (fun _ _ _ => false) [4, 5, 6] [30, 6, 1] 0 .row_major
          [.newaxis, .integer 2, .ellipsis]
          = .ok { new_shape := [1, 5, 6], new_strides := [0, 6, 1], new_offset := 60,
                  new_layout := .dynamic }
      ∧ ([1, 5, 6] : List Nat).length
          = ([4, 5, 6] : List Nat).length - n_integer [.newaxis, .integer 2, .ellipsis]
            + n_newaxis [.newaxis, .integer 2, .ellipsis] :=
  ⟨by decide, by rfl,
    (fill_args_result_dimension (fun _ _ _ => false) [4, 5, 6] [30, 6, 1] 0 .row_major
      [.newaxis, .integer 2, .ellipsis] _ (by decide) (by rfl)).2.1⟩

/-! ## The index translation of `xview` -/

/-- C2: for every `xview` whose slice list holds only integer, range and all slices (at most
`N` of them, `N` the number of base axes) and every multi-index `I` with exactly `dimension()`
entries, `xview::operator()(I)` reads the base element whose index on base axis `a` is: the
value of the integer when slice `a` is an integer; slice `a` applied to
`I[a - (number of integer slices before a)]` when slice `a` is a range or an all-slice; and
`I[a - (number of integer slices)]` when base axis `a` lies past the slice list. The shape
`m_shape` of the view is the one its constructor computes, on the general path or on the path
that reuses the base shape. -/
theorem xview_access_translate (base_shape : List Nat) (slices : List xview_slice)
    (m_shape : List Nat) (I : List Nat)
    (hk : ∀ s ∈ slices, s.is_integer_range_or_all = true)
    (hlen : slices.length ≤ base_shape.length)
    (hshape : compute_shape base_shape slices = some m_shape
      ∨ ∃ L, compute_shape_sequence_view L base_shape slices = some m_shape)
    (hI : I.length = m_shape.length) :
    ∃ J, access slices m_shape.length I = some J
      ∧ J.length = base_shape.length
      ∧ ∀ a, a < base_shape.length →
          J.get? a = some
            (match slices.get? a with
              | some (.integral v) => to_size_t v
              | some s => to_size_t (s.value (I.getD (a - integral_count_before slices a) 0))
              | none => I.getD (a - integral_count slices) 0) := by
  have hz2 : newaxis_count slices = 0 := newaxis_count_before_zero slices hk slices.length
  have hdim : m_shape.length = base_shape.length - integral_count slices := by
    rcases hshape with h | ⟨L, h⟩
    · obtain ⟨s, hs, hl⟩ := compute_shape_length base_shape slices
      rw [h] at hs
      cases hs
      rw [hl, hz2]; rfl
    · have hL : L ≠ .dynamic := by
        intro h0; rw [h0] at h; simp [compute_shape_sequence_view] at h
      obtain ⟨s, hs, hl⟩ := compute_shape_sequence_view_length L base_shape slices hL
      rw [h] at hs
      cases hs
      exact hl
  rw [hdim] at hI ⊢
  rw [access_eq_access_impl slices base_shape.length I hk hlen hI]
  have hall := all_some_map (fun a => index slices a I)
    (fun a => match slices.get? a with
        | some (.integral v) => to_size_t v
        | some s => to_size_t (s.value (I.getD (a - integral_count_before slices a) 0))
        | none => I.getD (a - integral_count slices) 0)
    (List.range base_shape.length)
    (fun a ha => index_translate slices base_shape.length I hk hlen hI a (List.mem_range.mp ha))
  refine ⟨_, hall, by simp, ?_⟩
  intro a ha
  rw [List.get?_eq_getElem?, List.getElem?_map, List.getElem?_range ha]
  rfl

/-- Witness of C2: the view `(Integer(2), Range(1, 3), All)` of a base of shape `(4, 5, 6, 7)`,
read at `(1, 3, 4)`; the base element read is `(2, 2, 3, 4)`. -/
theorem xview_access_translate_witness :
    (∀ s ∈ [xview_slice.integral 2, .xrange 1 2, .xall 6],
        s.is_integer_range_or_all = true)
      ∧ [xview_slice.integral 2, .xrange 1 2, .xall 6].length
          ≤ ([4, 5, 6, 7] : List Nat).length
      ∧ compute_shape [4, 5, 6, 7] [.integral 2, .xrange 1 2, .xall 6] = some [2, 6, 7]
      ∧ ([1, 3, 4] : List Nat).length = ([2, 6, 7] : List Nat).length
      ∧ ∃ J, access [.integral 2, .xrange 1 2, .xall 6] ([2, 6, 7] : List Nat).length [1, 3, 4]
            = some J
          ∧ J.length = ([4, 5, 6, 7] : List Nat).length
          ∧ ∀ a, a < ([4, 5, 6, 7] : List Nat).length →
              J.get? a = some
                (match [xview_slice.integral 2, .xrange 1 2, .xall 6].get? a with
                  | some (.integral v) => to_size_t v
                  | some s =>
                      to_size_t (s.value (List.getD [1, 3, 4]
                        (a - integral_count_before
                          [xview_slice.integral 2, .xrange 1 2, .xall 6] a) 0))
                  | none =>
                      List.getD [1, 3, 4]
                        (a - integral_count [xview_slice.integral 2, .xrange 1 2, .xall 6]) 0) :=
  ⟨by decide, by decide, rfl, rfl,
    xview_access_translate [4, 5, 6, 7] [.integral 2, .xrange 1 2, .xall 6] [2, 6, 7] [1, 3, 4]
      (by decide) (by decide) (Or.inl rfl) rfl⟩

/-- C6: in every slice list `pre ++ [Range] ++ post` that `fill_args` accepts, the range slice,
which meets base axis `a` and resolves against it to `(start, count, step)`, produces exactly one
result axis `j`, with `new_shape[j] = count` (the `std::size_t` value of `count`; it is `count`
itself for every count from `0` on) and `new_strides[j] = step * base_strides[a]`, and adds
`start * base_strides[a]` to `new_offset`: compared with the same list with an all-slice in the
place of the range, the geometry differs in result axis `j` and in that addend only. Neither
the sign of `step` nor `count = 0` makes a difference. -/
theorem fill_args_range (dsm : List Nat → List Int → layout_type → Bool)
    (shape : List Nat) (strides : List Int) (off : Nat) (layout : layout_type)
    (pre post : List xstrided_slice) (r : xrange_adaptor) (g : strided_view_args)
    (hlen : strides.length = shape.length)
    (hacc : fill_args dsm shape strides off layout (pre ++ [.range r] ++ post) = .ok g) :
    base_axis_after shape.length (pre ++ [.range r] ++ post) pre < shape.length
      ∧ g.new_shape.get? (result_axis_after shape.length (pre ++ [.range r] ++ post) pre)
          = some (to_size_t (r.get (shape.getD
              (base_axis_after shape.length (pre ++ [.range r] ++ post) pre) 0)).2.1)
      ∧ (0 ≤ (r.get (shape.getD
              (base_axis_after shape.length (pre ++ [.range r] ++ post) pre) 0)).2.1 →
          (r.get (shape.getD
              (base_axis_after shape.length (pre ++ [.range r] ++ post) pre) 0)).2.1 < 2 ^ 64 →
          ((g.new_shape.getD
              (result_axis_after shape.length (pre ++ [.range r] ++ post) pre) 0 : Nat) : Int)
            = (r.get (shape.getD
              (base_axis_after shape.length (pre ++ [.range r] ++ post) pre) 0)).2.1)
      ∧ g.new_strides.get? (result_axis_after shape.length (pre ++ [.range r] ++ post) pre)
          = some ((r.get (shape.getD
              (base_axis_after shape.length (pre ++ [.range r] ++ post) pre) 0)).2.2
            * strides.getD (base_axis_after shape.length (pre ++ [.range r] ++ post) pre) 0)
      ∧ ∃ g0, fill_args dsm shape strides off layout (pre ++ [.all] ++ post) = .ok g0
          ∧ g.new_shape = g0.new_shape.set
              (result_axis_after shape.length (pre ++ [.range r] ++ post) pre)
              (to_size_t (r.get (shape.getD
                (base_axis_after shape.length (pre ++ [.range r] ++ post) pre) 0)).2.1)
          ∧ g.new_strides = g0.new_strides.set
              (result_axis_after shape.length (pre ++ [.range r] ++ post) pre)
              ((r.get (shape.getD
                (base_axis_after shape.length (pre ++ [.range r] ++ post) pre) 0)).2.2
                * strides.getD (base_axis_after shape.length (pre ++ [.range r] ++ post) pre) 0)
          ∧ g.new_offset = size_t_add g0.new_offset
              (to_size_t ((r.get (shape.getD
                (base_axis_after shape.length (pre ++ [.range r] ++ post) pre) 0)).1
                * strides.getD (base_axis_after shape.length (pre ++ [.range r] ++ post) pre) 0))
          := by
  rw [fill_args_ok_iff dsm shape strides off layout _ hlen] at hacc
  obtain ⟨hE, hC, hg⟩ := hacc
  have cE : n_ellipsis (pre ++ [xstrided_slice.all] ++ post)
      = n_ellipsis (pre ++ [xstrided_slice.range r] ++ post) := by
    simp only [n_ellipsis_append, n_ellipsis]
  have cC : n_consuming (pre ++ [xstrided_slice.all] ++ post)
      = n_consuming (pre ++ [xstrided_slice.range r] ++ post) := by
    simp only [n_consuming_append, n_consuming]
  have cN : n_newaxis (pre ++ [xstrided_slice.all] ++ post)
      = n_newaxis (pre ++ [xstrided_slice.range r] ++ post) := by
    simp only [n_newaxis_append, n_newaxis]
  have cL : (pre ++ [xstrided_slice.all] ++ post).length
      = (pre ++ [xstrided_slice.range r] ++ post).length := by
    simp
  have cn : n_add_all shape.length (pre ++ [xstrided_slice.all] ++ post)
      = n_add_all shape.length (pre ++ [xstrided_slice.range r] ++ post) :=
    n_add_all_congr _ _ _ cE cL cN
  obtain ⟨ht, _, _⟩ := taken_le_of_accepted shape.length _ hE hC
  unfold base_axis_after result_axis_after
  generalize hn : n_add_all shape.length (pre ++ [xstrided_slice.range r] ++ post) = n
    at cn ht ⊢
  have htR : taken n (pre ++ [xstrided_slice.range r] ++ post)
      = taken n pre + 1 + taken n post := by
    simp only [taken_append, taken, axes_taken]
  have htA : taken n (pre ++ [xstrided_slice.all] ++ post)
      = taken n pre + 1 + taken n post := by
    simp only [taken_append, taken, axes_taken]
  have ha : taken n pre < shape.length := by omega
  obtain ⟨hol, hin⟩ := out_shape_length n pre shape (by omega)
  have hsl := out_strides_length n pre shape strides (by omega) (by omega)
  rw [← hol]
  have hh1 : (shape.drop (taken n pre)).headD 0 = shape.getD (taken n pre) 0 := headD_drop _ _ _
  have hh2 : (strides.drop (taken n pre)).headD 0 = strides.getD (taken n pre) 0 :=
    headD_drop _ _ _
  have eS : g.new_shape = out_shape n shape pre
      ++ to_size_t (r.get (shape.getD (taken n pre) 0)).2.1
        :: (out_shape n (shape.drop (taken n pre)).tail post
          ++ shape.drop (taken n pre + 1 + taken n post)) := by
    rw [hg, view_geometry_new_shape, hn, htR, out_shape_mid]
    simp only [out_shape, hh1, List.append_assoc, List.cons_append]
  have eD : g.new_strides = out_strides n shape strides pre
      ++ (r.get (shape.getD (taken n pre) 0)).2.2 * strides.getD (taken n pre) 0
        :: (out_strides n (shape.drop (taken n pre)).tail (strides.drop (taken n pre)).tail post
          ++ strides.drop (taken n pre + 1 + taken n post)) := by
    rw [hg, view_geometry_new_strides, hn, htR, out_strides_mid]
    simp only [out_strides, hh1, hh2, List.append_assoc, List.cons_append]
  have eO : g.new_offset = offset_after off (out_addends n shape strides pre
      ++ (r.get (shape.getD (taken n pre) 0)).1 * strides.getD (taken n pre) 0
        :: out_addends n (shape.drop (taken n pre)).tail (strides.drop (taken n pre)).tail
            post) := by
    rw [hg, view_geometry_new_offset, hn, out_addends_mid]
    simp only [out_addends, hh1, hh2]
  have eS0 : (view_geometry dsm shape strides off layout
      (pre ++ [xstrided_slice.all] ++ post)).new_shape = out_shape n shape pre
      ++ shape.getD (taken n pre) 0
        :: (out_shape n (shape.drop (taken n pre)).tail post
          ++ shape.drop (taken n pre + 1 + taken n post)) := by
    rw [view_geometry_new_shape, cn, htA, out_shape_mid]
    simp only [out_shape, hh1, List.append_assoc, List.cons_append]
  have eD0 : (view_geometry dsm shape strides off layout
      (pre ++ [xstrided_slice.all] ++ post)).new_strides = out_strides n shape strides pre
      ++ strides.getD (taken n pre) 0
        :: (out_strides n (shape.drop (taken n pre)).tail (strides.drop (taken n pre)).tail post
          ++ strides.drop (taken n pre + 1 + taken n post)) := by
    rw [view_geometry_new_strides, cn, htA, out_strides_mid]
    simp only [out_strides, hh2, List.append_assoc, List.cons_append]
  have eO0 : (view_geometry dsm shape strides off layout
      (pre ++ [xstrided_slice.all] ++ post)).new_offset
      = offset_after off (out_addends n shape strides pre
        ++ out_addends n (shape.drop (taken n pre)).tail (strides.drop (taken n pre)).tail
            post) := by
    rw [view_geometry_new_offset, cn, out_addends_mid]
    simp only [out_addends]
  have hgetS : g.new_shape.get? (out_shape n shape pre).length
      = some (to_size_t (r.get (shape.getD (taken n pre) 0)).2.1) := by
    rw [eS]; exact get?_at_length _ _ _
  refine ⟨ha, hgetS, ?_, ?_, ?_⟩
  · intro h0 h1
    rw [List.get?_eq_getElem?] at hgetS
    rw [List.getD_eq_getElem?_getD, hgetS]
    exact to_size_t_of_nonneg _ h0 h1
  · rw [eD, ← hsl]; exact get?_at_length _ _ _
  · refine ⟨view_geometry dsm shape strides off layout (pre ++ [.all] ++ post), ?_, ?_, ?_, ?_⟩
    · rw [fill_args_ok_iff dsm shape strides off layout _ hlen]
      exact ⟨by omega, by omega, rfl⟩
    · rw [eS, eS0, set_at_length]
    · rw [eD, eD0, ← hsl, set_at_length]
    · rw [eO, eO0, offset_after_insert]

/-- Witness of C6: `(range(3, 1, -1), All)` on a base of shape `(4, 5)` with strides `(5, 1)`;
the range resolves to start 3, count 2, step -1, and result axis 0 has size 2. -/
theorem fill_args_range_witness :
    ([5, 1] : List Int).length = ([4, 5] : List Nat).length
      ∧ fill_args (fun _ _ _ => false) [4, 5] [5, 1] 0 .row_major
          ([] ++ [.range (range_adaptor 3 1 (-1))] ++ [.all])
          = .ok { new_shape := [2, 5], new_strides := [-5, 1], new_offset := 15,
                  new_layout := .dynamic }
      ∧ List.get? [2, 5]
          (result_axis_after ([4, 5] : List Nat).length
            ([] ++ [.range (range_adaptor 3 1 (-1))] ++ [.all]) [])
          = some (to_size_t ((range_adaptor 3 1 (-1)).get (List.getD [4, 5]
              (base_axis_after ([4, 5] : List Nat).length
                ([] ++ [.range (range_adaptor 3 1 (-1))] ++ [.all]) []) 0)).2.1) :=
  ⟨by decide, by rfl,
    (fill_args_range (fun _ _ _ => false) [4, 5] [5, 1] 0 .row_major [] [.all]
      (range_adaptor 3 1 (-1)) _ (by decide) (by rfl)).2.1⟩

/-! ## Element access through a strided view -/

/-- C1: for every base (shape of `N` axes, strides, offset), every slice list of integer,
range, all, new-axis and ellipsis slices that `fill_args` accepts and every multi-index `I` with
`0 <= I[j] < new_shape[j]`, the flat offset `new_offset + sum_j I[j] * strides[j]` that
`xstrided_view_base::compute_index` computes (`strides` being `new_strides` after the stride
adaptation of the constructor) is `base_offset + sum_a J[a] * base_strides[a]`, where
`J = translate(I)` holds the value of the integer on an integer axis, `start + step * I[j]` on a
range axis and `I[j]` on an axis of an all-slice (explicit, made by the ellipsis, or implicit
trailing), the entries of `I` at the new-axis positions being ignored. The two are the same
position of the storage (the same `std::size_t`) in every case; with every integer and every
resolved range position inside its base axis, `J` is a multi-index of the base; and when the
elements of the base lie at flat positions that fit `std::ptrdiff_t`, the two offsets are the
same number. -/
theorem compute_index_translate (dsm : List Nat → List Int → layout_type → Bool)
    (shape : List Nat) (strides : List Int) (off : Nat) (layout : layout_type)
    (ss : List xstrided_slice) (g : strided_view_args) (I : List Nat)
    (hlen : strides.length = shape.length)
    (hacc : fill_args dsm shape strides off layout ss = .ok g)
    (hI : index_in_shape I g.new_shape) :
    to_size_t ((xstrided_view_base.construct g.new_shape g.new_strides g.new_offset
            g.new_layout).compute_index (I.map Int.ofNat))
        = to_size_t ((off : Int)
            + data_offset strides (translate (n_add_all shape.length ss) shape ss I))
      ∧ (slices_in_range (n_add_all shape.length ss) shape ss →
          in_bounds (translate (n_add_all shape.length ss) shape ss I) shape)
      ∧ (slices_in_range (n_add_all shape.length ss) shape ss →
          (∀ J, in_bounds J shape →
            0 ≤ (off : Int) + data_offset strides J
              ∧ (off : Int) + data_offset strides J < 2 ^ 63) →
          (xstrided_view_base.construct g.new_shape g.new_strides g.new_offset
              g.new_layout).compute_index (I.map Int.ofNat)
            = (off : Int)
              + data_offset strides (translate (n_add_all shape.length ss) shape ss I)) := by
  rw [fill_args_ok_iff dsm shape strides off layout _ hlen] at hacc
  obtain ⟨hE, hC, hg⟩ := hacc
  obtain ⟨ht, _, _⟩ := taken_le_of_accepted shape.length ss hE hC
  have eS : g.new_shape = out_shape (n_add_all shape.length ss) shape ss
      ++ shape.drop (taken (n_add_all shape.length ss) ss) := by
    rw [hg, view_geometry_new_shape]
  have eD : g.new_strides = out_strides (n_add_all shape.length ss) shape strides ss
      ++ strides.drop (taken (n_add_all shape.length ss) ss) := by
    rw [hg, view_geometry_new_strides]
  have eO : g.new_offset
      = offset_after off (out_addends (n_add_all shape.length ss) shape strides ss) := by
    rw [hg, view_geometry_new_offset]
  generalize n_add_all shape.length ss = n at ht eS eD eO ⊢
  have hIlen : I.length = (out_shape n shape ss).length + (shape.length - taken n ss) := by
    have := List.Forall₂.length_eq hI
    rw [this, eS]
    simp
  have hA := translate_data_offset n ss shape strides I ht (by omega) hIlen
  have hcomp : (xstrided_view_base.construct g.new_shape g.new_strides g.new_offset
      g.new_layout).compute_index (I.map Int.ofNat)
      = to_ptrdiff_t g.new_offset + data_offset g.new_strides (I.map Int.ofNat) := by
    simp only [xstrided_view_base.compute_index, xstrided_view_base.construct]
    rw [adapt_strides_data_offset I g.new_shape hI]
  refine ⟨?_, ?_, ?_⟩
  · -- the same position of the storage
    apply to_size_t_congr
    rw [hcomp]
    have h1 := to_ptrdiff_t_emod g.new_offset
    have h2 := offset_after_cast (out_addends n shape strides ss) off
    rw [← eO] at h2
    have h3 := emod_add_congr _ _ (data_offset g.new_strides (I.map Int.ofNat)) (h1.trans h2)
    rw [h3, ← hA, eD]
    congr 1
    ring
  · intro hin
    exact translate_in_bounds n ss shape I ht hin (by rw [← eS]; exact hI)
  · intro hin hlive
    -- the multi-index of the first element of the view
    have hZ := index_in_shape_zeros I g.new_shape hI
    have hZlen : (List.replicate g.new_shape.length 0).length
        = (out_shape n shape ss).length + (shape.length - taken n ss) := by
      rw [List.length_replicate, eS]; simp
    have hJ0 := translate_in_bounds n ss shape (List.replicate g.new_shape.length 0) ht hin
      (by rw [← eS]; exact hZ)
    have hA0 := translate_data_offset n ss shape strides (List.replicate g.new_shape.length 0)
      ht (by omega) hZlen
    rw [data_offset_zeros, zero_add] at hA0
    obtain ⟨l0, l1⟩ := hlive _ hJ0
    rw [← hA0] at l0 l1
    have hoff : ((g.new_offset : Nat) : Int)
        = (off : Int) + (out_addends n shape strides ss).sum := by
      rw [eO]
      exact offset_after_exact _ off l0 (by omega)
    have hptr : to_ptrdiff_t g.new_offset = (g.new_offset : Int) := by
      unfold to_ptrdiff_t
      rw [if_pos (by omega)]
    rw [hcomp, hptr, hoff, eD]
    linarith

/-- Witness of C1: the scenario of the specification. The base has shape `(4, 5)` and row-major
strides `(5, 1)`; the slices `(range(1, 3, 1), All)` give a view of shape `(2, 5)` at offset
`5`; the view element `(1, 2)` is the base element `(2, 2)`, at flat offset `12`. -/
theorem compute_index_translate_witness :
    ([5, 1] : List Int).length = ([4, 5] : List Nat).length
      ∧ fill_args (fun _ _ _ => true) [4, 5] [5, 1] 0 .row_major
          [.range (range_adaptor 1 3 1), .all]
          = .ok { new_shape := [2, 5], new_strides := [5, 1], new_offset := 5,
                  new_layout := .row_major }
      ∧ index_in_shape [1, 2] [2, 5]
      ∧ translate (n_add_all ([4, 5] : List Nat).length [.range (range_adaptor 1 3 1), .all])
            [4, 5] [.range (range_adaptor 1 3 1), .all] [1, 2] = [2, 2]
      ∧ (xstrided_view_base.construct [2, 5] [5, 1] 5 .row_major).compute_index
            (List.map Int.ofNat [1, 2])
          = ((0 : Nat) : Int)
            + data_offset [5, 1]
                (translate
                  (n_add_all ([4, 5] : List Nat).length [.range (range_adaptor 1 3 1), .all])
                  [4, 5] [.range (range_adaptor 1 3 1), .all] [1, 2]) := by
  have hlive : ∀ J, in_bounds J [4, 5] →
      0 ≤ ((0 : Nat) : Int) + data_offset [5, 1] J
        ∧ ((0 : Nat) : Int) + data_offset [5, 1] J < 2 ^ 63 := by
    intro J hJ
    cases hJ with
    | cons h1 hJ1 =>
      cases hJ1 with
      | cons h2 hJ2 =>
        cases hJ2
        simp only [data_offset]
        constructor <;> omega
  have hacc : fill_args (fun _ _ _ => true) [4, 5] [5, 1] 0 .row_major
      [.range (range_adaptor 1 3 1), .all]
      = .ok { new_shape := [2, 5], new_strides := [5, 1], new_offset := 5,
              new_layout := .row_major } := by rfl
  have hget : (range_adaptor 1 3 1).get 4 = (1, 2, 1) := by rfl
  have hin : slices_in_range
      (n_add_all ([4, 5] : List Nat).length [.range (range_adaptor 1 3 1), .all])
      [4, 5] [.range (range_adaptor 1 3 1), .all] := by
    simp only [slices_in_range, List.headD_cons, hget, and_true]
    intro p hp
    have h2 : to_size_t 2 = 2 := by rfl
    rw [h2] at hp
    constructor <;> omega
  have hI : index_in_shape [1, 2] [2, 5] :=
    List.Forall₂.cons (by decide) (List.Forall₂.cons (by decide) List.Forall₂.nil)
  exact ⟨by decide, hacc, hI, by rfl,
    (compute_index_translate (fun _ _ _ => true) [4, 5] [5, 1] 0 .row_major
      [.range (range_adaptor 1 3 1), .all] _ [1, 2] (by decide) hacc hI).2.2 hin hlive⟩
/-! ## Claims: the errors of `fill_args` -/

/-- C11: every slice list with two or more ellipsis slices makes `fill_args` fail with "Ellipsis
can only appear once.", whatever the base and the other slices are (too many slices included:
the first loop raises before the check of the number of slices); and `fill_args` never raises
that error for a slice list with no or one ellipsis. -/
theorem fill_args_ellipsis_once (dsm : List Nat → List Int → layout_type → Bool)
    (shape : List Nat) (strides : List Int) (off : Nat) (layout : layout_type)
    (ss : List xstrided_slice) :
    (2 ≤ n_ellipsis ss →
        fill_args dsm shape strides off layout ss = .error .ellipsis_can_only_appear_once)
      ∧ (n_ellipsis ss ≤ 1 →
        fill_args dsm shape strides off layout ss ≠ .error .ellipsis_can_only_appear_once) := by
  have h := (fill_args_walk_error_iff shape strides off ss).1
  rw [← fill_args_error_iff_walk dsm shape strides off layout ss] at h
  constructor
  · intro h2; exact h.mpr h2
  · intro h1 hf
    have := h.mp hf
    omega

/-- C12 (amended): `fill_args` fails with "Too many slices for view." exactly when the slice list
has at most one ellipsis and the number of slices that are neither a new axis nor an ellipsis,
`M - nNew - nEll` (the integer, range and all slices), exceeds the number `N` of base axes. In
particular it fails so whenever the list has at most one ellipsis and
`M - nInt - nNew - nEll > N`, and, for a list without ellipsis, whenever
`M - nInt - nNew > N`. -/
theorem fill_args_too_many_slices (dsm : List Nat → List Int → layout_type → Bool)
    (shape : List Nat) (strides : List Int) (off : Nat) (layout : layout_type)
    (ss : List xstrided_slice) :
    (fill_args dsm shape strides off layout ss = .error .too_many_slices_for_view
        ↔ n_ellipsis ss ≤ 1 ∧ shape.length < ss.length - n_newaxis ss - n_ellipsis ss)
      ∧ ss.length - n_newaxis ss - n_ellipsis ss = n_consuming ss
      ∧ (n_ellipsis ss ≤ 1 →
          shape.length < ss.length - n_integer ss - n_newaxis ss - n_ellipsis ss →
          fill_args dsm shape strides off layout ss = .error .too_many_slices_for_view)
      ∧ (n_ellipsis ss = 0 → shape.length < ss.length - n_integer ss - n_newaxis ss →
          fill_args dsm shape strides off layout ss = .error .too_many_slices_for_view) := by
  have hc : ss.length - n_newaxis ss - n_ellipsis ss = n_consuming ss := by
    have := length_eq_counts ss
    omega
  have hiff : fill_args dsm shape strides off layout ss = .error .too_many_slices_for_view
      ↔ n_ellipsis ss ≤ 1 ∧ shape.length < ss.length - n_newaxis ss - n_ellipsis ss := by
    rw [hc, fill_args_error_iff_walk dsm shape strides off layout ss]
    exact (fill_args_walk_error_iff shape strides off ss).2
  refine ⟨hiff, hc, ?_, ?_⟩
  · intro h1 h2
    exact hiff.mpr ⟨h1, by omega⟩
  · intro h1 h2
    exact hiff.mpr ⟨by omega, by omega⟩

/-- Counterexample of C12: on a base of one axis the slice list `(All, Ellipsis)` has
`M - nInt - nNew = 2 > 1 = N`, and `fill_args` returns the geometry of the base. -/
theorem fill_args_too_many_slices_counterexample :
    ([4] : List Nat).length
        < [xstrided_slice.all, .ellipsis].length - n_integer [.all, .ellipsis]
          - n_newaxis [.all, .ellipsis]
      ∧ fill_args (fun _ _ _ => true) [4] [1] 0 .row_major [.all, .ellipsis]
        = .ok { new_shape := [4], new_strides := [1], new_offset := 0,
                new_layout := .row_major } :=
  ⟨by decide, by rfl⟩

/-- C13 (amended): `fill_args` does not check the value of an integer slice against its base
axis. For every slice list `pre ++ [Integer(c)] ++ post` and every integer `c`, inside or
outside `[0, base_shape[a])`, `fill_args` accepts the list exactly when it accepts the list with
`Integer(0)` in the place of `Integer(c)`, and it then returns the same shape, strides and layout
with `c * base_strides[a]` added to the offset in `std::size_t` arithmetic, where `a` is the
base axis that the integer meets. -/
theorem fill_args_integer_unchecked (dsm : List Nat → List Int → layout_type → Bool)
    (shape : List Nat) (strides : List Int) (off : Nat) (layout : layout_type)
    (pre post : List xstrided_slice) (c : Int) (hlen : strides.length = shape.length) :
    ((∃ g, fill_args dsm shape strides off layout (pre ++ [.integer c] ++ post) = .ok g)
        ↔ ∃ g0, fill_args dsm shape strides off layout (pre ++ [.integer 0] ++ post) = .ok g0)
      ∧ ∀ g0, fill_args dsm shape strides off layout (pre ++ [.integer 0] ++ post) = .ok g0 →
          fill_args dsm shape strides off layout (pre ++ [.integer c] ++ post) = .ok
            { g0 with
              new_offset := size_t_add g0.new_offset
                (to_size_t (c * strides.getD
                  (base_axis_after shape.length (pre ++ [.integer c] ++ post) pre) 0)) } := by
  obtain ⟨hE, hC, _, _⟩ := integer_mid_counts pre post c
  obtain ⟨hE0, hC0, _, _⟩ := integer_mid_counts pre post 0
  have hacc : ∀ g0, fill_args dsm shape strides off layout (pre ++ [.integer 0] ++ post) = .ok g0 →
      fill_args dsm shape strides off layout (pre ++ [.integer c] ++ post) = .ok
        { g0 with
          new_offset := size_t_add g0.new_offset
            (to_size_t (c * strides.getD
              (base_axis_after shape.length (pre ++ [.integer c] ++ post) pre) 0)) } := by
    intro g0 h0
    obtain ⟨h1, h2, h3⟩ := (fill_args_ok_iff dsm shape strides off layout _ hlen g0).mp h0
    rw [fill_args_ok_iff dsm shape strides off layout _ hlen]
    refine ⟨by omega, by omega, ?_⟩
    rw [h3]
    exact (view_geometry_integer_mid dsm shape strides off layout pre post c).symm
  refine ⟨⟨?_, ?_⟩, hacc⟩
  · rintro ⟨g, hg⟩
    obtain ⟨h1, h2, _⟩ := (fill_args_ok_iff dsm shape strides off layout _ hlen g).mp hg
    exact ⟨_, (fill_args_ok_iff dsm shape strides off layout _ hlen _).mpr
      ⟨by omega, by omega, rfl⟩⟩
  · rintro ⟨g0, hg0⟩
    exact ⟨_, hacc g0 hg0⟩

/-- Witness of C13 (amended): the view `(All, Integer(7))` of a base of shape `(4, 5)`. -/
theorem fill_args_integer_unchecked_witness :
    ([5, 1] : List Int).length = ([4, 5] : List Nat).length
      ∧ ((∃ g, fill_args (fun _ _ _ => false) [4, 5] [5, 1] 0 .row_major
              ([.all] ++ [.integer 7] ++ []) = .ok g)
          ↔ ∃ g0, fill_args (fun _ _ _ => false) [4, 5] [5, 1] 0 .row_major
              ([.all] ++ [.integer 0] ++ []) = .ok g0)
      ∧ ∀ g0, fill_args (fun _ _ _ => false) [4, 5] [5, 1] 0 .row_major
            ([.all] ++ [.integer 0] ++ []) = .ok g0 →
          fill_args (fun _ _ _ => false) [4, 5] [5, 1] 0 .row_major
            ([.all] ++ [.integer 7] ++ []) = .ok
            { g0 with
              new_offset := size_t_add g0.new_offset
                (to_size_t (7 * List.getD [5, 1]
                  (base_axis_after ([4, 5] : List Nat).length
                    ([.all] ++ [.integer 7] ++ []) [.all]) 0)) } :=
  ⟨by decide,
    fill_args_integer_unchecked (fun _ _ _ => false) [4, 5] [5, 1] 0 .row_major [.all] [] 7
      (by decide)⟩

/-- Counterexample of C13: on a base of shape `(4, 5)` with strides `(5, 1)`, the slice lists
`(All, Integer(7))` and `(All, Integer(-1))` hold an integer outside `[0, 5)`, and `fill_args`
returns a geometry for each: shape `(4)`, strides `(5)`, and the offsets `7` and
`2^64 - 1`. -/
theorem fill_args_integer_unchecked_counterexample :
    ¬ ((7 : Int) < (List.getD [4, 5] 1 0 : Nat))
      ∧ fill_args (fun _ _ _ => false) [4, 5] [5, 1] 0 .row_major [.all, .integer 7]
        = .ok { new_shape := [4], new_strides := [5], new_offset := 7,
                new_layout := .dynamic }
      ∧ ¬ ((0 : Int) ≤ -1)
      ∧ fill_args (fun _ _ _ => false) [4, 5] [5, 1] 0 .row_major [.all, .integer (-1)]
        = .ok { new_shape := [4], new_strides := [5], new_offset := 2 ^ 64 - 1,
                new_layout := .dynamic } :=
  ⟨by decide, by rfl, by decide, by rfl⟩

/-! ## Claims: the static classification of an `xview` -/

/-- C14: for a row-major base with a data interface, `is_contiguous_view` is true exactly when
the slice sequence is zero or more integers, then at most one `xrange` (the range of step 1),
then zero or more `xall`; hence every sequence with another slice kind (new axis, stepped
range, keep, drop) or another order (an integer or a range after an all, an integer after a
range, a second range) is classified non-contiguous. In particular `(Range, All)` is contiguous
and `(All, Integer)` is not. -/
theorem is_contiguous_view_row_major (E : xexpression) (S : List xview_slice)
    (hd : E.has_data_interface = true) (hl : E.static_layout = .row_major) :
    (is_contiguous_view E S = true
        ↔ ∃ ints r alls, S = ints ++ r ++ alls
            ∧ (∀ s ∈ ints, ∃ v, s = xview_slice.integral v)
            ∧ r.length ≤ 1 ∧ (∀ s ∈ r, ∃ a b, s = xview_slice.xrange a b)
            ∧ (∀ s ∈ alls, ∃ n, s = xview_slice.xall n))
      ∧ ((∃ s ∈ S, s = .xnewaxis ∨ (∃ a b c, s = .xstepped_range a b c)
            ∨ (∃ idx, s = .xkeep_slice idx) ∨ (∃ idx, s = .xdrop_slice idx)) →
          is_contiguous_view E S = false)
      ∧ (∀ a b n, is_contiguous_view E [.xrange a b, .xall n] = true)
      ∧ (∀ n v, is_contiguous_view E [.xall n, .integral v] = false)
      ∧ (∀ a b v, is_contiguous_view E [.xrange a b, .integral v] = false)
      ∧ (∀ a b c d, is_contiguous_view E [.xrange a b, .xrange c d] = false)
      ∧ (∀ n a b, is_contiguous_view E [.xall n, .xrange a b] = false) := by
  have hS : ∀ S, is_contiguous_view E S
      = is_contiguous_view_impl .row_major true false false S := by
    intro S; simp [is_contiguous_view, hd, hl]
  refine ⟨?_, ?_, ?_, ?_, ?_, ?_, ?_⟩
  · rw [hS, impl_row_start]
  · rintro ⟨s, hs, hk⟩
    cases hc : is_contiguous_view E S with
    | false => rfl
    | true =>
      rw [hS] at hc
      have := impl_accepts_kinds .row_major S hc s hs
      rcases hk with h | ⟨a, b, c, h⟩ | ⟨i, h⟩ | ⟨i, h⟩ <;> subst h <;> simp at this
  · intro a b n; rw [hS]; rfl
  · intro n v; rw [hS]; rfl
  · intro a b v; rw [hS]; rfl
  · intro a b c d; rw [hS]; rfl
  · intro n a b; rw [hS]; rfl

/-- Witness of C14: a row-major base of three axes with the slices
`(Integer, Range, All)`. -/
theorem is_contiguous_view_row_major_witness :
    is_contiguous_view
        { has_data_interface := true, static_layout := .row_major, static_dimension := 3,
          shape := [4, 5, 6], strides := [30, 6, 1], backstrides := [90, 24, 5],
          data_offset := 0, layout := .row_major }
        [.integral 2, .xrange 1 2, .xall 6] = true
      ∧ is_contiguous_view
        { has_data_interface := true, static_layout := .row_major, static_dimension := 3,
          shape := [4, 5, 6], strides := [30, 6, 1], backstrides := [90, 24, 5],
          data_offset := 0, layout := .row_major }
        [.xall 4, .integral 2] = false :=
  ⟨((is_contiguous_view_row_major
      { has_data_interface := true, static_layout := .row_major, static_dimension := 3,
        shape := [4, 5, 6], strides := [30, 6, 1], backstrides := [90, 24, 5],
        data_offset := 0, layout := .row_major }
      [.integral 2, .xrange 1 2, .xall 6] rfl rfl).1).mpr
      ⟨[.integral 2], [.xrange 1 2], [.xall 6], rfl, by simp, by simp, by simp, by simp⟩,
    by decide⟩

/-- C15: for a column-major base with a data interface, `is_contiguous_view` is true exactly
when the number of slices equals the static dimension of the base (compared as `std::size_t`)
and the slice sequence is zero or more `xall`, then at most one `xrange`, then zero or more
integers. When the dimension is not known statically (`static_dimension` is `-1`) or differs
from the number of slices, the view is classified non-contiguous. -/
theorem is_contiguous_view_column_major (E : xexpression) (S : List xview_slice)
    (hd : E.has_data_interface = true) (hl : E.static_layout = .column_major) :
    (is_contiguous_view E S = true
        ↔ to_size_t E.static_dimension = S.length
          ∧ ∃ alls r ints, S = alls ++ r ++ ints
            ∧ (∀ s ∈ alls, ∃ n, s = xview_slice.xall n)
            ∧ r.length ≤ 1 ∧ (∀ s ∈ r, ∃ a b, s = xview_slice.xrange a b)
            ∧ (∀ s ∈ ints, ∃ v, s = xview_slice.integral v))
      ∧ (0 ≤ E.static_dimension → E.static_dimension < 2 ^ 64 →
          (to_size_t E.static_dimension = S.length ↔ E.static_dimension = (S.length : Int)))
      ∧ (0 ≤ E.static_dimension → E.static_dimension < 2 ^ 64 →
          E.static_dimension ≠ (S.length : Int) → is_contiguous_view E S = false)
      ∧ (E.static_dimension = -1 → S.length < 2 ^ 64 - 1 → is_contiguous_view E S = false) := by
  have hS : is_contiguous_view E S
      = (decide (to_size_t E.static_dimension = S.length)
          && is_contiguous_view_impl .column_major true false false S) := by
    simp [is_contiguous_view, hd, hl]
  have hcast : 0 ≤ E.static_dimension → E.static_dimension < 2 ^ 64 →
      (to_size_t E.static_dimension = S.length ↔ E.static_dimension = (S.length : Int)) := by
    intro h0 h1
    have hc := to_size_t_of_nonneg _ h0 h1
    omega
  refine ⟨?_, hcast, ?_, ?_⟩
  · rw [hS, Bool.and_eq_true, decide_eq_true_eq, impl_column_start]
  · intro h0 h1 hne
    rw [hS]
    have : ¬ to_size_t E.static_dimension = S.length := fun h => hne ((hcast h0 h1).mp h)
    simp [this]
  · intro hm hlt
    rw [hS]
    have : ¬ to_size_t E.static_dimension = S.length := by
      rw [hm]
      have : to_size_t (-1) = 2 ^ 64 - 1 := by decide
      omega
    simp [this]

/-- Witness of C15: a column-major base of three axes with the slices
`(All, Range, Integer)`. -/
theorem is_contiguous_view_column_major_witness :
    is_contiguous_view
        { has_data_interface := true, static_layout := .column_major, static_dimension := 3,
          shape := [4, 5, 6], strides := [1, 4, 20], backstrides := [3, 16, 100],
          data_offset := 0, layout := .column_major }
        [.xall 4, .xrange 1 2, .integral 2] = true
      ∧ is_contiguous_view
        { has_data_interface := true, static_layout := .column_major, static_dimension := 3,
          shape := [4, 5, 6], strides := [1, 4, 20], backstrides := [3, 16, 100],
          data_offset := 0, layout := .column_major }
        [.xall 4, .xrange 1 2] = false :=
  ⟨((is_contiguous_view_column_major
      { has_data_interface := true, static_layout := .column_major, static_dimension := 3,
        shape := [4, 5, 6], strides := [1, 4, 20], backstrides := [3, 16, 100],
        data_offset := 0, layout := .column_major }
      [.xall 4, .xrange 1 2, .integral 2] rfl rfl).1).mpr
      ⟨by decide, [.xall 4], [.xrange 1 2], [.integral 2], rfl, by simp, by simp, by simp,
        by simp⟩,
    by decide⟩

/-- C16: no slice sequence with a keep or a drop slice is classified contiguous by
`is_contiguous_view`, whatever the layout of the base; and no view of a base without a data
interface is classified contiguous, whatever its slices. -/
theorem is_contiguous_view_keep_drop (E : xexpression) (S : List xview_slice) :
    ((∃ s ∈ S, (∃ idx, s = xview_slice.xkeep_slice idx)
          ∨ (∃ idx, s = xview_slice.xdrop_slice idx)) →
        is_contiguous_view E S = false)
      ∧ (E.has_data_interface = false → is_contiguous_view E S = false) := by
  constructor
  · rintro ⟨s, hs, hk⟩
    cases hc : is_contiguous_view E S with
    | false => rfl
    | true =>
      have h1 : is_contiguous_view_impl E.static_layout true false false S = true := by
        simp only [is_contiguous_view, Bool.and_eq_true] at hc
        exact hc.2
      have := impl_accepts_kinds E.static_layout S h1 s hs
      rcases hk with ⟨i, h⟩ | ⟨i, h⟩ <;> subst h <;> simp at this
  · intro h
    simp [is_contiguous_view, h]

/-! ## Lemmas: the sizes of the shape, the strides and the backstrides -/

theorem adapt_strides_length (shape : List Nat) :
    ∀ strides : List Int, (adapt_strides shape strides).length = strides.length := by
  induction shape with
  | nil => intro strides; cases strides <;> simp [adapt_strides]
  | cons s shape ih =>
    intro strides
    cases strides with
    | nil => simp [adapt_strides]
    | cons d strides => simp [adapt_strides, ih]

theorem adapt_backstrides_length (shape : List Nat) :
    ∀ strides : List Int, strides.length = shape.length →
      (adapt_backstrides shape strides).length = shape.length := by
  induction shape with
  | nil => intro strides h; cases strides <;> simp [adapt_backstrides]
  | cons s shape ih =>
    intro strides h
    cases strides with
    | nil => simp at h
    | cons d strides =>
      simp only [List.length_cons, Nat.add_right_cancel_iff] at h
      simp [adapt_backstrides, ih strides h]

theorem adapt_strides_invariant (shape : List Nat) :
    ∀ (strides : List Int) (i : Nat) (s : Nat) (d b : Int),
      shape.get? i = some s → (adapt_strides shape strides).get? i = some d →
      (adapt_backstrides shape (adapt_strides shape strides)).get? i = some b →
      b = ((s : Int) - 1) * d ∧ (s = 1 → d = 0 ∧ b = 0) := by
  induction shape with
  | nil => intro strides i s d b h; simp at h
  | cons s0 shape ih =>
    intro strides i s d b hs hd hb
    cases strides with
    | nil => simp [adapt_strides] at hd
    | cons d0 strides =>
      cases i with
      | zero =>
        simp only [adapt_strides, adapt_backstrides, List.get?_cons_zero, Option.some.injEq]
          at hs hd hb
        subst hs; subst hd; subst hb
        constructor
        · ring
        · intro h1; simp [h1]
      | succ i =>
        simp only [adapt_strides, adapt_backstrides, List.get?_cons_succ] at hs hd hb
        exact ih strides i s d b hs hd hb

theorem assign_strides_spec (shape : List Nat) (source : Nat → Option Int) (n : Nat) :
    ∀ (i : Nat) (st st1 : List Int × List Int),
      assign_strides shape source n i st = some st1 →
      st1.1.length = st.1.length ∧ st1.2.length = st.2.length
        ∧ (∀ j, j < i → st1.1.get? j = st.1.get? j ∧ st1.2.get? j = st.2.get? j)
        ∧ (∀ j, i ≤ j → j < i + n →
            ∃ (s : Nat) (d : Int), shape.get? j = some s ∧ st1.1.get? j = some d
              ∧ st1.2.get? j = some (d * ((s : Int) - 1)) ∧ (s = 1 → d = 0)) := by
  induction n with
  | zero =>
    intro i st st1 h
    simp only [assign_strides, Option.some.injEq] at h
    subst h
    exact ⟨rfl, rfl, fun j _ => ⟨rfl, rfl⟩, fun j h1 h2 => by omega⟩
  | succ n ih =>
    intro i st st1 h
    unfold assign_strides at h
    cases hx : source i with
    | none => rw [hx] at h; simp at h
    | some x =>
      rw [hx] at h
      simp only at h
      by_cases hi : i < st.1.length
      · rw [if_pos hi] at h
        cases ha : adapt_strides_at shape (st.1.set i x) st.2 i with
        | none => rw [ha] at h; simp at h
        | some st2 =>
          rw [ha] at h
          simp only at h
          obtain ⟨h1, h2, h3, h4⟩ := ih (i + 1) st2 st1 h
          unfold adapt_strides_at at ha
          cases hs : shape.get? i with
          | none => rw [hs] at ha; simp at ha
          | some s =>
            have hget : (st.1.set i x).get? i = some x := by
              rw [List.get?_eq_getElem?, List.getElem?_set_self hi]
            rw [hs, hget] at ha
            simp only at ha
            by_cases hb : i < st.2.length
            · rw [if_pos hb] at ha
              simp only [List.set_set, Option.some.injEq] at ha
              subst ha
              simp only [List.length_set] at h1 h2
              refine ⟨h1, h2, ?_, ?_⟩
              · intro j hj
                obtain ⟨e1, e2⟩ := h3 j (by omega)
                rw [e1, e2]
                simp only [List.get?_eq_getElem?]
                rw [List.getElem?_set_ne (by omega), List.getElem?_set_ne (by omega)]
                exact ⟨rfl, rfl⟩
              · intro j hj1 hj2
                by_cases hji : j = i
                · subst hji
                  obtain ⟨e1, e2⟩ := h3 j (by omega)
                  refine ⟨s, if s = 1 then 0 else x, hs, ?_, ?_, ?_⟩
                  · rw [e1, List.get?_eq_getElem?, List.getElem?_set_self hi]
                  · rw [e2, List.get?_eq_getElem?, List.getElem?_set_self hb]
                  · intro h1; simp [h1]
                · exact h4 j (by omega) (by omega)
            · rw [if_neg hb] at ha; simp at ha
      · rw [if_neg hi] at h; simp at h

/-- The strides and backstrides that `xview::compute_strides(std::false_type)` leaves have as
many entries as the shape, and on every axis the backstride is `strides[i] * (shape[i] - 1)`,
with stride `0` on an axis of size `1`. -/
theorem compute_strides_spec (v w : xview) (h : v.compute_strides = some w) :
    w.m_shape = v.m_shape ∧ w.m_e = v.m_e ∧ w.m_slices = v.m_slices
      ∧ w.m_strides.length = v.m_shape.length ∧ w.m_backstrides.length = v.m_shape.length
      ∧ ∀ j, j < v.m_shape.length →
          ∃ (s : Nat) (d : Int), v.m_shape.get? j = some s ∧ w.m_strides.get? j = some d
            ∧ w.m_backstrides.get? j = some (d * ((s : Int) - 1)) ∧ (s = 1 → d = 0) := by
  unfold xview.compute_strides at h
  simp only at h
  cases h0 : compute_strides_impl v.m_e v.m_slices
      (v.m_slices.length - integral_count v.m_slices) with
  | none => rw [h0] at h; simp at h
  | some slice_strides =>
    rw [h0] at h
    simp only at h
    cases h1 : assign_strides v.m_shape (fun i => slice_strides.get? i)
        (v.m_slices.length - integral_count v.m_slices) 0
        (List.replicate v.m_shape.length 0, List.replicate v.m_shape.length 0) with
    | none => rw [h1] at h; simp at h
    | some st1 =>
      rw [h1] at h
      simp only at h
      cases h2 : assign_strides v.m_shape
          (fun i => v.m_e.strides.get?
            (to_size_t ((i : Int) + (integral_count v.m_slices : Int)
              - (newaxis_count v.m_slices : Int))))
          (v.m_shape.length - (v.m_slices.length - integral_count v.m_slices))
          (v.m_slices.length - integral_count v.m_slices) st1 with
      | none => rw [h2] at h; simp at h
      | some st2 =>
        rw [h2] at h
        simp only at h
        cases h3 : data_offset_impl v.m_e v.m_slices with
        | none => rw [h3] at h; simp at h
        | some off =>
          rw [h3] at h
          simp only [Option.some.injEq] at h
          subst h
          obtain ⟨a1, a2, _, a4⟩ := assign_strides_spec _ _ _ _ _ _ h1
          obtain ⟨b1, b2, b3, b4⟩ := assign_strides_spec _ _ _ _ _ _ h2
          simp only [List.length_replicate] at a1 a2
          refine ⟨rfl, rfl, rfl, by simp only; omega, by simp only; omega, ?_⟩
          intro j hj
          by_cases hjn : j < v.m_slices.length - integral_count v.m_slices
          · obtain ⟨s, d, e1, e2, e3, e4⟩ := a4 j (by omega) (by omega)
            obtain ⟨c1, c2⟩ := b3 j hjn
            exact ⟨s, d, e1, by simp only; rw [c1, e2], by simp only; rw [c2, e3], e4⟩
          · exact b4 j (by omega) (by omega)

theorem contiguous_no_newaxis (e : xexpression) (slices : List xview_slice)
    (hc : is_contiguous_view e slices = true) :
    (∀ s ∈ slices, s.is_integer_range_or_all = true) ∧ newaxis_count slices = 0
      ∧ e.static_layout ≠ .dynamic := by
  have h1 : is_contiguous_view_impl e.static_layout true false false slices = true := by
    simp only [is_contiguous_view, Bool.and_eq_true] at hc
    exact hc.2
  have hk : ∀ s ∈ slices, s.is_integer_range_or_all = true := by
    intro s hs
    rcases impl_accepts_kinds e.static_layout slices h1 s hs with ⟨v, h⟩ | ⟨a, b, h⟩ | ⟨n, h⟩ <;>
      subst h <;> rfl
  refine ⟨hk, newaxis_count_before_zero slices hk slices.length, ?_⟩
  intro hd
  rw [hd] at h1
  cases slices <;> simp [is_contiguous_view_impl] at h1

theorem unwrap_offset_container_length {α : Type} (L : layout_type) (v w : List α)
    (offset : Nat) (h : unwrap_offset_container L v offset = some w) :
    w.length = v.length - offset := by
  cases L with
  | row_major =>
    simp only [unwrap_offset_container, Option.some.injEq] at h
    subst h
    simp [sequence_view]
  | column_major =>
    simp only [unwrap_offset_container, Option.some.injEq] at h
    subst h
    simp [sequence_view]
  | dynamic => simp [unwrap_offset_container] at h

/-- The view that the contiguous initializer of `xview` builds. -/
theorem construct_contiguous (e : xexpression) (slices : List xview_slice) (v : xview)
    (hc : is_contiguous_view e slices = true) (h : xview.construct e slices = some v) :
    v.m_e = e ∧ v.m_slices = slices ∧ v.m_strides_computed = true
      ∧ v.m_shape.length = e.shape.length - integral_count slices
      ∧ unwrap_offset_container e.static_layout e.strides (integral_count slices)
          = some v.m_strides
      ∧ unwrap_offset_container e.static_layout e.backstrides (integral_count slices)
          = some v.m_backstrides
      ∧ data_offset_impl e slices = some v.m_data_offset
      ∧ (if slices.any xview_slice.is_xrange = true then compute_shape e.shape slices
          else compute_shape_sequence_view e.static_layout e.shape slices) = some v.m_shape := by
  obtain ⟨_, hz, hL⟩ := contiguous_no_newaxis e slices hc
  unfold xview.construct at h
  rw [if_pos hc] at h
  split at h
  · rename_i m_shape m_strides m_backstrides m_data_offset h1 h2 h3 h4
    simp only [Option.some.injEq] at h
    subst h
    refine ⟨rfl, rfl, rfl, ?_, h2, h3, h4, h1⟩
    simp only
    split at h1
    · obtain ⟨s, hs, hl⟩ := compute_shape_length e.shape slices
      rw [h1] at hs
      cases hs
      rw [hl, hz]; rfl
    · obtain ⟨s, hs, hl⟩ := compute_shape_sequence_view_length e.static_layout e.shape slices hL
      rw [h1] at hs
      cases hs
      exact hl
  · simp at h

/-- The view that the general initializer of `xview` builds. -/
theorem construct_general (e : xexpression) (slices : List xview_slice) (v : xview)
    (hc : is_contiguous_view e slices = false) (h : xview.construct e slices = some v) :
    v.m_e = e ∧ v.m_slices = slices ∧ v.m_strides_computed = false
      ∧ compute_shape e.shape slices = some v.m_shape := by
  unfold xview.construct at h
  rw [hc] at h
  simp only [Bool.false_eq_true, if_false] at h
  split at h
  · rename_i m_shape h1
    simp only [Option.some.injEq] at h
    subst h
    exact ⟨rfl, rfl, rfl, h1⟩
  · simp at h

/-- The view on which `strides()`, `backstrides()` and `data_offset()` of a constructed view
return their members. -/
theorem with_strides_of_construct (e : xexpression) (slices : List xview_slice) (v w : xview)
    (h : xview.construct e slices = some v) (hw : v.with_strides = some w) :
    (is_contiguous_view e slices = true ∧ w = v)
      ∨ (is_contiguous_view e slices = false
          ∧ ∃ u, v.compute_strides = some u ∧ w = { u with m_strides_computed := true }) := by
  cases hc : is_contiguous_view e slices with
  | true =>
    left
    obtain ⟨_, _, h3, _⟩ := construct_contiguous e slices v hc h
    unfold xview.with_strides at hw
    rw [if_pos h3] at hw
    simp only [Option.some.injEq] at hw
    exact ⟨rfl, hw.symm⟩
  | false =>
    right
    obtain ⟨h1, h2, h3, _⟩ := construct_general e slices v hc h
    unfold xview.with_strides at hw
    have hnc : v.is_contiguous_view = false := by
      simp [xview.is_contiguous_view, xview.static_layout, h1, h2, hc]
    rw [h3, hnc] at hw
    simp only [Bool.false_eq_true, if_false, Option.map_eq_some'] at hw
    obtain ⟨u, hu, huw⟩ := hw
    exact ⟨rfl, u, hu, huw.symm⟩

/-! ## Lemmas: the convention on the backstrides -/

theorem backstrides_consistent_adapt (shape : List Nat) :
    ∀ strides : List Int,
      backstrides_consistent shape (adapt_strides shape strides)
        (adapt_backstrides shape (adapt_strides shape strides)) = true := by
  induction shape with
  | nil => intro strides; cases strides <;> rfl
  | cons s shape ih =>
    intro strides
    cases strides with
    | nil => rfl
    | cons d strides =>
      simp only [adapt_strides, adapt_backstrides, backstrides_consistent, ih, Bool.and_true,
        Bool.and_eq_true, decide_eq_true_eq]
      constructor
      · ring
      · intro h1; simp [h1]

theorem backstrides_consistent_of_get (shape : List Nat) :
    ∀ (strides backstrides : List Int),
      (∀ j, j < shape.length →
        ∃ (s : Nat) (d : Int), shape.get? j = some s ∧ strides.get? j = some d
          ∧ backstrides.get? j = some (d * ((s : Int) - 1)) ∧ (s = 1 → d = 0)) →
      backstrides_consistent shape strides backstrides = true := by
  induction shape with
  | nil => intro strides backstrides _; rfl
  | cons s0 shape ih =>
    intro strides backstrides h
    obtain ⟨s, d, e1, e2, e3, e4⟩ := h 0 (by simp)
    cases strides with
    | nil => simp at e2
    | cons d0 strides =>
      cases backstrides with
      | nil => simp at e3
      | cons b0 backstrides =>
        simp only [List.get?_cons_zero, Option.some.injEq] at e1 e2 e3
        subst e1; subst e2; subst e3
        have hrest := ih strides backstrides (fun j hj => by
          obtain ⟨s, d, f1, f2, f3, f4⟩ := h (j + 1) (by simp only [List.length_cons]; omega)
          exact ⟨s, d, by simpa using f1, by simpa using f2, by simpa using f3, f4⟩)
        simp only [backstrides_consistent, hrest, Bool.and_true, Bool.and_eq_true,
          decide_eq_true_eq]
        constructor
        · ring
        · intro h1; simp [e4 h1]

theorem backstrides_consistent_drop (k : Nat) :
    ∀ (shape : List Nat) (strides backstrides : List Int),
      backstrides_consistent shape strides backstrides = true →
      backstrides_consistent (shape.drop k) (strides.drop k) (backstrides.drop k) = true := by
  induction k with
  | zero => intro shape strides backstrides h; simpa using h
  | succ k ih =>
    intro shape strides backstrides h
    cases shape with
    | nil => simp [backstrides_consistent]
    | cons s shape =>
      cases strides with
      | nil => simp [backstrides_consistent]
      | cons d strides =>
        cases backstrides with
        | nil => cases hk : List.drop k shape <;> cases hd : List.drop k strides <;>
            simp [backstrides_consistent, hk, hd]
        | cons b backstrides =>
          simp only [backstrides_consistent, Bool.and_eq_true] at h
          simpa using ih shape strides backstrides h.2

theorem backstrides_consistent_take (k : Nat) :
    ∀ (shape : List Nat) (strides backstrides : List Int),
      backstrides_consistent shape strides backstrides = true →
      backstrides_consistent (shape.take k) (strides.take k) (backstrides.take k) = true := by
  induction k with
  | zero => intro shape strides backstrides h; simp [backstrides_consistent]
  | succ k ih =>
    intro shape strides backstrides h
    cases shape with
    | nil => simp [backstrides_consistent]
    | cons s shape =>
      cases strides with
      | nil => simp [backstrides_consistent]
      | cons d strides =>
        cases backstrides with
        | nil => simp [backstrides_consistent]
        | cons b backstrides =>
          simp only [backstrides_consistent, Bool.and_eq_true] at h
          simp only [List.take_succ_cons, backstrides_consistent, Bool.and_eq_true]
          exact ⟨h.1, ih shape strides backstrides h.2⟩

/-! ## Lemmas: the view read slice by slice -/

theorem integral_count_cons (s : xview_slice) (rest : List xview_slice) :
    integral_count (s :: rest)
      = (if s.is_integral = true then 1 else 0) + integral_count rest := by
  rw [integral_count_eq, integral_count_eq, List.filter_cons]
  by_cases hs : s.is_integral = true <;> simp [hs] <;> omega

theorem integral_count_before_cons (s : xview_slice) (rest : List xview_slice) (a : Nat) :
    integral_count_before (s :: rest) (a + 1)
      = (if s.is_integral = true then 1 else 0) + integral_count_before rest a := by
  unfold integral_count_before
  rw [List.take_succ_cons, List.filter_cons]
  by_cases hs : s.is_integral = true <;> simp [hs] <;> omega

theorem tail_getD (I : List Nat) (k : Nat) : I.tail.getD k 0 = I.getD (k + 1) 0 := by
  cases I with
  | nil => simp
  | cons x xs => simp

theorem headD_eq_getD (I : List Nat) : I.headD 0 = I.getD 0 0 := by
  cases I <;> rfl

theorem translate_entries (slices : List xview_slice) :
    ∀ (N : Nat) (I : List Nat), slices.length ≤ N → I.length = N - integral_count slices →
      (List.range N).map (fun a =>
          match slices.get? a with
          | some (.integral v) => to_size_t v
          | some s => to_size_t (s.value (I.getD (a - integral_count_before slices a) 0))
          | none => I.getD (a - integral_count slices) 0)
        = xview_translate slices I := by
  induction slices with
  | nil =>
    intro N I _ hI
    have h0 : integral_count [] = 0 := by simp [integral_count_eq]
    rw [h0] at hI
    simp only [xview_translate, h0, List.get?_nil, Nat.sub_zero]
    apply List.ext_getElem
    · simp [hI]
    · intro i h1 h2
      simp [List.getD_eq_getElem?_getD, List.getElem?_eq_getElem h2]
  | cons s rest ih =>
    intro N I hlen hI
    cases N with
    | zero => simp at hlen
    | succ n =>
      simp only [List.length_cons, Nat.add_le_add_iff_right] at hlen
      have hic := integral_count_le_length rest
      rw [List.range_succ_eq_map, List.map_cons, List.map_map]
      by_cases hs : s.is_integral = true
      · obtain ⟨v, rfl⟩ : ∃ v, s = .integral v := by
          cases s <;> simp [xview_slice.is_integral] at hs
          exact ⟨_, rfl⟩
        have hI1 : I.length = n - integral_count rest := by
          rw [integral_count_cons] at hI
          simp only [xview_slice.is_integral, if_true] at hI
          omega
        simp only [xview_translate, List.get?_cons_zero]
        congr 1
        rw [← ih n I hlen hI1]
        apply List.map_congr_left
        intro a _
        simp only [Function.comp, List.get?_cons_succ, integral_count_before_cons,
          integral_count_cons, xview_slice.is_integral, if_true]
        have e1 : a + 1 - (1 + integral_count_before rest a)
            = a - integral_count_before rest a := by omega
        have e2 : a + 1 - (1 + integral_count rest) = a - integral_count rest := by omega
        rw [e1, e2]
      · have hb : s.is_integral = false := by simpa using hs
        have hI1 : I.tail.length = n - integral_count rest := by
          rw [integral_count_cons] at hI
          simp only [hb, Bool.false_eq_true, if_false, Nat.zero_add] at hI
          rw [List.length_tail]
          omega
        have hhead : xview_translate (s :: rest) I
            = to_size_t (s.value (I.headD 0)) :: xview_translate rest I.tail := by
          cases s <;> simp [xview_slice.is_integral] at hs <;> rfl
        rw [hhead, ← ih n I.tail hlen hI1]
        congr 1
        · have : integral_count_before (s :: rest) 0 = 0 := by simp [integral_count_before]
          cases s <;> simp [xview_slice.is_integral] at hs <;>
            simp only [List.get?_cons_zero, this, Nat.sub_zero, headD_eq_getD]
        · apply List.map_congr_left
          intro a _
          simp only [Function.comp, List.get?_cons_succ, integral_count_before_cons,
            integral_count_cons, hb, Bool.false_eq_true, if_false, Nat.zero_add, tail_getD,
            Nat.succ_eq_add_one]
          have hle := integral_count_before_le rest a
          have e1 : a + 1 - integral_count_before rest a
              = a - integral_count_before rest a + 1 := by omega
          rw [e1]
          cases hr : rest.get? a with
          | some s1 => cases s1 <;> rfl
          | none =>
            simp only
            have : rest.length ≤ a := by
              rw [List.get?_eq_getElem?] at hr
              exact List.getElem?_eq_none_iff.mp hr
            have e2 : a + 1 - integral_count rest = a - integral_count rest + 1 := by omega
            rw [e2]

theorem access_translate (slices : List xview_slice) (N : Nat) (I : List Nat)
    (hk : ∀ s ∈ slices, s.is_integer_range_or_all = true) (hlen : slices.length ≤ N)
    (hI : I.length = N - integral_count slices) :
    access slices (N - integral_count slices) I = some (xview_translate slices I) := by
  rw [access_eq_access_impl slices N I hk hlen hI]
  have hall := all_some_map (fun a => index slices a I)
    (fun a => match slices.get? a with
        | some (.integral v) => to_size_t v
        | some s => to_size_t (s.value (I.getD (a - integral_count_before slices a) 0))
        | none => I.getD (a - integral_count slices) 0)
    (List.range N)
    (fun a ha => index_translate slices N I hk hlen hI a (List.mem_range.mp ha))
  unfold access_impl
  rw [hall, translate_entries slices N I hlen hI]

theorem tail_get? {α : Type} (sh : List α) (k : Nat) : sh.tail.get? k = sh.get? (k + 1) := by
  cases sh <;> simp

theorem integral_skip_cons_integral (v : Int) (rest : List xview_slice) (i : Nat) :
    integral_skip (.integral v :: rest) i = 1 + integral_skip rest i := by
  cases i <;> simp [integral_skip, xview_slice.is_integral]

theorem integral_skip_cons_other (s : xview_slice) (rest : List xview_slice) (i : Nat)
    (hs : s.is_integral = false) :
    integral_skip (s :: rest) 0 = 0
      ∧ integral_skip (s :: rest) (i + 1) = 1 + integral_skip rest i := by
  simp [integral_skip, hs]

theorem compute_shape_cons_integral (v : Int) (rest : List xview_slice) (sh : List Nat)
    (hk : ∀ s ∈ rest, s.is_integer_range_or_all = true) :
    compute_shape sh (.integral v :: rest) = compute_shape sh.tail rest := by
  have hk1 : ∀ s ∈ xview_slice.integral v :: rest, s.is_integer_range_or_all = true := by
    intro s hs
    rcases List.mem_cons.mp hs with h | h
    · subst h; rfl
    · exact hk s h
  have hz := newaxis_count_before_zero rest hk
  have hz1 := newaxis_count_before_zero _ hk1
  have hn : newaxis_count rest = 0 := hz rest.length
  have hn1 : newaxis_count (xview_slice.integral v :: rest) = 0 := hz1 _
  unfold compute_shape
  simp only [hz, hz1, hn, hn1, Nat.add_zero, Nat.sub_zero, integral_count_cons,
    xview_slice.is_integral, if_true, integral_skip_cons_integral, List.length_cons,
    List.length_tail]
  have e : sh.length - (1 + integral_count rest) = sh.length - 1 - integral_count rest := by
    omega
  rw [e]
  congr 1
  apply List.map_congr_left
  intro i _
  simp only [Nat.add_comm 1 (integral_skip rest i), Nat.add_lt_add_iff_right,
    List.get?_cons_succ, tail_get?]

theorem compute_shape_cons_other (s : xview_slice) (rest : List xview_slice) (sh : List Nat)
    (hs : s.is_integral = false) (hks : s.is_integer_range_or_all = true)
    (hk : ∀ s ∈ rest, s.is_integer_range_or_all = true) (hlen : rest.length + 1 ≤ sh.length) :
    compute_shape sh (s :: rest)
      = (compute_shape sh.tail rest).map (fun m => get_size s :: m) := by
  have hk1 : ∀ x ∈ s :: rest, x.is_integer_range_or_all = true := by
    intro x hx
    rcases List.mem_cons.mp hx with h | h
    · subst h; exact hks
    · exact hk x h
  have hz := newaxis_count_before_zero rest hk
  have hz1 := newaxis_count_before_zero _ hk1
  have hn : newaxis_count rest = 0 := hz rest.length
  have hn1 : newaxis_count (s :: rest) = 0 := hz1 _
  have hic := integral_count_le_length rest
  unfold compute_shape
  simp only [hz, hz1, hn, hn1, Nat.add_zero, Nat.sub_zero, integral_count_cons, hs,
    Bool.false_eq_true, if_false, Nat.zero_add, List.length_cons, List.length_tail]
  have e : sh.length - integral_count rest = (sh.length - 1 - integral_count rest) + 1 := by
    omega
  rw [e, List.range_succ_eq_map, List.map_cons, List.map_map]
  simp only [(integral_skip_cons_other s rest 0 hs).1, Nat.zero_lt_succ, if_true,
    List.get?_cons_zero, Option.map_some', all_some]
  congr 2
  apply List.map_congr_left
  intro i _
  simp only [Function.comp, Nat.succ_eq_add_one, (integral_skip_cons_other s rest i hs).2,
    Nat.add_comm 1 (integral_skip rest i), Nat.add_lt_add_iff_right, List.get?_cons_succ,
    tail_get?]

theorem compute_shape_eq (slices : List xview_slice) :
    ∀ sh : List Nat, (∀ s ∈ slices, s.is_integer_range_or_all = true) →
      slices.length ≤ sh.length →
      compute_shape sh slices = some (xview_shape sh slices) := by
  induction slices with
  | nil =>
    intro sh _ _
    unfold compute_shape
    have h0 : integral_count [] = 0 := by simp [integral_count_eq]
    have h1 : newaxis_count [] = 0 := by simp [newaxis_count_eq]
    simp only [h0, h1, Nat.sub_zero, Nat.add_zero, integral_skip, List.length_nil,
      Nat.not_lt_zero, if_false, xview_shape]
    have : ∀ i, newaxis_count_before [] i = 0 := by
      intro i; simp [newaxis_count_before]
    simp only [this, Nat.sub_zero]
    rw [all_some_map (fun i => sh.get? i) (fun i => sh.getD i 0)]
    · congr 1
      apply List.ext_getElem
      · simp
      · intro i h1 h2
        simp [List.getD_eq_getElem?_getD, List.getElem?_eq_getElem h2]
    · intro i hi
      rw [List.mem_range] at hi
      rw [List.get?_eq_getElem?, List.getD_eq_getElem?_getD, List.getElem?_eq_getElem hi]
      rfl
  | cons s rest ih =>
    intro sh hk hlen
    have hkr : ∀ x ∈ rest, x.is_integer_range_or_all = true :=
      fun x hx => hk x (List.mem_cons_of_mem _ hx)
    have hks := hk s (List.mem_cons_self _ _)
    simp only [List.length_cons] at hlen
    have hlt : rest.length ≤ sh.tail.length := by
      rw [List.length_tail]; omega
    cases hb : s.is_integral with
    | true =>
      obtain ⟨v, rfl⟩ : ∃ v, s = .integral v := by
        cases s <;> simp [xview_slice.is_integral] at hb
        exact ⟨_, rfl⟩
      rw [compute_shape_cons_integral v rest sh hkr, ih sh.tail hkr hlt]
      rfl
    | false =>
      rw [compute_shape_cons_other s rest sh hb hks hkr hlen, ih sh.tail hkr hlt]
      cases s <;> simp [xview_slice.is_integral] at hb <;> rfl

/-! ## Lemmas: the flat offset of the element that a view reads -/

theorem to_size_t_cast (x : Int) (h0 : 0 ≤ x) (h1 : x < 2 ^ 64) : ((to_size_t x : Nat) : Int) = x :=
  to_size_t_of_nonneg x h0 h1

/-- For slices with values in range, the base multi-index of a valid view multi-index lies in
the base shape, its flat offset is the sum of the flat offset of the first element of the view
and of the offset of the view multi-index under the strides of the kept axes, and the flat offset
of the first element is the same under the strides with `0` on the axes of size `1`. -/
theorem translate_offset (slices : List xview_slice) :
    ∀ (sh : List Nat) (st : List Int) (I : List Nat),
      (∀ s ∈ slices, s.is_integer_range_or_all = true) →
      (∀ s ∈ slices, ∀ a b c, s ≠ xview_slice.xstepped_range a b c) →
      xview_slices_in_range sh slices → (∀ s ∈ sh, s < 2 ^ 64) →
      slices.length ≤ sh.length → st.length = sh.length →
      index_in_shape I (xview_shape sh slices) →
      index_in_shape (xview_translate slices I) sh
        ∧ data_offset st ((xview_translate slices I).map Int.ofNat)
          = data_offset st (slices.map (fun s => s.value 0))
            + data_offset (kept_strides st slices) (I.map Int.ofNat)
        ∧ data_offset (adapt_strides sh st) (slices.map (fun s => s.value 0))
          = data_offset st (slices.map (fun s => s.value 0))
        ∧ ((∀ d ∈ st, 0 ≤ d) → 0 ≤ data_offset st (slices.map (fun s => s.value 0))) := by
  induction slices with
  | nil =>
    intro sh st I _ _ _ _ _ _ hI
    simp only [xview_translate, xview_shape, List.map_nil, kept_strides] at hI ⊢
    refine ⟨hI, ?_, ?_, ?_⟩
    · cases st <;> simp [data_offset]
    · cases hs : adapt_strides sh st <;> cases st <;> simp [data_offset]
    · intro _; cases st <;> simp [data_offset]
  | cons s rest ih =>
    intro sh st I hk hns hin hsz hlen hst hI
    have hkr : ∀ x ∈ rest, x.is_integer_range_or_all = true :=
      fun x hx => hk x (List.mem_cons_of_mem _ hx)
    have hnsr : ∀ x ∈ rest, ∀ a b c, x ≠ xview_slice.xstepped_range a b c :=
      fun x hx => hns x (List.mem_cons_of_mem _ hx)
    cases sh with
    | nil => simp at hlen
    | cons s0 sh =>
      cases st with
      | nil => simp at hst
      | cons d0 st =>
        simp only [List.length_cons, Nat.add_le_add_iff_right, Nat.add_right_cancel_iff]
          at hlen hst
        have hs0 : s0 < 2 ^ 64 := hsz s0 (List.mem_cons_self _ _)
        have hszr : ∀ x ∈ sh, x < 2 ^ 64 := fun x hx => hsz x (List.mem_cons_of_mem _ hx)
        cases s with
        | integral v =>
          simp only [xview_slices_in_range, List.headD_cons, List.tail_cons] at hin
          obtain ⟨⟨hv0, hv1⟩, hinr⟩ := hin
          simp only [xview_shape, List.tail_cons] at hI
          obtain ⟨g1, g2, g3, g4⟩ := ih sh st I hkr hnsr hinr hszr hlen hst hI
          have hc : ((to_size_t v : Nat) : Int) = v := to_size_t_cast v hv0 (by omega)
          have hval : (xview_slice.integral v).value 0 = v := rfl
          refine ⟨?_, ?_, ?_, ?_⟩
          · simp only [xview_translate]
            exact List.Forall₂.cons (by omega) g1
          · simp only [xview_translate, List.map_cons, data_offset, kept_strides, List.tail_cons,
              hval, Int.ofNat_eq_coe, hc, g2]
            ring
          · simp only [adapt_strides, List.map_cons, data_offset, hval, g3]
            by_cases h1 : s0 = 1
            · have : v = 0 := by omega
              simp [h1, this]
            · simp [h1]
          · intro hd
            have h2 := g4 (fun d hdm => hd d (List.mem_cons_of_mem _ hdm))
            have h3 := mul_nonneg hv0 (hd d0 (List.mem_cons_self _ _))
            simp only [List.map_cons, data_offset, hval]
            omega
        | xrange a b =>
          simp only [xview_slices_in_range, List.headD_cons, List.tail_cons] at hin
          obtain ⟨⟨ha0, hb0, hab⟩, hinr⟩ := hin
          simp only [xview_shape, List.tail_cons, get_size] at hI
          cases hI with
          | @cons i m I m_rest hi hI1 =>
            obtain ⟨g1, g2, g3, g4⟩ := ih sh st I hkr hnsr hinr hszr hlen hst hI1
            have hib : (i : Int) < b := by omega
            have hc : ((to_size_t (a + (i : Int)) : Nat) : Int) = a + i :=
              to_size_t_cast _ (by omega) (by omega)
            have hval : ∀ k : Nat, (xview_slice.xrange a b).value k = a + (k : Int) :=
              fun _ => rfl
            refine ⟨?_, ?_, ?_, ?_⟩
            · simp only [xview_translate, List.headD_cons, List.tail_cons, hval]
              exact List.Forall₂.cons (by omega) g1
            · simp only [xview_translate, List.headD_cons, List.tail_cons, List.map_cons,
                data_offset, kept_strides, hval, Int.ofNat_eq_coe, hc, g2,
                Nat.cast_zero, add_zero]
              ring
            · simp only [adapt_strides, List.map_cons, data_offset, hval, g3,
                Nat.cast_zero, add_zero]
              by_cases h1 : s0 = 1
              · have : a = 0 := by omega
                simp [h1, this]
              · simp [h1]
            · intro hd
              have h2 := g4 (fun d hdm => hd d (List.mem_cons_of_mem _ hdm))
              have h3 := mul_nonneg ha0 (hd d0 (List.mem_cons_self _ _))
              simp only [List.map_cons, data_offset, hval, Nat.cast_zero, add_zero]
              omega
        | xall n =>
          simp only [xview_slices_in_range, List.headD_cons, List.tail_cons] at hin
          obtain ⟨hn, hinr⟩ := hin
          simp only [xview_shape, List.tail_cons, get_size] at hI
          cases hI with
          | @cons i m I m_rest hi hI1 =>
            obtain ⟨g1, g2, g3, g4⟩ := ih sh st I hkr hnsr hinr hszr hlen hst hI1
            have hc : ((to_size_t ((i : Nat) : Int) : Nat) : Int) = i :=
              to_size_t_cast _ (by omega) (by omega)
            have hval : ∀ k : Nat, (xview_slice.xall n).value k = (k : Int) := fun _ => rfl
            refine ⟨?_, ?_, ?_, ?_⟩
            · simp only [xview_translate, List.headD_cons, List.tail_cons, hval]
              exact List.Forall₂.cons (by omega) g1
            · simp only [xview_translate, List.headD_cons, List.tail_cons, List.map_cons,
                data_offset, kept_strides, hval, Int.ofNat_eq_coe, hc, g2,
                Nat.cast_zero]
              ring
            · simp only [adapt_strides, List.map_cons, data_offset, hval, g3,
                Nat.cast_zero]
              by_cases h1 : s0 = 1 <;> simp [h1]
            · intro hd
              have h2 := g4 (fun d hdm => hd d (List.mem_cons_of_mem _ hdm))
              simp only [List.map_cons, data_offset, hval, Nat.cast_zero, zero_mul, zero_add]
              exact h2
        | xstepped_range a b c =>
          exact absurd rfl (hns _ (List.mem_cons_self _ _) a b c)
        | xnewaxis =>
          have := hk _ (List.mem_cons_self _ _)
          simp [xview_slice.is_integer_range_or_all] at this
        | xkeep_slice idx =>
          have := hk _ (List.mem_cons_self _ _)
          simp [xview_slice.is_integer_range_or_all] at this
        | xdrop_slice idx =>
          have := hk _ (List.mem_cons_self _ _)
          simp [xview_slice.is_integer_range_or_all] at this

theorem data_offset_terms (slices : List xview_slice) :
    ∀ st : List Int, slices.length ≤ st.length →
      ((List.range slices.length).map (fun I =>
          ((slices.get? I).getD .xnewaxis).value 0 * (st.get? I).getD 0)).sum
        = data_offset st (slices.map (fun s => s.value 0)) := by
  induction slices with
  | nil => intro st _; cases st <;> simp [data_offset]
  | cons s rest ih =>
    intro st hlen
    cases st with
    | nil => simp at hlen
    | cons d st =>
      simp only [List.length_cons, Nat.add_le_add_iff_right] at hlen
      rw [List.length_cons, List.range_succ_eq_map, List.map_cons, List.map_map, List.sum_cons,
        List.map_cons, data_offset, ← ih st hlen]
      simp only [List.get?_cons_zero, Option.getD_some, add_right_inj]
      congr 1

theorem data_offset_result_eq (e : xexpression) (slices : List xview_slice)
    (hk : ∀ s ∈ slices, s.is_integer_range_or_all = true)
    (hlen : slices.length ≤ e.strides.length) :
    data_offset_result e slices
      = some (data_offset e.strides (slices.map (fun s => s.value 0))) := by
  have hz := newaxis_count_before_zero slices hk
  unfold data_offset_result
  rw [all_some_map _ (fun I =>
    ((slices.get? I).getD .xnewaxis).value 0 * (e.strides.get? I).getD 0)]
  · rw [Option.map_some', data_offset_terms slices e.strides hlen]
  · intro I hI
    rw [List.mem_range] at hI
    simp only [hz, Nat.sub_zero]
    rw [List.get?_eq_getElem?, List.get?_eq_getElem?, List.getElem?_eq_getElem hI,
      List.getElem?_eq_getElem (by omega)]
    rfl

/-! ## Lemmas: the accepted slice sequences and the canonical strides -/

theorem row_major_strides_length (sh : List Nat) : (row_major_strides sh).length = sh.length := by
  induction sh with
  | nil => rfl
  | cons s sh ih => simp [row_major_strides, ih]

theorem column_major_strides_from_length (sh : List Nat) :
    ∀ acc : Int, (column_major_strides_from acc sh).length = sh.length := by
  induction sh with
  | nil => intro acc; rfl
  | cons s sh ih => intro acc; simp [column_major_strides_from, ih]

theorem row_major_offset (sh : List Nat) :
    ∀ I : List Nat,
      data_offset (row_major_strides sh) (I.map Int.ofNat) = (row_major_rank I sh : Int) := by
  induction sh with
  | nil => intro I; cases I <;> simp [row_major_strides, data_offset, row_major_rank]
  | cons s sh ih =>
    intro I
    cases I with
    | nil => simp [row_major_strides, data_offset, row_major_rank]
    | cons i I =>
      simp only [row_major_strides, List.map_cons, data_offset, row_major_rank, ih I,
        Int.ofNat_eq_coe]
      push_cast
      ring

theorem column_major_offset (sh : List Nat) :
    ∀ (acc : Int) (I : List Nat),
      data_offset (column_major_strides_from acc sh) (I.map Int.ofNat)
        = acc * (column_major_rank I sh : Int) := by
  induction sh with
  | nil =>
    intro acc I
    cases I <;> simp [column_major_strides_from, data_offset, column_major_rank]
  | cons s sh ih =>
    intro acc I
    cases I with
    | nil => simp [column_major_strides_from, data_offset, column_major_rank]
    | cons i I =>
      simp only [column_major_strides_from, List.map_cons, data_offset, column_major_rank,
        ih (acc * (s : Int)) I, Int.ofNat_eq_coe]
      push_cast
      ring

theorem kept_strides_non_integral (slices : List xview_slice) :
    ∀ st : List Int, (∀ s ∈ slices, s.is_integral = false) → slices.length ≤ st.length →
      kept_strides st slices = st := by
  induction slices with
  | nil => intro st _ _; rfl
  | cons s rest ih =>
    intro st hs hlen
    cases st with
    | nil => simp at hlen
    | cons d st =>
      simp only [List.length_cons, Nat.add_le_add_iff_right] at hlen
      have h0 := hs s (List.mem_cons_self _ _)
      have hr := ih st (fun x hx => hs x (List.mem_cons_of_mem _ hx)) hlen
      cases s <;> simp [xview_slice.is_integral] at h0 <;>
        simp [kept_strides, hr]

theorem xview_shape_alls (alls : List xview_slice) :
    ∀ sh : List Nat, (∀ s ∈ alls, ∃ n, s = xview_slice.xall n) →
      xview_slices_in_range sh alls → alls.length ≤ sh.length →
      xview_shape sh alls = sh := by
  induction alls with
  | nil => intro sh _ _ _; rfl
  | cons s rest ih =>
    intro sh ha hin hlen
    cases sh with
    | nil => simp at hlen
    | cons s0 sh =>
      simp only [List.length_cons, Nat.add_le_add_iff_right] at hlen
      obtain ⟨n, rfl⟩ := ha s (List.mem_cons_self _ _)
      simp only [xview_slices_in_range, List.headD_cons, List.tail_cons] at hin
      simp only [xview_shape, get_size, List.tail_cons, hin.1,
        ih sh (fun x hx => ha x (List.mem_cons_of_mem _ hx)) hin.2 hlen]

theorem integral_count_non_integral (slices : List xview_slice)
    (h : ∀ s ∈ slices, s.is_integral = false) : integral_count slices = 0 := by
  rw [integral_count_eq, List.length_eq_zero, List.filter_eq_nil_iff]
  intro s hs
  simp [h s hs]

theorem xview_shape_ints (ints : List xview_slice) :
    ∀ (sh : List Nat) (st : List Int), (∀ s ∈ ints, ∃ v, s = xview_slice.integral v) →
      xview_shape sh ints = sh.drop ints.length ∧ kept_strides st ints = st.drop ints.length
        ∧ integral_count ints = ints.length := by
  induction ints with
  | nil =>
    intro sh st _
    exact ⟨rfl, rfl, by simp [integral_count_eq]⟩
  | cons s rest ih =>
    intro sh st hi
    obtain ⟨v, rfl⟩ := hi s (List.mem_cons_self _ _)
    obtain ⟨h1, h2, h3⟩ := ih sh.tail st.tail (fun x hx => hi x (List.mem_cons_of_mem _ hx))
    refine ⟨?_, ?_, ?_⟩
    · simp only [xview_shape, h1, List.length_cons]
      rw [drop_of_tail, Nat.add_comm]
    · simp only [kept_strides, h2, List.length_cons]
      rw [drop_of_tail, Nat.add_comm]
    · rw [integral_count_cons, h3]
      simp [xview_slice.is_integral]
      omega

/-- The row-major pattern: zero or more integers, at most one `xrange`, zero or more `xall`. -/
theorem row_major_pattern_offset (ints r alls : List xview_slice)
    (hr : r.length ≤ 1) (hr2 : ∀ s ∈ r, ∃ a b, s = xview_slice.xrange a b)
    (ha : ∀ s ∈ alls, ∃ n, s = xview_slice.xall n) :
    ∀ (sh : List Nat) (I : List Nat), (∀ s ∈ ints, ∃ v, s = xview_slice.integral v) →
      xview_slices_in_range sh (ints ++ r ++ alls) →
      (ints ++ r ++ alls).length ≤ sh.length →
      index_in_shape I (xview_shape sh (ints ++ r ++ alls)) →
      data_offset (kept_strides (row_major_strides sh) (ints ++ r ++ alls)) (I.map Int.ofNat)
          = (row_major_rank I (xview_shape sh (ints ++ r ++ alls)) : Int)
        ∧ (r = [] →
            sh.drop (integral_count (ints ++ r ++ alls)) = xview_shape sh (ints ++ r ++ alls)) := by
  induction ints with
  | nil =>
    intro sh I _ hin hlen hI
    simp only [List.nil_append] at hin hlen hI ⊢
    have hni : ∀ s ∈ r ++ alls, s.is_integral = false := by
      intro s hs
      rcases List.mem_append.mp hs with h | h
      · obtain ⟨a, b, rfl⟩ := hr2 s h; rfl
      · obtain ⟨n, rfl⟩ := ha s h; rfl
    rw [kept_strides_non_integral _ _ hni (by rw [row_major_strides_length]; exact hlen)]
    cases r with
    | nil =>
      simp only [List.nil_append] at hin hlen hI ⊢
      rw [xview_shape_alls alls sh ha hin hlen]
      refine ⟨row_major_offset sh I, fun _ => ?_⟩
      rw [integral_count_non_integral alls (fun s hs => hni s (by simpa using hs))]
      rfl
    | cons x r =>
      have hr0 : r = [] := by
        cases r with
        | nil => rfl
        | cons y r => simp at hr
      subst hr0
      obtain ⟨a, b, rfl⟩ := hr2 x (List.mem_cons_self _ _)
      refine ⟨?_, fun h => by simp at h⟩
      cases sh with
      | nil => simp at hlen
      | cons s0 sh =>
        simp only [List.singleton_append, List.length_cons, Nat.add_le_add_iff_right] at hin hlen hI
        simp only [xview_slices_in_range, List.headD_cons, List.tail_cons] at hin
        simp only [xview_shape, get_size, List.tail_cons,
          xview_shape_alls alls sh ha hin.2 hlen] at hI
        simp only [List.singleton_append, xview_shape, get_size, List.tail_cons,
          List.append_eq, List.nil_append, xview_shape_alls alls sh ha hin.2 hlen]
        cases hI with
        | @cons i m I m_rest hi hI1 =>
          simp only [row_major_strides, List.map_cons, data_offset, row_major_rank,
            row_major_offset sh I, Int.ofNat_eq_coe]
          push_cast
          ring
  | cons s ints ih =>
    intro sh I hi hin hlen hI
    obtain ⟨v, rfl⟩ := hi s (List.mem_cons_self _ _)
    cases sh with
    | nil => simp at hlen
    | cons s0 sh =>
      simp only [List.cons_append, List.length_cons, Nat.add_le_add_iff_right] at hin hlen hI ⊢
      simp only [xview_slices_in_range, List.headD_cons, List.tail_cons] at hin
      simp only [xview_shape, List.tail_cons] at hI
      obtain ⟨g1, g2⟩ := ih sh I (fun x hx => hi x (List.mem_cons_of_mem _ hx)) hin.2 hlen hI
      refine ⟨?_, ?_⟩
      · simp only [row_major_strides, kept_strides, List.tail_cons, xview_shape]
        exact g1
      · intro h
        rw [integral_count_cons]
        simp only [xview_slice.is_integral, if_true, xview_shape, List.tail_cons]
        rw [Nat.add_comm, List.drop_succ_cons]
        exact g2 h

/-- The column-major pattern: zero or more `xall`, at most one `xrange`, zero or more integers,
as many slices as base axes. -/
theorem column_major_pattern_offset (alls r ints : List xview_slice)
    (hr : r.length ≤ 1) (hr2 : ∀ s ∈ r, ∃ a b, s = xview_slice.xrange a b)
    (hi : ∀ s ∈ ints, ∃ v, s = xview_slice.integral v) :
    ∀ (sh : List Nat) (I : List Nat) (acc : Int), (∀ s ∈ alls, ∃ n, s = xview_slice.xall n) →
      xview_slices_in_range sh (alls ++ r ++ ints) →
      (alls ++ r ++ ints).length = sh.length →
      index_in_shape I (xview_shape sh (alls ++ r ++ ints)) →
      data_offset (kept_strides (column_major_strides_from acc sh) (alls ++ r ++ ints))
            (I.map Int.ofNat)
          = acc * (column_major_rank I (xview_shape sh (alls ++ r ++ ints)) : Int)
        ∧ (r = [] →
            sh.take (sh.length - integral_count (alls ++ r ++ ints))
              = xview_shape sh (alls ++ r ++ ints)) := by
  induction alls with
  | nil =>
    intro sh I acc _ hin hlen hI
    simp only [List.nil_append] at hin hlen hI ⊢
    cases r with
    | nil =>
      simp only [List.nil_append] at hin hlen hI ⊢
      obtain ⟨h1, h2, h3⟩ := xview_shape_ints ints sh (column_major_strides_from acc sh) hi
      have e1 : sh.drop ints.length = [] := by
        rw [List.drop_eq_nil_iff]; omega
      have e2 : (column_major_strides_from acc sh).drop ints.length = [] := by
        rw [List.drop_eq_nil_iff, column_major_strides_from_length]; omega
      rw [h1, e1] at hI ⊢
      rw [h2, e2, h3]
      cases hI
      refine ⟨by simp [data_offset, column_major_rank], fun _ => ?_⟩
      rw [hlen]
      simp
    | cons x r =>
      have hr0 : r = [] := by
        cases r with
        | nil => rfl
        | cons y r => simp at hr
      subst hr0
      obtain ⟨a, b, rfl⟩ := hr2 x (List.mem_cons_self _ _)
      refine ⟨?_, fun h => by simp at h⟩
      cases sh with
      | nil => simp at hlen
      | cons s0 sh =>
        simp only [List.singleton_append, List.length_cons, Nat.add_right_cancel_iff]
          at hin hlen hI ⊢
        obtain ⟨h1, h2, h3⟩ :=
          xview_shape_ints ints sh (column_major_strides_from (acc * (s0 : Int)) sh) hi
        have e1 : sh.drop ints.length = [] := by
          rw [List.drop_eq_nil_iff]; omega
        have e2 : (column_major_strides_from (acc * (s0 : Int)) sh).drop ints.length = [] := by
          rw [List.drop_eq_nil_iff, column_major_strides_from_length]; omega
        simp only [xview_shape, get_size, List.tail_cons, h1, e1] at hI
        simp only [xview_shape, get_size, List.tail_cons, h1, e1, column_major_strides_from,
          kept_strides, List.headD_cons, h2, e2]
        cases hI with
        | @cons i m I m_rest hi1 hI1 =>
          cases hI1
          simp [data_offset, column_major_rank]
          ring
  | cons s alls ih =>
    intro sh I acc ha hin hlen hI
    obtain ⟨n, rfl⟩ := ha s (List.mem_cons_self _ _)
    cases sh with
    | nil => simp at hlen
    | cons s0 sh =>
      simp only [List.cons_append, List.length_cons, Nat.add_right_cancel_iff] at hin hlen hI ⊢
      simp only [xview_slices_in_range, List.headD_cons, List.tail_cons] at hin
      simp only [xview_shape, get_size, List.tail_cons] at hI
      cases hI with
      | @cons i m I m_rest hi1 hI1 =>
        obtain ⟨g1, g2⟩ := ih sh I (acc * (s0 : Int))
          (fun x hx => ha x (List.mem_cons_of_mem _ hx)) hin.2 hlen hI1
        refine ⟨?_, ?_⟩
        · simp only [column_major_strides_from, kept_strides, List.headD_cons, List.tail_cons,
            xview_shape, get_size, List.map_cons, data_offset, column_major_rank, g1, hin.1,
            Int.ofNat_eq_coe]
          push_cast
          ring
        · intro h
          have hic := integral_count_le_length (alls ++ r ++ ints)
          rw [integral_count_cons]
          simp only [xview_slice.is_integral, Bool.false_eq_true, if_false, Nat.zero_add,
            xview_shape, get_size, List.tail_cons]
          have e : sh.length + 1 - integral_count (alls ++ r ++ ints)
              = (sh.length - integral_count (alls ++ r ++ ints)) + 1 := by omega
          rw [e, List.take_succ_cons, g2 h, hin.1]

theorem row_major_strides_nonneg (sh : List Nat) : ∀ d ∈ row_major_strides sh, 0 ≤ d := by
  induction sh with
  | nil => intro d hd; simp [row_major_strides] at hd
  | cons s sh ih =>
    intro d hd
    simp only [row_major_strides, List.mem_cons] at hd
    rcases hd with h | h
    · rw [h]; exact Int.natCast_nonneg _
    · exact ih d h

theorem column_major_strides_from_nonneg (sh : List Nat) :
    ∀ acc : Int, 0 ≤ acc → ∀ d ∈ column_major_strides_from acc sh, 0 ≤ d := by
  induction sh with
  | nil => intro acc _ d hd; simp [column_major_strides_from] at hd
  | cons s sh ih =>
    intro acc hacc d hd
    simp only [column_major_strides_from, List.mem_cons] at hd
    rcases hd with h | h
    · rw [h]; exact hacc
    · exact ih _ (mul_nonneg hacc (Int.natCast_nonneg _)) d h

theorem row_major_rank_lt (I sh : List Nat) (h : index_in_shape I sh) :
    row_major_rank I sh < sh.prod := by
  unfold index_in_shape at h
  induction h with
  | nil => simp [row_major_rank]
  | @cons i s I sh his hrest ih =>
    simp only [row_major_rank, List.prod_cons]
    · have h1 := ih
      have h2 : (i + 1) * sh.prod ≤ s * sh.prod := Nat.mul_le_mul_right _ (by omega)
      have h3 : (i + 1) * sh.prod = i * sh.prod + sh.prod := by ring
      omega

theorem column_major_rank_lt (I sh : List Nat) (h : index_in_shape I sh) :
    column_major_rank I sh < sh.prod := by
  unfold index_in_shape at h
  induction h with
  | nil => simp [column_major_rank]
  | @cons i s I sh his hrest ih =>
    simp only [column_major_rank, List.prod_cons]
    · have h1 := ih
      have h2 : s * (column_major_rank I sh + 1) ≤ s * sh.prod := Nat.mul_le_mul_left _ (by omega)
      have h3 : s * (column_major_rank I sh + 1) = s * column_major_rank I sh + s := by ring
      omega

/-- The facts that the classification of a contiguous view gives about its slices and about the
shape that the contiguous initializer computes. -/
theorem contiguous_view_shape (e : xexpression) (slices : List xview_slice) (v : xview)
    (I : List Nat) (hc : is_contiguous_view e slices = true)
    (hdim : e.static_dimension = -1 ∨ e.static_dimension = (e.shape.length : Int))
    (hN : e.shape.length < 2 ^ 63) (hlen : slices.length ≤ e.shape.length)
    (hin : xview_slices_in_range e.shape slices)
    (hv : xview.construct e slices = some v) (hI : index_in_shape I v.m_shape) :
    v.m_shape = xview_shape e.shape slices
      ∧ (∀ s ∈ slices, ∀ a b c, s ≠ xview_slice.xstepped_range a b c)
      ∧ data_offset (kept_strides (canonical_strides e.static_layout e.shape) slices)
          (I.map Int.ofNat)
        = (layout_rank e.static_layout I v.m_shape : Int)
      ∧ (canonical_strides e.static_layout e.shape).length = e.shape.length
      ∧ (∀ d ∈ canonical_strides e.static_layout e.shape, 0 ≤ d)
      ∧ layout_rank e.static_layout I v.m_shape < v.m_shape.prod := by
  obtain ⟨hk, hz, hL⟩ := contiguous_no_newaxis e slices hc
  obtain ⟨_, _, _, _, _, _, _, h8⟩ := construct_contiguous e slices v hc hv
  have himpl : is_contiguous_view_impl e.static_layout true false false slices = true := by
    simp only [is_contiguous_view, Bool.and_eq_true] at hc
    exact hc.2
  have hns : ∀ s ∈ slices, ∀ a b c, s ≠ xview_slice.xstepped_range a b c := by
    intro s hs a b c h
    rcases impl_accepts_kinds e.static_layout slices himpl s hs with
      ⟨v, h1⟩ | ⟨a1, b1, h1⟩ | ⟨n, h1⟩ <;> rw [h1] at h <;> cases h
  have hgen : slices.any xview_slice.is_xrange = true → v.m_shape = xview_shape e.shape slices := by
    intro hany
    rw [if_pos hany, compute_shape_eq slices e.shape hk hlen] at h8
    exact (Option.some.inj h8).symm
  have hnor : ∀ r : List xview_slice, (∀ s ∈ r, s ∈ slices) →
      (∀ s ∈ r, ∃ a b, s = xview_slice.xrange a b) →
      slices.any xview_slice.is_xrange = false → r = [] := by
    intro r hsub hr2 hany
    cases r with
    | nil => rfl
    | cons x r =>
      obtain ⟨a, b, hx⟩ := hr2 x (List.mem_cons_self _ _)
      have hm := hsub x (List.mem_cons_self _ _)
      have : slices.any xview_slice.is_xrange = true := by
        rw [List.any_eq_true]
        exact ⟨x, hm, by rw [hx]; rfl⟩
      rw [hany] at this
      cases this
  cases hLc : e.static_layout with
  | dynamic => exact absurd hLc hL
  | row_major =>
    rw [hLc] at himpl h8
    obtain ⟨ints, r, alls, hS, hi, hr, hr2, ha⟩ := (impl_row_start slices).mp himpl
    subst hS
    have hshape : v.m_shape = xview_shape e.shape (ints ++ r ++ alls) := by
      cases hany : (ints ++ r ++ alls).any xview_slice.is_xrange with
      | true => exact hgen hany
      | false =>
        have hr0 := hnor r (fun s hs => by simp [hs]) hr2 hany
        rw [hany] at h8
        simp only [Bool.false_eq_true, if_false, compute_shape_sequence_view, sequence_view,
          Option.some.injEq, List.take_length] at h8
        rw [← h8]
        subst hr0
        -- the sequence path gives the base shape past the integers
        have key : ∀ (sh : List Nat) (ints1 : List xview_slice),
            (∀ s ∈ ints1, ∃ v, s = xview_slice.integral v) →
            xview_slices_in_range sh (ints1 ++ [] ++ alls) →
            (ints1 ++ [] ++ alls).length ≤ sh.length →
            sh.drop (integral_count (ints1 ++ [] ++ alls))
              = xview_shape sh (ints1 ++ [] ++ alls) := by
          intro sh ints1
          induction ints1 generalizing sh with
          | nil =>
            intro _ hin1 hlen1
            simp only [List.nil_append] at hin1 hlen1 ⊢
            rw [xview_shape_alls alls sh ha hin1 hlen1,
              integral_count_non_integral alls (fun s hs => by
                obtain ⟨n, rfl⟩ := ha s hs; rfl)]
            rfl
          | cons s ints1 ih =>
            intro hi1 hin1 hlen1
            obtain ⟨v, rfl⟩ := hi1 s (List.mem_cons_self _ _)
            cases sh with
            | nil => simp at hlen1
            | cons s0 sh =>
              simp only [List.cons_append, List.length_cons, Nat.add_le_add_iff_right]
                at hin1 hlen1 ⊢
              simp only [xview_slices_in_range, List.headD_cons, List.tail_cons] at hin1
              rw [integral_count_cons]
              simp only [xview_slice.is_integral, if_true, xview_shape, List.tail_cons]
              rw [Nat.add_comm, List.drop_succ_cons]
              exact ih sh (fun x hx => hi1 x (List.mem_cons_of_mem _ hx)) hin1.2 hlen1
        exact key e.shape ints hi hin hlen
    rw [hshape] at hI ⊢
    obtain ⟨g1, _⟩ := row_major_pattern_offset ints r alls hr hr2 ha e.shape I hi hin hlen hI
    refine ⟨rfl, hns, ?_, ?_, ?_, ?_⟩
    · simp only [canonical_strides, layout_rank]
      exact g1
    · simp only [canonical_strides, row_major_strides_length]
    · exact row_major_strides_nonneg e.shape
    · exact row_major_rank_lt I _ hI
  | column_major =>
    rw [hLc] at himpl h8
    have hMN : slices.length = e.shape.length := by
      have h1 : to_size_t e.static_dimension = slices.length := by
        simp only [is_contiguous_view, hLc, Bool.and_eq_true, Bool.not_eq_true',
          Bool.and_eq_false_imp, decide_eq_true_eq, decide_eq_false_iff_not, not_not] at hc
        exact hc.1.2 trivial
      rcases hdim with h | h
      · rw [h] at h1
        have : to_size_t (-1) = 2 ^ 64 - 1 := by decide
        omega
      · rw [h] at h1
        have := to_size_t_of_nonneg (e.shape.length : Int) (by omega) (by omega)
        omega
    obtain ⟨alls, r, ints, hS, ha, hr, hr2, hi⟩ := (impl_column_start slices).mp himpl
    subst hS
    have hshape : v.m_shape = xview_shape e.shape (alls ++ r ++ ints) := by
      cases hany : (alls ++ r ++ ints).any xview_slice.is_xrange with
      | true => exact hgen hany
      | false =>
        have hr0 := hnor r (fun s hs => by simp [hs]) hr2 hany
        rw [hany] at h8
        simp only [Bool.false_eq_true, if_false, compute_shape_sequence_view, sequence_view,
          Option.some.injEq, List.drop_zero] at h8
        rw [← h8]
        subst hr0
        have key : ∀ (sh : List Nat) (alls1 : List xview_slice),
            (∀ s ∈ alls1, ∃ n, s = xview_slice.xall n) →
            xview_slices_in_range sh (alls1 ++ [] ++ ints) →
            (alls1 ++ [] ++ ints).length = sh.length →
            sh.take (sh.length - integral_count (alls1 ++ [] ++ ints))
              = xview_shape sh (alls1 ++ [] ++ ints) := by
          intro sh alls1
          induction alls1 generalizing sh with
          | nil =>
            intro _ hin1 hlen1
            simp only [List.nil_append] at hin1 hlen1 ⊢
            obtain ⟨h1, _, h3⟩ := xview_shape_ints ints sh [] hi
            rw [h1, h3, hlen1, List.drop_eq_nil_iff.mpr (by omega)]
            simp
          | cons s alls1 ih =>
            intro ha1 hin1 hlen1
            obtain ⟨n, rfl⟩ := ha1 s (List.mem_cons_self _ _)
            cases sh with
            | nil => simp at hlen1
            | cons s0 sh =>
              simp only [List.cons_append, List.length_cons, Nat.add_right_cancel_iff]
                at hin1 hlen1 ⊢
              simp only [xview_slices_in_range, List.headD_cons, List.tail_cons] at hin1
              have hic := integral_count_le_length (alls1 ++ [] ++ ints)
              rw [integral_count_cons]
              simp only [xview_slice.is_integral, Bool.false_eq_true, if_false, Nat.zero_add,
                xview_shape, get_size, List.tail_cons]
              have e1 : sh.length + 1 - integral_count (alls1 ++ [] ++ ints)
                  = (sh.length - integral_count (alls1 ++ [] ++ ints)) + 1 := by omega
              rw [e1, List.take_succ_cons,
                ih sh (fun x hx => ha1 x (List.mem_cons_of_mem _ hx)) hin1.2 hlen1, hin1.1]
        exact key e.shape alls ha hin hMN
    rw [hshape] at hI ⊢
    obtain ⟨g1, _⟩ :=
      column_major_pattern_offset alls r ints hr hr2 hi e.shape I 1 ha hin hMN hI
    refine ⟨rfl, hns, ?_, ?_, ?_, ?_⟩
    · simp only [canonical_strides, layout_rank, column_major_strides]
      rw [g1, one_mul]
    · simp only [canonical_strides, column_major_strides, column_major_strides_from_length]
    · exact column_major_strides_from_nonneg e.shape 1 (by decide)
    · exact column_major_rank_lt I _ hI

/-- The contiguous initializer returns a view when the base strides reach the slices. -/
theorem construct_contiguous_some (e : xexpression) (slices : List xview_slice)
    (hc : is_contiguous_view e slices = true) (hlen : slices.length ≤ e.strides.length) :
    ∃ v, xview.construct e slices = some v := by
  obtain ⟨hk, hz, hL⟩ := contiguous_no_newaxis e slices hc
  obtain ⟨s1, hs1, _⟩ := compute_shape_length e.shape slices
  obtain ⟨s2, hs2, _⟩ := compute_shape_sequence_view_length e.static_layout e.shape slices hL
  have h3 : ∃ m, (if slices.any xview_slice.is_xrange = true then compute_shape e.shape slices
      else compute_shape_sequence_view e.static_layout e.shape slices) = some m := by
    split
    · exact ⟨s1, hs1⟩
    · exact ⟨s2, hs2⟩
  obtain ⟨m, hm⟩ := h3
  have h4 : ∀ {α : Type} (w : List α) (k : Nat),
      ∃ u, unwrap_offset_container e.static_layout w k = some u := by
    intro α w k
    cases hLc : e.static_layout with
    | row_major => exact ⟨_, rfl⟩
    | column_major => exact ⟨_, rfl⟩
    | dynamic => exact absurd hLc hL
  obtain ⟨u1, hu1⟩ := h4 e.strides (integral_count slices)
  obtain ⟨u2, hu2⟩ := h4 e.backstrides (integral_count slices)
  have h5 : data_offset_impl e slices
      = some (size_t_add (to_size_t (data_offset e.strides (slices.map (fun s => s.value 0))))
          e.data_offset) := by
    unfold data_offset_impl
    rw [data_offset_result_eq e slices hk hlen]
    rfl
  unfold xview.construct
  rw [if_pos hc, hm, hu1, hu2, h5]
  exact ⟨_, rfl⟩

/-- The flat offset of the base element that a contiguous view reads at a valid multi-index:
the data offset of the view plus the rank of the multi-index. -/
theorem contiguous_view_positions_of (e : xexpression) (slices : List xview_slice)
    (v : xview) (I : List Nat)
    (hc : is_contiguous_view e slices = true)
    (hst : e.strides = canonical_strides e.static_layout e.shape
      ∨ e.strides = adapt_strides e.shape (canonical_strides e.static_layout e.shape))
    (hdim : e.static_dimension = -1 ∨ e.static_dimension = (e.shape.length : Int))
    (hsz : ∀ s ∈ e.shape, s < 2 ^ 64) (hN : e.shape.length < 2 ^ 63)
    (hlen : slices.length ≤ e.shape.length)
    (hin : xview_slices_in_range e.shape slices)
    (hv : xview.construct e slices = some v)
    (hI : index_in_shape I v.m_shape) :
    v.data_offset = some v.m_data_offset
      ∧ layout_rank e.static_layout I v.m_shape < v.m_shape.prod
      ∧ ∃ J, access slices v.dimension I = some J ∧ index_in_shape J e.shape
        ∧ size_t_add (to_size_t (data_offset e.strides (J.map Int.ofNat))) e.data_offset
            = size_t_add v.m_data_offset (layout_rank e.static_layout I v.m_shape)
        ∧ ((e.data_offset : Int) + data_offset e.strides (J.map Int.ofNat) < 2 ^ 64 →
            (e.data_offset : Int) + data_offset e.strides (J.map Int.ofNat)
              = (v.m_data_offset : Int) + (layout_rank e.static_layout I v.m_shape : Int)) := by
  obtain ⟨hshape, hns, hrank, hcl, hcn, hlt⟩ :=
    contiguous_view_shape e slices v I hc hdim hN hlen hin hv hI
  obtain ⟨hk, hz, hL⟩ := contiguous_no_newaxis e slices hc
  obtain ⟨h1, h2, h3, h4, _, _, h7, _⟩ := construct_contiguous e slices v hc hv
  have hIlen : I.length = e.shape.length - integral_count slices := by
    have := List.Forall₂.length_eq hI
    omega
  rw [hshape] at hI
  obtain ⟨g1, g2, g3, g4⟩ := translate_offset slices e.shape
    (canonical_strides e.static_layout e.shape) I hk hns hin hsz hlen hcl hI
  have hX0 := g4 hcn
  have hstl : e.strides.length = e.shape.length := by
    rcases hst with h | h
    · rw [h, hcl]
    · rw [h, adapt_strides_length, hcl]
  have hJ : data_offset e.strides ((xview_translate slices I).map Int.ofNat)
      = data_offset (canonical_strides e.static_layout e.shape)
          (slices.map (fun s => s.value 0))
        + (layout_rank e.static_layout I v.m_shape : Int) := by
    rcases hst with h | h
    · rw [h, g2, hrank]
    · rw [h, adapt_strides_data_offset _ _ g1, g2, hrank]
  have hV : data_offset e.strides (slices.map (fun s => s.value 0))
      = data_offset (canonical_strides e.static_layout e.shape)
          (slices.map (fun s => s.value 0)) := by
    rcases hst with h | h
    · rw [h]
    · rw [h, g3]
  have hoff : v.m_data_offset
      = size_t_add (to_size_t (data_offset (canonical_strides e.static_layout e.shape)
          (slices.map (fun s => s.value 0)))) e.data_offset := by
    unfold data_offset_impl at h7
    rw [data_offset_result_eq e slices hk (by omega), Option.map_some', hV] at h7
    exact (Option.some.inj h7).symm
  refine ⟨?_, hlt, xview_translate slices I, ?_, g1, ?_, ?_⟩
  · have hsv : is_strided_view v.m_e v.m_slices = true := by
      rw [h1, h2]
      unfold is_strided_view
      rw [Bool.and_eq_true, List.all_eq_true]
      refine ⟨?_, ?_⟩
      · simp only [is_contiguous_view, Bool.and_eq_true] at hc
        exact hc.1.1
      · intro s hs
        have := hk s hs
        cases s <;> simp [xview_slice.is_integer_range_or_all] at this <;> rfl
    unfold xview.data_offset xview.with_strides
    rw [if_pos hsv, if_pos h3]
    rfl
  · rw [xview.dimension, h4]
    exact access_translate slices e.shape.length I hk hlen hIlen
  · rw [hJ, hoff]
    generalize data_offset (canonical_strides e.static_layout e.shape)
      (slices.map (fun s => s.value 0)) = X0 at hX0
    generalize layout_rank e.static_layout I v.m_shape = R
    unfold size_t_add to_size_t
    omega
  · rw [hJ, hoff]
    generalize data_offset (canonical_strides e.static_layout e.shape)
      (slices.map (fun s => s.value 0)) = X0 at hX0
    generalize layout_rank e.static_layout I v.m_shape = R
    intro hfit
    unfold size_t_add to_size_t
    omega

/-! ## Claims: the elements of a contiguous view -/

/-- C17: for every base with a data interface whose strides are the canonical strides of its
static layout (row-major or column-major; with or without the stride `0` on the axes of size
`1`), and every slice list that `is_contiguous_view` accepts, with values in range, the
contiguous initializer builds a view that has its elements at the flat positions `data_offset()`,
..., `data_offset() + size() - 1` of the base in the element order of that layout: for every
valid multi-index `I` of the view, `xview::access` reads the base element `J` (a valid
multi-index of the base) whose flat offset is `data_offset()` plus the rank of `I` within
`shape()`, and that rank is below `size()`. The equality holds in `std::size_t` arithmetic,
and exactly whenever the flat offset of the base element is a `std::size_t` value. -/
theorem contiguous_view_flat_positions (e : xexpression) (slices : List xview_slice)
    (hc : is_contiguous_view e slices = true)
    (hst : e.strides = canonical_strides e.static_layout e.shape
      ∨ e.strides = adapt_strides e.shape (canonical_strides e.static_layout e.shape))
    (hdim : e.static_dimension = -1 ∨ e.static_dimension = (e.shape.length : Int))
    (hsz : ∀ s ∈ e.shape, s < 2 ^ 64) (hN : e.shape.length < 2 ^ 63)
    (hlen : slices.length ≤ e.shape.length)
    (hin : xview_slices_in_range e.shape slices) :
    ∃ v, xview.construct e slices = some v
      ∧ v.data_offset = some v.m_data_offset
      ∧ ∀ I, index_in_shape I v.m_shape →
          layout_rank e.static_layout I v.m_shape < v.m_shape.prod
          ∧ ∃ J, access slices v.dimension I = some J ∧ index_in_shape J e.shape
            ∧ size_t_add (to_size_t (data_offset e.strides (J.map Int.ofNat))) e.data_offset
                = size_t_add v.m_data_offset (layout_rank e.static_layout I v.m_shape)
            ∧ ((e.data_offset : Int) + data_offset e.strides (J.map Int.ofNat) < 2 ^ 64 →
                (e.data_offset : Int) + data_offset e.strides (J.map Int.ofNat)
                  = (v.m_data_offset : Int)
                    + (layout_rank e.static_layout I v.m_shape : Int)) := by
  obtain ⟨_, _, hL⟩ := contiguous_no_newaxis e slices hc
  have hcl : (canonical_strides e.static_layout e.shape).length = e.shape.length := by
    cases hLc : e.static_layout with
    | row_major => simp only [canonical_strides, row_major_strides_length]
    | column_major =>
      simp only [canonical_strides, column_major_strides, column_major_strides_from_length]
    | dynamic => exact absurd hLc hL
  have hstl : e.strides.length = e.shape.length := by
    rcases hst with h | h
    · rw [h, hcl]
    · rw [h, adapt_strides_length, hcl]
  obtain ⟨v, hv⟩ := construct_contiguous_some e slices hc (by omega)
  obtain ⟨h1, h2, h3, _⟩ := construct_contiguous e slices v hc hv
  refine ⟨v, hv, ?_, ?_⟩
  · have hk := (contiguous_no_newaxis e slices hc).1
    have hsv : is_strided_view v.m_e v.m_slices = true := by
      rw [h1, h2]
      unfold is_strided_view
      rw [Bool.and_eq_true, List.all_eq_true]
      refine ⟨?_, ?_⟩
      · simp only [is_contiguous_view, Bool.and_eq_true] at hc
        exact hc.1.1
      · intro s hs
        have := hk s hs
        cases s <;> simp [xview_slice.is_integer_range_or_all] at this <;> rfl
    unfold xview.data_offset xview.with_strides
    rw [if_pos hsv, if_pos h3]
    rfl
  · intro I hI
    obtain ⟨_, g2, g3⟩ :=
      contiguous_view_positions_of e slices v I hc hst hdim hsz hN hlen hin hv hI
    exact ⟨g2, g3⟩

/-- Witness of C17: the row-major base of shape `(4, 5)` with strides `(5, 1)` and the slices
`(Range(1, 3), All)`. The view has shape `(2, 5)` and data offset `5`; its element `(1, 3)`, of
rank `8`, is the base element `(2, 3)`, at flat offset `13 = 5 + 8`. -/
theorem contiguous_view_flat_positions_witness :
    xview.construct
        { has_data_interface := true, static_layout := .row_major, static_dimension := 2,
          shape := [4, 5], strides := [5, 1], backstrides := [15, 4], data_offset := 0,
          layout := .row_major }
        [.xrange 1 2, .xall 5]
        = some
          { m_e := { has_data_interface := true, static_layout := .row_major,
                     static_dimension := 2, shape := [4, 5], strides := [5, 1],
                     backstrides := [15, 4], data_offset := 0, layout := .row_major },
            m_slices := [.xrange 1 2, .xall 5], m_shape := [2, 5], m_strides := [5, 1],
            m_backstrides := [15, 4], m_data_offset := 5, m_strides_computed := true }
      ∧ index_in_shape [1, 3] [2, 5]
      ∧ access [.xrange 1 2, .xall 5] 2 [1, 3] = some [2, 3]
      ∧ layout_rank .row_major [1, 3] [2, 5] = 8
      ∧ ∃ J, access [.xrange 1 2, .xall 5] 2 [1, 3] = some J ∧ index_in_shape J [4, 5]
        ∧ size_t_add (to_size_t (data_offset [5, 1] (J.map Int.ofNat))) 0
            = size_t_add 5 (layout_rank .row_major [1, 3] [2, 5])
        ∧ (((0 : Nat) : Int) + data_offset [5, 1] (J.map Int.ofNat) < 2 ^ 64 →
            ((0 : Nat) : Int) + data_offset [5, 1] (J.map Int.ofNat)
              = ((5 : Nat) : Int) + (layout_rank .row_major [1, 3] [2, 5] : Int)) := by
  have hI : index_in_shape [1, 3] [2, 5] :=
    List.Forall₂.cons (by decide) (List.Forall₂.cons (by decide) List.Forall₂.nil)
  obtain ⟨v, hv, _, hP⟩ := contiguous_view_flat_positions
    { has_data_interface := true, static_layout := .row_major, static_dimension := 2,
      shape := [4, 5], strides := [5, 1], backstrides := [15, 4], data_offset := 0,
      layout := .row_major }
    [.xrange 1 2, .xall 5] (by decide) (Or.inl (by decide)) (Or.inr (by decide))
    (by simp) (by simp) (by decide) ⟨⟨by decide, by decide, by decide⟩, rfl, trivial⟩
  have hv0 : xview.construct
      { has_data_interface := true, static_layout := .row_major, static_dimension := 2,
        shape := [4, 5], strides := [5, 1], backstrides := [15, 4], data_offset := 0,
        layout := .row_major }
      [.xrange 1 2, .xall 5]
      = some
        { m_e := { has_data_interface := true, static_layout := .row_major,
                   static_dimension := 2, shape := [4, 5], strides := [5, 1],
                   backstrides := [15, 4], data_offset := 0, layout := .row_major },
          m_slices := [.xrange 1 2, .xall 5], m_shape := [2, 5], m_strides := [5, 1],
          m_backstrides := [15, 4], m_data_offset := 5, m_strides_computed := true } := by
    decide
  rw [hv0] at hv
  cases hv
  exact ⟨hv0, hI, by decide, by decide, (hP [1, 3] hI).2⟩

/-! ## Lemmas: `strides()` and `backstrides()` return -/

theorem all_some_of_forall {α β : Type} (f : α → Option β) (l : List α)
    (h : ∀ x ∈ l, ∃ y, f x = some y) : ∃ r, all_some (l.map f) = some r := by
  induction l with
  | nil => exact ⟨[], rfl⟩
  | cons a l ih =>
    obtain ⟨y, hy⟩ := h a (List.mem_cons_self _ _)
    obtain ⟨r, hr⟩ := ih (fun x hx => h x (List.mem_cons_of_mem _ hx))
    exact ⟨y :: r, by simp [all_some, hy, hr]⟩

theorem assign_strides_some (shape : List Nat) (source : Nat → Option Int) (n : Nat) :
    ∀ (i : Nat) (st : List Int × List Int),
      (∀ j, i ≤ j → j < i + n → ∃ x, source j = some x) →
      i + n ≤ shape.length → i + n ≤ st.1.length → i + n ≤ st.2.length →
      ∃ st1, assign_strides shape source n i st = some st1 := by
  induction n with
  | zero => intro i st _ _ _ _; exact ⟨st, rfl⟩
  | succ n ih =>
    intro i st hsrc hs h1 h2
    obtain ⟨x, hx⟩ := hsrc i (by omega) (by omega)
    have hi1 : i < st.1.length := by omega
    have hget : shape.get? i = some (shape.get ⟨i, by omega⟩) := List.get?_eq_get (by omega)
    have hget2 : (st.1.set i x).get? i = some x := by
      rw [List.get?_eq_getElem?, List.getElem?_set_self hi1]
    have ha : adapt_strides_at shape (st.1.set i x) st.2 i
        = some (((st.1.set i x).set i (if shape.get ⟨i, by omega⟩ = 1 then 0 else x)),
            st.2.set i ((if shape.get ⟨i, by omega⟩ = 1 then 0 else x)
              * ((shape.get ⟨i, by omega⟩ : Int) - 1))) := by
      unfold adapt_strides_at
      rw [hget, hget2]
      simp only
      rw [if_pos (by omega)]
    unfold assign_strides
    rw [hx]
    simp only
    rw [if_pos hi1, ha]
    simp only
    exact ih (i + 1) _ (fun j hj1 hj2 => hsrc j (by omega) (by omega)) (by omega)
      (by simp only [List.length_set]; omega) (by simp only [List.length_set]; omega)

/-- The method `xview::compute_strides(std::false_type)` returns for a view of integer, range
and all slices, at most as many as the base has axes. -/
theorem compute_strides_some (v : xview)
    (hk : ∀ s ∈ v.m_slices, s.is_integer_range_or_all = true)
    (hlen : v.m_slices.length ≤ v.m_e.shape.length)
    (hst : v.m_e.strides.length = v.m_e.shape.length)
    (hN : v.m_e.shape.length < 2 ^ 64)
    (hsh : v.m_shape.length = v.m_e.shape.length - integral_count v.m_slices) :
    ∃ w, v.compute_strides = some w := by
  have hz := newaxis_count_before_zero v.m_slices hk
  have hn : newaxis_count v.m_slices = 0 := hz v.m_slices.length
  have hic := integral_count_le_length v.m_slices
  have h0 : ∃ r, compute_strides_impl v.m_e v.m_slices
      (v.m_slices.length - integral_count v.m_slices) = some r := by
    unfold compute_strides_impl
    apply all_some_of_forall
    intro I hI
    rw [List.mem_range] at hI
    have hk1 : integral_skip v.m_slices I < v.m_slices.length := by
      rcases integral_skip_cases v.m_slices I with h | h
      · exact h
      · omega
    simp only [hz, Nat.sub_zero]
    rw [List.get?_eq_get hk1, List.get?_eq_get (by omega)]
    have hs := hk _ (List.get_mem v.m_slices (integral_skip v.m_slices I) hk1)
    cases hg : v.m_slices.get ⟨integral_skip v.m_slices I, hk1⟩ <;>
      rw [hg] at hs <;>
      simp [xview_slice.is_integer_range_or_all] at hs <;>
      exact ⟨_, rfl⟩
  obtain ⟨slice_strides, h0⟩ := h0
  have hl0 : slice_strides.length = v.m_slices.length - integral_count v.m_slices := by
    have := all_some_length _ _ h0
    simpa using this
  obtain ⟨st1, h1⟩ := assign_strides_some v.m_shape (fun i => slice_strides.get? i)
    (v.m_slices.length - integral_count v.m_slices) 0
    (List.replicate v.m_shape.length 0, List.replicate v.m_shape.length 0)
    (fun j _ hj => ⟨_, List.get?_eq_get (by omega)⟩)
    (by omega) (by simp only [List.length_replicate]; omega)
    (by simp only [List.length_replicate]; omega)
  obtain ⟨a1, a2, _, _⟩ := assign_strides_spec _ _ _ _ _ _ h1
  simp only [List.length_replicate] at a1 a2
  obtain ⟨st2, h2⟩ := assign_strides_some v.m_shape
    (fun i => v.m_e.strides.get?
      (to_size_t ((i : Int) + (integral_count v.m_slices : Int)
        - (newaxis_count v.m_slices : Int))))
    (v.m_shape.length - (v.m_slices.length - integral_count v.m_slices))
    (v.m_slices.length - integral_count v.m_slices) st1
    (fun j hj1 hj2 => by
      have e1 : to_size_t ((j : Int) + (integral_count v.m_slices : Int)
          - (newaxis_count v.m_slices : Int)) = j + integral_count v.m_slices := by
        rw [hn]
        have := to_size_t_of_nonneg ((j : Int) + (integral_count v.m_slices : Int)
          - ((0 : Nat) : Int)) (by omega) (by omega)
        omega
      simp only [e1]
      exact ⟨_, List.get?_eq_get (by omega)⟩)
    (by omega) (by omega) (by omega)
  have h3 : ∃ off, data_offset_impl v.m_e v.m_slices = some off := by
    unfold data_offset_impl
    rw [data_offset_result_eq v.m_e v.m_slices hk (by omega)]
    exact ⟨_, rfl⟩
  obtain ⟨off, h3⟩ := h3
  unfold xview.compute_strides
  simp only [h0, h1, h2, h3]
  exact ⟨_, rfl⟩

/-- The constructor of `xview` returns a view of integer, range and all slices, at most as many
as the base has axes, and `strides()` and `backstrides()` return on it. -/
theorem strides_some (e : xexpression) (slices : List xview_slice)
    (hd : e.has_data_interface = true)
    (hk : ∀ s ∈ slices, s.is_integer_range_or_all = true)
    (hlen : slices.length ≤ e.shape.length)
    (hst : e.strides.length = e.shape.length) (hN : e.shape.length < 2 ^ 64) :
    ∃ v st bst, xview.construct e slices = some v ∧ v.strides = some st
      ∧ v.backstrides = some bst := by
  have hsv : is_strided_view e slices = true := by
    unfold is_strided_view
    rw [Bool.and_eq_true, List.all_eq_true]
    refine ⟨hd, ?_⟩
    intro s hs
    have := hk s hs
    cases s <;> simp [xview_slice.is_integer_range_or_all] at this <;> rfl
  cases hc : is_contiguous_view e slices with
  | true =>
    obtain ⟨v, hv⟩ := construct_contiguous_some e slices hc (by omega)
    obtain ⟨h1, h2, h3, _⟩ := construct_contiguous e slices v hc hv
    refine ⟨v, v.m_strides, v.m_backstrides, hv, ?_, ?_⟩
    · unfold xview.strides xview.with_strides
      rw [h1, h2, if_pos hsv, if_pos h3]
      rfl
    · unfold xview.backstrides xview.with_strides
      rw [h1, h2, if_pos hsv, if_pos h3]
      rfl
  | false =>
    obtain ⟨m, hm, hml⟩ := compute_shape_length e.shape slices
    have hz : newaxis_count slices = 0 := newaxis_count_before_zero slices hk slices.length
    have hv : xview.construct e slices = some
        { m_e := e, m_slices := slices, m_shape := m, m_strides := [], m_backstrides := [],
          m_data_offset := 0, m_strides_computed := false } := by
      unfold xview.construct
      rw [hc, hm]
      rfl
    obtain ⟨w, hw⟩ := compute_strides_some
      { m_e := e, m_slices := slices, m_shape := m, m_strides := [], m_backstrides := [],
        m_data_offset := 0, m_strides_computed := false }
      hk hlen hst hN (by simp only; omega)
    have hnc : xview.is_contiguous_view
        { m_e := e, m_slices := slices, m_shape := m, m_strides := [], m_backstrides := [],
          m_data_offset := 0, m_strides_computed := false } = false := by
      simp [xview.is_contiguous_view, xview.static_layout, hc]
    refine ⟨_, w.m_strides, w.m_backstrides, hv, ?_, ?_⟩
    · unfold xview.strides xview.with_strides
      simp only [hsv, hnc, hw, if_true, Bool.false_eq_true, if_false, Option.map_some']
    · unfold xview.backstrides xview.with_strides
      simp only [hsv, hnc, hw, if_true, Bool.false_eq_true, if_false, Option.map_some']

/-! ## Claims: strided views, sizes and backstrides -/

/-- C18: `is_strided_view` holds exactly when the base has a data interface and no slice is a
keep or a drop slice; a view with a keep or a drop slice is never strided; and `xview::layout()`
of a view that is not strided is `dynamic`. -/
theorem is_strided_view_iff (dsm : List Nat → List Int → layout_type → Bool)
    (E : xexpression) (S : List xview_slice) :
    (is_strided_view E S = true
        ↔ E.has_data_interface = true
          ∧ ∀ s ∈ S, (∀ idx, s ≠ xview_slice.xkeep_slice idx)
              ∧ (∀ idx, s ≠ xview_slice.xdrop_slice idx))
      ∧ ((∃ s ∈ S, (∃ idx, s = xview_slice.xkeep_slice idx)
            ∨ (∃ idx, s = xview_slice.xdrop_slice idx)) →
          is_strided_view E S = false)
      ∧ (∀ v : xview, v.m_e = E → v.m_slices = S → is_strided_view E S = false →
          v.layout dsm = some .dynamic) := by
  have hs : ∀ s : xview_slice, is_strided_slice_impl s = true
      ↔ (∀ idx, s ≠ xview_slice.xkeep_slice idx) ∧ (∀ idx, s ≠ xview_slice.xdrop_slice idx) := by
    intro s
    cases s <;> simp [is_strided_slice_impl]
  have h1 : is_strided_view E S = true
      ↔ E.has_data_interface = true
        ∧ ∀ s ∈ S, (∀ idx, s ≠ xview_slice.xkeep_slice idx)
            ∧ (∀ idx, s ≠ xview_slice.xdrop_slice idx) := by
    unfold is_strided_view
    rw [Bool.and_eq_true, List.all_eq_true]
    constructor
    · rintro ⟨a, b⟩
      exact ⟨a, fun s hm => (hs s).mp (b s hm)⟩
    · rintro ⟨a, b⟩
      exact ⟨a, fun s hm => (hs s).mpr (b s hm)⟩
  refine ⟨h1, ?_, ?_⟩
  · rintro ⟨s, hm, hk⟩
    cases hc : is_strided_view E S with
    | false => rfl
    | true =>
      obtain ⟨_, h2⟩ := h1.mp hc
      obtain ⟨k1, k2⟩ := h2 s hm
      rcases hk with ⟨i, h⟩ | ⟨i, h⟩
      · exact absurd h (k1 i)
      · exact absurd h (k2 i)
  · intro v he hsl hf
    unfold xview.layout
    rw [he, hsl, hf]
    rfl

/-- C19: every view keeps `dimension() = shape().size() = strides().size() =
backstrides().size()`: an `xstrided_view_base` constructed from the shape, strides, offset and
layout that `fill_args` returns; and an `xview` built by its constructor over a base that keeps
the invariant, once `strides()` and `backstrides()` return (the members set by the contiguous
initializer, or by `compute_strides` on the first call). The constructor, `strides()` and
`backstrides()` do return for every view of integer, range and all slices, at most as many as
the base has axes, over a base with a data interface. -/
theorem view_sizes_agree (dsm : List Nat → List Int → layout_type → Bool) :
    (∀ (shape : List Nat) (strides : List Int) (off : Nat) (layout : layout_type)
        (ss : List xstrided_slice) (g : strided_view_args),
        strides.length = shape.length →
        fill_args dsm shape strides off layout ss = .ok g →
        (xstrided_view_base.construct g.new_shape g.new_strides g.new_offset
            g.new_layout).dimension
          = (xstrided_view_base.construct g.new_shape g.new_strides g.new_offset
              g.new_layout).m_shape.length
        ∧ (xstrided_view_base.construct g.new_shape g.new_strides g.new_offset
            g.new_layout).m_strides.length
          = (xstrided_view_base.construct g.new_shape g.new_strides g.new_offset
              g.new_layout).dimension
        ∧ (xstrided_view_base.construct g.new_shape g.new_strides g.new_offset
            g.new_layout).m_backstrides.length
          = (xstrided_view_base.construct g.new_shape g.new_strides g.new_offset
              g.new_layout).dimension)
      ∧ (∀ (e : xexpression) (slices : List xview_slice) (v : xview) (st bst : List Int),
        e.strides.length = e.shape.length → e.backstrides.length = e.shape.length →
        xview.construct e slices = some v →
        v.strides = some st → v.backstrides = some bst →
        v.dimension = v.m_shape.length ∧ st.length = v.dimension
          ∧ bst.length = v.dimension)
      ∧ (∀ (e : xexpression) (slices : List xview_slice),
        e.has_data_interface = true →
        (∀ s ∈ slices, s.is_integer_range_or_all = true) →
        slices.length ≤ e.shape.length → e.strides.length = e.shape.length →
        e.shape.length < 2 ^ 64 →
        ∃ v st bst, xview.construct e slices = some v ∧ v.strides = some st
          ∧ v.backstrides = some bst) := by
  refine ⟨?_, ?_, strides_some⟩
  · intro shape strides off layout ss g hlen hg
    obtain ⟨hE, hC, hgeo⟩ := (fill_args_ok_iff dsm shape strides off layout ss hlen g).mp hg
    obtain ⟨_, h1, h2⟩ := walk_result_lengths shape strides off ss hlen hE hC
    have hl : g.new_strides.length = g.new_shape.length := by
      rw [hgeo]
      simp only [view_geometry]
      rw [h1, h2]
    refine ⟨rfl, ?_, ?_⟩
    · simp only [xstrided_view_base.construct, xstrided_view_base.dimension,
        adapt_strides_length, hl]
    · simp only [xstrided_view_base.construct, xstrided_view_base.dimension]
      rw [adapt_backstrides_length _ _ (by rw [adapt_strides_length, hl])]
  · intro e slices v st bst hes heb hv hst hbst
    unfold xview.strides at hst
    unfold xview.backstrides at hbst
    split at hst
    · rename_i hsv
      rw [if_pos hsv] at hbst
      simp only [Option.map_eq_some'] at hst hbst
      obtain ⟨w, hw, hws⟩ := hst
      obtain ⟨w1, hw1, hwb⟩ := hbst
      rw [hw] at hw1
      cases hw1
      subst hws; subst hwb
      refine ⟨rfl, ?_, ?_⟩
      · rcases with_strides_of_construct e slices v w hv hw with ⟨hc, rfl⟩ | ⟨hc, u, hu, rfl⟩
        · obtain ⟨_, _, _, h4, h5, _, _⟩ := construct_contiguous e slices w hc hv
          have := unwrap_offset_container_length _ _ _ _ h5
          simp only [xview.dimension]
          omega
        · obtain ⟨_, _, _, h4, _, _⟩ := compute_strides_spec v u hu
          exact h4
      · rcases with_strides_of_construct e slices v w hv hw with ⟨hc, rfl⟩ | ⟨hc, u, hu, rfl⟩
        · obtain ⟨_, _, _, h4, _, h6, _⟩ := construct_contiguous e slices w hc hv
          have := unwrap_offset_container_length _ _ _ _ h6
          simp only [xview.dimension]
          omega
        · obtain ⟨_, _, _, _, h5, _⟩ := compute_strides_spec v u hu
          exact h5
    · simp at hst

/-- Witness of C19: the general view `(All, Integer(2))` of a row-major base of shape `(4, 5)`:
`strides()` is `(5)`, `backstrides()` is `(15)`, and both have `dimension() = 1` entries. -/
theorem view_sizes_agree_witness :
    xview.construct
        { has_data_interface := true, static_layout := .row_major, static_dimension := 2,
          shape := [4, 5], strides := [5, 1], backstrides := [15, 4], data_offset := 0,
          layout := .row_major }
        [.xall 4, .integral 2]
        = some
          { m_e := { has_data_interface := true, static_layout := .row_major,
                     static_dimension := 2, shape := [4, 5], strides := [5, 1],
                     backstrides := [15, 4], data_offset := 0, layout := .row_major },
            m_slices := [.xall 4, .integral 2], m_shape := [4], m_strides := [],
            m_backstrides := [], m_data_offset := 0, m_strides_computed := false }
      ∧ xview.strides
        { m_e := { has_data_interface := true, static_layout := .row_major,
                   static_dimension := 2, shape := [4, 5], strides := [5, 1],
                   backstrides := [15, 4], data_offset := 0, layout := .row_major },
          m_slices := [.xall 4, .integral 2], m_shape := [4], m_strides := [],
          m_backstrides := [], m_data_offset := 0, m_strides_computed := false }
        = some [5]
      ∧ xview.backstrides
        { m_e := { has_data_interface := true, static_layout := .row_major,
                   static_dimension := 2, shape := [4, 5], strides := [5, 1],
                   backstrides := [15, 4], data_offset := 0, layout := .row_major },
          m_slices := [.xall 4, .integral 2], m_shape := [4], m_strides := [],
          m_backstrides := [], m_data_offset := 0, m_strides_computed := false }
        = some [15]
      ∧ ([5] : List Int).length
        = xview.dimension
          { m_e := { has_data_interface := true, static_layout := .row_major,
                     static_dimension := 2, shape := [4, 5], strides := [5, 1],
                     backstrides := [15, 4], data_offset := 0, layout := .row_major },
            m_slices := [.xall 4, .integral 2], m_shape := [4], m_strides := [],
            m_backstrides := [], m_data_offset := 0, m_strides_computed := false }
      ∧ ([15] : List Int).length
        = xview.dimension
          { m_e := { has_data_interface := true, static_layout := .row_major,
                     static_dimension := 2, shape := [4, 5], strides := [5, 1],
                     backstrides := [15, 4], data_offset := 0, layout := .row_major },
            m_slices := [.xall 4, .integral 2], m_shape := [4], m_strides := [],
            m_backstrides := [], m_data_offset := 0, m_strides_computed := false } :=
  ⟨by decide, by decide, by decide,
    ((view_sizes_agree (fun _ _ _ => true)).2.1
      { has_data_interface := true, static_layout := .row_major, static_dimension := 2,
        shape := [4, 5], strides := [5, 1], backstrides := [15, 4], data_offset := 0,
        layout := .row_major }
      [.xall 4, .integral 2] _ [5] [15] rfl rfl (by decide) (by decide) (by decide)).2⟩

/-- C20: the convention `backstrides()[i] = (shape()[i] - 1) * strides()[i]`, with stride and
backstride `0` on an axis of size `1`, holds for an `xstrided_view_base` after construction, for
an `xview` after `compute_strides` (the general path), and for an `xview` built by the
contiguous initializer without a range over a base that keeps the convention. It does not hold
on the contiguous path with a range: the contiguous initializer copies `m_e.strides()` and
`m_e.backstrides()` as they are, while the range changes the size of its axis. On the row-major
base of shape `(4, 5)`, strides `(5, 1)` and backstrides `(15, 4)`, the view
`(Range(1, 3), All)` has shape `(2, 5)` and backstrides `(15, 4)` instead of `(5, 4)`, and the
view `(Range(1, 2), All)` has shape `(1, 5)` and strides `(5, 1)` instead of `(0, 1)`;
`compute_strides` run on the same views gives the backstrides `(5, 4)` and `(0, 4)`. -/
theorem backstrides_convention :
    (∀ (shape : List Nat) (strides : List Int) (off : Nat) (layout : layout_type),
        backstrides_consistent (xstrided_view_base.construct shape strides off layout).m_shape
          (xstrided_view_base.construct shape strides off layout).m_strides
          (xstrided_view_base.construct shape strides off layout).m_backstrides = true)
      ∧ (∀ v w : xview, v.compute_strides = some w →
          backstrides_consistent w.m_shape w.m_strides w.m_backstrides = true)
      ∧ (∀ (e : xexpression) (slices : List xview_slice) (v : xview),
          is_contiguous_view e slices = true → slices.any xview_slice.is_xrange = false →
          e.strides.length = e.shape.length → e.backstrides.length = e.shape.length →
          backstrides_consistent e.shape e.strides e.backstrides = true →
          xview.construct e slices = some v →
          backstrides_consistent v.m_shape v.m_strides v.m_backstrides = true)
      ∧ backstrides_consistent [4, 5] [5, 1] [15, 4] = true
      ∧ is_contiguous_view
          { has_data_interface := true, static_layout := .row_major, static_dimension := 2,
            shape := [4, 5], strides := [5, 1], backstrides := [15, 4], data_offset := 0,
            layout := .row_major }
          [.xrange 1 2, .xall 5] = true
      ∧ xview.construct
          { has_data_interface := true, static_layout := .row_major, static_dimension := 2,
            shape := [4, 5], strides := [5, 1], backstrides := [15, 4], data_offset := 0,
            layout := .row_major }
          [.xrange 1 2, .xall 5]
          = some
            { m_e := { has_data_interface := true, static_layout := .row_major,
                       static_dimension := 2, shape := [4, 5], strides := [5, 1],
                       backstrides := [15, 4], data_offset := 0, layout := .row_major },
              m_slices := [.xrange 1 2, .xall 5], m_shape := [2, 5], m_strides := [5, 1],
              m_backstrides := [15, 4], m_data_offset := 5, m_strides_computed := true }
      ∧ backstrides_consistent [2, 5] [5, 1] [15, 4] = false
      ∧ xview.compute_strides
          { m_e := { has_data_interface := true, static_layout := .row_major,
                     static_dimension := 2, shape := [4, 5], strides := [5, 1],
                     backstrides := [15, 4], data_offset := 0, layout := .row_major },
            m_slices := [.xrange 1 2, .xall 5], m_shape := [2, 5], m_strides := [5, 1],
            m_backstrides := [15, 4], m_data_offset := 5, m_strides_computed := true }
          = some
            { m_e := { has_data_interface := true, static_layout := .row_major,
                       static_dimension := 2, shape := [4, 5], strides := [5, 1],
                       backstrides := [15, 4], data_offset := 0, layout := .row_major },
              m_slices := [.xrange 1 2, .xall 5], m_shape := [2, 5], m_strides := [5, 1],
              m_backstrides := [5, 4], m_data_offset := 5, m_strides_computed := true }
      ∧ xview.construct
          { has_data_interface := true, static_layout := .row_major, static_dimension := 2,
            shape := [4, 5], strides := [5, 1], backstrides := [15, 4], data_offset := 0,
            layout := .row_major }
          [.xrange 1 1, .xall 5]
          = some
            { m_e := { has_data_interface := true, static_layout := .row_major,
                       static_dimension := 2, shape := [4, 5], strides := [5, 1],
                       backstrides := [15, 4], data_offset := 0, layout := .row_major },
              m_slices := [.xrange 1 1, .xall 5], m_shape := [1, 5], m_strides := [5, 1],
              m_backstrides := [15, 4], m_data_offset := 5, m_strides_computed := true }
      ∧ backstrides_consistent [1, 5] [5, 1] [15, 4] = false
      ∧ xview.compute_strides
          { m_e := { has_data_interface := true, static_layout := .row_major,
                     static_dimension := 2, shape := [4, 5], strides := [5, 1],
                     backstrides := [15, 4], data_offset := 0, layout := .row_major },
            m_slices := [.xrange 1 1, .xall 5], m_shape := [1, 5], m_strides := [5, 1],
            m_backstrides := [15, 4], m_data_offset := 5, m_strides_computed := true }
          = some
            { m_e := { has_data_interface := true, static_layout := .row_major,
                       static_dimension := 2, shape := [4, 5], strides := [5, 1],
                       backstrides := [15, 4], data_offset := 0, layout := .row_major },
              m_slices := [.xrange 1 1, .xall 5], m_shape := [1, 5], m_strides := [0, 1],
              m_backstrides := [0, 4], m_data_offset := 5, m_strides_computed := true } := by
  refine ⟨?_, ?_, ?_, by decide, by decide, by decide, by decide, by decide, by decide,
    by decide, by decide⟩
  · intro shape strides off layout
    exact backstrides_consistent_adapt shape strides
  · intro v w h
    obtain ⟨h1, _, _, _, _, h6⟩ := compute_strides_spec v w h
    rw [h1]
    exact backstrides_consistent_of_get _ _ _ h6
  · intro e slices v hc hr hes heb hcons hv
    obtain ⟨_, _, _, _, h5, h6, _, h8⟩ := construct_contiguous e slices v hc hv
    rw [hr] at h8
    simp only [Bool.false_eq_true, if_false] at h8
    cases hL : e.static_layout with
    | row_major =>
      rw [hL] at h5 h6 h8
      simp only [unwrap_offset_container, compute_shape_sequence_view, sequence_view,
        Option.some.injEq, List.take_length] at h5 h6 h8
      rw [← h5, ← h6, ← h8]
      exact backstrides_consistent_drop _ _ _ _ hcons
    | column_major =>
      rw [hL] at h5 h6 h8
      simp only [unwrap_offset_container, compute_shape_sequence_view, sequence_view,
        Option.some.injEq, List.drop_zero] at h5 h6 h8
      rw [← h5, ← h6, ← h8, hes, heb]
      exact backstrides_consistent_take _ _ _ _ hcons
    | dynamic =>
      rw [hL] at h5
      simp [unwrap_offset_container] at h5


/-! ## Checked access -/

theorem zip_all_lt_iff (args shape : List Nat) (h : args.length = shape.length) :
    (List.zip args shape).all (fun p => decide (p.1 < p.2)) = true
      ↔ ∀ k, k < args.length → args.getD k 0 < shape.getD k 0 := by
  induction args generalizing shape with
  | nil => simp
  | cons a rest ih =>
    cases shape with
    | nil => simp at h
    | cons s shape =>
      simp only [List.length_cons, Nat.add_right_cancel_iff] at h
      simp only [List.zip_cons_cons, List.all_cons, Bool.and_eq_true, decide_eq_true_eq, ih shape h,
        List.length_cons]
      constructor
      · rintro ⟨h0, hr⟩ k hk
        cases k with
        | zero => simpa using h0
        | succ k => simpa using hr k (by omega)
      · intro hall
        refine ⟨by simpa using hall 0 (by omega), fun k hk => ?_⟩
        simpa using hall (k + 1) (by omega)

theorem check_access_ok_iff (shape args : List Nat) :
    check_access shape args = Except.ok ()
      ↔ args.length = shape.length ∧ ∀ k, k < args.length → args.getD k 0 < shape.getD k 0 := by
  unfold check_access
  by_cases hl : args.length = shape.length
  · rw [if_neg (by simpa using hl)]
    by_cases hb : (List.zip args shape).all (fun p => decide (p.1 < p.2)) = true
    · rw [if_pos hb]
      simp only [true_iff]
      exact ⟨hl, (zip_all_lt_iff args shape hl).1 hb⟩
    · rw [if_neg hb]
      constructor
      · intro h; cases h
      · rintro ⟨_, h⟩
        exact absurd ((zip_all_lt_iff args shape hl).2 h) hb
  · rw [if_pos (by simpa using hl)]
    constructor
    · intro h; cases h
    · rintro ⟨h, _⟩; exact absurd h hl

theorem check_access_dimension_iff (shape args : List Nat) :
    check_access shape args = Except.error access_error.dimension_mismatch
      ↔ args.length ≠ shape.length := by
  unfold check_access
  by_cases hl : args.length = shape.length
  · rw [if_neg (by simpa using hl)]
    by_cases hb : (List.zip args shape).all (fun p => decide (p.1 < p.2)) = true
    · rw [if_pos hb]
      constructor
      · intro h; cases h
      · intro h; exact absurd hl h
    · rw [if_neg hb]
      constructor
      · intro h; cases h
      · intro h; exact absurd hl h
  · rw [if_pos (by simpa using hl)]
    simp [hl]

theorem check_access_range_iff (shape args : List Nat) :
    check_access shape args = Except.error access_error.out_of_range
      ↔ args.length = shape.length
        ∧ ∃ k, k < args.length ∧ ¬ args.getD k 0 < shape.getD k 0 := by
  unfold check_access
  by_cases hl : args.length = shape.length
  · rw [if_neg (by simpa using hl)]
    by_cases hb : (List.zip args shape).all (fun p => decide (p.1 < p.2)) = true
    · rw [if_pos hb]
      constructor
      · intro h; cases h
      · rintro ⟨_, k, hk, hn⟩
        exact absurd ((zip_all_lt_iff args shape hl).1 hb k hk) hn
    · rw [if_neg hb]
      simp only [true_iff]
      refine ⟨hl, ?_⟩
      by_contra hne
      apply hb
      rw [zip_all_lt_iff args shape hl]
      intro k hk
      by_contra hlt
      exact hne ⟨k, hk, hlt⟩
  · rw [if_pos (by simpa using hl)]
    constructor
    · intro h; cases h
    · rintro ⟨h, _⟩; exact absurd h hl

/-- An index in the range of `std::ptrdiff_t` lies in `[0, s)`, for a size `s` of at most
`2^63`, exactly when its cast to `std::size_t` is below `s`. -/
theorem to_size_t_lt_iff (a : Int) (s : Nat) (ha : -(2 : Int) ^ 63 ≤ a ∧ a < 2 ^ 63)
    (hs : s ≤ 2 ^ 63) : to_size_t a < s ↔ (0 ≤ a ∧ a < (s : Int)) := by
  unfold to_size_t
  by_cases h0 : 0 ≤ a
  · have e : a % (2 ^ 64 : Int) = a := Int.emod_eq_of_lt h0 (by omega)
    rw [e]
    omega
  · have e : a % (2 ^ 64 : Int) = a + 2 ^ 64 := by
      have h1 : (a + 2 ^ 64) % (2 ^ 64 : Int) = a + 2 ^ 64 :=
        Int.emod_eq_of_lt (by omega) (by omega)
      rw [← h1]
      simp
    rw [e]
    omega

/-! ## Claims on checked access -/

theorem check_access_cast_ok_iff (shape : List Nat) (I : List Int)
    (hI : ∀ a ∈ I, -(2 : Int) ^ 63 ≤ a ∧ a < 2 ^ 63) (hs : ∀ s ∈ shape, s ≤ 2 ^ 63)
    (hlen : I.length = shape.length) :
    check_access shape (I.map to_size_t) = Except.ok ()
      ↔ ∀ k, k < I.length → 0 ≤ I.getD k 0 ∧ I.getD k 0 < (shape.getD k 0 : Int) := by
  rw [check_access_ok_iff]
  simp only [List.length_map, hlen, true_and]
  constructor
  · intro h k hk
    have hk1 : k < I.length := by omega
    have := h k hk
    rw [List.getD_eq_getElem _ _ (by simpa using hk1), List.getElem_map,
      List.getD_eq_getElem _ _ hk] at this
    rw [List.getD_eq_getElem _ _ hk1, List.getD_eq_getElem _ _ hk]
    exact (to_size_t_lt_iff _ _ (hI _ (List.getElem_mem _)) (hs _ (List.getElem_mem _))).1 this
  · intro h k hk
    have hk1 : k < I.length := by omega
    have := h k hk
    rw [List.getD_eq_getElem _ _ hk1, List.getD_eq_getElem _ _ hk] at this
    rw [List.getD_eq_getElem _ _ (by simpa using hk1), List.getElem_map,
      List.getD_eq_getElem _ _ hk]
    exact (to_size_t_lt_iff _ _ (hI _ (List.getElem_mem _)) (hs _ (List.getElem_mem _))).2 this

theorem check_access_cases (shape args : List Nat) :
    check_access shape args = Except.ok ()
      ∨ check_access shape args = Except.error access_error.dimension_mismatch
      ∨ check_access shape args = Except.error access_error.out_of_range := by
  unfold check_access
  split
  · exact Or.inr (Or.inl rfl)
  · split
    · exact Or.inl rfl
    · exact Or.inr (Or.inr rfl)

theorem base_at_ok (v : xstrided_view_base) (assertions : List Nat → Except access_error Unit)
    (I : List Int) (h : check_access v.m_shape (I.map to_size_t) = Except.ok ())
    (ha : assertions (I.map to_size_t) = Except.ok ()) :
    v.at_ assertions I
        = Except.ok (to_size_t (to_ptrdiff_t v.m_offset + data_offset v.m_strides I))
      ∧ v.at_ assertions I = v.operator_call assertions I := by
  unfold xstrided_view_base.at_ xstrided_view_base.operator_call
    xstrided_view_base.compute_index
  rw [h, ha]
  exact ⟨rfl, rfl⟩

theorem base_at_error (v : xstrided_view_base) (assertions : List Nat → Except access_error Unit)
    (I : List Int) (e : access_error)
    (h : check_access v.m_shape (I.map to_size_t) = Except.error e) :
    v.at_ assertions I = Except.error e := by
  unfold xstrided_view_base.at_
  rw [h]

theorem view_at_ok (w : xview) (assertions : List Nat → Except access_error Unit)
    (I : List Int) (h : check_access w.m_shape (I.map to_size_t) = Except.ok ())
    (ha : assertions (I.map to_size_t) = Except.ok ()) :
    w.at_ assertions I = Except.ok (access w.m_slices w.dimension (I.map to_size_t))
      ∧ w.at_ assertions I = w.operator_call assertions I := by
  unfold xview.at_ xview.operator_call
  rw [h, ha]
  exact ⟨rfl, rfl⟩

theorem view_at_error (w : xview) (assertions : List Nat → Except access_error Unit)
    (I : List Int) (e : access_error)
    (h : check_access w.m_shape (I.map to_size_t) = Except.error e) :
    w.at_ assertions I = Except.error e := by
  unfold xview.at_
  rw [h]

theorem at_range_iff (shape : List Nat) (I : List Int)
    (hI : ∀ a ∈ I, -(2 : Int) ^ 63 ≤ a ∧ a < 2 ^ 63) (hs : ∀ s ∈ shape, s ≤ 2 ^ 63)
    (hlen : I.length = shape.length) :
    check_access shape (I.map to_size_t) = Except.error access_error.out_of_range
      ↔ ∃ k, k < I.length ∧ ¬ (0 ≤ I.getD k 0 ∧ I.getD k 0 < (shape.getD k 0 : Int)) := by
  have hok := check_access_cast_ok_iff shape I hI hs hlen
  have hdim := check_access_dimension_iff shape (I.map to_size_t)
  rcases check_access_cases shape (I.map to_size_t) with h | h | h
  · rw [h]
    constructor
    · intro h1; cases h1
    · rintro ⟨k, hk, hn⟩
      exact absurd (hok.1 h k hk) hn
  · exact absurd (by simpa using hlen) (hdim.1 h)
  · rw [h]
    simp only [true_iff]
    by_contra hne
    have : check_access shape (I.map to_size_t) = Except.ok () := by
      rw [hok]
      intro k hk
      by_contra hlt
      exact hne ⟨k, hk, hlt⟩
    rw [h] at this
    cases this

/-- C21: `at`, called with exactly `dimension()` indices, fails with `OutOfRange` exactly when
some index lies outside `[0, shape()[k])`; when every index lies inside, it returns the element
at the flat offset `offset + sum_k I[k] * strides[k]`, which is the element of `operator()(I)`.
The same holds of `xview::at`, whose element is the one that `xview::operator()` reads. The
indices are `std::ptrdiff_t` values and the sizes are at most `2^63`; the checks that
`operator()` makes in the build at hand accept what the check of `at` accepts. -/
theorem at_checks_bounds (v : xstrided_view_base) (w : xview)
    (av aw : List Nat → Except access_error Unit) (I : List Int)
    (hI : ∀ a ∈ I, -(2 : Int) ^ 63 ≤ a ∧ a < 2 ^ 63)
    (hv : ∀ s ∈ v.m_shape, s ≤ 2 ^ 63) (hw : ∀ s ∈ w.m_shape, s ≤ 2 ^ 63)
    (hav : ∀ a, check_access v.m_shape a = Except.ok () → av a = Except.ok ())
    (haw : ∀ a, check_access w.m_shape a = Except.ok () → aw a = Except.ok ()) :
    (I.length = v.dimension →
      (v.at_ av I = Except.error access_error.out_of_range
        ↔ ∃ k, k < I.length ∧ ¬ (0 ≤ I.getD k 0 ∧ I.getD k 0 < (v.m_shape.getD k 0 : Int)))
      ∧ ((∀ k, k < I.length → 0 ≤ I.getD k 0 ∧ I.getD k 0 < (v.m_shape.getD k 0 : Int)) →
          v.at_ av I
              = Except.ok (to_size_t (to_ptrdiff_t v.m_offset + data_offset v.m_strides I))
            ∧ v.at_ av I = v.operator_call av I))
    ∧ (I.length = w.dimension →
      (w.at_ aw I = Except.error access_error.out_of_range
        ↔ ∃ k, k < I.length ∧ ¬ (0 ≤ I.getD k 0 ∧ I.getD k 0 < (w.m_shape.getD k 0 : Int)))
      ∧ ((∀ k, k < I.length → 0 ≤ I.getD k 0 ∧ I.getD k 0 < (w.m_shape.getD k 0 : Int)) →
          w.at_ aw I = Except.ok (access w.m_slices w.dimension (I.map to_size_t))
            ∧ w.at_ aw I = w.operator_call aw I)) := by
  constructor
  · intro hlen
    have hlen1 : I.length = v.m_shape.length := hlen
    have hok := check_access_cast_ok_iff v.m_shape I hI hv hlen1
    have hr := at_range_iff v.m_shape I hI hv hlen1
    constructor
    · rw [← hr]
      rcases check_access_cases v.m_shape (I.map to_size_t) with h | h | h
      · rw [(base_at_ok v av I h (hav _ h)).1, h]
        constructor <;> intro h1 <;> cases h1
      · rw [base_at_error v av I _ h, h]
        constructor <;> intro h1 <;> cases h1
      · rw [base_at_error v av I _ h, h]
        exact ⟨fun _ => rfl, fun _ => rfl⟩
    · intro hall
      have h := hok.2 hall
      exact base_at_ok v av I h (hav _ h)
  · intro hlen
    have hlen1 : I.length = w.m_shape.length := hlen
    have hok := check_access_cast_ok_iff w.m_shape I hI hw hlen1
    have hr := at_range_iff w.m_shape I hI hw hlen1
    constructor
    · rw [← hr]
      rcases check_access_cases w.m_shape (I.map to_size_t) with h | h | h
      · rw [(view_at_ok w aw I h (haw _ h)).1, h]
        constructor <;> intro h1 <;> cases h1
      · rw [view_at_error w aw I _ h, h]
        constructor <;> intro h1 <;> cases h1
      · rw [view_at_error w aw I _ h, h]
        exact ⟨fun _ => rfl, fun _ => rfl⟩
    · intro hall
      have h := hok.2 hall
      exact view_at_ok w aw I h (haw _ h)

/-- C22: `at`, called with a number of indices that does not match `dimension()`, fewer or
more, fails with `DimensionMismatch` and returns no element; so does `xview::at`. -/
theorem at_checks_dimension (v : xstrided_view_base) (w : xview)
    (av aw : List Nat → Except access_error Unit) (I : List Int) :
    (I.length ≠ v.dimension → v.at_ av I = Except.error access_error.dimension_mismatch)
    ∧ (I.length ≠ w.dimension → w.at_ aw I = Except.error access_error.dimension_mismatch) := by
  constructor
  · intro h
    apply base_at_error
    rw [check_access_dimension_iff]
    simpa using h
  · intro h
    apply view_at_error
    rw [check_access_dimension_iff]
    simpa using h

/-- Witness for C21: a view of shape `(2, 3)` with strides `(3, 1)` and offset `4`, and a view
of a `(2, 3)` base through the slices all and range `[1, 3)`, at the index `(1, 1)`. -/
theorem at_checks_bounds_witness :
    (xstrided_view_base.at_
        { m_shape := [2, 3], m_strides := [3, 1], m_backstrides := [3, 2], m_offset := 4,
          m_layout := layout_type.row_major }
        (fun _ => Except.ok ()) [1, 1] = Except.ok 8)
    ∧ (xview.at_
        { m_e := { has_data_interface := false, static_layout := layout_type.row_major,
                   static_dimension := 2, shape := [2, 3], strides := [3, 1],
                   backstrides := [3, 2], data_offset := 0, layout := layout_type.row_major },
          m_slices := [xview_slice.xall 2, xview_slice.xrange 1 2], m_shape := [2, 2],
          m_strides := [], m_backstrides := [], m_data_offset := 0,
          m_strides_computed := false }
        (fun _ => Except.ok ()) [1, 1] = Except.ok (some [1, 2])) := by
  have h := at_checks_bounds
    { m_shape := [2, 3], m_strides := [3, 1], m_backstrides := [3, 2], m_offset := 4,
      m_layout := layout_type.row_major }
    { m_e := { has_data_interface := false, static_layout := layout_type.row_major,
               static_dimension := 2, shape := [2, 3], strides := [3, 1],
               backstrides := [3, 2], data_offset := 0, layout := layout_type.row_major },
      m_slices := [xview_slice.xall 2, xview_slice.xrange 1 2], m_shape := [2, 2],
      m_strides := [], m_backstrides := [], m_data_offset := 0, m_strides_computed := false }
    (fun _ => Except.ok ()) (fun _ => Except.ok ()) [1, 1]
    (by decide) (by decide) (by decide) (fun _ _ => rfl) (fun _ _ => rfl)
  exact ⟨((h.1 rfl).2 (by decide)).1, ((h.2 rfl).2 (by decide)).1⟩

/-! ## Trivial broadcasting -/

theorem std_equal_iff (a b : List Int) (h : a.length = b.length) :
    std_equal a b = true ↔ ∀ k, k < a.length → a.getD k 0 = b.getD k 0 := by
  induction a generalizing b with
  | nil => simp [std_equal]
  | cons x rest ih =>
    cases b with
    | nil => simp at h
    | cons y b =>
      simp only [List.length_cons, Nat.add_right_cancel_iff] at h
      simp only [std_equal, Bool.and_eq_true, decide_eq_true_eq, ih b h, List.length_cons]
      constructor
      · rintro ⟨h0, hr⟩ k hk
        cases k with
        | zero => simpa using h0
        | succ k => simpa using hr k (by omega)
      · intro hall
        refine ⟨by simpa using hall 0 (by omega), fun k hk => ?_⟩
        simpa using hall (k + 1) (by omega)

theorem trivial_broadcast_iff (str strides : List Int) :
    (decide (str.length = strides.length) && std_equal str strides) = true
      ↔ str.length = strides.length ∧ ∀ k, k < str.length → str.getD k 0 = strides.getD k 0 := by
  by_cases h : str.length = strides.length
  · simp only [h, decide_True, Bool.true_and, true_and]
    rw [std_equal_iff str strides h, h]
  · simp [h]

theorem not_strided_of_keep_drop (e : xexpression) (S : List xview_slice)
    (h : e.has_data_interface = false
      ∨ ∃ s ∈ S, (∃ l, s = xview_slice.xkeep_slice l) ∨ (∃ l, s = xview_slice.xdrop_slice l)) :
    is_strided_view e S = false := by
  unfold is_strided_view
  rcases h with h | ⟨s, hs, hk⟩
  · simp [h]
  · have : S.all is_strided_slice_impl = false := by
      rw [List.all_eq_false]
      refine ⟨s, hs, ?_⟩
      rcases hk with ⟨l, rfl⟩ | ⟨l, rfl⟩ <;> simp [is_strided_slice_impl]
    simp [this]

/-- C24: `is_trivial_broadcast(s)` is true exactly when `s` has the length of the strides of
the view and equals them on every axis: for `xstrided_view_base`, and for an `xview` that is
strided (whose `strides()` are `strides`). For an `xview` that is not strided, which is one
over a base without data interface or with a keep or drop slice, it is false for every `s`. -/
theorem is_trivial_broadcast_iff (v : xstrided_view_base) (w : xview) (s : List Int) :
    (v.is_trivial_broadcast s = true
      ↔ s.length = v.m_strides.length ∧ ∀ k, k < s.length → s.getD k 0 = v.m_strides.getD k 0)
    ∧ (is_strided_view w.m_e w.m_slices = true → ∀ strides, w.strides = some strides →
        (w.is_trivial_broadcast s = some true
          ↔ s.length = strides.length ∧ ∀ k, k < s.length → s.getD k 0 = strides.getD k 0))
    ∧ (is_strided_view w.m_e w.m_slices = false → w.is_trivial_broadcast s = some false)
    ∧ ((w.m_e.has_data_interface = false
        ∨ ∃ x ∈ w.m_slices,
            (∃ l, x = xview_slice.xkeep_slice l) ∨ (∃ l, x = xview_slice.xdrop_slice l)) →
        w.is_trivial_broadcast s = some false) := by
  refine ⟨?_, ?_, ?_, ?_⟩
  · unfold xstrided_view_base.is_trivial_broadcast
    exact trivial_broadcast_iff s v.m_strides
  · intro hs strides hst
    unfold xview.is_trivial_broadcast
    rw [if_pos hs, hst]
    simp only [Option.map_some', Option.some.injEq]
    exact trivial_broadcast_iff s strides
  · intro hs
    unfold xview.is_trivial_broadcast
    rw [if_neg (by simp [hs])]
  · intro h
    have hs := not_strided_of_keep_drop w.m_e w.m_slices h
    unfold xview.is_trivial_broadcast
    rw [if_neg (by simp [hs])]

/-! ## Access through a sequence of indices -/

/-- The element of `xstrided_view_base::element` on a sequence that is at least as long as
`dimension()` is the element of `operator()` on the leading `dimension()` entries, and the
entries past them have no effect. The build is one without assertions, and the view has one
stride for each axis. -/
theorem element_leading_entries (v : xstrided_view_base) (index : List Nat)
    (hs : v.m_strides.length = v.dimension) :
    v.element (fun _ => Except.ok ()) index
        = v.operator_call (fun _ => Except.ok ())
            ((index.take v.dimension).map (fun x => (x : Int)))
    ∧ ∀ surplus : List Nat, v.dimension ≤ index.length →
        v.element (fun _ => Except.ok ()) (index.take v.dimension ++ surplus)
          = v.element (fun _ => Except.ok ()) index := by
  constructor
  · unfold xstrided_view_base.element xstrided_view_base.operator_call
      xstrided_view_base.compute_element_index xstrided_view_base.compute_index element_offset
    rw [hs]
  · intro surplus hlen
    unfold xstrided_view_base.element xstrided_view_base.compute_element_index element_offset
    rw [hs]
    have h1 : (List.take v.dimension index).length = v.dimension := by
      rw [List.length_take]; omega
    rw [List.take_append_of_le_length (by omega), List.take_take, Nat.min_self]

/-- C23: on `xstrided_view_base`, `element` on a sequence at least as long as `dimension()`
returns the element of `operator()` on the leading `dimension()` entries, and the entries past
them have no effect (a view with one stride for each axis, a build without assertions). On
`xview` it does not: the view `view(a, all(), newaxis(), all(), all())` of a base `a` of shape
`(2, 2, 2)` has four axes, and `operator()(1, 0, 1, 0)` reads `a(1, 1, 0)`; on the sequence
`(1, 0, 1, 0, 1)`, whose leading four entries are that index, `element` reads `a(1, 1, 1)` when
`get_slice_value` moves the iterator, and `a(1, 0, 1)` when it does not: not the element of
`operator()` on the leading entries, and in the first case the surplus entry is read. -/
theorem element_reads_surplus_entry :
    (∀ (v : xstrided_view_base) (index : List Nat),
      v.m_strides.length = v.dimension →
      v.element (fun _ => Except.ok ()) index
          = v.operator_call (fun _ => Except.ok ())
              ((index.take v.dimension).map (fun x => (x : Int)))
      ∧ ∀ surplus : List Nat, v.dimension ≤ index.length →
          v.element (fun _ => Except.ok ()) (index.take v.dimension ++ surplus)
            = v.element (fun _ => Except.ok ()) index)
    ∧ ((xview.construct
        { has_data_interface := false, static_layout := layout_type.row_major,
          static_dimension := 3, shape := [2, 2, 2], strides := [4, 2, 1],
          backstrides := [4, 2, 1], data_offset := 0, layout := layout_type.row_major }
        [xview_slice.xall 2, xview_slice.xnewaxis, xview_slice.xall 2, xview_slice.xall 2]).map
      (fun v =>
        (v.dimension,
         v.operator_call (fun _ => Except.ok ()) [1, 0, 1, 0],
         v.element (fun _ => Except.ok ()) true [1, 0, 1, 0, 1],
         v.element (fun _ => Except.ok ()) false [1, 0, 1, 0, 1]))
      = some (4, Except.ok (some [1, 1, 0]), Except.ok (some [1, 1, 1]),
          Except.ok (some [1, 0, 1]))) := by
  refine ⟨fun v index hs => element_leading_entries v index hs, rfl⟩

/-- C26: the view `view(a, newaxis(), newaxis(), all())` of a base `a` of shape `(3)` has the
shape `(1, 1, 3)`, and `operator()(0, 0, 2)` reads `a(0)`, where the translation of the spec
gives `a(2)`. The view `view(b, newaxis(), all(), newaxis(), all())` of a base `b` of shape
`(3, 3)` has the shape `(1, 3, 1, 3)`, and `operator()(0, 1, 0, 2)` reads `b(1, 0)`, where the
translation of the spec gives `b(1, 2)`. With the one new axis of
`view(b, all(), newaxis(), all())`, `operator()(1, 0, 2)` reads `b(1, 2)`, as the spec says. -/
theorem access_several_newaxis :
    ((xview.construct
        { has_data_interface := false, static_layout := layout_type.row_major,
          static_dimension := 1, shape := [3], strides := [1], backstrides := [2],
          data_offset := 0, layout := layout_type.row_major }
        [xview_slice.xnewaxis, xview_slice.xnewaxis, xview_slice.xall 3]).map
      (fun v => (v.m_shape, v.operator_call (fun _ => Except.ok ()) [0, 0, 2]))
      = some ([1, 1, 3], Except.ok (some [0])))
    ∧ spec_translate [xview_slice.xnewaxis, xview_slice.xnewaxis, xview_slice.xall 3] [0, 0, 2]
        = [2]
    ∧ ((xview.construct
        { has_data_interface := false, static_layout := layout_type.row_major,
          static_dimension := 2, shape := [3, 3], strides := [3, 1], backstrides := [6, 2],
          data_offset := 0, layout := layout_type.row_major }
        [xview_slice.xnewaxis, xview_slice.xall 3, xview_slice.xnewaxis,
          xview_slice.xall 3]).map
      (fun v => (v.m_shape, v.operator_call (fun _ => Except.ok ()) [0, 1, 0, 2]))
      = some ([1, 3, 1, 3], Except.ok (some [1, 0])))
    ∧ spec_translate
        [xview_slice.xnewaxis, xview_slice.xall 3, xview_slice.xnewaxis, xview_slice.xall 3]
        [0, 1, 0, 2] = [1, 2]
    ∧ ((xview.construct
        { has_data_interface := false, static_layout := layout_type.row_major,
          static_dimension := 2, shape := [3, 3], strides := [3, 1], backstrides := [6, 2],
          data_offset := 0, layout := layout_type.row_major }
        [xview_slice.xall 3, xview_slice.xnewaxis, xview_slice.xall 3]).map
      (fun v => (v.m_shape, v.operator_call (fun _ => Except.ok ()) [1, 0, 2]))
      = some ([3, 1, 3], Except.ok (some [1, 2])))
    ∧ spec_translate [xview_slice.xall 3, xview_slice.xnewaxis, xview_slice.xall 3] [1, 0, 2]
        = [1, 2] := by
  refine ⟨rfl, rfl, rfl, rfl, rfl, rfl⟩

/-! ## The moves of the stepper of a view -/

theorem newaxis_count_before_succ (slices : List xview_slice) (i : Nat) :
    newaxis_count_before slices (i + 1)
      = newaxis_count_before slices i
        + (match slices.get? i with
           | some s => if s.is_newaxis = true then 1 else 0
           | none => 0) := by
  unfold newaxis_count_before
  rw [List.take_succ, List.filter_append, List.length_append]
  cases h : slices.get? i with
  | none =>
    have : slices[i]? = none := by simpa using h
    simp [this]
  | some s =>
    have : slices[i]? = some s := by simpa using h
    simp only [this, Option.toList_some]
    by_cases hs : s.is_newaxis = true
    · simp [List.filter_cons, hs]
    · simp [List.filter_cons, hs]

theorem is_newaxis_slice_eq (slices : List xview_slice) (i : Nat) :
    is_newaxis_slice slices i
      = (match slices.get? i with
         | some s => s.is_newaxis
         | none => false) := by
  unfold is_newaxis_slice
  rw [newaxis_count_before_succ]
  cases h : slices.get? i with
  | none => simp
  | some s =>
    by_cases hs : s.is_newaxis = true
    · simp [hs]
    · have hb : s.is_newaxis = false := by simpa using hs
      simp [hb]

theorem size_t_sub_add (p x y : Nat) (hp : p < 2 ^ 64) (hx : x < 2 ^ 64) (hy : y < 2 ^ 64) :
    size_t_sub (size_t_add p x) y = p ↔ x = y := by
  unfold size_t_sub size_t_add
  omega

theorem common_step_forward_eq (st : xview_stepper) (dim : Nat)
    (f : List Nat → Nat → Nat → Option (List Nat)) :
    st.common_step_forward dim f = st.common_step_forward_n dim 1 f := rfl

theorem common_step_backward_eq (st : xview_stepper) (dim : Nat)
    (f : List Nat → Nat → Nat → Option (List Nat)) :
    st.common_step_backward dim f = st.common_step_backward_n dim 1 f := rfl

theorem get?_some_lt {α : Type} (l : List α) (i : Nat) (x : α) (h : l.get? i = some x) :
    i < l.length := by
  by_contra hlt
  rw [List.get?_eq_none.2 (by omega)] at h
  cases h

/-- The forward step of `n` on a view axis that a slice makes: the counter `c` becomes `c + n`,
and the stepper of the base moves on the base axis of the slice by
`step_size(slice, c + n, n)`. -/
theorem step_n_slice (st : xview_stepper) (dim n : Nat) (s : xview_slice) (c : Nat)
    (hoff : st.m_offset ≤ dim)
    (hs : st.p_view.m_slices.get? (integral_skip st.p_view.m_slices dim) = some s)
    (hn : s.is_newaxis = false)
    (hc : st.m_index_keeper.get? dim = some c)
    (ha : base_axis st.p_view.m_slices dim < st.m_it.length) :
    st.step_n dim n
      = some { st with
          m_it := st.m_it.set (base_axis st.p_view.m_slices dim)
            (size_t_add (st.m_it.getD (base_axis st.p_view.m_slices dim) 0)
              (to_size_t (s.step_size (size_t_add c n) n))),
          m_index_keeper := st.m_index_keeper.set dim (size_t_add c n) } := by
  have hlt := get?_some_lt _ _ _ hs
  unfold xview_stepper.step_n xview_stepper.common_step_forward_n
  simp only [ge_iff_le, hoff, if_true, is_newaxis_slice_eq, hs, hn, hlt, hc]
  unfold base_axis at ha
  simp only [substepper_step, ha, if_true, Option.map_some', base_axis]

/-- The backward step of `n` on a view axis that a slice makes: the counter `c` becomes
`c - n`, and the stepper of the base moves back on the base axis of the slice by
`step_size(slice, c - n, n)`. -/
theorem step_back_n_slice (st : xview_stepper) (dim n : Nat) (s : xview_slice) (c : Nat)
    (hoff : st.m_offset ≤ dim)
    (hs : st.p_view.m_slices.get? (integral_skip st.p_view.m_slices dim) = some s)
    (hn : s.is_newaxis = false)
    (hc : st.m_index_keeper.get? dim = some c)
    (ha : base_axis st.p_view.m_slices dim < st.m_it.length) :
    st.step_back_n dim n
      = some { st with
          m_it := st.m_it.set (base_axis st.p_view.m_slices dim)
            (size_t_sub (st.m_it.getD (base_axis st.p_view.m_slices dim) 0)
              (to_size_t (s.step_size (size_t_sub c n) n))),
          m_index_keeper := st.m_index_keeper.set dim (size_t_sub c n) } := by
  have hlt := get?_some_lt _ _ _ hs
  unfold xview_stepper.step_back_n xview_stepper.common_step_backward_n
  simp only [ge_iff_le, hoff, if_true, is_newaxis_slice_eq, hs, hn, hlt, hc]
  unfold base_axis at ha
  simp only [substepper_step_back, ha, if_true, Option.map_some', base_axis]

/-- The forward step of `n` on an implicit trailing axis, one past the slice list: the stepper
of the base moves by `n` on its base axis, and no counter changes. -/
theorem step_n_trailing (st : xview_stepper) (dim n : Nat)
    (hoff : st.m_offset ≤ dim)
    (hs : st.p_view.m_slices.length ≤ integral_skip st.p_view.m_slices dim)
    (ha : base_axis st.p_view.m_slices dim < st.m_it.length) :
    st.step_n dim n
      = some { st with
          m_it := st.m_it.set (base_axis st.p_view.m_slices dim)
            (size_t_add (st.m_it.getD (base_axis st.p_view.m_slices dim) 0) n) } := by
  have hnone : st.p_view.m_slices.get? (integral_skip st.p_view.m_slices dim) = none :=
    List.get?_eq_none.2 hs
  unfold xview_stepper.step_n xview_stepper.common_step_forward_n
  simp only [ge_iff_le, hoff, if_true, is_newaxis_slice_eq, hnone, Nat.not_lt.2 hs, if_false]
  unfold base_axis at ha
  simp only [substepper_step, ha, if_true, Option.map_some', base_axis]

theorem step_eq_step_n (st : xview_stepper) (dim : Nat) : st.step dim = st.step_n dim 1 := rfl

theorem step_back_eq_step_back_n (st : xview_stepper) (dim : Nat) :
    st.step_back dim = st.step_back_n dim 1 := rfl

theorem set_eq_self_iff {α : Type} (l : List α) (a : Nat) (v d : α) (ha : a < l.length) :
    l.set a v = l ↔ v = l.getD a d := by
  rw [List.getD_eq_getElem _ _ ha]
  constructor
  · intro h
    have h1 : (l.set a v)[a]? = l[a]? := by rw [h]
    rw [List.getElem?_set_self ha, List.getElem?_eq_getElem ha] at h1
    exact Option.some.inj h1
  · intro h
    rw [h]
    apply List.ext_getElem (by simp)
    intro i h1 h2
    by_cases hi : a = i
    · subst hi
      simp
    · rw [List.getElem_set_ne hi]

theorem size_t_sub_add_self (c n : Nat) (h : c + n < 2 ^ 64) :
    size_t_sub (size_t_add c n) n = c := by
  unfold size_t_sub size_t_add
  omega

theorem size_t_add_of_lt (c n : Nat) (h : c + n < 2 ^ 64) : size_t_add c n = c + n := by
  unfold size_t_add
  omega

/-- The round trip `step(dim, n)`, `step_back(dim, n)` on a view axis that a slice makes, from
the counter `c`: the forward step moves by `step_size(slice, c + n, n)` and the backward step by
`step_size(slice, c, n)`, so the state is restored exactly when the two are equal. -/
theorem step_n_step_back_n (st : xview_stepper) (dim n : Nat) (s : xview_slice) (c : Nat)
    (hoff : st.m_offset ≤ dim)
    (hs : st.p_view.m_slices.get? (integral_skip st.p_view.m_slices dim) = some s)
    (hn : s.is_newaxis = false)
    (hc : st.m_index_keeper.get? dim = some c)
    (ha : base_axis st.p_view.m_slices dim < st.m_it.length)
    (hcn : c + n < 2 ^ 64)
    (hp : st.m_it.getD (base_axis st.p_view.m_slices dim) 0 < 2 ^ 64) :
    ((st.step_n dim n).bind (fun st1 => st1.step_back_n dim n) = some st)
      ↔ to_size_t (s.step_size (c + n) n) = to_size_t (s.step_size c n) := by
  obtain ⟨view, it, off, keeper⟩ := st
  simp only at hoff hs hc ha hp
  have hdim : dim < keeper.length := get?_some_lt _ _ _ hc
  rw [step_n_slice _ dim n s c hoff hs hn hc ha, Option.some_bind]
  rw [step_back_n_slice _ dim n s (size_t_add c n) hoff hs hn
    (by simp only [List.get?_eq_getElem?]; exact List.getElem?_set_self hdim)
    (by simpa using ha)]
  have hsub : size_t_sub (c + n) n = c := by
    rw [← size_t_add_of_lt c n hcn]
    exact size_t_sub_add_self c n hcn
  simp only [List.set_set, size_t_add_of_lt c n hcn, hsub,
    Option.some.injEq, xview_stepper.mk.injEq, true_and]
  have hk : keeper.set dim c = keeper := by
    rw [set_eq_self_iff keeper dim c 0 hdim, List.getD_eq_getElem _ _ hdim]
    have : keeper[dim]? = some c := by simpa using hc
    rw [List.getElem?_eq_getElem hdim] at this
    exact (Option.some.inj this).symm
  rw [hk, set_eq_self_iff it _ _ 0 ha]
  simp only [and_true]
  have hget : (it.set (base_axis view.m_slices dim)
      (size_t_add (it.getD (base_axis view.m_slices dim) 0)
        (to_size_t (s.step_size (c + n) n)))).getD (base_axis view.m_slices dim) 0
      = size_t_add (it.getD (base_axis view.m_slices dim) 0)
        (to_size_t (s.step_size (c + n) n)) := by
    rw [List.getD_eq_getElem _ _ (by simpa using ha), List.getElem_set_self]
  rw [hget]
  exact size_t_sub_add _ _ _ hp (to_size_t_lt _) (to_size_t_lt _)

/-- The steps of a range, of a range with a step and of an all-slice are the same at every
position. -/
theorem step_size_uniform (s : xview_slice) (p q n : Nat)
    (hs : (∃ a b, s = xview_slice.xrange a b) ∨ (∃ a b k, s = xview_slice.xstepped_range a b k)
      ∨ (∃ m, s = xview_slice.xall m)) :
    s.step_size p n = s.step_size q n := by
  rcases hs with ⟨a, b, rfl⟩ | ⟨a, b, k, rfl⟩ | ⟨m, rfl⟩
  · simp only [xview_slice.step_size, xview_slice.value]
    push_cast
    ring
  · simp only [xview_slice.step_size, xview_slice.value]
    push_cast
    ring
  · simp only [xview_slice.step_size, xview_slice.value]
    push_cast
    ring

/-- On an axis that a range, a range with a step or an all-slice makes, `step(dim, n)` followed
by `step_back(dim, n)` restores the state. -/
theorem step_n_step_back_n_uniform (st : xview_stepper) (dim n : Nat) (s : xview_slice)
    (c : Nat) (hoff : st.m_offset ≤ dim)
    (hs : st.p_view.m_slices.get? (integral_skip st.p_view.m_slices dim) = some s)
    (hkind : (∃ a b, s = xview_slice.xrange a b)
      ∨ (∃ a b k, s = xview_slice.xstepped_range a b k) ∨ (∃ m, s = xview_slice.xall m))
    (hc : st.m_index_keeper.get? dim = some c)
    (ha : base_axis st.p_view.m_slices dim < st.m_it.length)
    (hcn : c + n < 2 ^ 64)
    (hp : st.m_it.getD (base_axis st.p_view.m_slices dim) 0 < 2 ^ 64) :
    (st.step_n dim n).bind (fun st1 => st1.step_back_n dim n) = some st := by
  have hn : s.is_newaxis = false := by
    rcases hkind with ⟨a, b, rfl⟩ | ⟨a, b, k, rfl⟩ | ⟨m, rfl⟩ <;> rfl
  rw [step_n_step_back_n st dim n s c hoff hs hn hc ha hcn hp,
    step_size_uniform s (c + n) c n hkind]

/-- The backward step of `n` on an implicit trailing axis: the stepper of the base goes back by
`n` on its base axis, and no counter changes. -/
theorem step_back_n_trailing (st : xview_stepper) (dim n : Nat)
    (hoff : st.m_offset ≤ dim)
    (hs : st.p_view.m_slices.length ≤ integral_skip st.p_view.m_slices dim)
    (ha : base_axis st.p_view.m_slices dim < st.m_it.length) :
    st.step_back_n dim n
      = some { st with
          m_it := st.m_it.set (base_axis st.p_view.m_slices dim)
            (size_t_sub (st.m_it.getD (base_axis st.p_view.m_slices dim) 0) n) } := by
  have hnone : st.p_view.m_slices.get? (integral_skip st.p_view.m_slices dim) = none :=
    List.get?_eq_none.2 hs
  unfold xview_stepper.step_back_n xview_stepper.common_step_backward_n
  simp only [ge_iff_le, hoff, if_true, is_newaxis_slice_eq, hnone, Nat.not_lt.2 hs, if_false]
  unfold base_axis at ha
  simp only [substepper_step_back, ha, if_true, Option.map_some', base_axis]

/-- On an implicit trailing axis, `step(dim, n)` followed by `step_back(dim, n)` restores the
state. -/
theorem step_n_step_back_n_trailing (st : xview_stepper) (dim n : Nat)
    (hoff : st.m_offset ≤ dim)
    (hs : st.p_view.m_slices.length ≤ integral_skip st.p_view.m_slices dim)
    (ha : base_axis st.p_view.m_slices dim < st.m_it.length)
    (hn : n < 2 ^ 64)
    (hp : st.m_it.getD (base_axis st.p_view.m_slices dim) 0 < 2 ^ 64) :
    (st.step_n dim n).bind (fun st1 => st1.step_back_n dim n) = some st := by
  obtain ⟨view, it, off, keeper⟩ := st
  simp only at hoff hs ha hp
  rw [step_n_trailing _ dim n hoff hs ha, Option.some_bind]
  rw [step_back_n_trailing _ dim n hoff hs (by simpa using ha)]
  simp only [List.set_set, Option.some.injEq, xview_stepper.mk.injEq, true_and, and_true]
  rw [set_eq_self_iff it _ _ 0 ha]
  rw [List.getD_eq_getElem _ _ (by simpa using ha), List.getElem_set_self]
  exact (size_t_sub_add _ _ _ hp hn hn).2 rfl

/-- On a range, a range with a step and an all-slice, the step between the logical positions
`c + 1` and `c + 2` is the step between `c` and `c + 1`, which is
`value_at(c + 1) - value_at(c)`. -/
theorem step_size_uniform_value (s : xview_slice) (c : Nat)
    (hs : (∃ a b, s = xview_slice.xrange a b) ∨ (∃ a b k, s = xview_slice.xstepped_range a b k)
      ∨ (∃ m, s = xview_slice.xall m)) :
    s.step_size (c + 1) 1 = s.value (c + 1) - s.value c := by
  rw [step_size_uniform s (c + 1) c 1 hs]
  rcases hs with ⟨a, b, rfl⟩ | ⟨a, b, k, rfl⟩ | ⟨m, rfl⟩ <;> rfl

/-! ## The effect of `reset` -/

/-- The method `reset(dim)` on a view axis that a slice makes: the counter of `dim` becomes `0`
and the stepper of the base goes back, on the base axis of the slice, by
`value_at(size - 1) - value_at(0)`; no other counter and no other position changes. -/
theorem reset_slice (st : xview_stepper) (dim : Nat) (s : xview_slice)
    (hs : st.p_view.m_slices.get? (integral_skip st.p_view.m_slices dim) = some s)
    (hn : s.is_newaxis = false)
    (ha : base_axis st.p_view.m_slices dim < st.m_it.length) :
    st.reset dim
      = some { st with
          m_it := st.m_it.set (base_axis st.p_view.m_slices dim)
            (size_t_sub (st.m_it.getD (base_axis st.p_view.m_slices dim) 0)
              (to_size_t (s.value (size_t_sub (get_size s) 1) - s.value 0))),
          m_index_keeper :=
            if dim < st.m_index_keeper.length then st.m_index_keeper.set dim 0
            else st.m_index_keeper } := by
  have hlt := get?_some_lt _ _ _ hs
  unfold xview_stepper.reset xview_stepper.common_reset
  simp only [is_newaxis_slice_eq, hs, hn, hlt, if_true, Option.map_some', Bool.false_eq_true,
    if_false]
  unfold base_axis at ha
  simp only [substepper_step_back, ha, if_true, Option.map_some', base_axis]

/-- The method `reset(dim)` on an implicit trailing axis of size `sz`, one past the slice list:
the counter of `dim`, if there is one, becomes `0`, and the stepper of the base goes back on its
base axis by `sz - 1`, by `0` when the size is `0`. -/
theorem reset_trailing (st : xview_stepper) (dim sz : Nat)
    (hs : st.p_view.m_slices.length ≤ integral_skip st.p_view.m_slices dim)
    (hsz : st.p_view.m_shape.get? dim = some sz)
    (ha : base_axis st.p_view.m_slices dim < st.m_it.length) :
    st.reset dim
      = some { st with
          m_it := st.m_it.set (base_axis st.p_view.m_slices dim)
            (size_t_sub (st.m_it.getD (base_axis st.p_view.m_slices dim) 0)
              (if sz ≠ 0 then sz - 1 else 0)),
          m_index_keeper :=
            if dim < st.m_index_keeper.length then st.m_index_keeper.set dim 0
            else st.m_index_keeper } := by
  have hnone : st.p_view.m_slices.get? (integral_skip st.p_view.m_slices dim) = none :=
    List.get?_eq_none.2 hs
  unfold xview_stepper.reset xview_stepper.common_reset
  simp only [is_newaxis_slice_eq, hnone, Nat.not_lt.2 hs, if_false, hsz, Bool.false_eq_true]
  unfold base_axis at ha
  simp only [substepper_step_back, ha, if_true, Option.map_some', base_axis]
  by_cases h0 : sz = 0
  · subst h0
    rfl
  · simp only [ne_eq, h0, not_false_eq_true, if_true]

/-- The method `reset(dim)` on an axis that a new-axis slice makes changes nothing. -/
theorem reset_newaxis (st : xview_stepper) (dim : Nat)
    (hs : st.p_view.m_slices.get? (integral_skip st.p_view.m_slices dim)
      = some xview_slice.xnewaxis) :
    st.reset dim = some st := by
  unfold xview_stepper.reset xview_stepper.common_reset
  simp only [is_newaxis_slice_eq, hs, xview_slice.is_newaxis, Bool.true_eq_false, if_false]

/-! ## The counters after `to_end` -/

/-- The first loop of `to_end_impl` gives every slice that is not a new axis the counter
`get_size(slice)`, and leaves the other counters as they were. -/
theorem to_end_loop_counters (slices : List xview_slice) (base_shape : List Nat) (n : Nat) :
    ∀ (i : Nat) (st r : List Nat × List Nat),
      to_end_loop slices base_shape n i st = some r →
        r.2.length = st.2.length
        ∧ (∀ j, j < i ∨ i + n ≤ j → r.2.get? j = st.2.get? j)
        ∧ (∀ j s, i ≤ j → j < i + n → slices.get? j = some s → s.is_newaxis = false →
            r.2.get? j = some (get_size s))
        ∧ (∀ j, i ≤ j → j < i + n → is_newaxis_slice slices j = true →
            r.2.get? j = st.2.get? j) := by
  induction n with
  | zero =>
    intro i st r h
    simp only [to_end_loop, Option.some.injEq] at h
    subst h
    refine ⟨rfl, fun _ _ => rfl, ?_, ?_⟩
    · intro j s h1 h2; omega
    · intro j h1 h2; omega
  | succ n ih =>
    intro i st r h
    rw [to_end_loop] at h
    by_cases hna : is_newaxis_slice slices i = true
    · rw [if_pos hna] at h
      obtain ⟨h1, h2, h3, h4⟩ := ih (i + 1) st r h
      refine ⟨h1, ?_, ?_, ?_⟩
      · intro j hj
        exact h2 j (by omega)
      · intro j s hij hjn hs hn
        by_cases hji : j = i
        · subst hji
          rw [is_newaxis_slice_eq, hs] at hna
          simp only at hna
          rw [hn] at hna
          cases hna
        · exact h3 j s (by omega) (by omega) hs hn
      · intro j hij hjn hj
        by_cases hji : j = i
        · subst hji
          exact h2 j (by omega)
        · exact h4 j (by omega) (by omega) hj
    · rw [if_neg hna] at h
      cases hs : slices.get? i with
      | none => simp only [hs] at h; cases h
      | some slice =>
        cases hb : base_shape.get? (i - newaxis_count_before slices i) with
        | none => simp only [hs, hb] at h; cases h
        | some us =>
          simp only [hs, hb] at h
          by_cases hlen : i < st.2.length
          · rw [if_pos hlen] at h
            cases hstep : substepper_step_back st.1 (i - newaxis_count_before slices i)
                (size_t_sub (size_t_sub us 1)
                  (to_size_t (slice.value (size_t_sub (get_size slice) 1)))) with
            | none => simp only [hstep] at h; cases h
            | some it1 =>
              simp only [hstep] at h
              obtain ⟨h1, h2, h3, h4⟩ := ih (i + 1) (it1, st.2.set i (get_size slice)) r h
              simp only [List.length_set] at h1
              refine ⟨h1, ?_, ?_, ?_⟩
              · intro j hj
                rw [h2 j (by omega)]
                simp only [List.get?_eq_getElem?]
                rw [List.getElem?_set_ne (by omega)]
              · intro j s hij hjn hsj hn
                by_cases hji : j = i
                · subst hji
                  rw [hs] at hsj
                  cases hsj
                  rw [h2 j (by omega)]
                  simp only [List.get?_eq_getElem?]
                  rw [List.getElem?_set_self hlen]
                · exact h3 j s (by omega) (by omega) hsj hn
              · intro j hij hjn hj
                by_cases hji : j = i
                · subst hji
                  exact absurd hj hna
                · rw [h4 j (by omega) (by omega) hj]
                  simp only [List.get?_eq_getElem?]
                  rw [List.getElem?_set_ne (by omega)]
          · rw [if_neg hlen] at h
            cases h

/-- The loop of `to_end_impl` for row-major adds one to the counter of the last slice before
`i` that is not a new axis, and changes no other counter. -/
theorem increment_last_spec (slices : List xview_slice) (i : Nat) (keeper : List Nat) :
    (∀ j, j < i → is_newaxis_slice slices j = false →
        (∀ k, j < k → k < i → is_newaxis_slice slices k = true) →
        increment_last slices i keeper = keeper.set j (size_t_add (keeper.getD j 0) 1))
    ∧ ((∀ k, k < i → is_newaxis_slice slices k = true) →
        increment_last slices i keeper = keeper) := by
  induction i with
  | zero =>
    refine ⟨fun j hj => by omega, fun _ => rfl⟩
  | succ i ih =>
    constructor
    · intro j hj hnj hk
      rw [increment_last]
      by_cases hi : is_newaxis_slice slices i = true
      · rw [if_pos hi]
        have hji : j ≠ i := by
          intro e
          subst e
          rw [hi] at hnj
          cases hnj
        exact ih.1 j (by omega) hnj (fun k h1 h2 => hk k h1 (by omega))
      · rw [if_neg hi]
        have hji : j = i := by
          by_contra hne
          exact hi (hk i (by omega) (by omega))
        subst hji
        rfl
    · intro hk
      rw [increment_last, if_pos (hk i (by omega))]
      exact ih.2 (fun k h => hk k (by omega))

/-- The loop of `to_end_impl` for column-major adds one to the counter of the first slice from
`i` on that is not a new axis, and changes no other counter. -/
theorem increment_first_spec (slices : List xview_slice) (n : Nat) :
    ∀ (i : Nat) (keeper : List Nat),
      (∀ j, i ≤ j → j < i + n → is_newaxis_slice slices j = false →
          (∀ k, i ≤ k → k < j → is_newaxis_slice slices k = true) →
          increment_first slices n i keeper = keeper.set j (size_t_add (keeper.getD j 0) 1))
      ∧ ((∀ k, i ≤ k → k < i + n → is_newaxis_slice slices k = true) →
          increment_first slices n i keeper = keeper) := by
  induction n with
  | zero =>
    intro i keeper
    refine ⟨fun j h1 h2 => by omega, fun _ => rfl⟩
  | succ n ih =>
    intro i keeper
    constructor
    · intro j hij hjn hnj hk
      rw [increment_first]
      by_cases hi : is_newaxis_slice slices i = true
      · rw [if_pos hi]
        have hji : j ≠ i := by
          intro e
          subst e
          rw [hi] at hnj
          cases hnj
        exact (ih (i + 1) keeper).1 j (by omega) (by omega) hnj
          (fun k h1 h2 => hk k (by omega) h2)
      · rw [if_neg hi]
        have hji : j = i := by
          by_contra hne
          exact hi (hk i (by omega) (by omega))
        subst hji
        rfl
    · intro hk
      rw [increment_first, if_pos (hk i (by omega) (by omega))]
      exact (ih (i + 1) keeper).2 (fun k h1 h2 => hk k (by omega) (by omega))

theorem increment_last_other (slices : List xview_slice) (i : Nat) (keeper : List Nat)
    (j : Nat) (h : ∃ k, j < k ∧ k < i ∧ is_newaxis_slice slices k = false) :
    (increment_last slices i keeper).get? j = keeper.get? j := by
  induction i with
  | zero =>
    obtain ⟨k, h1, h2, _⟩ := h
    omega
  | succ i ih =>
    obtain ⟨k, h1, h2, h3⟩ := h
    rw [increment_last]
    by_cases hi : is_newaxis_slice slices i = true
    · rw [if_pos hi]
      have hki : k ≠ i := by
        intro e
        subst e
        rw [hi] at h3
        cases h3
      exact ih ⟨k, h1, by omega, h3⟩
    · rw [if_neg hi]
      simp only [List.get?_eq_getElem?]
      rw [List.getElem?_set_ne (by omega)]

theorem increment_first_other (slices : List xview_slice) (n : Nat) :
    ∀ (i : Nat) (keeper : List Nat) (j : Nat),
      (∃ k, i ≤ k ∧ k < j ∧ k < i + n ∧ is_newaxis_slice slices k = false) →
      (increment_first slices n i keeper).get? j = keeper.get? j := by
  induction n with
  | zero =>
    intro i keeper j h
    obtain ⟨k, h1, h2, h3, _⟩ := h
    omega
  | succ n ih =>
    intro i keeper j h
    obtain ⟨k, h1, h2, h3, h4⟩ := h
    rw [increment_first]
    by_cases hi : is_newaxis_slice slices i = true
    · rw [if_pos hi]
      have hki : k ≠ i := by
        intro e
        subst e
        rw [hi] at h4
        cases h4
      exact ih (i + 1) keeper j ⟨k, by omega, h2, by omega, h4⟩
    · rw [if_neg hi]
      simp only [List.get?_eq_getElem?]
      rw [List.getElem?_set_ne (by omega)]

/-- The counters after `to_end(l)`: the counter of a slice that is not a new axis is the size of
the slice, `get_size(slice)`, and one more than the size for the last such slice when `l` is
row-major, for the first such slice when `l` is column-major. -/
theorem to_end_counters (st st1 : xview_stepper) (l : layout_type)
    (h : st.to_end l = some st1) (j : Nat) (s : xview_slice)
    (hs : st.p_view.m_slices.get? j = some s) (hn : s.is_newaxis = false) :
    (l = layout_type.row_major →
      ((∀ k, j < k → k < st.p_view.m_slices.length →
            is_newaxis_slice st.p_view.m_slices k = true) →
          st1.m_index_keeper.get? j = some (size_t_add (get_size s) 1))
      ∧ ((∃ k, j < k ∧ k < st.p_view.m_slices.length
            ∧ is_newaxis_slice st.p_view.m_slices k = false) →
          st1.m_index_keeper.get? j = some (get_size s)))
    ∧ (l = layout_type.column_major →
      ((∀ k, k < j → is_newaxis_slice st.p_view.m_slices k = true) →
          st1.m_index_keeper.get? j = some (size_t_add (get_size s) 1))
      ∧ ((∃ k, k < j ∧ is_newaxis_slice st.p_view.m_slices k = false) →
          st1.m_index_keeper.get? j = some (get_size s))) := by
  have hj : j < st.p_view.m_slices.length := get?_some_lt _ _ _ hs
  have hnj : is_newaxis_slice st.p_view.m_slices j = false := by
    rw [is_newaxis_slice_eq, hs]
    exact hn
  unfold xview_stepper.to_end at h
  cases hend : substepper_end st.p_view.m_e.shape l with
  | none => rw [hend] at h; cases h
  | some it =>
    rw [hend] at h
    simp only [xview_stepper.to_end_impl] at h
    cases hloop : to_end_loop st.p_view.m_slices st.p_view.m_e.shape st.p_view.m_slices.length 0
        (it, st.m_index_keeper) with
    | none => rw [hloop] at h; cases h
    | some r =>
      obtain ⟨it1, keeper⟩ := r
      rw [hloop] at h
      obtain ⟨h1, _, h3, _⟩ := to_end_loop_counters _ _ _ 0 _ _ hloop
      have hkj : keeper.get? j = some (get_size s) := h3 j s (by omega) (by omega) hs hn
      have hjk : j < keeper.length := get?_some_lt _ _ _ hkj
      constructor
      · intro hl
        subst hl
        simp only [Option.some.injEq] at h
        subst h
        simp only
        constructor
        · intro hlast
          rw [(increment_last_spec st.p_view.m_slices st.p_view.m_slices.length keeper).1 j hj
            hnj hlast]
          simp only [List.get?_eq_getElem?]
          rw [List.getElem?_set_self hjk]
          have : keeper.getD j 0 = get_size s := by
            rw [List.getD_eq_getElem?_getD]
            have : keeper[j]? = some (get_size s) := by simpa using hkj
            rw [this]
            rfl
          rw [this]
        · intro hex
          rw [increment_last_other _ _ _ _ hex]
          exact hkj
      · intro hl
        subst hl
        simp only [Option.some.injEq] at h
        subst h
        simp only
        constructor
        · intro hfirst
          rw [(increment_first_spec st.p_view.m_slices st.p_view.m_slices.length 0 keeper).1 j
            (by omega) (by omega) hnj (fun k _ hk => hfirst k hk)]
          simp only [List.get?_eq_getElem?]
          rw [List.getElem?_set_self hjk]
          have : keeper.getD j 0 = get_size s := by
            rw [List.getD_eq_getElem?_getD]
            have : keeper[j]? = some (get_size s) := by simpa using hkj
            rw [this]
            rfl
          rw [this]
        · intro hex
          obtain ⟨k, hk1, hk2⟩ := hex
          rw [increment_first_other _ _ _ _ _ ⟨k, by omega, hk1, by omega, hk2⟩]
          exact hkj

/-! ## Claims on the stepper of a view that is not strided -/

/-- C25: the view `view(a, keep(0, 1, 3))` of a base `a` of shape `(4)` is not strided and has
the shape `(3)`. The stepper from `stepper_begin`, driven by the row-major odometer,
dereferences the base at the positions `0, 2, 3`, where `operator()` on the indices `0, 1, 2`
reads the base at `0, 1, 3`. On the view `view(b, range(1, 3), all())` of a base `b` of shape
`(3, 4)` without data interface, whose slices have even steps, the two sequences agree. -/
theorem stepper_keep_traversal :
    ((xview.construct
        { has_data_interface := true, static_layout := layout_type.row_major,
          static_dimension := 1, shape := [4], strides := [1], backstrides := [3],
          data_offset := 0, layout := layout_type.row_major }
        [xview_slice.xkeep_slice [0, 1, 3]]).bind
      (fun v => (v.stepper_begin v.m_shape).bind
        (fun st => (stepper_values v.m_shape 3 [0] st).map
          (fun values => (v.m_shape, is_strided_view v.m_e v.m_slices, values,
            (row_major_indices v.m_shape).map (fun I => access v.m_slices v.dimension I)))))
      = some ([3], false, [[0], [2], [3]], [some [0], some [1], some [3]]))
    ∧ ((xview.construct
        { has_data_interface := false, static_layout := layout_type.row_major,
          static_dimension := 2, shape := [3, 4], strides := [4, 1], backstrides := [8, 3],
          data_offset := 0, layout := layout_type.row_major }
        [xview_slice.xrange 1 2, xview_slice.xall 4]).bind
      (fun v => (v.stepper_begin v.m_shape).bind
        (fun st => (stepper_values v.m_shape 8 [0, 0] st).map
          (fun values => (v.m_shape, is_strided_view v.m_e v.m_slices, values.map some,
            (row_major_indices v.m_shape).map (fun I => access v.m_slices v.dimension I)))))
      = some ([2, 4], false,
          [some [1, 0], some [1, 1], some [1, 2], some [1, 3],
           some [2, 0], some [2, 1], some [2, 2], some [2, 3]],
          [some [1, 0], some [1, 1], some [1, 2], some [1, 3],
           some [2, 0], some [2, 1], some [2, 2], some [2, 3]])) := by
  exact ⟨rfl, rfl⟩

/-- C27: `step(dim)` on an axis whose counter is `c` sets the counter to `c + 1` and moves the
stepper of the base, on the base axis of the slice, by `step_size(slice, c + 1, 1)`, the step
between the logical positions `c + 1` and `c + 2`. For a range, a range with a step and an
all-slice that is `value_at(c + 1) - value_at(c)`, and on an implicit trailing axis the move is
`1`. Across the uneven gaps of a keep slice it is not: on the view `view(a, keep(0, 1, 3))` of
a base `a` of shape `(4)`, the stepper from `stepper_begin` has the counter `0` and stands at
the base position `0`; `step(0)` sets the counter to `1` and moves to the base position `2`, a
move of `2`, where `value_at(1) - value_at(0)` is `1`. -/
theorem step_keep_gap :
    (∀ (st : xview_stepper) (dim : Nat) (s : xview_slice) (c : Nat),
      st.m_offset ≤ dim →
      st.p_view.m_slices.get? (integral_skip st.p_view.m_slices dim) = some s →
      s.is_newaxis = false →
      st.m_index_keeper.get? dim = some c →
      c + 1 < 2 ^ 64 →
      base_axis st.p_view.m_slices dim < st.m_it.length →
      st.step dim
        = some { st with
            m_it := st.m_it.set (base_axis st.p_view.m_slices dim)
              (size_t_add (st.m_it.getD (base_axis st.p_view.m_slices dim) 0)
                (to_size_t (s.step_size (c + 1) 1))),
            m_index_keeper := st.m_index_keeper.set dim (c + 1) })
    ∧ (∀ (s : xview_slice) (c : Nat),
      ((∃ a b, s = xview_slice.xrange a b) ∨ (∃ a b k, s = xview_slice.xstepped_range a b k)
        ∨ (∃ m, s = xview_slice.xall m)) →
      s.step_size (c + 1) 1 = s.value (c + 1) - s.value c)
    ∧ (∀ (st : xview_stepper) (dim : Nat),
      st.m_offset ≤ dim →
      st.p_view.m_slices.length ≤ integral_skip st.p_view.m_slices dim →
      base_axis st.p_view.m_slices dim < st.m_it.length →
      st.step dim
        = some { st with
            m_it := st.m_it.set (base_axis st.p_view.m_slices dim)
              (size_t_add (st.m_it.getD (base_axis st.p_view.m_slices dim) 0) 1) })
    ∧ ((xview.construct
        { has_data_interface := true, static_layout := layout_type.row_major,
          static_dimension := 1, shape := [4], strides := [1], backstrides := [3],
          data_offset := 0, layout := layout_type.row_major }
        [xview_slice.xkeep_slice [0, 1, 3]]).bind
      (fun v => (v.stepper_begin v.m_shape).bind
        (fun st => (st.step 0).map
          (fun st1 => (st.m_index_keeper, st.m_it, st1.m_index_keeper, st1.m_it))))
      = some ([0], [0], [1], [2]))
    ∧ (xview_slice.xkeep_slice [0, 1, 3]).value 1 - (xview_slice.xkeep_slice [0, 1, 3]).value 0
        = 1
    ∧ (xview_slice.xkeep_slice [0, 1, 3]).step_size 0 1 = 1
    ∧ (xview_slice.xkeep_slice [0, 1, 3]).step_size 1 1 = 2 := by
  refine ⟨?_, fun s c hs => step_size_uniform_value s c hs, ?_, rfl, rfl, rfl, rfl⟩
  · intro st dim s c hoff hs hn hc hc1 ha
    rw [step_eq_step_n, step_n_slice st dim 1 s c hoff hs hn hc ha,
      size_t_add_of_lt c 1 hc1]
  · intro st dim hoff hs ha
    rw [step_eq_step_n, step_n_trailing st dim 1 hoff hs ha]

/-- C28: from the counter `c`, `step(dim, n)` moves by `step_size(slice, c + n, n)` and
`step_back(dim, n)` moves back by `step_size(slice, c, n)`, so the round trip restores the state
exactly when the two steps are equal; `step(dim)` and `step_back(dim)` are the case `n = 1`. The
state is restored on a range, a range with a step, an all-slice and an implicit trailing axis.
It is not restored across the uneven gaps of a keep slice: on the view
`view(a, keep(0, 1, 3, 4, 8))` of a base `a` of shape `(9)`, the stepper from `stepper_begin`
stands at the base position `0` with the counter `0`; after `step(0)` and `step_back(0)` the
counter is `0` again and the base position is `1`; after `step(0, 2)` and `step_back(0, 2)` the
counter is `0` again and the base position is `2`. -/
theorem step_step_back_keep :
    (∀ (st : xview_stepper) (dim n : Nat) (s : xview_slice) (c : Nat),
      st.m_offset ≤ dim →
      st.p_view.m_slices.get? (integral_skip st.p_view.m_slices dim) = some s →
      s.is_newaxis = false →
      st.m_index_keeper.get? dim = some c →
      base_axis st.p_view.m_slices dim < st.m_it.length →
      c + n < 2 ^ 64 →
      st.m_it.getD (base_axis st.p_view.m_slices dim) 0 < 2 ^ 64 →
      (((st.step_n dim n).bind (fun st1 => st1.step_back_n dim n) = some st)
        ↔ to_size_t (s.step_size (c + n) n) = to_size_t (s.step_size c n))
      ∧ (((∃ a b, s = xview_slice.xrange a b) ∨ (∃ a b k, s = xview_slice.xstepped_range a b k)
          ∨ (∃ m, s = xview_slice.xall m)) →
        (st.step_n dim n).bind (fun st1 => st1.step_back_n dim n) = some st))
    ∧ (∀ (st : xview_stepper) (dim n : Nat),
      st.m_offset ≤ dim →
      st.p_view.m_slices.length ≤ integral_skip st.p_view.m_slices dim →
      base_axis st.p_view.m_slices dim < st.m_it.length →
      n < 2 ^ 64 →
      st.m_it.getD (base_axis st.p_view.m_slices dim) 0 < 2 ^ 64 →
      (st.step_n dim n).bind (fun st1 => st1.step_back_n dim n) = some st)
    ∧ (∀ (st : xview_stepper) (dim : Nat),
      st.step dim = st.step_n dim 1 ∧ st.step_back dim = st.step_back_n dim 1)
    ∧ ((xview.construct
        { has_data_interface := true, static_layout := layout_type.row_major,
          static_dimension := 1, shape := [9], strides := [1], backstrides := [8],
          data_offset := 0, layout := layout_type.row_major }
        [xview_slice.xkeep_slice [0, 1, 3, 4, 8]]).bind
      (fun v => (v.stepper_begin v.m_shape).bind
        (fun st => ((st.step 0).bind (fun st1 => st1.step_back 0)).bind
          (fun st2 => ((st.step_n 0 2).bind (fun st1 => st1.step_back_n 0 2)).map
            (fun st3 => (st.m_index_keeper, st.m_it, st2.m_index_keeper, st2.m_it,
              st3.m_index_keeper, st3.m_it)))))
      = some ([0], [0], [0], [1], [0], [2])) := by
  refine ⟨?_, ?_, fun st dim => ⟨rfl, rfl⟩, rfl⟩
  · intro st dim n s c hoff hs hn hc ha hcn hp
    exact ⟨step_n_step_back_n st dim n s c hoff hs hn hc ha hcn hp,
      fun hkind => step_n_step_back_n_uniform st dim n s c hoff hs hkind hc ha hcn hp⟩
  · intro st dim n hoff hs ha hn hp
    exact step_n_step_back_n_trailing st dim n hoff hs ha hn hp

/-- C29: `reset(dim)` sets the counter of `dim` to `0` and moves the stepper of the base back,
on the base axis of the slice, by `value_at(size - 1) - value_at(0)`, and on an implicit
trailing axis of size `sz` by `sz - 1`, by `0` when `sz` is `0`; every other counter and every
other position stays. After `size - 1` forward steps the stepper is not back at the start of
the axis, though: on the view `view(a, keep(0, 2))` of a base `a` of shape `(4)`, an axis of
size `2`, the stepper from `stepper_begin` stands at the base position `0`; after one forward
step the base position is `1`; `reset(0)` then sets the counter to `0` and moves back by
`value_at(1) - value_at(0) = 2`, to the position `2^64 - 1` in `std::size_t` arithmetic. -/
theorem reset_after_steps_keep :
    (∀ (st : xview_stepper) (dim : Nat) (s : xview_slice),
      st.p_view.m_slices.get? (integral_skip st.p_view.m_slices dim) = some s →
      s.is_newaxis = false →
      base_axis st.p_view.m_slices dim < st.m_it.length →
      st.reset dim
        = some { st with
            m_it := st.m_it.set (base_axis st.p_view.m_slices dim)
              (size_t_sub (st.m_it.getD (base_axis st.p_view.m_slices dim) 0)
                (to_size_t (s.value (size_t_sub (get_size s) 1) - s.value 0))),
            m_index_keeper :=
              if dim < st.m_index_keeper.length then st.m_index_keeper.set dim 0
              else st.m_index_keeper })
    ∧ (∀ (st : xview_stepper) (dim sz : Nat),
      st.p_view.m_slices.length ≤ integral_skip st.p_view.m_slices dim →
      st.p_view.m_shape.get? dim = some sz →
      base_axis st.p_view.m_slices dim < st.m_it.length →
      st.reset dim
        = some { st with
            m_it := st.m_it.set (base_axis st.p_view.m_slices dim)
              (size_t_sub (st.m_it.getD (base_axis st.p_view.m_slices dim) 0)
                (if sz ≠ 0 then sz - 1 else 0)),
            m_index_keeper :=
              if dim < st.m_index_keeper.length then st.m_index_keeper.set dim 0
              else st.m_index_keeper })
    ∧ ((xview.construct
        { has_data_interface := true, static_layout := layout_type.row_major,
          static_dimension := 1, shape := [4], strides := [1], backstrides := [3],
          data_offset := 0, layout := layout_type.row_major }
        [xview_slice.xkeep_slice [0, 2]]).bind
      (fun v => (v.stepper_begin v.m_shape).bind
        (fun st => (st.step 0).bind (fun st1 => (st1.reset 0).map
          (fun st2 => (st.m_index_keeper, st.m_it, st1.m_index_keeper, st1.m_it,
            st2.m_index_keeper, st2.m_it)))))
      = some ([0], [0], [1], [1], [0], [18446744073709551615])) := by
  refine ⟨?_, ?_, rfl⟩
  · intro st dim s hs hn ha
    exact reset_slice st dim s hs hn ha
  · intro st dim sz hs hsz ha
    exact reset_trailing st dim sz hs hsz ha

/-- C30: after `to_end(l)` the counter of every slice that is not a new axis is the size of the
slice, `get_size(slice)`, and one more than the size for the last such slice when `l` is
row-major, for the first such slice when `l` is column-major: one more than the values
`size - 1` and `size` of the claim. On the view `view(a, keep(0, 2), all())` of a base `a` of
shape `(4, 5)`, whose axes have the sizes `2` and `5`, the counters after `to_end` are `(2, 6)`
for row-major and `(3, 5)` for column-major. From the row-major end, where the stepper of the
base stands at `(2, 5)`, `step_back(0)` then goes to the base position `1` on the first axis,
which is not an index of the slice. -/
theorem to_end_counters_keep :
    (∀ (st st1 : xview_stepper) (l : layout_type) (j : Nat) (s : xview_slice),
      st.to_end l = some st1 →
      st.p_view.m_slices.get? j = some s →
      s.is_newaxis = false →
      (l = layout_type.row_major →
        ((∀ k, j < k → k < st.p_view.m_slices.length →
              is_newaxis_slice st.p_view.m_slices k = true) →
            st1.m_index_keeper.get? j = some (size_t_add (get_size s) 1))
        ∧ ((∃ k, j < k ∧ k < st.p_view.m_slices.length
              ∧ is_newaxis_slice st.p_view.m_slices k = false) →
            st1.m_index_keeper.get? j = some (get_size s)))
      ∧ (l = layout_type.column_major →
        ((∀ k, k < j → is_newaxis_slice st.p_view.m_slices k = true) →
            st1.m_index_keeper.get? j = some (size_t_add (get_size s) 1))
        ∧ ((∃ k, k < j ∧ is_newaxis_slice st.p_view.m_slices k = false) →
            st1.m_index_keeper.get? j = some (get_size s))))
    ∧ ((xview.construct
        { has_data_interface := true, static_layout := layout_type.row_major,
          static_dimension := 2, shape := [4, 5], strides := [5, 1], backstrides := [15, 4],
          data_offset := 0, layout := layout_type.row_major }
        [xview_slice.xkeep_slice [0, 2], xview_slice.xall 5]).bind
      (fun v => (v.stepper_begin v.m_shape).bind
        (fun st => (st.to_end layout_type.row_major).bind
          (fun st1 => (st.to_end layout_type.column_major).map
            (fun st2 => (v.m_shape, st1.m_index_keeper, st2.m_index_keeper)))))
      = some ([2, 5], [2, 6], [3, 5]))
    ∧ ((xview.construct
        { has_data_interface := true, static_layout := layout_type.row_major,
          static_dimension := 2, shape := [4, 5], strides := [5, 1], backstrides := [15, 4],
          data_offset := 0, layout := layout_type.row_major }
        [xview_slice.xkeep_slice [0, 2], xview_slice.xall 5]).bind
      (fun v => (v.stepper_begin v.m_shape).bind
        (fun st => (st.to_end layout_type.row_major).bind
          (fun st1 => (st1.step_back 0).map
            (fun st2 => (st1.m_it, st1.m_index_keeper, st2.m_it, st2.m_index_keeper)))))
      = some ([2, 5], [2, 6], [1, 5], [1, 6])) := by
  refine ⟨?_, rfl, rfl⟩
  intro st st1 l j s h hs hn
  exact to_end_counters st st1 l h j s hs hn

/-! ## Claims on new-axis slices in the stepper, surplus indices and the classification -/

/-- C31: `step`, `step_back` (with or without a count), `reset` and `reset_back`, called on a view
axis that a new-axis slice makes, leave the stepper as it is: no counter changes and the stepper
of the base does not move. -/
theorem stepper_newaxis_unchanged (st : xview_stepper) (dim n : Nat)
    (hs : st.p_view.m_slices.get? (integral_skip st.p_view.m_slices dim)
      = some xview_slice.xnewaxis) :
    st.step dim = some st ∧ st.step_back dim = some st
      ∧ st.step_n dim n = some st ∧ st.step_back_n dim n = some st
      ∧ st.reset dim = some st ∧ st.reset_back dim = some st := by
  have hna : is_newaxis_slice st.p_view.m_slices (integral_skip st.p_view.m_slices dim) = true := by
    rw [is_newaxis_slice_eq, hs]
    rfl
  refine ⟨?_, ?_, ?_, ?_, ?_, ?_⟩
  · unfold xview_stepper.step xview_stepper.common_step_forward
    simp only [hna, Bool.true_eq_false, if_false, ite_self]
  · unfold xview_stepper.step_back xview_stepper.common_step_backward
    simp only [hna, Bool.true_eq_false, if_false, ite_self]
  · unfold xview_stepper.step_n xview_stepper.common_step_forward_n
    simp only [hna, Bool.true_eq_false, if_false, ite_self]
  · unfold xview_stepper.step_back_n xview_stepper.common_step_backward_n
    simp only [hna, Bool.true_eq_false, if_false, ite_self]
  · unfold xview_stepper.reset xview_stepper.common_reset
    simp only [hna, Bool.true_eq_false, if_false]
  · unfold xview_stepper.reset_back xview_stepper.common_reset
    simp only [hna, Bool.true_eq_false, if_false]

/-- Witness for C31: the view `view(a, all(), newaxis())` of a base `a` of shape `(3)`, whose
axis `1` is the new axis, with the stepper of the base at the position `2` and the counters
`(2, 0)`. -/
theorem stepper_newaxis_unchanged_witness :
    (xview_stepper.step
        { p_view :=
            { m_e := { has_data_interface := false, static_layout := layout_type.row_major,
                       static_dimension := 1, shape := [3], strides := [1], backstrides := [2],
                       data_offset := 0, layout := layout_type.row_major },
              m_slices := [xview_slice.xall 3, xview_slice.xnewaxis], m_shape := [3, 1],
              m_strides := [], m_backstrides := [], m_data_offset := 0,
              m_strides_computed := false },
          m_it := [2], m_offset := 0, m_index_keeper := [2, 0] } 1).map
      (fun st => (st.m_it, st.m_index_keeper)) = some ([2], [2, 0]) := by
  have h := stepper_newaxis_unchanged
    { p_view :=
        { m_e := { has_data_interface := false, static_layout := layout_type.row_major,
                   static_dimension := 1, shape := [3], strides := [1], backstrides := [2],
                   data_offset := 0, layout := layout_type.row_major },
          m_slices := [xview_slice.xall 3, xview_slice.xnewaxis], m_shape := [3, 1],
          m_strides := [], m_backstrides := [], m_data_offset := 0,
          m_strides_computed := false },
      m_it := [2], m_offset := 0, m_index_keeper := [2, 0] } 1 1 (by decide)
  rw [h.1]
  rfl

theorem access_drop_leading (slices : List xview_slice) (dimension : Nat)
    (surplus I : List Nat) (hI : I.length = dimension) :
    access slices dimension (surplus ++ I) = access slices dimension I := by
  induction surplus with
  | nil => rfl
  | cons x xs ih =>
    rw [List.cons_append, access]
    · rw [if_pos (by rw [List.length_append]; omega)]
      exact ih

/-- C37: `xview::operator()` called with more than `dimension()` indices ignores the surplus
leading indices: it reads the element that `operator()` reads on the trailing `dimension()`
indices alone. The checks of the build at hand accept both index lists. -/
theorem operator_call_ignores_leading (v : xview)
    (assertions : List Nat → Except access_error Unit) (surplus I : List Int)
    (hI : I.length = v.dimension)
    (h1 : assertions ((surplus ++ I).map to_size_t) = Except.ok ())
    (h2 : assertions (I.map to_size_t) = Except.ok ()) :
    v.operator_call assertions (surplus ++ I) = v.operator_call assertions I
      ∧ v.operator_call assertions (surplus ++ I)
          = Except.ok (access v.m_slices v.dimension (I.map to_size_t)) := by
  unfold xview.operator_call
  rw [h1, h2]
  simp only [List.map_append]
  rw [access_drop_leading v.m_slices v.dimension _ _ (by simpa using hI)]
  exact ⟨rfl, rfl⟩

/-- Witness for C37: the view `view(a, all(), range(1, 3))` of a base of shape `(2, 3)`, called
with the indices `(7, 9, 1, 1)`, reads the element of the indices `(1, 1)`, which is
`a(1, 2)`. -/
theorem operator_call_ignores_leading_witness :
    xview.operator_call
        { m_e := { has_data_interface := false, static_layout := layout_type.row_major,
                   static_dimension := 2, shape := [2, 3], strides := [3, 1],
                   backstrides := [3, 2], data_offset := 0, layout := layout_type.row_major },
          m_slices := [xview_slice.xall 2, xview_slice.xrange 1 2], m_shape := [2, 2],
          m_strides := [], m_backstrides := [], m_data_offset := 0,
          m_strides_computed := false }
        (fun _ => Except.ok ()) [7, 9, 1, 1] = Except.ok (some [1, 2]) :=
  (operator_call_ignores_leading
    { m_e := { has_data_interface := false, static_layout := layout_type.row_major,
               static_dimension := 2, shape := [2, 3], strides := [3, 1],
               backstrides := [3, 2], data_offset := 0, layout := layout_type.row_major },
      m_slices := [xview_slice.xall 2, xview_slice.xrange 1 2], m_shape := [2, 2],
      m_strides := [], m_backstrides := [], m_data_offset := 0, m_strides_computed := false }
    (fun _ => Except.ok ()) [7, 9] [1, 1] rfl rfl rfl).2

/-- C38: every base and slice list that `is_contiguous_view` accepts is accepted by
`is_strided_view`, and a base whose static layout is dynamic is never classified contiguous;
hence a view whose `static_layout` is row-major or column-major is strided, its base has the
data interface (so `data()` exists), `strides()`, `backstrides()` and `data_offset()` return
values, and its `static_layout` is the static layout of the base. -/
theorem contiguous_is_strided (e : xexpression) (S : List xview_slice) (v : xview) :
    (is_contiguous_view e S = true → is_strided_view e S = true)
    ∧ (e.static_layout = layout_type.dynamic → is_contiguous_view e S = false)
    ∧ (v.static_layout ≠ layout_type.dynamic →
        is_strided_view v.m_e v.m_slices = true
        ∧ v.m_e.has_data_interface = true
        ∧ v.static_layout = v.m_e.static_layout
        ∧ (∃ st, v.strides = some st) ∧ (∃ bst, v.backstrides = some bst)
        ∧ (∃ off, v.data_offset = some off)) := by
  have hstr : ∀ (e : xexpression) (S : List xview_slice),
      is_contiguous_view e S = true → is_strided_view e S = true := by
    intro e S hc
    obtain ⟨hk, _, _⟩ := contiguous_no_newaxis e S hc
    unfold is_strided_view
    rw [Bool.and_eq_true, List.all_eq_true]
    refine ⟨?_, ?_⟩
    · simp only [is_contiguous_view, Bool.and_eq_true] at hc
      exact hc.1.1
    · intro s hs
      have := hk s hs
      cases s <;> simp [xview_slice.is_integer_range_or_all] at this <;> rfl
  refine ⟨hstr e S, ?_, ?_⟩
  · intro hd
    cases hc : is_contiguous_view e S with
    | false => rfl
    | true => exact absurd hd (contiguous_no_newaxis e S hc).2.2
  · intro hv
    have hc : is_contiguous_view v.m_e v.m_slices = true := by
      by_contra hne
      apply hv
      unfold xview.static_layout
      rw [if_neg hne]
    have hs := hstr v.m_e v.m_slices hc
    have hws : ∃ w, v.with_strides = some w := by
      unfold xview.with_strides
      by_cases h1 : v.m_strides_computed = true
      · exact ⟨v, by rw [if_pos h1]⟩
      · rw [if_neg h1]
        have h2 : v.is_contiguous_view = true := by
          unfold xview.is_contiguous_view
          simpa using hv
        rw [if_pos h2]
        exact ⟨_, rfl⟩
    obtain ⟨w, hw⟩ := hws
    refine ⟨hs, ?_, ?_, ?_, ?_, ?_⟩
    · simp only [is_strided_view, Bool.and_eq_true] at hs
      exact hs.1
    · unfold xview.static_layout
      rw [if_pos hc]
    · exact ⟨w.m_strides, by unfold xview.strides; rw [if_pos hs, hw]; rfl⟩
    · exact ⟨w.m_backstrides, by unfold xview.backstrides; rw [if_pos hs, hw]; rfl⟩
    · exact ⟨w.m_data_offset, by unfold xview.data_offset; rw [if_pos hs, hw]; rfl⟩

/-! ## Claim on the bounds of the reads and writes of `fill_args` -/

/-- C39: whenever `fill_args` passes its validation (at most one ellipsis and no more
axis-consuming slices than the `N` axes of the base), the count of the first loop holds the
number of new-axis slices, the expansion count `N - (M - 1 - nNew)` of the ellipsis does not
underflow in either subtraction and equals `N` minus the number of axis-consuming slices, no read
or write of the walk is out of bounds (the walk returns a state, and an access out of bounds is
an error of its own), and every position written in `new_shape` and `new_strides` is below
`N - nInt + nNew`, the length of both. -/
theorem fill_args_in_bounds (shape : List Nat) (strides : List Int) (off : Nat)
    (ss : List xstrided_slice) (hlen : strides.length = shape.length)
    (hE : n_ellipsis ss ≤ 1) (hC : n_consuming ss ≤ shape.length) :
    (∃ c, count_slices (dimension_count.mk shape.length 0 shape.length false) ss = Except.ok c
        ∧ c.n_newaxis = n_newaxis ss ∧ (c.has_ellipsis = true ↔ n_ellipsis ss = 1))
      ∧ (n_ellipsis ss = 1 →
          n_newaxis ss + 1 ≤ ss.length
          ∧ ss.length - 1 - n_newaxis ss ≤ shape.length
          ∧ shape.length - (ss.length - 1 - n_newaxis ss) = shape.length - n_consuming ss
          ∧ ((shape.length : Int) - ((ss.length : Int) - 1 - (n_newaxis ss : Int))
              = ((shape.length - n_consuming ss : Nat) : Int)))
      ∧ fill_args_walk shape strides off ss ≠ Except.error fill_args_error.out_of_bounds
      ∧ ∃ st, fill_args_walk shape strides off ss = Except.ok st
          ∧ st.new_shape.length = shape.length - n_integer ss + n_newaxis ss
          ∧ st.new_strides.length = shape.length - n_integer ss + n_newaxis ss
          ∧ ∀ i ∈ st.assigned, i < shape.length - n_integer ss + n_newaxis ss := by
  have hl := length_eq_counts ss
  have hw : fill_args_walk shape strides off ss
      = Except.ok (walk_result shape strides off ss) := by
    rw [fill_args_walk_eq shape strides off ss hlen, if_neg (by omega), if_neg (by omega)]
  obtain ⟨_, hs1, hs2⟩ := walk_result_lengths shape strides off ss hlen hE hC
  refine ⟨?_, ?_, ?_, ?_⟩
  · rw [count_slices_eq, if_neg (by simp; omega)]
    refine ⟨_, rfl, by simp, ?_⟩
    simp only [Bool.false_or, decide_eq_true_eq]
    omega
  · intro h1
    refine ⟨by omega, by omega, by omega, by omega⟩
  · rw [hw]
    intro h
    cases h
  · refine ⟨_, hw, hs1, hs2, ?_⟩
    intro i hi
    have : (walk_result shape strides off ss).assigned
        = List.range (walk_result shape strides off ss).new_shape.length := rfl
    rw [this, List.mem_range, hs1] at hi
    exact hi

/-- Witness for C39: the slice list `(newaxis, 1, ellipsis, all)` on a base of shape
`(2, 3, 4)` and strides `(12, 4, 1)`: the ellipsis stands for `3 - (4 - 1 - 1) = 1` axis and the
walk writes the positions `0`, `1` and `2` of a shape of `3` entries. -/
theorem fill_args_in_bounds_witness :
    (fill_args_walk [2, 3, 4] [12, 4, 1] 0
        [xstrided_slice.newaxis, xstrided_slice.integer 1, xstrided_slice.ellipsis,
          xstrided_slice.all]).toOption.map (fun st => (st.new_shape, st.assigned))
      = some ([1, 3, 4], [0, 1, 2])
    ∧ ∃ st, fill_args_walk [2, 3, 4] [12, 4, 1] 0
        [xstrided_slice.newaxis, xstrided_slice.integer 1, xstrided_slice.ellipsis,
          xstrided_slice.all] = Except.ok st
      ∧ st.new_shape.length = 3 - 1 + 1 ∧ st.new_strides.length = 3 - 1 + 1
      ∧ ∀ i ∈ st.assigned, i < 3 - 1 + 1 :=
  ⟨rfl, (fill_args_in_bounds [2, 3, 4] [12, 4, 1] 0
    [xstrided_slice.newaxis, xstrided_slice.integer 1, xstrided_slice.ellipsis,
      xstrided_slice.all] rfl (by decide) (by decide)).2.2.2⟩

/-! ## The end of a traversal: the first loop of `to_end_impl` and the iteration order -/

theorem newaxis_count_before_add_le (slices : List xview_slice) (i d : Nat) :
    newaxis_count_before slices (i + d) ≤ newaxis_count_before slices i + d := by
  induction d with
  | zero => exact Nat.le_refl _
  | succ d ih =>
    have h := newaxis_count_before_succ slices (i + d)
    rw [← Nat.add_assoc, h]
    cases hs : slices.get? (i + d) with
    | none => simp only []; omega
    | some s =>
      simp only []
      split_ifs <;> omega

theorem newaxis_count_before_le (slices : List xview_slice) (i : Nat) :
    newaxis_count_before slices i ≤ i := by
  have h := newaxis_count_before_add_le slices 0 i
  have h0 : newaxis_count_before slices 0 = 0 := by simp [newaxis_count_before]
  rw [Nat.zero_add, h0] at h
  omega

/-- The base axis of a slice that is not a new axis is below the number of slices that are not
new axes. -/
theorem base_axis_of_slice_lt (slices : List xview_slice) (i : Nat) (hi : i < slices.length)
    (hn : is_newaxis_slice slices i = false) :
    i - newaxis_count_before slices i < slices.length - newaxis_count slices := by
  have h1 : newaxis_count_before slices (i + 1) = newaxis_count_before slices i := by
    unfold is_newaxis_slice at hn
    simpa using hn
  have h2 := newaxis_count_before_add_le slices (i + 1) (slices.length - (i + 1))
  have h3 : i + 1 + (slices.length - (i + 1)) = slices.length := by omega
  rw [h3, h1] at h2
  have h4 := newaxis_count_before_le slices i
  have h5 := newaxis_count_before_le slices slices.length
  unfold newaxis_count
  omega

/-- The first loop of `to_end_impl` runs to its end without an access out of bounds when the
stepper of the base has a position for each base axis, the counters are one for each slice, and
the slices that are not new axes are no more than the base axes. -/
theorem to_end_loop_some (slices : List xview_slice) (base_shape : List Nat)
    (hM : slices.length - newaxis_count slices ≤ base_shape.length) (n : Nat) :
    ∀ (i : Nat) (st : List Nat × List Nat), i + n ≤ slices.length →
      st.1.length = base_shape.length → slices.length ≤ st.2.length →
      ∃ r, to_end_loop slices base_shape n i st = some r
        ∧ r.1.length = base_shape.length ∧ r.2.length = st.2.length := by
  induction n with
  | zero =>
    intro i st _ h1 _
    exact ⟨st, rfl, h1, rfl⟩
  | succ n ih =>
    intro i st hi h1 h2
    rw [to_end_loop]
    by_cases hna : is_newaxis_slice slices i = true
    · rw [if_pos hna]
      exact ih (i + 1) st (by omega) h1 h2
    · rw [if_neg hna]
      have hna1 : is_newaxis_slice slices i = false := by simpa using hna
      have hlt := base_axis_of_slice_lt slices i (by omega) hna1
      have hi1 : i < slices.length := by omega
      have hx : i - newaxis_count_before slices i < base_shape.length := by omega
      have hg1 : slices.get? i = some (slices.get ⟨i, hi1⟩) := List.get?_eq_get hi1
      have hg2 : base_shape.get? (i - newaxis_count_before slices i)
          = some (base_shape.get ⟨_, hx⟩) := List.get?_eq_get hx
      simp only [hg1, hg2]
      rw [if_pos (by omega)]
      unfold substepper_step_back
      rw [if_pos (by omega)]
      simp only []
      obtain ⟨r, hr, hr1, hr2⟩ := ih (i + 1)
        (st.1.set (i - newaxis_count_before slices i)
            (size_t_sub (st.1.getD (i - newaxis_count_before slices i) 0)
              (size_t_sub (size_t_sub (base_shape.get ⟨_, hx⟩) 1)
                (to_size_t ((slices.get ⟨i, hi1⟩).value
                  (size_t_sub (get_size (slices.get ⟨i, hi1⟩)) 1))))),
          st.2.set i (get_size (slices.get ⟨i, hi1⟩)))
        (by omega) (by simpa using h1) (by simpa using h2)
      refine ⟨r, hr, hr1, ?_⟩
      rw [hr2]
      simp

theorem substepper_end_length (shape : List Nat) (l : layout_type) (it : List Nat)
    (h : substepper_end shape l = some it) : it.length = shape.length := by
  unfold substepper_end at h
  cases l with
  | row_major =>
    simp only [Option.some.injEq] at h
    rw [← h]
    simp
  | column_major =>
    simp only [Option.some.injEq] at h
    rw [← h]
    simp
  | dynamic => cases h

theorem to_end_impl_none_iff (st : xview_stepper) (l : layout_type)
    (hit : st.m_it.length = st.p_view.m_e.shape.length)
    (hk : st.p_view.m_slices.length ≤ st.m_index_keeper.length)
    (hM : st.p_view.m_slices.length - newaxis_count st.p_view.m_slices
      ≤ st.p_view.m_e.shape.length) :
    st.to_end_impl l = none ↔ l = layout_type.dynamic := by
  obtain ⟨r, hr, _, _⟩ := to_end_loop_some st.p_view.m_slices st.p_view.m_e.shape hM
    st.p_view.m_slices.length 0 (st.m_it, st.m_index_keeper) (by omega) hit hk
  unfold xview_stepper.to_end_impl
  simp only [hr]
  cases l <;> simp

/-- C32: `xview_stepper::to_end(order)`, and the construction of an end stepper with that order
(the constructor with `end` set, and `xview::stepper_end`), fail exactly when the order is
neither row-major nor column-major; the first loop of `to_end_impl` runs to its end without an
access out of bounds, so the failure is the exception
`"Iteration only allowed in row or column major."`. The stepper of the base has a position for
each base axis, the counters are one for each slice, and the slices that are not new axes are no
more than the base axes. -/
theorem to_end_unsupported_order (st : xview_stepper) (l : layout_type) (shape : List Nat)
    (hit : st.m_it.length = st.p_view.m_e.shape.length)
    (hk : st.m_index_keeper.length = st.p_view.m_slices.length)
    (hM : st.p_view.m_slices.length - newaxis_count st.p_view.m_slices
      ≤ st.p_view.m_e.shape.length) :
    (∃ r, to_end_loop st.p_view.m_slices st.p_view.m_e.shape st.p_view.m_slices.length 0
        (st.m_it, st.m_index_keeper) = some r)
      ∧ (st.to_end_impl l = none ↔ l = layout_type.dynamic)
      ∧ (st.to_end l = none ↔ l = layout_type.dynamic)
      ∧ (xview_stepper.construct st.p_view st.m_it st.m_offset true l st.m_index_keeper = none
          ↔ l = layout_type.dynamic)
      ∧ (st.p_view.stepper_end shape l st.m_index_keeper = none ↔ l = layout_type.dynamic) := by
  refine ⟨?_, to_end_impl_none_iff st l hit (by omega) hM, ?_, ?_, ?_⟩
  · obtain ⟨r, hr, _, _⟩ := to_end_loop_some st.p_view.m_slices st.p_view.m_e.shape hM
      st.p_view.m_slices.length 0 (st.m_it, st.m_index_keeper) (by omega) hit
      (Nat.le_of_eq hk.symm)
    exact ⟨r, hr⟩
  · unfold xview_stepper.to_end
    cases hs : substepper_end st.p_view.m_e.shape l with
    | none =>
      simp only [true_iff]
      cases l with
      | dynamic => rfl
      | row_major => simp [substepper_end] at hs
      | column_major => simp [substepper_end] at hs
    | some it =>
      simp only []
      exact to_end_impl_none_iff { st with m_it := it } l
        (substepper_end_length _ _ _ hs) (by simp only []; omega) hM
  · unfold xview_stepper.construct
    rw [if_neg (by simp)]
    exact to_end_impl_none_iff
      { p_view := st.p_view, m_it := st.m_it, m_offset := st.m_offset,
        m_index_keeper := st.m_index_keeper } l hit (by simp only []; omega) hM
  · unfold xview.stepper_end
    cases hs : substepper_end st.p_view.m_e.shape l with
    | none =>
      simp only [true_iff]
      cases l with
      | dynamic => rfl
      | row_major => simp [substepper_end] at hs
      | column_major => simp [substepper_end] at hs
    | some it =>
      simp only []
      unfold xview_stepper.construct
      rw [if_neg (by simp)]
      exact to_end_impl_none_iff
        { p_view := st.p_view, m_it := it,
          m_offset := size_t_sub shape.length st.p_view.dimension,
          m_index_keeper := st.m_index_keeper } l
        (substepper_end_length _ _ _ hs) (by simp only []; omega) hM

/-- Witness for C32: a stepper of the view `view(a, keep(0, 2), newaxis())` of a base `a` of
shape `(3)`: `to_end` fails for the dynamic order and returns a stepper for row-major. -/
theorem to_end_unsupported_order_witness :
    xview_stepper.to_end
        { p_view :=
            { m_e := { has_data_interface := false, static_layout := layout_type.row_major,
                       static_dimension := 1, shape := [3], strides := [1], backstrides := [2],
                       data_offset := 0, layout := layout_type.row_major },
              m_slices := [xview_slice.xkeep_slice [0, 2], xview_slice.xnewaxis],
              m_shape := [2, 1], m_strides := [], m_backstrides := [], m_data_offset := 0,
              m_strides_computed := false },
          m_it := [0], m_offset := 0, m_index_keeper := [0, 0] } layout_type.dynamic = none
    ∧ (xview_stepper.to_end
        { p_view :=
            { m_e := { has_data_interface := false, static_layout := layout_type.row_major,
                       static_dimension := 1, shape := [3], strides := [1], backstrides := [2],
                       data_offset := 0, layout := layout_type.row_major },
              m_slices := [xview_slice.xkeep_slice [0, 2], xview_slice.xnewaxis],
              m_shape := [2, 1], m_strides := [], m_backstrides := [], m_data_offset := 0,
              m_strides_computed := false },
          m_it := [0], m_offset := 0, m_index_keeper := [0, 0] } layout_type.row_major).map
        (fun r => (r.m_it, r.m_index_keeper)) = some ([3], [3, 0]) :=
  ⟨(to_end_unsupported_order
      { p_view :=
          { m_e := { has_data_interface := false, static_layout := layout_type.row_major,
                     static_dimension := 1, shape := [3], strides := [1], backstrides := [2],
                     data_offset := 0, layout := layout_type.row_major },
            m_slices := [xview_slice.xkeep_slice [0, 2], xview_slice.xnewaxis],
            m_shape := [2, 1], m_strides := [], m_backstrides := [], m_data_offset := 0,
            m_strides_computed := false },
        m_it := [0], m_offset := 0, m_index_keeper := [0, 0] } layout_type.dynamic [2, 1]
      rfl rfl (by decide)).2.2.1.2 rfl, rfl⟩

/-! ## The flat adaptor: `unravel` undoes the flat position -/

theorem flat_position_row_major_lt (shape : List Nat) :
    ∀ (I : List Nat), List.Forall₂ (fun i s => i < s) I shape →
      flat_position I (row_major_strides_size_t shape) < shape.prod := by
  induction shape with
  | nil =>
    intro I h
    cases h
    simp [flat_position, row_major_strides_size_t]
  | cons s shape ih =>
    intro I h
    cases h with
    | cons his hrest =>
      rename_i i I1
      have hr := ih I1 hrest
      simp only [flat_position, row_major_strides_size_t, List.prod_cons]
      by_cases h1 : s = 1
      · subst h1
        have hi0 : i = 0 := by omega
        subst hi0
        simpa using hr
      · rw [if_neg h1]
        calc i * shape.prod + flat_position I1 (row_major_strides_size_t shape)
            < i * shape.prod + shape.prod := by omega
          _ = (i + 1) * shape.prod := by ring
          _ ≤ s * shape.prod := Nat.mul_le_mul_right _ his

theorem unravel_row_major_flat_position (shape : List Nat) :
    ∀ (I : List Nat), List.Forall₂ (fun i s => i < s) I shape →
      unravel_row_major (flat_position I (row_major_strides_size_t shape))
        (row_major_strides_size_t shape) = I := by
  induction shape with
  | nil =>
    intro I h
    cases h
    rfl
  | cons s shape ih =>
    intro I h
    cases h with
    | cons his hrest =>
      rename_i i I1
      have hr := flat_position_row_major_lt shape I1 hrest
      have hu := ih I1 hrest
      simp only [flat_position, row_major_strides_size_t, unravel_row_major]
      by_cases h1 : s = 1
      · subst h1
        have hi0 : i = 0 := by omega
        subst hi0
        simp only [if_true, ne_eq, not_true_eq_false, if_false, Nat.zero_mul, Nat.zero_add]
        rw [hu]
      · have hp : shape.prod ≠ 0 := by omega
        simp only [if_neg h1, ne_eq, hp, not_false_eq_true, if_true]
        have hq : (i * shape.prod + flat_position I1 (row_major_strides_size_t shape))
            / shape.prod = i := by
          rw [Nat.add_comm, Nat.add_mul_div_right _ _ (by omega), Nat.div_eq_of_lt hr,
            Nat.zero_add]
        have hm : (i * shape.prod + flat_position I1 (row_major_strides_size_t shape))
            % shape.prod = flat_position I1 (row_major_strides_size_t shape) := by
          rw [Nat.add_comm, Nat.add_mul_mod_self_right, Nat.mod_eq_of_lt hr]
        rw [hq, hm, hu]

theorem unravel_column_major_flat_position (shape : List Nat) :
    ∀ (acc low : Nat) (I : List Nat), low < acc →
      List.Forall₂ (fun i s => i < s) I shape →
      unravel_column_major (low + flat_position I (column_major_strides_size_t acc shape))
        (column_major_strides_size_t acc shape) = (low, I) := by
  induction shape with
  | nil =>
    intro acc low I _ h
    cases h
    rfl
  | cons s shape ih =>
    intro acc low I hlow h
    cases h with
    | cons his hrest =>
      rename_i i I1
      simp only [flat_position, column_major_strides_size_t, unravel_column_major]
      by_cases h1 : s = 1
      · subst h1
        have hi0 : i = 0 := by omega
        subst hi0
        simp only [if_true, ne_eq, not_true_eq_false, if_false, Nat.zero_mul, Nat.zero_add,
          Nat.mul_one]
        rw [ih acc low I1 hlow hrest]
      · simp only [if_neg h1]
        have hacc : acc ≠ 0 := by omega
        have hlow1 : low + i * acc < acc * s := by
          calc low + i * acc < acc + i * acc := by omega
            _ = acc * (i + 1) := by ring
            _ ≤ acc * s := Nat.mul_le_mul_left _ his
        have := ih (acc * s) (low + i * acc) I1 hlow1 hrest
        rw [Nat.add_assoc] at this
        rw [this]
        simp only [ne_eq, hacc, not_false_eq_true, if_true]
        rw [Nat.add_mul_mod_self_right, Nat.mod_eq_of_lt hlow,
          Nat.add_mul_div_right _ _ (by omega), Nat.div_eq_of_lt hlow, Nat.zero_add]

/-- C33: `flat_expression_adaptor[p]` reads `e.element` at the multi-index
`unravel(p, strides, layout)` of the strides and the layout of the adaptor, for either
constructor; with the strides that the constructor of one argument computes from the shape of
`e` this is a round trip: for every valid multi-index `I` of `e`, the adaptor at the flat
position `sum_k I[k] * strides[k]` reads `e.element(I)`; and `size()` of the adaptor is the
product of the shape of `e`. The fallback layout `XTENSOR_DEFAULT_LAYOUT` is row-major or
column-major. -/
theorem flat_adaptor_round_trip (default_layout : layout_type) (e : xexpression)
    (strides I : List Nat) (layout : layout_type) (p : Nat)
    (hd : default_layout ≠ layout_type.dynamic)
    (hI : List.Forall₂ (fun i s => i < s) I e.shape) :
    (flat_expression_adaptor.construct_strides e strides layout).at_flat p
        = unravel_noexcept p strides layout
      ∧ (flat_expression_adaptor.construct default_layout e).at_flat p
        = unravel_noexcept p
            (compute_strides e.shape (default_assignable_layout default_layout e.layout))
            (default_assignable_layout default_layout e.layout)
      ∧ (flat_expression_adaptor.construct default_layout e).at_flat
          (flat_position I (flat_expression_adaptor.construct default_layout e).m_strides) = I
      ∧ (flat_expression_adaptor.construct default_layout e).size = e.shape.prod := by
  refine ⟨rfl, rfl, ?_, rfl⟩
  unfold flat_expression_adaptor.at_flat flat_expression_adaptor.construct
  simp only []
  have hrow : unravel_noexcept
      (flat_position I (compute_strides e.shape layout_type.row_major))
      (compute_strides e.shape layout_type.row_major) layout_type.row_major = I :=
    unravel_row_major_flat_position e.shape I hI
  have hcol : unravel_noexcept
      (flat_position I (compute_strides e.shape layout_type.column_major))
      (compute_strides e.shape layout_type.column_major) layout_type.column_major = I := by
    have := unravel_column_major_flat_position e.shape 1 0 I (by omega) hI
    rw [Nat.zero_add] at this
    simp only [unravel_noexcept, compute_strides, this]
  cases he : e.layout with
  | row_major => exact hrow
  | column_major => exact hcol
  | dynamic =>
    cases hdl : default_layout with
    | row_major => exact hrow
    | column_major => exact hcol
    | dynamic => exact absurd hdl hd

/-- Witness for C33: an expression of shape `(2, 1, 3)` whose layout is column-major: the
strides of the adaptor are `(1, 0, 2)`, the multi-index `(1, 0, 2)` has the flat position `5`,
and the adaptor reads the expression there at `(1, 0, 2)`. -/
theorem flat_adaptor_round_trip_witness :
    (flat_expression_adaptor.construct layout_type.row_major
        { has_data_interface := false, static_layout := layout_type.dynamic,
          static_dimension := 3, shape := [2, 1, 3], strides := [], backstrides := [],
          data_offset := 0, layout := layout_type.column_major }).m_strides = [1, 0, 2]
    ∧ (flat_expression_adaptor.construct layout_type.row_major
        { has_data_interface := false, static_layout := layout_type.dynamic,
          static_dimension := 3, shape := [2, 1, 3], strides := [], backstrides := [],
          data_offset := 0, layout := layout_type.column_major }).at_flat 5 = [1, 0, 2]
    ∧ (flat_expression_adaptor.construct layout_type.row_major
        { has_data_interface := false, static_layout := layout_type.dynamic,
          static_dimension := 3, shape := [2, 1, 3], strides := [], backstrides := [],
          data_offset := 0, layout := layout_type.column_major }).size = 6 :=
  ⟨rfl,
   (flat_adaptor_round_trip layout_type.row_major
      { has_data_interface := false, static_layout := layout_type.dynamic,
        static_dimension := 3, shape := [2, 1, 3], strides := [], backstrides := [],
        data_offset := 0, layout := layout_type.column_major } [] [1, 0, 2]
      layout_type.row_major 0 (by decide)
      (List.Forall₂.cons (by decide) (List.Forall₂.cons (by decide)
        (List.Forall₂.cons (by decide) List.Forall₂.nil)))).2.2.1,
   (flat_adaptor_round_trip layout_type.row_major
      { has_data_interface := false, static_layout := layout_type.dynamic,
        static_dimension := 3, shape := [2, 1, 3], strides := [], backstrides := [],
        data_offset := 0, layout := layout_type.column_major } [] [1, 0, 2]
      layout_type.row_major 0 (by decide)
      (List.Forall₂.cons (by decide) (List.Forall₂.cons (by decide)
        (List.Forall₂.cons (by decide) List.Forall₂.nil)))).2.2.2⟩

/-! ## The general path of `xview` and `fill_args`, slice by slice -/

theorem newaxis_count_before_cons (s : xview_slice) (rest : List xview_slice) (a : Nat) :
    newaxis_count_before (s :: rest) (a + 1)
      = (if s.is_newaxis = true then 1 else 0) + newaxis_count_before rest a := by
  unfold newaxis_count_before
  rw [List.take_succ_cons, List.filter_cons]
  by_cases hs : s.is_newaxis = true <;> simp [hs]
  omega

theorem newaxis_count_cons (s : xview_slice) (rest : List xview_slice) :
    newaxis_count (s :: rest)
      = (if s.is_newaxis = true then 1 else 0) + newaxis_count rest := by
  rw [newaxis_count_eq, newaxis_count_eq, List.filter_cons]
  by_cases hs : s.is_newaxis = true <;> simp [hs]
  omega

theorem newaxis_count_le_length (slices : List xview_slice) :
    newaxis_count slices ≤ slices.length :=
  newaxis_count_before_le slices slices.length

/-- The counts of two slice lists that say the same. -/
theorem correspond_counts (vs : List xview_slice) :
    ∀ (sh : List Nat) (ss : List xstrided_slice), slices_correspond sh vs ss →
      ss.length = vs.length ∧ n_integer ss = integral_count vs
        ∧ n_newaxis ss = newaxis_count vs ∧ n_ellipsis ss = 0
        ∧ n_consuming ss + newaxis_count vs = vs.length := by
  induction vs with
  | nil =>
    intro sh ss h
    cases ss with
    | nil => simp [n_integer, n_newaxis, n_ellipsis, n_consuming, integral_count_eq,
        newaxis_count_eq]
    | cons sl ss1 => simp [slices_correspond] at h
  | cons s rest ih =>
    intro sh ss h
    cases ss with
    | nil => cases s <;> simp [slices_correspond] at h
    | cons sl ss1 =>
      cases s <;> cases sl <;> simp only [slices_correspond] at h <;>
        first
        | exact absurd h id
        | (have hr := ih _ _ h.2
           simp only [List.length_cons, n_integer, n_newaxis, n_ellipsis, n_consuming,
             integral_count_cons, newaxis_count_cons, xview_slice.is_integral,
             xview_slice.is_newaxis, if_true, Bool.false_eq_true, if_false]
           omega)
        | (have hr := ih _ _ h
           simp only [List.length_cons, n_integer, n_newaxis, n_ellipsis, n_consuming,
             integral_count_cons, newaxis_count_cons, xview_slice.is_integral,
             xview_slice.is_newaxis, if_true, Bool.false_eq_true, if_false]
           omega)

theorem all_some_get? {α : Type} (l : List α) :
    all_some ((List.range l.length).map (fun i => l.get? i)) = some l := by
  induction l with
  | nil => rfl
  | cons a l ih =>
    rw [List.length_cons, List.range_succ_eq_map, List.map_cons, List.map_map]
    simp only [List.get?_cons_zero, all_some]
    have : ((fun i => (a :: l).get? i) ∘ Nat.succ) = (fun i => l.get? i) := by
      funext i
      simp
    rw [this, ih]
    rfl

/-- The entry of `compute_shape(std::false_type)` for the view axis `i` is the entry `i` of
the shape that `fill_args` makes from the slice list that says the same. -/
theorem shape_entry_correspond (vs : List xview_slice) :
    ∀ (sh : List Nat) (ss : List xstrided_slice) (i : Nat), slices_correspond sh vs ss →
      (if integral_skip vs i < vs.length then (vs.get? (integral_skip vs i)).map get_size
        else sh.get? (integral_skip vs i - newaxis_count_before vs (integral_skip vs i)))
      = (out_shape 0 sh ss ++ sh.drop (taken 0 ss)).get? i := by
  induction vs with
  | nil =>
    intro sh ss i h
    cases ss with
    | nil => simp [integral_skip, newaxis_count_before, out_shape, taken]
    | cons sl ss1 => simp [slices_correspond] at h
  | cons s rest ih =>
    intro sh ss i h
    have hshift : ∀ k, sh.get? (1 + k - newaxis_count_before rest k)
        = sh.tail.get? (k - newaxis_count_before rest k) := by
      intro k
      have := newaxis_count_before_le rest k
      rw [tail_get?]
      congr 1
      omega
    have hdrop : ∀ t, sh.drop (1 + t) = sh.tail.drop t := by
      intro t
      cases sh with
      | nil => simp
      | cons a sh1 => simp [Nat.add_comm 1 t]
    cases ss with
    | nil => cases s <;> simp [slices_correspond] at h
    | cons sl ss1 =>
      cases s with
      | integral v =>
        cases sl <;> simp only [slices_correspond] at h
        have hr := ih sh.tail ss1 i h.2
        simp only [integral_skip_cons_integral, List.length_cons, Nat.add_comm 1 _,
          Nat.add_lt_add_iff_right, List.get?_cons_succ, newaxis_count_before_cons,
          xview_slice.is_newaxis, Bool.false_eq_true, if_false, Nat.zero_add, out_shape, taken,
          axes_taken]
        have e := hshift (integral_skip rest i)
        have e2 := hdrop (taken 0 ss1)
        rw [Nat.add_comm 1 _] at e e2
        rw [e, e2]
        exact hr
      | xnewaxis =>
        cases sl <;> simp only [slices_correspond] at h
        cases i with
        | zero => simp [integral_skip, xview_slice.is_integral, get_size, out_shape]
        | succ j =>
          have hr := ih sh ss1 j h
          have hs := (integral_skip_cons_other .xnewaxis rest j rfl).2
          simp only [hs, List.length_cons, Nat.add_comm 1 _,
            Nat.add_lt_add_iff_right, List.get?_cons_succ, newaxis_count_before_cons,
            xview_slice.is_newaxis, if_true, out_shape, taken,
            axes_taken, Nat.zero_add, List.cons_append]
          have e : integral_skip rest j + 1 - (newaxis_count_before rest (integral_skip rest j) + 1)
              = integral_skip rest j - newaxis_count_before rest (integral_skip rest j) := by
            omega
          rw [e]
          exact hr
      | xall n =>
        cases sl <;> simp only [slices_correspond] at h
        cases i with
        | zero => simp [integral_skip, xview_slice.is_integral, get_size, out_shape, h.1]
        | succ j =>
          have hr := ih sh.tail ss1 j h.2
          have hs := (integral_skip_cons_other (.xall n) rest j rfl).2
          simp only [hs, List.length_cons, Nat.add_comm 1 _,
            Nat.add_lt_add_iff_right, List.get?_cons_succ, newaxis_count_before_cons,
            xview_slice.is_newaxis, Bool.false_eq_true, if_false, Nat.zero_add, out_shape, taken,
            axes_taken, List.cons_append]
          have e := hshift (integral_skip rest j)
          have e2 := hdrop (taken 0 ss1)
          rw [Nat.add_comm 1 _] at e e2
          rw [e, e2]
          exact hr
      | xrange start size =>
        cases sl <;> simp only [slices_correspond] at h
        cases i with
        | zero =>
          obtain ⟨⟨hg, h0, h1⟩, _⟩ := h
          have : size.toNat = to_size_t size := by
            have := to_size_t_of_nonneg size h0 h1
            omega
          simp only [integral_skip, xview_slice.is_integral, Bool.false_eq_true, if_false,
            List.length_cons, Nat.zero_lt_succ, if_true, List.get?_cons_zero, Option.map_some',
            get_size, out_shape, hg, this, List.cons_append]
        | succ j =>
          have hr := ih sh.tail ss1 j h.2
          have hs := (integral_skip_cons_other (.xrange start size) rest j rfl).2
          simp only [hs, List.length_cons, Nat.add_comm 1 _,
            Nat.add_lt_add_iff_right, List.get?_cons_succ, newaxis_count_before_cons,
            xview_slice.is_newaxis, Bool.false_eq_true, if_false, Nat.zero_add, out_shape, taken,
            axes_taken, List.cons_append]
          have e := hshift (integral_skip rest j)
          have e2 := hdrop (taken 0 ss1)
          rw [Nat.add_comm 1 _] at e e2
          rw [e, e2]
          exact hr
      | xstepped_range start size step =>
        cases sl <;> simp only [slices_correspond] at h
        cases i with
        | zero =>
          obtain ⟨⟨hg, h0, h1⟩, _⟩ := h
          have : size.toNat = to_size_t size := by
            have := to_size_t_of_nonneg size h0 h1
            omega
          simp only [integral_skip, xview_slice.is_integral, Bool.false_eq_true, if_false,
            List.length_cons, Nat.zero_lt_succ, if_true, List.get?_cons_zero, Option.map_some',
            get_size, out_shape, hg, this, List.cons_append]
        | succ j =>
          have hr := ih sh.tail ss1 j h.2
          have hs := (integral_skip_cons_other (.xstepped_range start size step) rest j rfl).2
          simp only [hs, List.length_cons, Nat.add_comm 1 _,
            Nat.add_lt_add_iff_right, List.get?_cons_succ, newaxis_count_before_cons,
            xview_slice.is_newaxis, Bool.false_eq_true, if_false, Nat.zero_add, out_shape, taken,
            axes_taken, List.cons_append]
          have e := hshift (integral_skip rest j)
          have e2 := hdrop (taken 0 ss1)
          rw [Nat.add_comm 1 _] at e e2
          rw [e, e2]
          exact hr
      | xkeep_slice l => cases sl <;> simp [slices_correspond] at h
      | xdrop_slice l => cases sl <;> simp [slices_correspond] at h

/-- The shape of `compute_shape(std::false_type)` is the shape that `fill_args` makes from the
slice list that says the same, when the slices that are not new axes are no more than the base
axes. -/
theorem compute_shape_correspond (vs : List xview_slice) (sh : List Nat)
    (ss : List xstrided_slice) (h : slices_correspond sh vs ss)
    (hc : vs.length - newaxis_count vs ≤ sh.length) :
    compute_shape sh vs = some (out_shape 0 sh ss ++ sh.drop (taken 0 ss)) := by
  obtain ⟨h1, h2, h3, h4, h5⟩ := correspond_counts vs sh ss h
  have ht : taken 0 ss = n_consuming ss := by rw [taken_eq]; omega
  have hlen : (out_shape 0 sh ss ++ sh.drop (taken 0 ss)).length
      = sh.length - integral_count vs + newaxis_count vs := by
    obtain ⟨hol, hin⟩ := out_shape_length 0 ss sh (by omega)
    rw [List.length_append, List.length_drop, hol]
    omega
  unfold compute_shape
  simp only [shape_entry_correspond vs sh ss _ h]
  rw [← hlen]
  exact all_some_get? _

theorem all_some_cons_some {α : Type} (x : Option α) (y : α) (l : List (Option α))
    (r : List α) (hx : x = some y) (hl : all_some l = some r) :
    all_some (x :: l) = some (y :: r) := by
  subst hx
  simp [all_some, hl]

/-- The strides of `compute_strides_impl` are the strides that `fill_args` makes from the slice
list that says the same, when each read of the strides of the base is in bounds. -/
theorem compute_strides_impl_correspond (vs : List xview_slice) :
    ∀ (e : xexpression) (sh : List Nat) (ss : List xstrided_slice),
      slices_correspond sh vs ss →
      (∀ J, J < vs.length → J - newaxis_count_before vs J < e.strides.length) →
      compute_strides_impl e vs (vs.length - integral_count vs)
        = some (out_strides 0 sh e.strides ss) := by
  induction vs with
  | nil =>
    intro e sh ss h _
    cases ss with
    | nil => simp [compute_strides_impl, out_strides, all_some]
    | cons sl ss1 => simp [slices_correspond] at h
  | cons s rest ih =>
    intro e sh ss h hin
    have hne : 0 < e.strides.length := by
      have := hin 0 (by simp)
      omega
    have hic := integral_count_le_length rest
    have hget0 : e.strides.get? 0 = some (e.strides.headD 0) := by
      cases hs : e.strides with
      | nil => rw [hs] at hne; simp at hne
      | cons d ds => rfl
    have htail : s.is_newaxis = false → ∀ J, J < rest.length →
        J - newaxis_count_before rest J
          < ({ e with strides := e.strides.tail } : xexpression).strides.length := by
      intro hs J hJ
      have h1 := hin (J + 1) (by simp; omega)
      have h2 := newaxis_count_before_le rest J
      rw [newaxis_count_before_cons, hs] at h1
      simp only [List.length_tail]
      simp only [Bool.false_eq_true, if_false] at h1
      omega
    have hshift : ∀ k, e.strides.get? (k + 1 - newaxis_count_before rest k)
        = e.strides.tail.get? (k - newaxis_count_before rest k) := by
      intro k
      have := newaxis_count_before_le rest k
      rw [tail_get?]
      congr 1
      omega
    cases ss with
    | nil => cases s <;> simp [slices_correspond] at h
    | cons sl ss1 =>
      cases s with
      | integral v =>
        cases sl <;> simp only [slices_correspond] at h
        have hr := ih { e with strides := e.strides.tail } sh.tail ss1 h.2 (htail rfl)
        have e1 : (xview_slice.integral v :: rest).length
            - integral_count (xview_slice.integral v :: rest)
              = rest.length - integral_count rest := by
          simp only [List.length_cons, integral_count_cons, xview_slice.is_integral, if_true]
          omega
        rw [e1]
        simp only [out_strides]
        rw [← hr]
        unfold compute_strides_impl
        congr 1
        apply List.map_congr_left
        intro I _
        simp only [integral_skip_cons_integral, Nat.add_comm 1 _, List.get?_cons_succ,
          newaxis_count_before_cons, xview_slice.is_newaxis, Bool.false_eq_true, if_false,
          Nat.zero_add, hshift]
      | xnewaxis =>
        cases sl <;> simp only [slices_correspond] at h
        have hin1 : ∀ J, J < rest.length →
            J - newaxis_count_before rest J < e.strides.length := by
          intro J hJ
          have h1 := hin (J + 1) (by simp; omega)
          rw [newaxis_count_before_cons] at h1
          simp only [xview_slice.is_newaxis, if_true] at h1
          omega
        have hr := ih e sh ss1 h hin1
        have e1 : (xview_slice.xnewaxis :: rest).length
            - integral_count (xview_slice.xnewaxis :: rest)
              = (rest.length - integral_count rest) + 1 := by
          simp only [List.length_cons, integral_count_cons, xview_slice.is_integral,
            Bool.false_eq_true, if_false]
          omega
        rw [e1]
        have h0 : integral_skip (xview_slice.xnewaxis :: rest) 0 = 0 :=
          (integral_skip_cons_other .xnewaxis rest 0 rfl).1
        have hn0 : newaxis_count_before (xview_slice.xnewaxis :: rest) 0 = 0 := by
          simp [newaxis_count_before]
        unfold compute_strides_impl
        rw [List.range_succ_eq_map, List.map_cons, List.map_map]
        simp only [out_strides]
        refine all_some_cons_some _ _ _ _ ?_ ?_
        · simp only [h0, hn0, Nat.sub_zero, List.get?_cons_zero, hget0, step_size,
            Option.map_some', zero_mul]
        · rw [← hr]
          unfold compute_strides_impl
          congr 1
          apply List.map_congr_left
          intro I _
          have hs := (integral_skip_cons_other .xnewaxis rest I rfl).2
          have e2 : integral_skip rest I + 1
              - (1 + newaxis_count_before rest (integral_skip rest I))
              = integral_skip rest I - newaxis_count_before rest (integral_skip rest I) := by
            omega
          simp only [Function.comp, Nat.succ_eq_add_one, hs, Nat.add_comm 1 (integral_skip rest I),
            List.get?_cons_succ, newaxis_count_before_cons, xview_slice.is_newaxis, if_true, e2]
      | xall n =>
        cases sl <;> simp only [slices_correspond] at h
        have hr := ih { e with strides := e.strides.tail } sh.tail ss1 h.2 (htail rfl)
        have e1 : (xview_slice.xall n :: rest).length - integral_count (xview_slice.xall n :: rest)
              = (rest.length - integral_count rest) + 1 := by
          simp only [List.length_cons, integral_count_cons, xview_slice.is_integral,
            Bool.false_eq_true, if_false]
          omega
        rw [e1]
        have h0 : integral_skip (xview_slice.xall n :: rest) 0 = 0 :=
          (integral_skip_cons_other (xview_slice.xall n) rest 0 rfl).1
        have hn0 : newaxis_count_before (xview_slice.xall n :: rest) 0 = 0 := by
          simp [newaxis_count_before]
        unfold compute_strides_impl
        rw [List.range_succ_eq_map, List.map_cons, List.map_map]
        simp only [out_strides]
        refine all_some_cons_some _ _ _ _ ?_ ?_
        · simp only [h0, hn0, Nat.sub_zero, List.get?_cons_zero, hget0, step_size,
            Option.map_some', one_mul]
        · rw [← hr]
          unfold compute_strides_impl
          congr 1
          apply List.map_congr_left
          intro I _
          have hs := (integral_skip_cons_other (xview_slice.xall n) rest I rfl).2
          simp only [Function.comp, Nat.succ_eq_add_one, hs, Nat.add_comm 1 (integral_skip rest I),
            List.get?_cons_succ, newaxis_count_before_cons, xview_slice.is_newaxis,
            Bool.false_eq_true, if_false, Nat.zero_add, hshift]
      | xrange start size =>
        cases sl <;> simp only [slices_correspond] at h
        have hr := ih { e with strides := e.strides.tail } sh.tail ss1 h.2 (htail rfl)
        have e1 : (xview_slice.xrange start size :: rest).length
            - integral_count (xview_slice.xrange start size :: rest)
              = (rest.length - integral_count rest) + 1 := by
          simp only [List.length_cons, integral_count_cons, xview_slice.is_integral,
            Bool.false_eq_true, if_false]
          omega
        rw [e1]
        have h0 : integral_skip (xview_slice.xrange start size :: rest) 0 = 0 :=
          (integral_skip_cons_other (xview_slice.xrange start size) rest 0 rfl).1
        have hn0 : newaxis_count_before (xview_slice.xrange start size :: rest) 0 = 0 := by
          simp [newaxis_count_before]
        unfold compute_strides_impl
        rw [List.range_succ_eq_map, List.map_cons, List.map_map]
        simp only [out_strides, h.1.1]
        refine all_some_cons_some _ _ _ _ ?_ ?_
        · simp only [h0, hn0, Nat.sub_zero, List.get?_cons_zero, hget0, step_size,
            Option.map_some']
        · rw [← hr]
          unfold compute_strides_impl
          congr 1
          apply List.map_congr_left
          intro I _
          have hs := (integral_skip_cons_other (xview_slice.xrange start size) rest I rfl).2
          simp only [Function.comp, Nat.succ_eq_add_one, hs, Nat.add_comm 1 (integral_skip rest I),
            List.get?_cons_succ, newaxis_count_before_cons, xview_slice.is_newaxis,
            Bool.false_eq_true, if_false, Nat.zero_add, hshift]
      | xstepped_range start size step =>
        cases sl <;> simp only [slices_correspond] at h
        have hr := ih { e with strides := e.strides.tail } sh.tail ss1 h.2 (htail rfl)
        have e1 : (xview_slice.xstepped_range start size step :: rest).length
            - integral_count (xview_slice.xstepped_range start size step :: rest)
              = (rest.length - integral_count rest) + 1 := by
          simp only [List.length_cons, integral_count_cons, xview_slice.is_integral,
            Bool.false_eq_true, if_false]
          omega
        rw [e1]
        have h0 : integral_skip (xview_slice.xstepped_range start size step :: rest) 0 = 0 :=
          (integral_skip_cons_other (xview_slice.xstepped_range start size step) rest 0 rfl).1
        have hn0 :
            newaxis_count_before (xview_slice.xstepped_range start size step :: rest) 0 = 0 := by
          simp [newaxis_count_before]
        unfold compute_strides_impl
        rw [List.range_succ_eq_map, List.map_cons, List.map_map]
        simp only [out_strides, h.1.1]
        refine all_some_cons_some _ _ _ _ ?_ ?_
        · simp only [h0, hn0, Nat.sub_zero, List.get?_cons_zero, hget0, step_size,
            Option.map_some']
        · rw [← hr]
          unfold compute_strides_impl
          congr 1
          apply List.map_congr_left
          intro I _
          have hs := (integral_skip_cons_other
            (xview_slice.xstepped_range start size step) rest I rfl).2
          simp only [Function.comp, Nat.succ_eq_add_one, hs, Nat.add_comm 1 (integral_skip rest I),
            List.get?_cons_succ, newaxis_count_before_cons, xview_slice.is_newaxis,
            Bool.false_eq_true, if_false, Nat.zero_add, hshift]
      | xkeep_slice l => cases sl <;> simp [slices_correspond] at h
      | xdrop_slice l => cases sl <;> simp [slices_correspond] at h

theorem data_offset_result_cons_newaxis (e : xexpression) (rest : List xview_slice)
    (hne : 0 < e.strides.length) :
    data_offset_result e (.xnewaxis :: rest) = data_offset_result e rest := by
  have hget0 : e.strides.get? 0 = some (e.strides.headD 0) := by
    cases hs : e.strides with
    | nil => rw [hs] at hne; simp at hne
    | cons d ds => rfl
  have hn0 : newaxis_count_before (xview_slice.xnewaxis :: rest) 0 = 0 := by
    simp [newaxis_count_before]
  unfold data_offset_result
  rw [List.length_cons, List.range_succ_eq_map, List.map_cons, List.map_map]
  simp only [List.get?_cons_zero, hn0, Nat.sub_zero, hget0, all_some, Option.map_map]
  refine congr (congrArg Option.map ?_) (congrArg all_some (List.map_congr_left ?_))
  · funext l
    simp [xview_slice.value]
  · intro I _
    have e2 : I + 1 - (1 + newaxis_count_before rest I) = I - newaxis_count_before rest I := by
      omega
    simp only [Function.comp, Nat.succ_eq_add_one, List.get?_cons_succ,
      newaxis_count_before_cons, xview_slice.is_newaxis, if_true, e2]

theorem data_offset_result_cons_other (e : xexpression) (s : xview_slice)
    (rest : List xview_slice) (hs : s.is_newaxis = false) (hne : 0 < e.strides.length) :
    data_offset_result e (s :: rest)
      = (data_offset_result { e with strides := e.strides.tail } rest).map
          (fun r => s.value 0 * e.strides.headD 0 + r) := by
  have hget0 : e.strides.get? 0 = some (e.strides.headD 0) := by
    cases hs : e.strides with
    | nil => rw [hs] at hne; simp at hne
    | cons d ds => rfl
  have hn0 : newaxis_count_before (s :: rest) 0 = 0 := by
    simp [newaxis_count_before]
  have hshift : ∀ k, e.strides.get? (k + 1 - newaxis_count_before rest k)
      = e.strides.tail.get? (k - newaxis_count_before rest k) := by
    intro k
    have := newaxis_count_before_le rest k
    rw [tail_get?]
    congr 1
    omega
  unfold data_offset_result
  rw [List.length_cons, List.range_succ_eq_map, List.map_cons, List.map_map]
  simp only [List.get?_cons_zero, hn0, Nat.sub_zero, hget0, all_some, Option.map_map]
  refine congr (congrArg Option.map ?_) (congrArg all_some (List.map_congr_left ?_))
  · funext l
    simp
  · intro I _
    simp only [Function.comp, Nat.succ_eq_add_one, List.get?_cons_succ,
      newaxis_count_before_cons, hs, Bool.false_eq_true, if_false, Nat.zero_add, hshift]

/-- The local `result` of `data_offset_impl` is the sum of the amounts that `fill_args` adds to
the offset for the slice list that says the same, when each read of the strides of the base is
in bounds. -/
theorem data_offset_result_correspond (vs : List xview_slice) :
    ∀ (e : xexpression) (sh : List Nat) (ss : List xstrided_slice),
      slices_correspond sh vs ss →
      (∀ J, J < vs.length → J - newaxis_count_before vs J < e.strides.length) →
      data_offset_result e vs = some (out_addends 0 sh e.strides ss).sum := by
  induction vs with
  | nil =>
    intro e sh ss h _
    cases ss with
    | nil => simp [data_offset_result, out_addends, all_some]
    | cons sl ss1 => simp [slices_correspond] at h
  | cons s rest ih =>
    intro e sh ss h hin
    have hne : 0 < e.strides.length := by
      have := hin 0 (by simp)
      omega
    have htail : s.is_newaxis = false → ∀ J, J < rest.length →
        J - newaxis_count_before rest J
          < ({ e with strides := e.strides.tail } : xexpression).strides.length := by
      intro hs J hJ
      have h1 := hin (J + 1) (by simp; omega)
      have h2 := newaxis_count_before_le rest J
      rw [newaxis_count_before_cons, hs] at h1
      simp only [List.length_tail]
      simp only [Bool.false_eq_true, if_false] at h1
      omega
    cases ss with
    | nil => cases s <;> simp [slices_correspond] at h
    | cons sl ss1 =>
      cases s with
      | integral v =>
        cases sl <;> simp only [slices_correspond] at h
        rw [data_offset_result_cons_other e (.integral v) rest rfl hne,
          ih { e with strides := e.strides.tail } sh.tail ss1 h.2 (htail rfl)]
        simp [out_addends, xview_slice.value, h.1]
      | xnewaxis =>
        cases sl <;> simp only [slices_correspond] at h
        have hin1 : ∀ J, J < rest.length →
            J - newaxis_count_before rest J < e.strides.length := by
          intro J hJ
          have h1 := hin (J + 1) (by simp; omega)
          rw [newaxis_count_before_cons] at h1
          simp only [xview_slice.is_newaxis, if_true] at h1
          omega
        rw [data_offset_result_cons_newaxis e rest hne, ih e sh ss1 h hin1]
        simp [out_addends]
      | xall n =>
        cases sl <;> simp only [slices_correspond] at h
        rw [data_offset_result_cons_other e (.xall n) rest rfl hne,
          ih { e with strides := e.strides.tail } sh.tail ss1 h.2 (htail rfl)]
        simp [out_addends, xview_slice.value]
      | xrange start size =>
        cases sl <;> simp only [slices_correspond] at h
        rw [data_offset_result_cons_other e (.xrange start size) rest rfl hne,
          ih { e with strides := e.strides.tail } sh.tail ss1 h.2 (htail rfl)]
        simp only [out_addends, xview_slice.value, h.1.1, Option.map_some', List.sum_cons]
        simp
      | xstepped_range start size step =>
        cases sl <;> simp only [slices_correspond] at h
        rw [data_offset_result_cons_other e (.xstepped_range start size step) rest rfl hne,
          ih { e with strides := e.strides.tail } sh.tail ss1 h.2 (htail rfl)]
        simp only [out_addends, xview_slice.value, h.1.1, Option.map_some', List.sum_cons]
        simp
      | xkeep_slice l => cases sl <;> simp [slices_correspond] at h
      | xdrop_slice l => cases sl <;> simp [slices_correspond] at h

theorem adapt_strides_get? (shape : List Nat) :
    ∀ (raw : List Int) (j : Nat) (s : Nat) (d : Int),
      shape.get? j = some s → raw.get? j = some d →
      (adapt_strides shape raw).get? j = some (if s = 1 then 0 else d) := by
  induction shape with
  | nil => intro raw j s d h; simp at h
  | cons s0 shape ih =>
    intro raw j s d hs hd
    cases raw with
    | nil => simp at hd
    | cons d0 raw =>
      cases j with
      | zero =>
        simp only [List.get?_cons_zero, Option.some.injEq] at hs hd
        subst hs; subst hd
        simp [adapt_strides]
      | succ j =>
        simp only [List.get?_cons_succ] at hs hd
        simpa [adapt_strides] using ih raw j s d hs hd

theorem adapt_backstrides_get? (shape : List Nat) :
    ∀ (st : List Int) (j : Nat) (s : Nat) (d : Int),
      shape.get? j = some s → st.get? j = some d →
      (adapt_backstrides shape st).get? j = some (d * ((s : Int) - 1)) := by
  induction shape with
  | nil => intro st j s d h; simp at h
  | cons s0 shape ih =>
    intro st j s d hs hd
    cases st with
    | nil => simp at hd
    | cons d0 st =>
      cases j with
      | zero =>
        simp only [List.get?_cons_zero, Option.some.injEq] at hs hd
        subst hs; subst hd
        simp [adapt_backstrides]
      | succ j =>
        simp only [List.get?_cons_succ] at hs hd
        simpa [adapt_backstrides] using ih st j s d hs hd

/-- The loop of `compute_strides(std::false_type)` over the positions `i` to `i + n`: it
returns, the other positions keep their entries, and the positions of the loop hold the adapted
strides and the backstrides of the sequence `raw` that the loop reads. -/
theorem assign_strides_value (shape : List Nat) (source : Nat → Option Int) (raw : List Int)
    (n : Nat) :
    ∀ (i : Nat) (st : List Int × List Int),
      (∀ j, i ≤ j → j < i + n → source j = raw.get? j) →
      i + n ≤ shape.length → i + n ≤ raw.length → i + n ≤ st.1.length →
      i + n ≤ st.2.length →
      ∃ st1, assign_strides shape source n i st = some st1
        ∧ st1.1.length = st.1.length ∧ st1.2.length = st.2.length
        ∧ (∀ j, j < i → st1.1.get? j = st.1.get? j ∧ st1.2.get? j = st.2.get? j)
        ∧ (∀ j, i ≤ j → j < i + n →
            st1.1.get? j = (adapt_strides shape raw).get? j
            ∧ st1.2.get? j = (adapt_backstrides shape (adapt_strides shape raw)).get? j) := by
  induction n with
  | zero =>
    intro i st _ _ _ _ _
    exact ⟨st, rfl, rfl, rfl, fun j _ => ⟨rfl, rfl⟩, fun j h1 h2 => by omega⟩
  | succ n ih =>
    intro i st hsrc hs hr h1 h2
    have hi1 : i < st.1.length := by omega
    have hx : source i = some (raw.get ⟨i, by omega⟩) := by
      rw [hsrc i (by omega) (by omega)]
      exact List.get?_eq_get (by omega)
    have hget : shape.get? i = some (shape.get ⟨i, by omega⟩) := List.get?_eq_get (by omega)
    have hraw : raw.get? i = some (raw.get ⟨i, by omega⟩) := List.get?_eq_get (by omega)
    have hget2 : (st.1.set i (raw.get ⟨i, by omega⟩)).get? i = some (raw.get ⟨i, by omega⟩) := by
      rw [List.get?_eq_getElem?, List.getElem?_set_self hi1]
    have ha : adapt_strides_at shape (st.1.set i (raw.get ⟨i, by omega⟩)) st.2 i
        = some (((st.1.set i (raw.get ⟨i, by omega⟩)).set i
              (if shape.get ⟨i, by omega⟩ = 1 then 0 else raw.get ⟨i, by omega⟩)),
            st.2.set i ((if shape.get ⟨i, by omega⟩ = 1 then 0 else raw.get ⟨i, by omega⟩)
              * ((shape.get ⟨i, by omega⟩ : Int) - 1))) := by
      unfold adapt_strides_at
      rw [hget, hget2]
      simp only
      rw [if_pos (by omega)]
    obtain ⟨st1, hst1, hl1, hl2, hkeep, hval⟩ := ih (i + 1)
      (((st.1.set i (raw.get ⟨i, by omega⟩)).set i
          (if shape.get ⟨i, by omega⟩ = 1 then 0 else raw.get ⟨i, by omega⟩)),
        st.2.set i ((if shape.get ⟨i, by omega⟩ = 1 then 0 else raw.get ⟨i, by omega⟩)
          * ((shape.get ⟨i, by omega⟩ : Int) - 1)))
      (fun j hj1 hj2 => hsrc j (by omega) (by omega)) (by omega) (by omega)
      (by simp only [List.length_set]; omega) (by simp only [List.length_set]; omega)
    refine ⟨st1, ?_, ?_, ?_, ?_, ?_⟩
    · unfold assign_strides
      rw [hx]
      simp only
      rw [if_pos hi1, ha]
      exact hst1
    · rw [hl1]; simp
    · rw [hl2]; simp
    · intro j hj
      obtain ⟨k1, k2⟩ := hkeep j (by omega)
      rw [k1, k2]
      simp only [List.get?_eq_getElem?]
      rw [List.getElem?_set_ne (by omega), List.getElem?_set_ne (by omega),
        List.getElem?_set_ne (by omega)]
      exact ⟨rfl, rfl⟩
    · intro j hj1 hj2
      by_cases hji : j = i
      · subst hji
        obtain ⟨k1, k2⟩ := hkeep j (by omega)
        have hd := adapt_strides_get? shape raw j _ _ hget hraw
        rw [k1, k2, hd, adapt_backstrides_get? shape _ j _ _ hget hd]
        simp only [List.get?_eq_getElem?]
        rw [List.getElem?_set_self (by simp only [List.length_set]; omega),
          List.getElem?_set_self (by omega)]
        exact ⟨rfl, rfl⟩
      · exact hval j (by omega) (by omega)

/-- The slices that are not new axes are no more than the base axes when every read of
`data_offset_impl` is in bounds. -/
theorem consuming_le_of_reads (vs : List xview_slice) :
    ∀ (N : Nat), (∀ J, J < vs.length → J - newaxis_count_before vs J < N) →
      vs.length - newaxis_count vs ≤ N := by
  induction vs with
  | nil => intro N _; simp
  | cons s rest ih =>
    intro N hin
    have hle := newaxis_count_le_length rest
    rw [newaxis_count_cons, List.length_cons]
    by_cases hs : s.is_newaxis = true
    · rw [if_pos hs]
      have := ih N (fun J hJ => by
        have h1 := hin (J + 1) (by simp; omega)
        rw [newaxis_count_before_cons, if_pos hs] at h1
        omega)
      omega
    · rw [if_neg hs]
      have h0 := hin 0 (by simp)
      have := ih (N - 1) (fun J hJ => by
        have h1 := hin (J + 1) (by simp; omega)
        have h2 := newaxis_count_before_le rest J
        rw [newaxis_count_before_cons, if_neg hs] at h1
        omega)
      omega

theorem offset_after_eq (xs : List Int) (off : Nat) (hoff : off < 2 ^ 64) :
    size_t_add (to_size_t xs.sum) off = offset_after off xs := by
  have h1 := offset_after_cast xs off
  have h2 := offset_after_lt xs off hoff
  have h3 : ((size_t_add (to_size_t xs.sum) off : Nat) : Int)
      = ((off : Int) + xs.sum) % 2 ^ 64 := by
    unfold size_t_add to_size_t
    norm_num
    omega
  have h4 : ((offset_after off xs : Nat) : Int) % 2 ^ 64 = (offset_after off xs : Nat) := by
    apply Int.emod_eq_of_lt (by omega)
    exact_mod_cast h2
  rw [h4] at h1
  have : ((size_t_add (to_size_t xs.sum) off : Nat) : Int) = (offset_after off xs : Nat) := by
    rw [h3, h1]
  exact_mod_cast this

/-- The general path of `xview` and `fill_args` followed by the constructor of
`xstrided_view_base` give the same shape, strides, backstrides and data offset on slice lists
that say the same, when each read of the strides of the base by `data_offset_impl` is in
bounds. -/
theorem general_path_correspond (dsm : List Nat → List Int → layout_type → Bool)
    (e : xexpression) (vs : List xview_slice) (ss : List xstrided_slice) (layout : layout_type)
    (hst : e.strides.length = e.shape.length) (hoff : e.data_offset < 2 ^ 64)
    (hN : e.shape.length < 2 ^ 63) (h : slices_correspond e.shape vs ss)
    (hin : ∀ J, J < vs.length → J - newaxis_count_before vs J < e.shape.length) :
    ∃ w g, xview.general_path e vs = some w
      ∧ fill_args dsm e.shape e.strides e.data_offset layout ss = Except.ok g
      ∧ w.m_shape
          = (xstrided_view_base.construct g.new_shape g.new_strides g.new_offset
              g.new_layout).m_shape
      ∧ w.m_strides
          = (xstrided_view_base.construct g.new_shape g.new_strides g.new_offset
              g.new_layout).m_strides
      ∧ w.m_backstrides
          = (xstrided_view_base.construct g.new_shape g.new_strides g.new_offset
              g.new_layout).m_backstrides
      ∧ w.m_data_offset
          = (xstrided_view_base.construct g.new_shape g.new_strides g.new_offset
              g.new_layout).m_offset := by
  obtain ⟨c1, c2, c3, c4, c5⟩ := correspond_counts vs e.shape ss h
  have hcons := consuming_le_of_reads vs e.shape.length hin
  have hnc := newaxis_count_le_length vs
  have hic := integral_count_le_length vs
  have hinc := integral_newaxis_count_le vs
  have hC : n_consuming ss ≤ e.shape.length := by omega
  have ht : taken 0 ss = n_consuming ss := by rw [taken_eq]; omega
  have hna : n_add_all e.shape.length ss = 0 := by
    unfold n_add_all
    rw [if_neg (by omega)]
  have hfill := fill_args_eq dsm e.shape e.strides e.data_offset layout ss hst
  rw [if_neg (by omega), if_neg (by omega)] at hfill
  obtain ⟨hol, _⟩ := out_shape_length 0 ss e.shape (by omega)
  have hsl := out_strides_length 0 ss e.shape e.strides (by omega) (by omega)
  have hshape := compute_shape_correspond vs e.shape ss h hcons
  have hin2 : ∀ J, J < vs.length → J - newaxis_count_before vs J < e.strides.length := by
    intro J hJ
    rw [hst]
    exact hin J hJ
  have himpl := compute_strides_impl_correspond vs e e.shape ss h hin2
  have hres := data_offset_result_correspond vs e e.shape ss h hin2
  have hOS : (out_strides 0 e.shape e.strides ss).length
      = vs.length - integral_count vs := by
    rw [hsl, hol]
    omega
  have hSH : (out_shape 0 e.shape ss ++ e.shape.drop (taken 0 ss)).length
      = e.shape.length - integral_count vs + newaxis_count vs := by
    rw [List.length_append, List.length_drop, hol]
    omega
  have hRAW : (out_strides 0 e.shape e.strides ss ++ e.strides.drop (taken 0 ss)).length
      = e.shape.length - integral_count vs + newaxis_count vs := by
    rw [List.length_append, List.length_drop, hsl, hol]
    omega
  obtain ⟨st1, hst1, l1, l2, _, v1⟩ := assign_strides_value
    (out_shape 0 e.shape ss ++ e.shape.drop (taken 0 ss))
    (fun i => (out_strides 0 e.shape e.strides ss).get? i)
    (out_strides 0 e.shape e.strides ss ++ e.strides.drop (taken 0 ss))
    (vs.length - integral_count vs) 0
    (List.replicate (out_shape 0 e.shape ss ++ e.shape.drop (taken 0 ss)).length 0,
      List.replicate (out_shape 0 e.shape ss ++ e.shape.drop (taken 0 ss)).length 0)
    (fun j _ hj => by
      simp only [List.get?_eq_getElem?]
      rw [List.getElem?_append_left (by omega)])
    (by omega) (by omega) (by simp only [List.length_replicate]; omega)
    (by simp only [List.length_replicate]; omega)
  simp only [List.length_replicate] at l1 l2
  obtain ⟨st2, hst2, m1, m2, k2, v2⟩ := assign_strides_value
    (out_shape 0 e.shape ss ++ e.shape.drop (taken 0 ss))
    (fun i => e.strides.get?
      (to_size_t ((i : Int) + (integral_count vs : Int) - (newaxis_count vs : Int))))
    (out_strides 0 e.shape e.strides ss ++ e.strides.drop (taken 0 ss))
    ((out_shape 0 e.shape ss ++ e.shape.drop (taken 0 ss)).length
      - (vs.length - integral_count vs))
    (vs.length - integral_count vs) st1
    (fun j hj1 hj2 => by
      have e1 : to_size_t ((j : Int) + (integral_count vs : Int) - (newaxis_count vs : Int))
          = j + integral_count vs - newaxis_count vs := by
        have := to_size_t_of_nonneg
          ((j : Int) + (integral_count vs : Int) - (newaxis_count vs : Int))
          (by omega) (by omega)
        omega
      simp only [e1, List.get?_eq_getElem?]
      rw [List.getElem?_append_right (by omega), List.getElem?_drop]
      congr 1
      omega)
    (by omega) (by omega) (by omega) (by omega)
  have hstr : st2.1 = adapt_strides (out_shape 0 e.shape ss ++ e.shape.drop (taken 0 ss))
      (out_strides 0 e.shape e.strides ss ++ e.strides.drop (taken 0 ss)) := by
    apply List.ext_get?
    intro j
    by_cases hj : j < e.shape.length - integral_count vs + newaxis_count vs
    · by_cases hj1 : j < vs.length - integral_count vs
      · rw [(k2 j hj1).1]
        exact (v1 j (by omega) (by omega)).1
      · exact (v2 j (by omega) (by omega)).1
    · rw [List.get?_eq_none.2 (by omega), List.get?_eq_none.2 (by
        rw [adapt_strides_length]; omega)]
  have hbst : st2.2 = adapt_backstrides
      (out_shape 0 e.shape ss ++ e.shape.drop (taken 0 ss))
      (adapt_strides (out_shape 0 e.shape ss ++ e.shape.drop (taken 0 ss))
        (out_strides 0 e.shape e.strides ss ++ e.strides.drop (taken 0 ss))) := by
    apply List.ext_get?
    intro j
    by_cases hj : j < e.shape.length - integral_count vs + newaxis_count vs
    · by_cases hj1 : j < vs.length - integral_count vs
      · rw [(k2 j hj1).2]
        exact (v1 j (by omega) (by omega)).2
      · exact (v2 j (by omega) (by omega)).2
    · rw [List.get?_eq_none.2 (by omega), List.get?_eq_none.2 (by
        rw [adapt_backstrides_length _ _ (by rw [adapt_strides_length]; omega)]; omega)]
  have hdo : data_offset_impl e vs
      = some (size_t_add (to_size_t (out_addends 0 e.shape e.strides ss).sum)
          e.data_offset) := by
    unfold data_offset_impl
    rw [hres]
    rfl
  refine ⟨{ m_e := e, m_slices := vs,
            m_shape := out_shape 0 e.shape ss ++ e.shape.drop (taken 0 ss),
            m_strides := st2.1, m_backstrides := st2.2,
            m_data_offset := size_t_add (to_size_t (out_addends 0 e.shape e.strides ss).sum)
              e.data_offset,
            m_strides_computed := false },
    view_geometry dsm e.shape e.strides e.data_offset layout ss, ?_, hfill, ?_, ?_, ?_, ?_⟩
  · unfold xview.general_path
    rw [hshape]
    simp only []
    unfold xview.compute_strides
    simp only [himpl, hst1, hst2, hdo]
  · simp only [xstrided_view_base.construct, view_geometry, walk_result, hna]
  · simp only [xstrided_view_base.construct, view_geometry, walk_result, hna]
    exact hstr
  · simp only [xstrided_view_base.construct, view_geometry, walk_result, hna]
    exact hbst
  · simp only [xstrided_view_base.construct, view_geometry, walk_result, hna]
    exact offset_after_eq _ _ hoff

theorem all_some_some_iff {α β : Type} (f : α → Option β) (l : List α) :
    (∃ r, all_some (l.map f) = some r) ↔ ∀ x ∈ l, ∃ y, f x = some y := by
  constructor
  · intro h
    induction l with
    | nil => intro x hx; cases hx
    | cons a l ih =>
      obtain ⟨r, hr⟩ := h
      rw [List.map_cons] at hr
      cases ha : f a with
      | none => rw [ha] at hr; simp [all_some] at hr
      | some y =>
        rw [ha] at hr
        simp only [all_some, Option.map_eq_some'] at hr
        obtain ⟨r1, hr1, _⟩ := hr
        intro x hx
        rcases List.mem_cons.1 hx with hxa | hxl
        · subst hxa
          exact ⟨y, ha⟩
        · exact ih ⟨r1, hr1⟩ x hxl
  · exact all_some_of_forall f l

/-- The method `data_offset_impl` returns a value exactly when the position
`I - newaxis_count_before(I)` at which it reads the strides of the base is in bounds for every
slice `I`. -/
theorem data_offset_impl_some_iff (e : xexpression) (slices : List xview_slice) :
    (∃ r, data_offset_impl e slices = some r)
      ↔ ∀ I, I < slices.length → I - newaxis_count_before slices I < e.strides.length := by
  unfold data_offset_impl data_offset_result
  simp only [Option.map_map]
  constructor
  · rintro ⟨r, hr⟩
    rw [Option.map_eq_some'] at hr
    obtain ⟨l, hl, _⟩ := hr
    have h := (all_some_some_iff _ _).1 ⟨l, hl⟩
    intro I hI
    obtain ⟨y, hy⟩ := h I (List.mem_range.2 hI)
    by_contra hlt
    have hn : e.strides.get? (I - newaxis_count_before slices I) = none :=
      List.get?_eq_none.2 (by omega)
    rw [hn] at hy
    cases hg : slices.get? I with
    | none => rw [hg] at hy; cases hy
    | some s => rw [hg] at hy; cases hy
  · intro h
    obtain ⟨l, hl⟩ := all_some_of_forall
      (fun I =>
        match slices.get? I, e.strides.get? (I - newaxis_count_before slices I) with
        | some s, some d => some (s.value 0 * d)
        | _, _ => none)
      (List.range slices.length)
      (fun I hI => by
        rw [List.mem_range] at hI
        simp only [List.get?_eq_get hI, List.get?_eq_get (h I hI)]
        exact ⟨_, rfl⟩)
    exact ⟨size_t_add (to_size_t l.sum) e.data_offset,
      congrArg (Option.map ((fun result => size_t_add (to_size_t result) e.data_offset)
        ∘ List.sum)) hl⟩

/-- The general path of `xview` has no result when `data_offset_impl` reads the strides of the
base out of bounds. -/
theorem general_path_none (e : xexpression) (vs : List xview_slice)
    (h : ∃ J, J < vs.length ∧ e.strides.length ≤ J - newaxis_count_before vs J) :
    xview.general_path e vs = none := by
  have hd : data_offset_impl e vs = none := by
    cases hx : data_offset_impl e vs with
    | none => rfl
    | some r =>
      obtain ⟨J, hJ, hle⟩ := h
      have := (data_offset_impl_some_iff e vs).1 ⟨r, hx⟩ J hJ
      omega
  cases hw : xview.general_path e vs with
  | none => rfl
  | some w =>
    unfold xview.general_path at hw
    split at hw
    · unfold xview.compute_strides at hw
      simp only [hd] at hw
      split at hw
      · cases hw
      · split at hw
        · cases hw
        · split at hw
          · cases hw
          · cases hw
    · cases hw

/-! ## Claims on the sibling paths of the view: `to_begin`, the contiguous constructor, and
the reads of the base strides -/

/-- C34: `to_begin()` sets every counter to `0`, as they are in the stepper that
`stepper_begin` returns, and sends the stepper of the base to the beginning of the base; it
does not advance the stepper of the base by the first value of each slice, as the constructor
does for the stepper that `stepper_begin` returns. On the view
`view(a, range(1, 3))` of a base `a` of shape `(4)` the stepper of `stepper_begin` stands on
`a(1)`, and after `to_begin()` the same stepper stands on `a(0)`. -/
theorem to_begin_misses_first_values :
    (∀ st : xview_stepper,
        st.to_begin.m_index_keeper = List.replicate st.m_index_keeper.length 0
        ∧ st.to_begin.m_it = List.replicate st.p_view.m_e.shape.length 0
        ∧ st.to_begin.p_view = st.p_view ∧ st.to_begin.m_offset = st.m_offset)
    ∧ (∀ (v : xview) (shape : List Nat) (st : xview_stepper),
        v.stepper_begin shape = some st →
        st.m_index_keeper = List.replicate v.m_slices.length 0
        ∧ st.to_begin.m_index_keeper = st.m_index_keeper)
    ∧ (xview.stepper_begin
          { m_e := { has_data_interface := false, static_layout := layout_type.row_major,
                     static_dimension := 1, shape := [4], strides := [1], backstrides := [3],
                     data_offset := 0, layout := layout_type.row_major },
            m_slices := [xview_slice.xrange 1 2], m_shape := [2], m_strides := [],
            m_backstrides := [], m_data_offset := 0, m_strides_computed := false } [2]).map
        (fun st => ((st.m_it, st.m_index_keeper),
                    (st.to_begin.m_it, st.to_begin.m_index_keeper)))
      = some (([1], [0]), ([0], [0])) := by
  refine ⟨fun _ => ⟨rfl, rfl, rfl, rfl⟩, ?_, rfl⟩
  intro v shape st h
  unfold xview.stepper_begin xview_stepper.construct at h
  simp only [if_true, Option.map_eq_some'] at h
  obtain ⟨it1, _, hst⟩ := h
  subst hst
  simp [xview_stepper.to_begin]

/-- C36: the contiguous constructor and the general path give the same data offset, and the
same shape when a slice is an `xrange`, but the contiguous constructor copies the strides and
the backstrides of the base while the general path adapts them to the shape of the view: on
`view(a, range(1, 3), all())` of a row-major base `a` of shape `(3, 4)` the contiguous
constructor has the backstrides `(8, 3)` and the general path `(4, 3)`, and with `range(1, 2)`
the strides are `(4, 1)` against `(0, 1)`. Without a range the two agree on
`view(a, 1)`. -/
theorem contiguous_constructor_vs_general :
    (∀ (e : xexpression) (slices : List xview_slice) (v w : xview),
        is_contiguous_view e slices = true → xview.construct e slices = some v →
        xview.general_path e slices = some w →
        v.m_data_offset = w.m_data_offset
        ∧ (slices.any xview_slice.is_xrange = true → v.m_shape = w.m_shape))
    ∧ is_contiguous_view
        { has_data_interface := true, static_layout := layout_type.row_major,
          static_dimension := 2, shape := [3, 4], strides := [4, 1], backstrides := [8, 3],
          data_offset := 2, layout := layout_type.row_major }
        [xview_slice.xrange 1 2, xview_slice.xall 4] = true
    ∧ (xview.construct
        { has_data_interface := true, static_layout := layout_type.row_major,
          static_dimension := 2, shape := [3, 4], strides := [4, 1], backstrides := [8, 3],
          data_offset := 2, layout := layout_type.row_major }
        [xview_slice.xrange 1 2, xview_slice.xall 4]).map
        (fun v => (v.m_shape, v.strides, v.backstrides, v.data_offset))
      = some ([2, 4], some [4, 1], some [8, 3], some 6)
    ∧ (xview.general_path
        { has_data_interface := true, static_layout := layout_type.row_major,
          static_dimension := 2, shape := [3, 4], strides := [4, 1], backstrides := [8, 3],
          data_offset := 2, layout := layout_type.row_major }
        [xview_slice.xrange 1 2, xview_slice.xall 4]).map
        (fun v => (v.m_shape, v.m_strides, v.m_backstrides, v.m_data_offset))
      = some ([2, 4], [4, 1], [4, 3], 6)
    ∧ (xview.construct
        { has_data_interface := true, static_layout := layout_type.row_major,
          static_dimension := 2, shape := [3, 4], strides := [4, 1], backstrides := [8, 3],
          data_offset := 2, layout := layout_type.row_major }
        [xview_slice.xrange 1 1, xview_slice.xall 4]).map
        (fun v => (v.m_shape, v.strides, v.backstrides, v.data_offset))
      = some ([1, 4], some [4, 1], some [8, 3], some 6)
    ∧ (xview.general_path
        { has_data_interface := true, static_layout := layout_type.row_major,
          static_dimension := 2, shape := [3, 4], strides := [4, 1], backstrides := [8, 3],
          data_offset := 2, layout := layout_type.row_major }
        [xview_slice.xrange 1 1, xview_slice.xall 4]).map
        (fun v => (v.m_shape, v.m_strides, v.m_backstrides, v.m_data_offset))
      = some ([1, 4], [0, 1], [0, 3], 6)
    ∧ (xview.construct
        { has_data_interface := true, static_layout := layout_type.row_major,
          static_dimension := 2, shape := [3, 4], strides := [4, 1], backstrides := [8, 3],
          data_offset := 2, layout := layout_type.row_major }
        [xview_slice.integral 1]).map
        (fun v => (v.m_shape, v.strides, v.backstrides, v.data_offset))
      = some ([4], some [1], some [3], some 6)
    ∧ (xview.general_path
        { has_data_interface := true, static_layout := layout_type.row_major,
          static_dimension := 2, shape := [3, 4], strides := [4, 1], backstrides := [8, 3],
          data_offset := 2, layout := layout_type.row_major }
        [xview_slice.integral 1]).map
        (fun v => (v.m_shape, v.m_strides, v.m_backstrides, v.m_data_offset))
      = some ([4], [1], [3], 6) := by
  refine ⟨?_, rfl, rfl, rfl, rfl, rfl, rfl, rfl⟩
  intro e slices v w hc hv hw
  obtain ⟨_, _, _, _, _, _, hoff, hshape⟩ := construct_contiguous e slices v hc hv
  unfold xview.general_path at hw
  cases hs : compute_shape e.shape slices with
  | none => rw [hs] at hw; cases hw
  | some m_shape =>
    rw [hs] at hw
    simp only [] at hw
    obtain ⟨hwshape, _⟩ := compute_strides_spec _ w hw
    constructor
    · unfold xview.compute_strides at hw
      simp only [] at hw
      rw [hoff] at hw
      split at hw
      · cases hw
      · split at hw
        · cases hw
        · split at hw
          · cases hw
          · simp only [Option.some.injEq] at hw
            rw [← hw]
    · intro hr
      rw [if_pos hr, hs, Option.some.injEq] at hshape
      rw [hwshape, ← hshape]

/-- C40: `data_offset_impl` reads the strides of the base at the position
`I - newaxis_count_before(I)` for every slice `I`, a new axis included, so it returns a value
exactly when each of these positions is below the number of strides; `compute_strides_impl`
reads them for every slice that is not an integer. For the slices `(all, all, newaxis)` on a
base of `2` axes, which has no more than `2` axis-consuming slices, both read the strides of
the base at the position `2`, out of bounds. -/
theorem strides_read_for_newaxis :
    (∀ (e : xexpression) (slices : List xview_slice),
        (∃ r, data_offset_impl e slices = some r)
          ↔ ∀ I, I < slices.length → I - newaxis_count_before slices I < e.strides.length)
    ∧ [xview_slice.xall 3, xview_slice.xall 4, xview_slice.xnewaxis].length
        - newaxis_count [xview_slice.xall 3, xview_slice.xall 4, xview_slice.xnewaxis] = 2
    ∧ 2 - newaxis_count_before
        [xview_slice.xall 3, xview_slice.xall 4, xview_slice.xnewaxis] 2 = 2
    ∧ data_offset_impl
        { has_data_interface := true, static_layout := layout_type.row_major,
          static_dimension := 2, shape := [3, 4], strides := [4, 1], backstrides := [8, 3],
          data_offset := 2, layout := layout_type.row_major }
        [xview_slice.xall 3, xview_slice.xall 4, xview_slice.xnewaxis] = none
    ∧ compute_strides_impl
        { has_data_interface := true, static_layout := layout_type.row_major,
          static_dimension := 2, shape := [3, 4], strides := [4, 1], backstrides := [8, 3],
          data_offset := 2, layout := layout_type.row_major }
        [xview_slice.xall 3, xview_slice.xall 4, xview_slice.xnewaxis] 3 = none
    ∧ data_offset_impl
        { has_data_interface := true, static_layout := layout_type.row_major,
          static_dimension := 2, shape := [3, 4], strides := [4, 1], backstrides := [8, 3],
          data_offset := 2, layout := layout_type.row_major }
        [xview_slice.xall 3, xview_slice.xnewaxis, xview_slice.xall 4] = some 2 :=
  ⟨data_offset_impl_some_iff, rfl, rfl, rfl, rfl, rfl⟩

/-! ## Claim on the two ways to the geometry of a strided view -/

/-- C35: on slice lists that say the same (no ellipsis; integer, range, all and new-axis
slices), over a base whose strides are as many as its axes, the general path of `xview`
(`compute_shape(std::false_type)`, `compute_strides(std::false_type)`, `data_offset_impl`) and
`fill_args` followed by the constructor of `xstrided_view_base` give the same shape, strides,
backstrides and data offset when every slice `J` has `J - newaxis_count_before(J)` below the
number of base axes; when a slice has not, as a new axis after the last base axis is consumed,
the general path reads the strides of the base out of bounds and has no result. On
`(all, all, newaxis)` over a row-major base of shape `(3, 4)` `fill_args` and the constructor
give the shape `(3, 4, 1)`, the strides `(4, 1, 0)`, the backstrides `(8, 3, 0)` and the data
offset `2`, and the general path has no result; on `(newaxis, range(1, 3), 2)` both give the
shape `(1, 2)`, the strides `(0, 4)`, the backstrides `(0, 4)` and the data offset `8`. -/
theorem general_path_vs_fill_args :
    (∀ (dsm : List Nat → List Int → layout_type → Bool) (e : xexpression)
        (vs : List xview_slice) (ss : List xstrided_slice) (layout : layout_type),
        e.strides.length = e.shape.length → e.data_offset < 2 ^ 64 →
        e.shape.length < 2 ^ 63 → slices_correspond e.shape vs ss →
        ((∀ J, J < vs.length → J - newaxis_count_before vs J < e.shape.length) →
          ∃ w g, xview.general_path e vs = some w
            ∧ fill_args dsm e.shape e.strides e.data_offset layout ss = Except.ok g
            ∧ w.m_shape
                = (xstrided_view_base.construct g.new_shape g.new_strides g.new_offset
                    g.new_layout).m_shape
            ∧ w.m_strides
                = (xstrided_view_base.construct g.new_shape g.new_strides g.new_offset
                    g.new_layout).m_strides
            ∧ w.m_backstrides
                = (xstrided_view_base.construct g.new_shape g.new_strides g.new_offset
                    g.new_layout).m_backstrides
            ∧ w.m_data_offset
                = (xstrided_view_base.construct g.new_shape g.new_strides g.new_offset
                    g.new_layout).m_offset)
        ∧ ((∃ J, J < vs.length ∧ e.shape.length ≤ J - newaxis_count_before vs J) →
            xview.general_path e vs = none))
    ∧ slices_correspond [3, 4]
        [xview_slice.xall 3, xview_slice.xall 4, xview_slice.xnewaxis]
        [xstrided_slice.all, xstrided_slice.all, xstrided_slice.newaxis]
    ∧ xview.general_path
        { has_data_interface := true, static_layout := layout_type.row_major,
          static_dimension := 2, shape := [3, 4], strides := [4, 1], backstrides := [8, 3],
          data_offset := 2, layout := layout_type.row_major }
        [xview_slice.xall 3, xview_slice.xall 4, xview_slice.xnewaxis] = none
    ∧ (fill_args (fun _ _ _ => true) [3, 4] [4, 1] 2 layout_type.row_major
        [xstrided_slice.all, xstrided_slice.all, xstrided_slice.newaxis]).toOption.map
        (fun g =>
          ((xstrided_view_base.construct g.new_shape g.new_strides g.new_offset
              g.new_layout).m_shape,
           (xstrided_view_base.construct g.new_shape g.new_strides g.new_offset
              g.new_layout).m_strides,
           (xstrided_view_base.construct g.new_shape g.new_strides g.new_offset
              g.new_layout).m_backstrides,
           (xstrided_view_base.construct g.new_shape g.new_strides g.new_offset
              g.new_layout).m_offset))
      = some ([3, 4, 1], [4, 1, 0], [8, 3, 0], 2)
    ∧ slices_correspond [3, 4]
        [xview_slice.xnewaxis, xview_slice.xrange 1 2, xview_slice.integral 2]
        [xstrided_slice.newaxis, xstrided_slice.range (range_adaptor 1 3 1),
          xstrided_slice.integer 2]
    ∧ (xview.general_path
        { has_data_interface := true, static_layout := layout_type.row_major,
          static_dimension := 2, shape := [3, 4], strides := [4, 1], backstrides := [8, 3],
          data_offset := 2, layout := layout_type.row_major }
        [xview_slice.xnewaxis, xview_slice.xrange 1 2, xview_slice.integral 2]).map
        (fun v => (v.m_shape, v.m_strides, v.m_backstrides, v.m_data_offset))
      = some ([1, 2], [0, 4], [0, 4], 8)
    ∧ (fill_args (fun _ _ _ => true) [3, 4] [4, 1] 2 layout_type.row_major
        [xstrided_slice.newaxis, xstrided_slice.range (range_adaptor 1 3 1),
          xstrided_slice.integer 2]).toOption.map
        (fun g =>
          ((xstrided_view_base.construct g.new_shape g.new_strides g.new_offset
              g.new_layout).m_shape,
           (xstrided_view_base.construct g.new_shape g.new_strides g.new_offset
              g.new_layout).m_strides,
           (xstrided_view_base.construct g.new_shape g.new_strides g.new_offset
              g.new_layout).m_backstrides,
           (xstrided_view_base.construct g.new_shape g.new_strides g.new_offset
              g.new_layout).m_offset))
      = some ([1, 2], [0, 4], [0, 4], 8) := by
  refine ⟨?_, ?_, rfl, rfl, ?_, rfl, ?_⟩
  · intro dsm e vs ss layout hst hoff hN h
    refine ⟨general_path_correspond dsm e vs ss layout hst hoff hN h, ?_⟩
    intro hex
    apply general_path_none
    rw [hst]
    exact hex
  · simp [slices_correspond]
  · simp only [slices_correspond, range_adaptor, resolve_range]
    decide
  · decide

end xt
